import Mathlib

/-!
# ColorQuantizationSharp: palette mapper and palette extractor

A shallow embedding of `EuclideanPalette.cpp` (nearest-colour mapper, candidate
cube index, caches, Floyd–Steinberg dither) and of
`SpaceShockColorExtractor.cpp` (histogram, count-ordered index, suppression
loop), followed by theorems about the embedded functions.

Conventions of the embedding.
* `color_t`, `size_t`, `uint32_t` values are `Nat`; C `int` / `int64_t` values
  are `Int`, and where the source applies bitwise operators to an `int64_t` the
  value is taken as its 64-bit two's complement pattern (`bits64`).  A cast to
  `byte` is `% 256`, a cast to `int` is `toInt32`, the mask `& 0xffffff` is kept
  as a bitwise and.
* `reinterpret_cast<uint8_t*>(&c)[k]` on the little-endian target is byte `k`
  of `c`: `byte0 c = c % 256`, `byte1 c = c / 256 % 256`,
  `byte2 c = c / 65536 % 256`.
* Fixed-size arrays indexed by a colour (`indexMap`, `masks`, `colorCounts`) are
  total functions `Nat → _`; `std::vector` buffers handed in by the caller are
  lists, read with `getD` and written with `set`.
* `std::sort` is a parameter `sort` of the constructor that uses it (its order
  among equal keys is unspecified); `insertionSort` is one instance.
-/

namespace EuclideanPalette

/-! ## Constants and RGB primitives -/

def N : Nat := 16

def CubeSize : Nat := 256 / N

def CubeCount : Nat := N * N * N

/-- The value of `std::numeric_limits<int>::max()`. -/
def INT_MAX : Int := 2147483647

/-- Byte 0 of a colour (blue). -/
def byte0 (c : Nat) : Nat := c % 256

/-- Byte 1 of a colour (green). -/
def byte1 (c : Nat) : Nat := c / 256 % 256

/-- Byte 2 of a colour (red). -/
def byte2 (c : Nat) : Nat := c / 65536 % 256

/-- The cast `static_cast<byte>(n)`. -/
def toByte (n : Nat) : Nat := n % 256

/-- Function update, the write `a[i] = v` on an array modelled as a function. -/
def setAt {α : Type} (f : Nat → α) (i : Nat) (v : α) : Nat → α :=
  fun j => if j = i then v else f j

def square_sum3 (x y z : Int) : Int := x * x + y * y + z * z

def square_sum2 (x y : Int) : Int := x * x + y * y

def square_sum1 (x : Int) : Int := x * x

def color_distance (r1 g1 b1 r2 g2 b2 : Int) : Int :=
  square_sum3 (r1 - r2) (g1 - g2) (b1 - b2)

/-- The record `ListHead {count, index}` of the candidate buffer. -/
structure ListHead where
  count : Nat
  index : Nat
deriving DecidableEq, Repr

/-- The member `Palette::color_table`: the caller's table with every entry
masked to 24 bits. -/
def color_table (colorTable : List Nat) : List Nat :=
  colorTable.map (fun c => c &&& 0xffffff)

/-! ## Linear scan (`NoOptimizationPalette`) -/

/-- The loop of `NoOptimizationPalette::slow_map` from position `i` on, with the
current `minDist` and `findIndex`; `break` on an exact match. -/
def NoOptimizationPalette.scan (r1 g1 b1 : Int) :
    List Nat → Nat → Int → Nat → Nat
  | [], _, _, findIndex => findIndex
  | pixel2 :: rest, i, minDist, findIndex =>
    if color_distance r1 g1 b1 (byte2 pixel2) (byte1 pixel2) (byte0 pixel2) < minDist then
      if color_distance r1 g1 b1 (byte2 pixel2) (byte1 pixel2) (byte0 pixel2) = 0 then i
      else NoOptimizationPalette.scan r1 g1 b1 rest (i + 1)
        (color_distance r1 g1 b1 (byte2 pixel2) (byte1 pixel2) (byte0 pixel2)) i
    else NoOptimizationPalette.scan r1 g1 b1 rest (i + 1) minDist findIndex

/-- `NoOptimizationPalette::slow_map`. -/
def NoOptimizationPalette.slow_map (colorTable : List Nat) (pixel : Nat) : Nat :=
  toByte (NoOptimizationPalette.scan (byte2 pixel) (byte1 pixel) (byte0 pixel)
    colorTable 0 INT_MAX 0)

/-! ## Candidate cube index (`OptimizationPalette`) -/

/-- The byte vector `list` of `OptimizationPalette`, seen as its two parts: the
`CubeCount` header records and the bytes that follow the header block
(`ListHead.index` is an offset into `bytes`). -/
structure OptimizationPalette where
  heads : List ListHead
  bytes : List Nat
deriving DecidableEq, Repr

/-- The scan loop of `OptimizationPalette::slow_map` over the remaining candidate
bytes. -/
def OptimizationPalette.scan (colorTable : List Nat) (r g b : Int) :
    List Nat → Int → Nat → Nat
  | [], _, findIndex => findIndex
  | colorIndex :: rest, minDist, findIndex =>
    if color_distance (byte2 (colorTable.getD colorIndex 0)) (byte1 (colorTable.getD colorIndex 0))
        (byte0 (colorTable.getD colorIndex 0)) r g b = 0 then colorIndex
    else if color_distance (byte2 (colorTable.getD colorIndex 0))
        (byte1 (colorTable.getD colorIndex 0)) (byte0 (colorTable.getD colorIndex 0)) r g b
        < minDist then
      OptimizationPalette.scan colorTable r g b rest
        (color_distance (byte2 (colorTable.getD colorIndex 0))
          (byte1 (colorTable.getD colorIndex 0)) (byte0 (colorTable.getD colorIndex 0)) r g b)
        colorIndex
    else OptimizationPalette.scan colorTable r g b rest minDist findIndex

/-- The candidate bytes `colorList[0 .. count)` of cube `cubeIndex`. -/
def OptimizationPalette.candidates (self : OptimizationPalette) (cubeIndex : Nat) : List Nat :=
  (List.range (self.heads.getD cubeIndex ⟨0, 0⟩).count).map
    (fun i => self.bytes.getD ((self.heads.getD cubeIndex ⟨0, 0⟩).index + i) 0)

/-- The cube index that `slow_map` computes for a pixel. -/
def cubeIndexOf (pixel : Nat) : Nat :=
  byte2 pixel / CubeSize * N * N + byte1 pixel / CubeSize * N + byte0 pixel / CubeSize

/-- `OptimizationPalette::slow_map`. -/
def OptimizationPalette.slow_map (self : OptimizationPalette) (colorTable : List Nat)
    (pixel : Nat) : Nat :=
  if (self.heads.getD (cubeIndexOf pixel) ⟨0, 0⟩).count = 1 then
    self.bytes.getD (self.heads.getD (cubeIndexOf pixel) ⟨0, 0⟩).index 0
  else
    toByte (OptimizationPalette.scan colorTable (byte2 pixel) (byte1 pixel) (byte0 pixel)
      (self.candidates (cubeIndexOf pixel)) INT_MAX 0)

def distance_to_rect (r g b rs re gs ge bs be : Int) : Int :=
  if r < rs then
    if g < gs then
      if b < bs then square_sum3 (r - rs) (g - gs) (b - bs)
      else if b > be then square_sum3 (r - rs) (g - gs) (b - be)
      else square_sum2 (r - rs) (g - gs)
    else if g > ge then
      if b < bs then square_sum3 (r - rs) (g - ge) (b - bs)
      else if b > be then square_sum3 (r - rs) (g - ge) (b - be)
      else square_sum2 (r - rs) (g - ge)
    else
      if b < bs then square_sum2 (r - rs) (b - bs)
      else if b > be then square_sum2 (r - rs) (b - be)
      else square_sum1 (r - rs)
  else if r > re then
    if g < gs then
      if b < bs then square_sum3 (r - re) (g - gs) (b - bs)
      else if b > be then square_sum3 (r - re) (g - gs) (b - be)
      else square_sum2 (r - re) (g - gs)
    else if g > ge then
      if b < bs then square_sum3 (r - re) (g - ge) (b - bs)
      else if b > be then square_sum3 (r - re) (g - ge) (b - be)
      else square_sum2 (r - re) (g - ge)
    else
      if b < bs then square_sum2 (r - re) (b - bs)
      else if b > be then square_sum2 (r - re) (b - be)
      else square_sum1 (r - re)
  else
    if g < gs then
      if b < bs then square_sum2 (g - gs) (b - bs)
      else if b > be then square_sum2 (g - gs) (b - be)
      else square_sum1 (g - gs)
    else if g > ge then
      if b < bs then square_sum2 (g - ge) (b - bs)
      else if b > be then square_sum2 (g - ge) (b - be)
      else square_sum1 (g - ge)
    else
      if b < bs then square_sum1 (b - bs)
      else if b > be then square_sum1 (b - be)
      else 0

def distance_to_rect_farthest (r g b rs re gs ge bs be : Int) : Int :=
  if r < (rs + re) >>> 1 then
    if g < (gs + ge) >>> 1 then
      if b < (bs + be) >>> 1 then color_distance r g b re ge be
      else color_distance r g b re ge bs
    else
      if b < (bs + be) >>> 1 then color_distance r g b re gs be
      else color_distance r g b re gs bs
  else
    if g < (gs + ge) >>> 1 then
      if b < (bs + be) >>> 1 then color_distance r g b rs ge be
      else color_distance r g b rs ge bs
    else
      if b < (bs + be) >>> 1 then color_distance r g b rs gs be
      else color_distance r g b rs gs bs

/-- The midpoint `other - (other - color) / 2` of `vertical_intersect_to_rect`, with
the truncating division of C. -/
def midpoint (color other : Int) : Int := other - Int.tdiv (other - color) 2

def vertical_intersect_to_rect (color other : Nat) (r1 r2 g1 g2 b1 b2 : Int) : Bool :=
  let colorR : Int := byte2 color
  let colorG : Int := byte1 color
  let colorB : Int := byte0 color
  let otherR : Int := byte2 other
  let otherG : Int := byte1 other
  let otherB : Int := byte0 other
  let rc := midpoint colorR otherR
  let gc := midpoint colorG otherG
  let bc := midpoint colorB otherB
  let vr := colorR - rc
  let vg := colorG - gc
  let vb := colorB - bc
  let dpr1 := vr * (r1 - rc)
  let dpr2 := vr * (r2 - rc)
  let dpg1 := vg * (g1 - gc)
  let dpg2 := vg * (g2 - gc)
  let dpb1 := vb * (b1 - bc)
  let dpb2 := vb * (b2 - bc)
  if dpr1 + dpg1 + dpb1 < 0 then true
  else if dpr1 + dpg1 + dpb2 < 0 then true
  else if dpr1 + dpg2 + dpb1 < 0 then true
  else if dpr1 + dpg2 + dpb2 < 0 then true
  else if dpr2 + dpg1 + dpb1 < 0 then true
  else if dpr2 + dpg1 + dpb2 < 0 then true
  else if dpr2 + dpg2 + dpb1 < 0 then true
  else if dpr2 + dpg2 + dpb2 < 0 then true
  else false

structure DistanceInfo where
  otherIndex : Nat
  distance : Int
deriving DecidableEq, Repr

/-- The order `operator<` of `DistanceInfo` induces: by distance only. -/
def DistanceInfo.le (a b : DistanceInfo) : Prop := a.distance ≤ b.distance

instance : DecidableRel DistanceInfo.le := fun a b => inferInstanceAs (Decidable (a.distance ≤ b.distance))

instance : IsTotal DistanceInfo DistanceInfo.le := ⟨fun a b => Int.le_total a.distance b.distance⟩

instance : IsTrans DistanceInfo DistanceInfo.le := ⟨fun _ _ _ h1 h2 => Int.le_trans h1 h2⟩

/-- What the constructor needs of `std::sort`: the result is a rearrangement of
the row, in non-decreasing distance. -/
def IsSort (sort : List DistanceInfo → List DistanceInfo) : Prop :=
  ∀ l, (sort l).Perm l ∧ (sort l).Sorted DistanceInfo.le

/-- One `std::sort`: insertion sort. -/
def insertionSort (l : List DistanceInfo) : List DistanceInfo :=
  List.insertionSort DistanceInfo.le l

/-- The entry `distCache[i][j]`: the constructor computes it once per unordered
pair, from the colour with the larger index to the one with the smaller. -/
def distCache (colorTable : List Nat) (i j : Nat) : Int :=
  if j < i then
    color_distance (byte2 (colorTable.getD i 0)) (byte1 (colorTable.getD i 0))
      (byte0 (colorTable.getD i 0)) (byte2 (colorTable.getD j 0)) (byte1 (colorTable.getD j 0))
      (byte0 (colorTable.getD j 0))
  else if i < j then
    color_distance (byte2 (colorTable.getD j 0)) (byte1 (colorTable.getD j 0))
      (byte0 (colorTable.getD j 0)) (byte2 (colorTable.getD i 0)) (byte1 (colorTable.getD i 0))
      (byte0 (colorTable.getD i 0))
  else 0

/-- Row `i` of `sortedDistCache` before sorting. -/
def distRow (colorTable : List Nat) (i : Nat) : List DistanceInfo :=
  (List.range colorTable.length).map (fun j => ⟨j, distCache colorTable i j⟩)

/-- Row `i` of `sortedDistCache` after `std::sort`. -/
def sortedDistCache (sort : List DistanceInfo → List DistanceInfo) (colorTable : List Nat)
    (i : Nat) : List DistanceInfo :=
  sort (distRow colorTable i)

/-- The bucket index of a palette colour. -/
def bucketIndexOf (c : Nat) : Nat :=
  byte2 c / CubeSize * N * N + byte1 c / CubeSize * N + byte0 c / CubeSize

/-- The array `bucket` after the bucketing loop.  `bucket[k]` heads a singly
linked chain threaded through `bucket[CubeCount + i]`; each palette index is
linked in at the head, so the chain of cube `k` lists the palette indices whose
colour falls in cube `k`, latest first.  The chain is given as that list (empty
for `bucket[k] == 0`). -/
def bucket (colorTable : List Nat) (k : Nat) : List Nat :=
  (List.range colorTable.length).foldl
    (fun chain i => if bucketIndexOf (colorTable.getD i 0) = k then i :: chain else chain) []

/-- The `do … while` over a non-empty bucket chain: the palette entry with the
largest farthest-corner distance, as `(searchRange, findIndex)`. -/
def seedInBucket (colorTable : List Nat) (rs re gs ge bs be : Int) :
    List Nat → Int × Nat → Int × Nat
  | [], acc => acc
  | i :: rest, acc =>
    if distance_to_rect_farthest (byte2 (colorTable.getD i 0)) (byte1 (colorTable.getD i 0))
        (byte0 (colorTable.getD i 0)) rs re gs ge bs be > acc.1 then
      seedInBucket colorTable rs re gs ge bs be rest
        (distance_to_rect_farthest (byte2 (colorTable.getD i 0)) (byte1 (colorTable.getD i 0))
          (byte0 (colorTable.getD i 0)) rs re gs ge bs be, i)
    else seedInBucket colorTable rs re gs ge bs be rest acc

/-- The `for` loop over the whole table for an empty bucket: the palette entry
nearest to the cube, as `(minDist, findIndex)`. -/
def seedNearest (colorTable : List Nat) (rs re gs ge bs be : Int) :
    List Nat → Int × Nat → Int × Nat
  | [], acc => acc
  | i :: rest, acc =>
    if distance_to_rect (byte2 (colorTable.getD i 0)) (byte1 (colorTable.getD i 0))
        (byte0 (colorTable.getD i 0)) rs re gs ge bs be < acc.1 then
      seedNearest colorTable rs re gs ge bs be rest
        (distance_to_rect (byte2 (colorTable.getD i 0)) (byte1 (colorTable.getD i 0))
          (byte0 (colorTable.getD i 0)) rs re gs ge bs be, i)
    else seedNearest colorTable rs re gs ge bs be rest acc

/-- The seed of a cube, as `(searchRange, findIndex)`. -/
def cubeSeed (colorTable : List Nat) (chain : List Nat) (rs re gs ge bs be : Int) : Int × Nat :=
  if chain ≠ [] then
    ((seedInBucket colorTable rs re gs ge bs be chain (0, 0)).1 <<< 2,
      (seedInBucket colorTable rs re gs ge bs be chain (0, 0)).2)
  else
    (distance_to_rect_farthest
        (byte2 (colorTable.getD
          (seedNearest colorTable rs re gs ge bs be (List.range colorTable.length) (INT_MAX, 0)).2 0))
        (byte1 (colorTable.getD
          (seedNearest colorTable rs re gs ge bs be (List.range colorTable.length) (INT_MAX, 0)).2 0))
        (byte0 (colorTable.getD
          (seedNearest colorTable rs re gs ge bs be (List.range colorTable.length) (INT_MAX, 0)).2 0))
        rs re gs ge bs be <<< 2,
      (seedNearest colorTable rs re gs ge bs be (List.range colorTable.length) (INT_MAX, 0)).2)

/-- The inner `for (j = 1; j < indexesCount; j++)` loop: among the admitted
entries, the one nearest to `otherIndex`, as `(minDist, minDistIndex)`. -/
def nearestAdmitted (colorTable : List Nat) (otherIndex : Nat) :
    List Nat → Int × Nat → Int × Nat
  | [], acc => acc
  | k :: rest, acc =>
    if distCache colorTable otherIndex k < acc.1 then
      nearestAdmitted colorTable otherIndex rest (distCache colorTable otherIndex k, k)
    else nearestAdmitted colorTable otherIndex rest acc

/-- The admission sweep `for (i = 1; i < tableLength; i++)` over the rest of the
seed's sorted row; `indexes` is the cube's list so far (`indexes[0]` the seed
byte).  Returns the cube's final list. -/
def admissionSweep (colorTable : List Nat) (findIndex : Nat) (searchRange : Int)
    (rs re gs ge bs be : Int) : List DistanceInfo → List Nat → List Nat
  | [], indexes => indexes
  | info :: rest, indexes =>
    if info.distance ≥ searchRange then indexes
    else if vertical_intersect_to_rect
        (colorTable.getD (nearestAdmitted colorTable info.otherIndex indexes.tail
          (distCache colorTable info.otherIndex findIndex, findIndex)).2 0)
        (colorTable.getD info.otherIndex 0) rs re gs ge bs be then
      admissionSweep colorTable findIndex searchRange rs re gs ge bs be rest
        (indexes ++ [toByte info.otherIndex])
    else admissionSweep colorTable findIndex searchRange rs re gs ge bs be rest indexes

/-- The body of the innermost cube loop for cube `(r, g, b)`: the bytes appended
to `list` for this cube. -/
def cubeList (sort : List DistanceInfo → List DistanceInfo) (colorTable : List Nat)
    (bucketOffset : Nat) : List Nat :=
  let r := bucketOffset / (N * N)
  let g := bucketOffset / N % N
  let b := bucketOffset % N
  let rs : Int := (r * CubeSize : Nat)
  let re : Int := rs + (CubeSize : Nat)
  let gs : Int := (g * CubeSize : Nat)
  let ge : Int := gs + (CubeSize : Nat)
  let bs : Int := (b * CubeSize : Nat)
  let be : Int := bs + (CubeSize : Nat)
  let seed := cubeSeed colorTable (bucket colorTable bucketOffset) rs re gs ge bs be
  admissionSweep colorTable seed.2 seed.1 rs re gs ge bs be
    (sortedDistCache sort colorTable seed.2).tail [toByte seed.2]

/-- The three nested cube loops, over the cubes still to do, as the header
records and the bytes they add: a cube records `offset`, the current length of
the byte tail (`list.size()` less the header block), as its `index`, appends its
bytes and records their number as its `count`. -/
def buildCubes (sort : List DistanceInfo → List DistanceInfo) (colorTable : List Nat) :
    List Nat → Nat → List ListHead × List Nat
  | [], _ => ([], [])
  | bucketOffset :: rest, offset =>
    (⟨(cubeList sort colorTable bucketOffset).length, offset⟩ ::
        (buildCubes sort colorTable rest
          (offset + (cubeList sort colorTable bucketOffset).length)).1,
      cubeList sort colorTable bucketOffset ++
        (buildCubes sort colorTable rest
          (offset + (cubeList sort colorTable bucketOffset).length)).2)

/-- The constructor `OptimizationPalette::OptimizationPalette`. -/
def OptimizationPalette.create (sort : List DistanceInfo → List DistanceInfo)
    (colorTable : List Nat) : OptimizationPalette :=
  ⟨(buildCubes sort colorTable (List.range' 0 CubeCount) 0).1,
    (buildCubes sort colorTable (List.range' 0 CubeCount) 0).2⟩

/-! ## Caches and the four mapper variants -/

/-- `DoubleCachePalette`: one mask bit and one index byte per colour. -/
structure DoubleCachePalette where
  masks : Nat → Nat
  indexMap : Nat → Nat

/-- `SingleCachePalette`: one byte per colour holding `index + 1`, `0` for empty. -/
structure SingleCachePalette where
  indexMap : Nat → Nat

/-- The constructor `DoubleCachePalette()`: both arrays filled with `0`. -/
def DoubleCachePalette.create : DoubleCachePalette := ⟨fun _ => 0, fun _ => 0⟩

/-- The constructor `SingleCachePalette()`: the array filled with `0`. -/
def SingleCachePalette.create : SingleCachePalette := ⟨fun _ => 0⟩

/-- The cache protocol shared by `DoubleCacheOptimizationPalette::palette_index`
and `DoubleCacheEuclideanPalette::palette_index`, for the variant's `slow_map`. -/
def DoubleCachePalette.palette_index (slow_map : Nat → Nat) (cache : DoubleCachePalette)
    (pixel : Nat) : Nat × DoubleCachePalette :=
  if cache.masks (pixel >>> 3) &&& (1 <<< (pixel &&& 7)) ≠ 0 then
    (cache.indexMap pixel, cache)
  else
    (slow_map pixel,
      ⟨setAt cache.masks (pixel >>> 3) (toByte (cache.masks (pixel >>> 3) ||| (1 <<< (pixel &&& 7)))),
        setAt cache.indexMap pixel (slow_map pixel)⟩)

/-- The cache protocol shared by `SingleCacheOptimizationPalette::palette_index`
and `SingleCacheEuclideanPalette::palette_index`, for the variant's `slow_map`. -/
def SingleCachePalette.palette_index (slow_map : Nat → Nat) (cache : SingleCachePalette)
    (pixel : Nat) : Nat × SingleCachePalette :=
  if cache.indexMap pixel ≠ 0 then
    (toByte (cache.indexMap pixel - 1), cache)
  else
    (slow_map pixel, ⟨setAt cache.indexMap pixel (toByte (slow_map pixel + 1))⟩)

/-- The four concrete classes behind the `Palette` interface; `colorTable` is the
masked table `Palette::colorTable`. -/
inductive Palette where
  | DoubleCacheOptimization (colorTable : List Nat) (opt : OptimizationPalette)
      (cache : DoubleCachePalette)
  | DoubleCacheEuclidean (colorTable : List Nat) (cache : DoubleCachePalette)
  | SingleCacheOptimization (colorTable : List Nat) (opt : OptimizationPalette)
      (cache : SingleCachePalette)
  | SingleCacheEuclidean (colorTable : List Nat) (cache : SingleCachePalette)

/-- The member `Palette::colorTable`. -/
def Palette.colorTable : Palette → List Nat
  | .DoubleCacheOptimization t _ _ => t
  | .DoubleCacheEuclidean t _ => t
  | .SingleCacheOptimization t _ _ => t
  | .SingleCacheEuclidean t _ => t

/-- The `slow_map` a variant inherits, applied to its own `colorTable`. -/
def Palette.slow_map : Palette → Nat → Nat
  | .DoubleCacheOptimization t opt _ => opt.slow_map t
  | .DoubleCacheEuclidean t _ => NoOptimizationPalette.slow_map t
  | .SingleCacheOptimization t opt _ => opt.slow_map t
  | .SingleCacheEuclidean t _ => NoOptimizationPalette.slow_map t

/-- The method `palette_index` of each variant: the result and the mapper with its
cache updated. -/
def Palette.palette_index : Palette → Nat → Nat × Palette
  | .DoubleCacheOptimization t opt cache, pixel =>
    ((cache.palette_index (opt.slow_map t) pixel).1,
      .DoubleCacheOptimization t opt (cache.palette_index (opt.slow_map t) pixel).2)
  | .DoubleCacheEuclidean t cache, pixel =>
    ((cache.palette_index (NoOptimizationPalette.slow_map t) pixel).1,
      .DoubleCacheEuclidean t (cache.palette_index (NoOptimizationPalette.slow_map t) pixel).2)
  | .SingleCacheOptimization t opt cache, pixel =>
    ((cache.palette_index (opt.slow_map t) pixel).1,
      .SingleCacheOptimization t opt (cache.palette_index (opt.slow_map t) pixel).2)
  | .SingleCacheEuclidean t cache, pixel =>
    ((cache.palette_index (NoOptimizationPalette.slow_map t) pixel).1,
      .SingleCacheEuclidean t (cache.palette_index (NoOptimizationPalette.slow_map t) pixel).2)

/-- `palette_create`; `none` is the null pointer.  The table is the caller's
array, `tableLength` its length. -/
def palette_create (sort : List DistanceInfo → List DistanceInfo) (colorTable : List Nat)
    (optimize : Bool) : Option Palette :=
  if colorTable.length < 8 then
    some (.SingleCacheEuclidean (color_table colorTable) SingleCachePalette.create)
  else if optimize then
    if colorTable.length < 256 then
      some (.SingleCacheOptimization (color_table colorTable)
        (OptimizationPalette.create sort colorTable) SingleCachePalette.create)
    else if colorTable.length = 256 then
      some (.DoubleCacheOptimization (color_table colorTable)
        (OptimizationPalette.create sort colorTable) DoubleCachePalette.create)
    else none
  else
    if colorTable.length < 256 then
      some (.SingleCacheEuclidean (color_table colorTable) SingleCachePalette.create)
    else if colorTable.length = 256 then
      some (.DoubleCacheEuclidean (color_table colorTable) DoubleCachePalette.create)
    else none

/-! ## Mapping: direct and dithered

`palette_map_no_dither` and `palette_map_dither` are templates over the mapper
type; they are embedded over an arbitrary mapper state `σ` with its
`palette_index` and its colour table, and instantiated at `Palette`. -/

/-- A sequence of `palette_index` calls on one mapper: the results in order and
the final mapper. -/
def palette_index_seq {σ : Type} (palette_index : σ → Nat → Nat × σ) :
    σ → List Nat → List Nat × σ
  | st, [] => ([], st)
  | st, q :: rest =>
    ((palette_index st q).1 :: (palette_index_seq palette_index (palette_index st q).2 rest).1,
      (palette_index_seq palette_index (palette_index st q).2 rest).2)

/-- `PaletteImpl::palette_map_no_dither`, writing into the `indexes` array from
position `i` on. -/
def palette_map_no_dither {σ : Type} (palette_index : σ → Nat → Nat × σ) :
    σ → List Nat → List Nat → Nat → σ × List Nat
  | st, [], indexes, _ => (st, indexes)
  | st, pixel :: rest, indexes, i =>
    palette_map_no_dither palette_index (palette_index st (pixel &&& 0xffffff)).2 rest
      (indexes.set i (palette_index st (pixel &&& 0xffffff)).1) (i + 1)

/-- The exported `palette_map`: `length` is the length of `pixels`. -/
def palette_map (palette : Palette) (pixels : List Nat) (indexes : List Nat) :
    Palette × List Nat :=
  palette_map_no_dither Palette.palette_index palette pixels indexes 0

/-- The state of a dither run: the mapper, the pixel buffer, the index buffer. -/
structure DitherState (σ : Type) where
  palette : σ
  pixels : List Nat
  indexes : List Nat

def Rows : Nat := 2

def Cols : Nat := 3

/-- The non-zero entries of `DitherMat` in row-major order, as `(y, x, entry)`. -/
def DitherMat : List (Nat × Nat × Nat) := [(0, 2, 7), (1, 0, 3), (1, 1, 5), (1, 2, 1)]

def weightSum : Nat := (DitherMat.map (fun e => e.2.2)).sum

/-- The cast `static_cast<int>(v)` of a `size_t` value: the low 32 bits, read as a
signed number. -/
def toInt32 (v : Nat) : Int :=
  if v % 2 ^ 32 < 2 ^ 31 then (v % 2 ^ 32 : Nat) else (v % 2 ^ 32 : Nat) - 2 ^ 32

/-- The table `pixelOffsets`: `static_cast<int>(y * width + x - Cols / 2)` for each
non-zero matrix entry (the subtraction is on `size_t`, modulo `2 ^ 64`). -/
def pixelOffsets (width : Nat) : List Int :=
  DitherMat.map (fun e => toInt32 ((e.1 * width + e.2.1 + (2 ^ 64 - Cols / 2)) % 2 ^ 64))

/-- The table `weights` after scaling: `entry * 65535 * 0.75 / weightSum` cast to
`uint16_t`.  With `weightSum = 16` the `double` computation is exact and equals
`entry * 65535 * 3 / 64` rounded down. -/
def weights : List Nat :=
  DitherMat.map (fun e => e.2.2 * 65535 * 3 / (4 * weightSum) % 65536)

/-- A step of the border loops: map the pixel at `pos` and store its palette
colour. -/
def directStep {σ : Type} (palette_index : σ → Nat → Nat × σ) (colorTable : σ → List Nat)
    (st : DitherState σ) (pos : Nat) : DitherState σ :=
  ⟨(palette_index st.palette (st.pixels.getD pos 0 &&& 0xffffff)).2,
    st.pixels.set pos ((colorTable st.palette).getD
      (palette_index st.palette (st.pixels.getD pos 0 &&& 0xffffff)).1 0),
    st.indexes.set pos (palette_index st.palette (st.pixels.getD pos 0 &&& 0xffffff)).1⟩

/-- The 64-bit two's complement pattern of an `int64_t` value; the bitwise
operators of the source act on these patterns. -/
def bits64 (v : Int) : Nat := (v % 2 ^ 64).toNat

/-- The pattern of `-1`: 64 ones. -/
def ones64 : Nat := 2 ^ 64 - 1

/-- The arithmetic shift `v >> 63` on a pattern: all ones when the sign bit is set,
zero otherwise. -/
def sar63 (v : Nat) : Nat := if v >>> 63 = 0 then 0 else ones64

/-- The saturation `if (v & ~limit) v = ~(v >> 63)` on a pattern: a value with a
bit outside `limit` set becomes `0` when negative and all ones otherwise. -/
def saturate (v : Nat) (limit : Nat) : Nat :=
  if v &&& (limit ^^^ ones64) ≠ 0 then sar63 v ^^^ ones64 else v

/-- The new value of a neighbour `dstPixel` for the errors and one weight. -/
def diffusePixel (dstPixel : Nat) (errR errG errB : Int) (weight : Nat) : Nat :=
  let newR := bits64 (((dstPixel &&& 0xff0000 : Nat) : Int) + ((errR * weight) >>> 16))
  let newG := bits64 (((dstPixel &&& 0x00ff00 : Nat) : Int) + ((errG * weight) >>> 16))
  let newB := bits64 (((dstPixel &&& 0x0000ff : Nat) : Int) + ((errB * weight) >>> 16))
  let newR := saturate newR 0xffffff &&& 0xff0000
  let newG := saturate newG 0x00ffff &&& 0x00ff00
  let newB := if newB &&& (0x0000ff ^^^ ones64) ≠ 0 then (sar63 newB ^^^ ones64) &&& 0x0000ff
    else newB
  (newR ||| newG ||| newB) % 2 ^ 32

/-- The loop over the weights: add the weighted error to each neighbour
`pixels[pos + pixelOffset]`. -/
def diffuseLoop (errR errG errB : Int) (pos : Nat) :
    List (Int × Nat) → List Nat → List Nat
  | [], pixels => pixels
  | (pixelOffset, weight) :: rest, pixels =>
    diffuseLoop errR errG errB pos rest
      (pixels.set (pos + pixelOffset).toNat
        (diffusePixel (pixels.getD (pos + pixelOffset).toNat 0) errR errG errB weight))

/-- A step of the middle loop: map the pixel at `pos`, store its palette colour
and spread the error to the neighbours. -/
def diffuseStep {σ : Type} (palette_index : σ → Nat → Nat × σ) (colorTable : σ → List Nat)
    (width : Nat) (st : DitherState σ) (pos : Nat) : DitherState σ :=
  let oldPixel := st.pixels.getD pos 0 &&& 0xffffff
  let paletteIndex := (palette_index st.palette oldPixel).1
  let newPixel := (colorTable st.palette).getD paletteIndex 0
  let errR : Int := ((oldPixel &&& 0xff0000 : Nat) : Int) - ((newPixel &&& 0xff0000 : Nat) : Int)
  let errG : Int := ((oldPixel &&& 0x00ff00 : Nat) : Int) - ((newPixel &&& 0x00ff00 : Nat) : Int)
  let errB : Int := ((oldPixel &&& 0x0000ff : Nat) : Int) - ((newPixel &&& 0x0000ff : Nat) : Int)
  ⟨(palette_index st.palette oldPixel).2,
    diffuseLoop errR errG errB pos ((pixelOffsets width).zip weights) (st.pixels.set pos newPixel),
    st.indexes.set pos paletteIndex⟩

/-- One row `y` of the main loop: `Cols / 2` border pixels, the middle pixels with
error diffusion, then the pixels up to `width`. -/
def ditherRow {σ : Type} (palette_index : σ → Nat → Nat × σ) (colorTable : σ → List Nat)
    (width : Nat) (st : DitherState σ) (y : Nat) : DitherState σ :=
  let st1 := (List.range' 0 (Cols / 2)).foldl
    (fun s x => directStep palette_index colorTable s (y * width + x)) st
  let st2 := (List.range' (Cols / 2) (width - Cols / 2 - Cols / 2)).foldl
    (fun s x => diffuseStep palette_index colorTable width s (y * width + x)) st1
  (List.range' (width - Cols / 2) (width - (width - Cols / 2))).foldl
    (fun s x => directStep palette_index colorTable s (y * width + x)) st2

/-- `PaletteImpl::palette_map_dither`. -/
def palette_map_dither {σ : Type} (palette_index : σ → Nat → Nat × σ) (colorTable : σ → List Nat)
    (st : DitherState σ) (width height : Nat) : DitherState σ :=
  if width ≤ Cols ∨ height ≤ Rows then
    (List.range (width * height)).foldl (directStep palette_index colorTable) st
  else
    let st1 := (List.range (height - Rows + 1)).foldl
      (ditherRow palette_index colorTable width) st
    (List.range' (height - Rows + 1) (height - (height - Rows + 1))).foldl
      (fun s y => (List.range width).foldl
        (fun s x => directStep palette_index colorTable s (y * width + x)) s) st1

/-- The exported `palette_dither`. -/
def palette_dither (palette : Palette) (pixels : List Nat) (indexes : List Nat)
    (width height : Nat) : DitherState Palette :=
  palette_map_dither Palette.palette_index Palette.colorTable ⟨palette, pixels, indexes⟩
    width height

end EuclideanPalette

/-! ## Specification vocabulary for the mapper -/

namespace EuclideanPalette

/-- The squared RGB distance from the colour `pixel` to entry `i` of a table. -/
def dist2 (colorTable : List Nat) (pixel i : Nat) : Int :=
  color_distance (byte2 pixel) (byte1 pixel) (byte0 pixel) (byte2 (colorTable.getD i 0))
    (byte1 (colorTable.getD i 0)) (byte0 (colorTable.getD i 0))

/-- Entry `i` is a nearest entry of the table to `pixel`. -/
def IsNearest (colorTable : List Nat) (pixel i : Nat) : Prop :=
  i < colorTable.length ∧ ∀ j < colorTable.length, dist2 colorTable pixel i ≤ dist2 colorTable pixel j

instance (colorTable : List Nat) (pixel i : Nat) : Decidable (IsNearest colorTable pixel i) :=
  inferInstanceAs (Decidable (_ ∧ _))

/-- Entry `i` is the lowest index among the nearest entries of the table to
`pixel`. -/
def IsLowestNearest (colorTable : List Nat) (pixel i : Nat) : Prop :=
  IsNearest colorTable pixel i ∧ ∀ j < i, dist2 colorTable pixel i < dist2 colorTable pixel j

instance (colorTable : List Nat) (pixel i : Nat) : Decidable (IsLowestNearest colorTable pixel i) :=
  inferInstanceAs (Decidable (_ ∧ _))

/-- The mapper after a sequence of `palette_index` calls (from `palette_map` or
`palette_dither`) with the given arguments. -/
def Palette.afterQueries (palette : Palette) (queries : List Nat) : Palette :=
  (palette_index_seq Palette.palette_index palette queries).2

/-- The diffusion of the error of the pixel at `(x, y)` as section 4.3 words it:
the neighbours `(x+1, y)`, `(x-1, y+1)`, `(x, y+1)`, `(x+1, y+1)` each receive
the error under their weight. -/
def spreadToNeighbours (errR errG errB : Int) (width x y : Nat) (pixels : List Nat) : List Nat :=
  [((y * width + (x + 1)), weights.getD 0 0), (((y + 1) * width + (x - 1)), weights.getD 1 0),
    (((y + 1) * width + x), weights.getD 2 0), (((y + 1) * width + (x + 1)), weights.getD 3 0)].foldl
    (fun px tw => px.set tw.1 (diffusePixel (px.getD tw.1 0) errR errG errB tw.2)) pixels

/-- The step of the worded dither at an interior pixel `(x, y)`: map it, store its
palette colour, spread the error `old - new` to the four neighbours. -/
def spreadStep {σ : Type} (palette_index : σ → Nat → Nat × σ) (colorTable : σ → List Nat)
    (width : Nat) (st : DitherState σ) (x y : Nat) : DitherState σ :=
  let oldPixel := st.pixels.getD (y * width + x) 0 &&& 0xffffff
  let paletteIndex := (palette_index st.palette oldPixel).1
  let newPixel := (colorTable st.palette).getD paletteIndex 0
  let errR : Int := ((oldPixel &&& 0xff0000 : Nat) : Int) - ((newPixel &&& 0xff0000 : Nat) : Int)
  let errG : Int := ((oldPixel &&& 0x00ff00 : Nat) : Int) - ((newPixel &&& 0x00ff00 : Nat) : Int)
  let errB : Int := ((oldPixel &&& 0x0000ff : Nat) : Int) - ((newPixel &&& 0x0000ff : Nat) : Int)
  ⟨(palette_index st.palette oldPixel).2,
    spreadToNeighbours errR errG errB width x y (st.pixels.set (y * width + x) newPixel),
    st.indexes.set (y * width + x) paletteIndex⟩

/-- The dither as section 4.3 words its border policy: pixels are visited in
row-major order; a pixel of the leftmost column, of the rightmost column or of
the bottom row is mapped without spreading error, every other pixel spreads its
error to its four neighbours. -/
def dither_by_border_policy {σ : Type} (palette_index : σ → Nat → Nat × σ)
    (colorTable : σ → List Nat) (st : DitherState σ) (width height : Nat) : DitherState σ :=
  (List.range height).foldl
    (fun s y => (List.range width).foldl
      (fun s x =>
        if x = 0 ∨ x = width - 1 ∨ y = height - 1 then
          directStep palette_index colorTable s (y * width + x)
        else spreadStep palette_index colorTable width s x y) s) st

end EuclideanPalette

/-! ## Cache invariants and sample inputs for the mapper -/

namespace EuclideanPalette

/-- A single cache is consistent with `slow_map`: every entry is empty or holds
the result plus one. -/
def SingleCachePalette.Consistent (slow_map : Nat → Nat) (cache : SingleCachePalette) : Prop :=
  ∀ c, cache.indexMap c = 0 ∨ cache.indexMap c = slow_map c + 1

/-- A double cache is consistent with `slow_map`: every colour whose mask bit is
set holds the result. -/
def DoubleCachePalette.Consistent (slow_map : Nat → Nat) (cache : DoubleCachePalette) : Prop :=
  ∀ c, cache.masks (c >>> 3) &&& (1 <<< (c &&& 7)) ≠ 0 → cache.indexMap c = slow_map c

/-- The cache of a mapper is consistent with its own `slow_map`, and for a single
cache the results leave room for the `+ 1`. -/
def Palette.CacheOK : Palette → Prop
  | .DoubleCacheOptimization t opt cache => cache.Consistent (opt.slow_map t)
  | .DoubleCacheEuclidean t cache => cache.Consistent (NoOptimizationPalette.slow_map t)
  | .SingleCacheOptimization t opt cache =>
    cache.Consistent (opt.slow_map t) ∧ ∀ c, opt.slow_map t c < 255
  | .SingleCacheEuclidean t cache =>
    cache.Consistent (NoOptimizationPalette.slow_map t) ∧
      ∀ c, NoOptimizationPalette.slow_map t c < 255

/-- The first `n` pixels of the buffers are quantised over the table `tbl`: each
index is a table index and each pixel is the table colour of its index. -/
def Quantised (tbl : List Nat) (pixels indexes : List Nat) (n : Nat) : Prop :=
  ∀ i < n, i < pixels.length →
    indexes.getD i 0 < tbl.length ∧ pixels.getD i 0 = tbl.getD (indexes.getD i 0) 0

/-- A dither state whose mapper satisfies `I`, whose buffers have `len` entries and
whose first `n` pixels are quantised. -/
def DitherInv {σ : Type} (I : σ → Prop) (tbl : List Nat) (len : Nat) (n : Nat)
    (st : DitherState σ) : Prop :=
  I st.palette ∧ st.pixels.length = len ∧ st.indexes.length = len ∧
    Quantised tbl st.pixels st.indexes n

/-- The mapper is in a state reached from a consistent cache over the table `tbl`
with `slow_map` results below the table length. -/
def Palette.Serves (tbl : List Nat) (p : Palette) : Prop :=
  p.CacheOK ∧ p.colorTable = tbl ∧ ∀ q, p.slow_map q < tbl.length

/-- A palette of eight colours on which the candidate list of cube 1 (blue in
`[16, 32]`, red and green in `[0, 16]`) lacks the entry nearest to `0x000010`.
Entry 0 is `(0, 0, 18)`, entry 1 is `(0, 0, 15)`; the other six are far from
both. -/
def biasPalette : List Nat :=
  [0x000012, 0x00000F, 0xC80A1E, 0x5ADC28, 0x1E46FA, 0xFAF064, 0x828C96, 0xFF00FF]

end EuclideanPalette

/-! ## The positions the dither touches -/

namespace EuclideanPalette

/-- The buffer positions a border step at `pos` reads or writes: `pixels[pos]`
and `indexes[pos]`. -/
def directStepAccesses (pos : Nat) : List Int := [(pos : Int)]

/-- The buffer positions a middle step at `pos` reads or writes: `pos` itself and
the diffusion target `pos + pixelOffset` for each entry of the offset table. -/
def diffuseStepAccesses (width pos : Nat) : List Int :=
  (pos : Int) :: (pixelOffsets width).map (fun pixelOffset => (pos : Int) + pixelOffset)

/-- The positions one row `y` of the main loop touches, loop by loop as in
`ditherRow`. -/
def ditherRowAccesses (width y : Nat) : List Int :=
  (List.range' 0 (Cols / 2)).flatMap (fun x => directStepAccesses (y * width + x)) ++
    ((List.range' (Cols / 2) (width - Cols / 2 - Cols / 2)).flatMap
        (fun x => diffuseStepAccesses width (y * width + x)) ++
      (List.range' (width - Cols / 2) (width - (width - Cols / 2))).flatMap
        (fun x => directStepAccesses (y * width + x)))

/-- Every position `palette_map_dither` touches on a `width * height` image, loop
by loop as in `palette_map_dither`. -/
def palette_map_dither_accesses (width height : Nat) : List Int :=
  if width ≤ Cols ∨ height ≤ Rows then
    (List.range (width * height)).flatMap directStepAccesses
  else
    (List.range (height - Rows + 1)).flatMap (ditherRowAccesses width) ++
      (List.range' (height - Rows + 1) (height - (height - Rows + 1))).flatMap
        (fun y => (List.range width).flatMap (fun x => directStepAccesses (y * width + x)))

end EuclideanPalette

namespace EuclideanPalette

/-- A palette of eight colours whose entry 2 is missing from the candidate list of
its own cube, cube 1 (blue in `[16, 32]`, red and green in `[0, 16]`).  Entry 0
is `(0, 0, 20)`, entry 1 is `(8, 8, 17)`, entry 2 is `(8, 8, 16)`; the other five
are far from the three. -/
def edgePalette : List Nat :=
  [0x000014, 0x080811, 0x080810, 0xC80A1E, 0x5ADC28, 0x1E46FA, 0xFAF064, 0x828C96]

end EuclideanPalette

namespace EuclideanPalette

/-- The six channel values of the 216-colour palette. -/
def channelLevels : List Nat := [0, 51, 102, 153, 204, 255]

/-- The 216-colour palette: every colour whose three channels are channel levels,
red major. -/
def levelPalette : List Nat :=
  (List.range 216).map (fun i =>
    (channelLevels.getD (i / 36) 0 <<< 16) ||| (channelLevels.getD (i / 6 % 6) 0 <<< 8) |||
      channelLevels.getD (i % 6) 0)

/-- The distance from the coordinate `x` to the interval `[s, e]`. -/
def gapTo (x s e : Int) : Int := if x < s then s - x else if x > e then x - e else 0

/-- The end of the interval `[s, e]` that `distance_to_rect_farthest` pairs with
the coordinate `x`. -/
def farEnd (x s e : Int) : Int := if x < (s + e) >>> 1 then e else s

end EuclideanPalette

namespace EuclideanPalette

/-- Modelled from the spec: `clamp(v, 0, 255)`, as a byte. -/
def clampByte (v : Int) : Nat := (max 0 (min 255 v)).toNat

end EuclideanPalette

namespace EuclideanPalette

/-- The palette index that the constructor picks as the seed of cube
`bucketOffset`: `findIndex` after the seed search. -/
def seedOf (colorTable : List Nat) (bucketOffset : Nat) : Nat :=
  (cubeSeed colorTable (bucket colorTable bucketOffset)
    ((bucketOffset / (N * N) * CubeSize : Nat) : Int)
    (((bucketOffset / (N * N) * CubeSize : Nat) : Int) + (CubeSize : Nat))
    ((bucketOffset / N % N * CubeSize : Nat) : Int)
    (((bucketOffset / N % N * CubeSize : Nat) : Int) + (CubeSize : Nat))
    ((bucketOffset % N * CubeSize : Nat) : Int)
    (((bucketOffset % N * CubeSize : Nat) : Int) + (CubeSize : Nat))).2

end EuclideanPalette

namespace EuclideanPalette

/-- The mapper is a direct-scan mapper over the table `tbl`: its cache is
consistent and its `slow_map` is the linear scan of `tbl`. -/
def Palette.Direct (tbl : List Nat) (p : Palette) : Prop :=
  p.CacheOK ∧ p.colorTable = tbl ∧ p.slow_map = NoOptimizationPalette.slow_map tbl

/-- A pixel and its index are settled over `tbl`: the pixel is the 24-bit table
colour of the index, and the linear scan maps the pixel to that index. -/
def Settled (tbl : List Nat) (pixel index : Nat) : Prop :=
  pixel < 2 ^ 24 ∧ index < tbl.length ∧ pixel = tbl.getD index 0 ∧
    NoOptimizationPalette.slow_map tbl pixel = index

end EuclideanPalette

namespace EuclideanPalette

/-- The pixel at position `i` of the buffer holding `5` at position `1` and `0`
elsewhere, before the step at position `n` of a dither over the table `[0]` on a
width whose offset table is `1, -1, 0, 1`: the step at position `1` leaves one
unit of blue at positions `1` and `2`, the step at position `2` clears its
own. -/
def wrappedPixel (n i : Nat) : Nat :=
  if n ≤ 1 then (if i = 1 then 5 else 0)
  else if n = 2 then (if i = 1 ∨ i = 2 then 1 else 0)
  else (if i = 1 then 1 else 0)

end EuclideanPalette

namespace EuclideanPalette

/-- The border step `directStep` with its buffer accesses checked: the step reads
and writes `pixels[pos]` and writes `indexes[pos]`, and is `none` when `pos` is
not a position of the `len` entries of the buffers. -/
def directStepChecked {σ : Type} (palette_index : σ → Nat → Nat × σ)
    (colorTable : σ → List Nat) (len : Nat) (st : DitherState σ) (pos : Nat) :
    Option (DitherState σ) :=
  if pos < len then some (directStep palette_index colorTable st pos) else none

/-- The loop `diffuseLoop` with its buffer accesses checked: each round reads and
writes `pixels[pos + pixelOffset]`, and the loop is `none` from the first round
whose target is before the buffer or past its `len` entries. -/
def diffuseLoopChecked (len : Nat) (errR errG errB : Int) (pos : Nat) :
    List (Int × Nat) → List Nat → Option (List Nat)
  | [], pixels => some pixels
  | (pixelOffset, weight) :: rest, pixels =>
    if 0 ≤ (pos : Int) + pixelOffset ∧ (pos : Int) + pixelOffset < (len : Int) then
      diffuseLoopChecked len errR errG errB pos rest
        (pixels.set (pos + pixelOffset).toNat
          (diffusePixel (pixels.getD (pos + pixelOffset).toNat 0) errR errG errB weight))
    else none

/-- The middle step `diffuseStep` with its buffer accesses checked: `pixels[pos]`,
`indexes[pos]` and every diffusion target. -/
def diffuseStepChecked {σ : Type} (palette_index : σ → Nat → Nat × σ)
    (colorTable : σ → List Nat) (len width : Nat) (st : DitherState σ) (pos : Nat) :
    Option (DitherState σ) :=
  if pos < len then
    let oldPixel := st.pixels.getD pos 0 &&& 0xffffff
    let paletteIndex := (palette_index st.palette oldPixel).1
    let newPixel := (colorTable st.palette).getD paletteIndex 0
    let errR : Int := ((oldPixel &&& 0xff0000 : Nat) : Int) - ((newPixel &&& 0xff0000 : Nat) : Int)
    let errG : Int := ((oldPixel &&& 0x00ff00 : Nat) : Int) - ((newPixel &&& 0x00ff00 : Nat) : Int)
    let errB : Int := ((oldPixel &&& 0x0000ff : Nat) : Int) - ((newPixel &&& 0x0000ff : Nat) : Int)
    (diffuseLoopChecked len errR errG errB pos ((pixelOffsets width).zip weights)
      (st.pixels.set pos newPixel)).map
      (fun pixels => ⟨(palette_index st.palette oldPixel).2, pixels,
        st.indexes.set pos paletteIndex⟩)
  else none

/-- One row `y` of the main loop, as `ditherRow`, with every access checked; a run
that has left the buffers stays `none`. -/
def ditherRowChecked {σ : Type} (palette_index : σ → Nat → Nat × σ)
    (colorTable : σ → List Nat) (len width : Nat) (st : Option (DitherState σ)) (y : Nat) :
    Option (DitherState σ) :=
  let st1 := (List.range' 0 (Cols / 2)).foldl
    (fun s x => s.bind (fun s => directStepChecked palette_index colorTable len s (y * width + x)))
    st
  let st2 := (List.range' (Cols / 2) (width - Cols / 2 - Cols / 2)).foldl
    (fun s x => s.bind
      (fun s => diffuseStepChecked palette_index colorTable len width s (y * width + x))) st1
  (List.range' (width - Cols / 2) (width - (width - Cols / 2))).foldl
    (fun s x => s.bind (fun s => directStepChecked palette_index colorTable len s (y * width + x)))
    st2

/-- `PaletteImpl::palette_map_dither` with every access to the pixel and index
buffers checked against their `width * height` entries: the loops are those of
`palette_map_dither`, and the result is `none` when a position read or written
lies outside `[0, width * height)`. -/
def palette_map_dither_checked {σ : Type} (palette_index : σ → Nat → Nat × σ)
    (colorTable : σ → List Nat) (st : DitherState σ) (width height : Nat) :
    Option (DitherState σ) :=
  if width ≤ Cols ∨ height ≤ Rows then
    (List.range (width * height)).foldl
      (fun s i => s.bind
        (fun s => directStepChecked palette_index colorTable (width * height) s i)) (some st)
  else
    let st1 := (List.range (height - Rows + 1)).foldl
      (ditherRowChecked palette_index colorTable (width * height) width) (some st)
    (List.range' (height - Rows + 1) (height - (height - Rows + 1))).foldl
      (fun s y => (List.range width).foldl
        (fun s x => s.bind (fun s =>
          directStepChecked palette_index colorTable (width * height) s (y * width + x))) s) st1

end EuclideanPalette

/-! ## Palette extractor (`SpaceShockColorExtractor.cpp`) -/

/-- The histogram slot `CountNode {count, node}`. -/
structure CountNode where
  count : Nat
  node : Nat
deriving DecidableEq, Repr

/-- The extractor: the colours seen, the pixel total, one slot per colour. -/
structure SpaceShockColorExtractor where
  colorList : List Nat
  pixelTotalCount : Nat
  colorCounts : Nat → CountNode

namespace SpaceShockColorExtractor

open EuclideanPalette (setAt byte0 byte1 byte2)

/-- The value `static_cast<size_t>(-1)`. -/
def SIZE_MAX : Nat := 2 ^ 64 - 1

def BaseLength : Nat := 1024

def SkipMinCount : Nat := 3

def MaxKernelSize : Nat := 28

/-- `create`: every slot `{0, 0}`, no colour seen. -/
def create : SpaceShockColorExtractor := ⟨[], 0, fun _ => ⟨0, 0⟩⟩

/-- `reset` on a non-null extractor. -/
def reset (extractor : SpaceShockColorExtractor) : SpaceShockColorExtractor :=
  ⟨[], 0, extractor.colorList.foldl (fun counts color => setAt counts color ⟨0, 0⟩)
    extractor.colorCounts⟩

/-- The body of the loop of `add_bitmap` for one pixel (`count++` on `uint32_t`). -/
def add_pixel (extractor : SpaceShockColorExtractor) (p : Nat) : SpaceShockColorExtractor :=
  ⟨if (extractor.colorCounts (p &&& 0xffffff)).count = 0 then
      extractor.colorList ++ [p &&& 0xffffff]
    else extractor.colorList,
    extractor.pixelTotalCount,
    setAt extractor.colorCounts (p &&& 0xffffff)
      ⟨((extractor.colorCounts (p &&& 0xffffff)).count + 1) % 2 ^ 32,
        (extractor.colorCounts (p &&& 0xffffff)).node⟩⟩

/-- `add_bitmap`; `pixelCount` is the length of `pixels`. -/
def add_bitmap (extractor : SpaceShockColorExtractor) (pixels : List Nat) :
    SpaceShockColorExtractor :=
  ⟨(pixels.foldl add_pixel extractor).colorList,
    (extractor.pixelTotalCount + pixels.length) % 2 ^ 64,
    (pixels.foldl add_pixel extractor).colorCounts⟩

/-- The vector `sortedBuffer`: its cells and its size. -/
structure Buffer where
  data : Nat → Nat
  size : Nat

/-- The write `sortedBuffer[i] = v`. -/
def Buffer.write (buf : Buffer) (i v : Nat) : Buffer := ⟨setAt buf.data i v, buf.size⟩

/-- The call `sortedBuffer.resize(n)`. -/
def Buffer.resize (buf : Buffer) (n : Nat) : Buffer := ⟨buf.data, n⟩

/-- The call `sortedBuffer.push_back(0)`. -/
def Buffer.push_back_zero (buf : Buffer) : Buffer := ⟨setAt buf.data buf.size 0, buf.size + 1⟩

/-- The lookup of a key in `sortedMap` (a `std::map`, as its entries in
increasing key order). -/
def mapFind : List (Nat × Nat) → Nat → Option Nat
  | [], _ => none
  | (k, v) :: rest, key => if k = key then some v else mapFind rest key

/-- The assignment `sortedMap[key] = v`: replace, or insert in key order. -/
def mapSet : List (Nat × Nat) → Nat → Nat → List (Nat × Nat)
  | [], key, v => [(key, v)]
  | (k, w) :: rest, key, v =>
    if k = key then (k, v) :: rest
    else if key < k then (key, v) :: (k, w) :: rest
    else (k, w) :: mapSet rest key v

/-- The call `sortedMap.erase(key)`. -/
def mapErase : List (Nat × Nat) → Nat → List (Nat × Nat)
  | [], _ => []
  | (k, v) :: rest, key => if k = key then rest else (k, v) :: mapErase rest key

/-- The read `sortedMap[key]`, which inserts the key with value `0` when it is
absent: the value and the map afterwards. -/
def mapIndex (m : List (Nat × Nat)) (key : Nat) : Nat × List (Nat × Nat) :=
  match mapFind m key with
  | some v => (v, m)
  | none => (0, mapSet m key 0)

/-- The state threaded through `sort_colors`. -/
structure SortState where
  colorCounts : Nat → CountNode
  sortedBuffer : Buffer
  sortedMap : List (Nat × Nat)
  lastNewIndex : Nat

/-- The three writes of a new node and of the slot's `node` that end the body of
the loop of `sort_colors`. -/
def linkNode (st : SortState) (color lastIndex : Nat) : SortState :=
  ⟨setAt st.colorCounts color ⟨(st.colorCounts color).count, st.lastNewIndex⟩,
    ((st.sortedBuffer.write (st.lastNewIndex + 0) color).write
      (st.lastNewIndex + 1) lastIndex).write (st.lastNewIndex + 2) 0,
    st.sortedMap, st.lastNewIndex + 3⟩

/-- The body of the loop of `sort_colors` for one colour (`count - 1` on
`uint32_t`). -/
def sortStep (st : SortState) (color : Nat) : SortState :=
  if (st.colorCounts color).count ≤ BaseLength then
    let index := ((st.colorCounts color).count + (2 ^ 32 - 1)) % 2 ^ 32
    let lastIndex := st.sortedBuffer.data index
    let buf1 := if lastIndex ≠ 0 then st.sortedBuffer.write (lastIndex + 2) st.lastNewIndex
      else st.sortedBuffer
    linkNode ⟨st.colorCounts, ((buf1.write index st.lastNewIndex).resize (st.lastNewIndex + 3)),
      st.sortedMap, st.lastNewIndex⟩ color lastIndex
  else
    let count := (st.colorCounts color).count
    let listHead := (mapIndex st.sortedMap count).1
    let map1 := (mapIndex st.sortedMap count).2
    if listHead = 0 then
      linkNode ⟨st.colorCounts,
        (st.sortedBuffer.resize (st.lastNewIndex + 4)).write st.lastNewIndex (st.lastNewIndex + 1),
        mapSet map1 count st.lastNewIndex, st.lastNewIndex + 1⟩ color 0
    else
      linkNode ⟨st.colorCounts,
        (((st.sortedBuffer.resize (st.lastNewIndex + 3)).write
          (st.sortedBuffer.data listHead + 2) st.lastNewIndex).write listHead st.lastNewIndex),
        map1, st.lastNewIndex⟩ color (st.sortedBuffer.data listHead)

/-- `sort_colors`: the extractor's slots with their nodes set, the buffer and the
map. -/
def sort_colors (extractor : SpaceShockColorExtractor) : SortState :=
  extractor.colorList.foldl sortStep
    ⟨extractor.colorCounts, ⟨fun _ => 0, BaseLength⟩, [], BaseLength⟩

/-- The state threaded through `absorb_color`: the slots, the index, and the
running `pixelCount`. -/
structure AbsorbState where
  colorCounts : Nat → CountNode
  sortedBuffer : Buffer
  sortedMap : List (Nat × Nat)
  pixelCount : Nat

/-- The unlinking of `lastNode` from the list of `otherCount` in `absorb_color`. -/
def unlinkNode (buf : Buffer) (map : List (Nat × Nat)) (otherCount lastNode : Nat) :
    Buffer × List (Nat × Nat) :=
  let prevIndex := buf.data (lastNode + 1)
  let nextIndex := buf.data (lastNode + 2)
  let listHead := if otherCount > BaseLength then (mapIndex map otherCount).1 else otherCount - 1
  let map1 := if otherCount > BaseLength then (mapIndex map otherCount).2 else map
  if prevIndex ≠ 0 then
    if nextIndex ≠ 0 then
      (((buf.write (prevIndex + 2) nextIndex).write (nextIndex + 1) prevIndex), map1)
    else
      (((buf.write (prevIndex + 2) nextIndex).write listHead prevIndex), map1)
  else
    if nextIndex = 0 then
      (buf.write listHead 0, if otherCount > BaseLength then mapErase map1 otherCount else map1)
    else
      (buf.write (nextIndex + 1) prevIndex, map1)

/-- The linking of `lastNode` at the head of the list of `newCount` in
`absorb_color` (`newCount != 0`). -/
def relinkNode (buf : Buffer) (map : List (Nat × Nat)) (newCount lastNode otherRgb : Nat) :
    Buffer × List (Nat × Nat) :=
  let oldListHead := (mapIndex map newCount).1
  let listHead := if newCount > BaseLength then
      (if oldListHead = 0 then buf.size else oldListHead)
    else newCount - 1
  let map1 := if newCount > BaseLength then
      (if oldListHead = 0 then mapSet (mapIndex map newCount).2 newCount buf.size
        else (mapIndex map newCount).2)
    else map
  let buf1 := if newCount > BaseLength ∧ oldListHead = 0 then buf.push_back_zero else buf
  let buf2 := if buf1.data listHead ≠ 0 then buf1.write (buf1.data listHead + 2) lastNode else buf1
  let buf3 := buf2.write (lastNode + 0) otherRgb
  let buf4 := buf3.write (lastNode + 1) (buf3.data listHead)
  ((buf4.write (lastNode + 2) 0).write listHead lastNode, map1)

/-- The body of the innermost loop of `absorb_color` at the colour `(r, g, b)`. -/
def absorbCell (kernel : Nat → Nat) (kernelBaseSize kernelHeight rStart gStart bStart : Nat)
    (st : AbsorbState) (r g b : Nat) : AbsorbState :=
  let otherRgb := (r <<< 16) ||| (g <<< 8) ||| b
  let otherCount := (st.colorCounts otherRgb).count
  if otherCount = 0 then st
  else
    let weight := kernel ((r - rStart) * kernelBaseSize * kernelBaseSize
      + (g - gStart) * kernelBaseSize + (b - bStart))
    let newCount := otherCount - ((kernelHeight * weight) >>> 16)
    if newCount = otherCount then st
    else
      let lastNode := (st.colorCounts otherRgb).node
      let un := unlinkNode st.sortedBuffer st.sortedMap otherCount lastNode
      let re := if newCount ≠ 0 then relinkNode un.1 un.2 newCount lastNode otherRgb else un
      ⟨setAt st.colorCounts otherRgb ⟨newCount, lastNode⟩, re.1, re.2,
        st.pixelCount + (otherCount - newCount)⟩

/-- `absorb_color`; the returned `pixelCount` is the field of the final state. -/
def absorb_color (colorCounts : Nat → CountNode) (sortedBuffer : Buffer)
    (sortedMap : List (Nat × Nat)) (kernel : Nat → Nat) (kernelSize color kernelHeight : Nat) :
    AbsorbState :=
  let rCenter := byte2 color
  let gCenter := byte1 color
  let bCenter := byte0 color
  let rStart := rCenter - kernelSize
  let gStart := gCenter - kernelSize
  let bStart := bCenter - kernelSize
  let rEnd := min (rCenter + kernelSize) 255
  let gEnd := min (gCenter + kernelSize) 255
  let bEnd := min (bCenter + kernelSize) 255
  let kernelBaseSize := kernelSize * 2 + 1
  (List.range' rStart (rEnd + 1 - rStart)).foldl
    (fun st r => (List.range' gStart (gEnd + 1 - gStart)).foldl
      (fun st g => (List.range' bStart (bEnd + 1 - bStart)).foldl
        (fun st b => absorbCell kernel kernelBaseSize kernelHeight rStart gStart bStart st r g b)
        st) st)
    ⟨colorCounts, sortedBuffer, sortedMap, 0⟩

/-- What the floating-point side of `get_color_table` supplies to the integer
side: `MinKernelSize`, the kernel `create_kernel(MinKernelSize, 1 / PI)` of the
forced phase, and, for the iteration that emits output position `outIndex`, the
`kernelSize` and the kernel in use (flat index to 16-bit weight).  They depend
on `exp` and on the shaping variable `x0`, which the embedding does not
compute. -/
structure KernelOracle where
  minKernelSize : Nat
  forcedKernel : Nat → Nat
  kernelSize : Nat → Nat
  kernel : Nat → Nat → Nat

/-- The ranges the source guarantees for the oracle's values: the two clamps and
the `uint16_t` kernel entries. -/
def KernelOracle.Valid (oracle : KernelOracle) : Prop :=
  2 ≤ oracle.minKernelSize ∧ oracle.minKernelSize ≤ MaxKernelSize - 1 ∧
  (∀ i, oracle.minKernelSize ≤ oracle.kernelSize i ∧ oracle.kernelSize i ≤ MaxKernelSize) ∧
  (∀ j, oracle.forcedKernel j < 65536) ∧ ∀ i j, oracle.kernel i j < 65536

/-- The power `2 ^ e` for an integer exponent. -/
def pow2 (e : Int) : ℚ :=
  if 0 ≤ e then ((2 ^ e.toNat : Nat) : ℚ) else ((2 ^ (-e).toNat : Nat) : ℚ)⁻¹

/-- The number of binary digits of `n`, counted in at most `fuel` halvings. -/
def bitLength : Nat → Nat → Nat
  | 0, _ => 0
  | fuel + 1, n => if n = 0 then 0 else bitLength fuel (n / 2) + 1

/-- The binary exponent of a positive rational: the `e` with
`2 ^ e ≤ x < 2 ^ (e + 1)`. -/
def binade (x : ℚ) : Int :=
  if x < pow2 ((bitLength x.num.natAbs x.num.natAbs : Int) - (bitLength x.den x.den : Int)) then
    (bitLength x.num.natAbs x.num.natAbs : Int) - (bitLength x.den x.den : Int) - 1
  else (bitLength x.num.natAbs x.num.natAbs : Int) - (bitLength x.den x.den : Int)

/-- Rounding to the nearest integer, a tie going to the even one. -/
def roundHalfEven (y : ℚ) : Int :=
  if y - ⌊y⌋ < 1 / 2 then ⌊y⌋
  else if 1 / 2 < y - ⌊y⌋ then ⌊y⌋ + 1
  else if ⌊y⌋ % 2 = 0 then ⌊y⌋ else ⌊y⌋ + 1

/-- The `double` nearest to a real value, a tie going to the even significand:
the rounding of an IEEE 754 binary64 operation, with 53 significant bits from
the exponent `-1022` up and steps of `2 ^ -1074` below.  A `double` is held as
its rational value; the values of `get_color_table` (channels up to 255, counts
below `2 ^ 64`, their products and quotients) stay below the overflow threshold
`2 ^ 1024`, which is not modelled. -/
def toDouble (x : ℚ) : ℚ :=
  if x = 0 then 0
  else if 0 < x then
    (roundHalfEven (x * pow2 (52 - max (binade x) (-1022))) : ℚ)
      * pow2 (max (binade x) (-1022) - 52)
  else
    -((roundHalfEven (-x * pow2 (52 - max (binade (-x)) (-1022))) : ℚ)
      * pow2 (max (binade (-x)) (-1022) - 52))

/-- The record `ColorInfo`; a field holds the rational value of its `double`. -/
structure ColorInfo where
  r : ℚ
  g : ℚ
  b : ℚ
  count : ℚ

/-- The downward scan `for (;; d--)` of the small heads: the value of
`decrementPixelCount` at which the loop leaves, either `d ≤ skip` (nothing
left above `skip`) or the first `d` with `sortedBuffer[d - 1] != 0`. -/
def scanDown (buf : Buffer) (skip : Nat) : Nat → Nat
  | 0 => 0
  | d + 1 =>
    if d + 1 ≤ skip then d + 1
    else if buf.data d ≠ 0 then d + 1
    else scanDown buf skip d

/-- What a pop yields: the colour, its recorded count, and the index afterwards. -/
structure PopResult where
  rgb : Nat
  pixelCount : Nat
  sortedBuffer : Buffer
  sortedMap : List (Nat × Nat)
  decrementPixelCount : Nat

/-- The pop of the highest-count colour, written twice in `get_color_table` (in
the pick loop with `skip = 0`, in the reduction loop with `skip = SkipMinCount`).
`Sum.inl d` is the jump out of the loop with `decrementPixelCount = d`. -/
def popMax (buf : Buffer) (map : List (Nat × Nat)) (decrementPixelCount skip : Nat) :
    Nat ⊕ PopResult :=
  match map.getLast? with
  | some (pixelCount, listHead) =>
    let lastNode := buf.data listHead
    let rgb := buf.data lastNode
    let buf1 := buf.write listHead (buf.data (lastNode + 1))
    .inr ⟨rgb, pixelCount, buf1, if buf1.data listHead = 0 then map.dropLast else map,
      decrementPixelCount⟩
  | none =>
    let d := scanDown buf skip decrementPixelCount
    if d ≤ skip then .inl d
    else
      let listHead := d - 1
      let lastNode := buf.data listHead
      let rgb := buf.data lastNode
      let buf1 := buf.write listHead (buf.data (lastNode + 1))
      .inr ⟨rgb, d, if buf1.data listHead ≠ 0 then buf1.write (buf1.data listHead + 2) 0 else buf1,
        map, d⟩

/-- The state of `get_color_table` between iterations of its loops. -/
structure TableState where
  colorCounts : Nat → CountNode
  sortedBuffer : Buffer
  sortedMap : List (Nat × Nat)
  colorTable : List Nat
  counter : List ColorInfo
  decrementPixelCount : Nat
  outIndex : Nat

/-- The body of the forced phase for one forced colour: absorb around it with
height `maxPixelCount` and write it to the table. -/
def forceStep (oracle : KernelOracle) (maxPixelCount : Nat) (st : TableState) (color : Nat) :
    TableState :=
  let ab := absorb_color st.colorCounts st.sortedBuffer st.sortedMap oracle.forcedKernel
    oracle.minKernelSize color maxPixelCount
  ⟨ab.colorCounts, ab.sortedBuffer, ab.sortedMap, st.colorTable.set st.outIndex color,
    st.counter, st.decrementPixelCount, st.outIndex + 1⟩

/-- The forced phase `for (color_t color : forceColorList)`. -/
def forcePhase (oracle : KernelOracle) (maxPixelCount : Nat) (forceColorList : List Nat)
    (st : TableState) : TableState :=
  forceColorList.foldl (forceStep oracle maxPixelCount) st

/-- The body of the pick loop after the pop: zero the count of the popped colour,
emit it, absorb around it with its recorded count as height, record its
`ColorInfo`. -/
def pickStep (oracle : KernelOracle) (st : TableState) (pop : PopResult) : TableState :=
  let counts1 := setAt st.colorCounts pop.rgb ⟨0, (st.colorCounts pop.rgb).node⟩
  let ab := absorb_color counts1 pop.sortedBuffer pop.sortedMap (oracle.kernel st.outIndex)
    (oracle.kernelSize st.outIndex) pop.rgb pop.pixelCount
  ⟨ab.colorCounts, ab.sortedBuffer, ab.sortedMap, st.colorTable.set st.outIndex pop.rgb,
    st.counter ++ [⟨byte2 pop.rgb, byte1 pop.rgb, byte0 pop.rgb,
      toDouble ((pop.pixelCount + ab.pixelCount : Nat) : ℚ)⟩],
    pop.decrementPixelCount, st.outIndex + 1⟩

/-- The pick loop `for (; outIndex < tableLength; outIndex++)` with `n` iterations
to go; it ends early, with `outIndex < tableLength`, on `goto ReduceBegin`. -/
def pickLoop (oracle : KernelOracle) : Nat → TableState → TableState
  | 0, st => st
  | n + 1, st =>
    match popMax st.sortedBuffer st.sortedMap st.decrementPixelCount 0 with
    | .inl d => { st with decrementPixelCount := d }
    | .inr pop => pickLoop oracle n (pickStep oracle st pop)

/-- The search of the reduction loop for the entry of `counter` nearest to
`(r, g, b)`: `(minVar, reduceIndex)`, `minVar = none` standing for infinity.
Every `double` operation is the exact one followed by `toDouble`, each rounded
on its own. -/
def nearestInfo (r g b : ℚ) : List ColorInfo → Nat → Option ℚ × Nat → Option ℚ × Nat
  | [], _, acc => acc
  | info :: rest, i, acc =>
    let dr := toDouble (r - info.r)
    let dg := toDouble (g - info.g)
    let db := toDouble (b - info.b)
    let currVar := toDouble (toDouble (toDouble (dr * dr) + toDouble (dg * dg))
      + toDouble (db * db))
    match acc.1 with
    | none => nearestInfo r g b rest (i + 1) (some currVar, i)
    | some minVar =>
      if currVar < minVar then nearestInfo r g b rest (i + 1) (some currVar, i)
      else nearestInfo r g b rest (i + 1) acc

/-- The fold of a popped colour into `counter[reduceIndex]` by weighted mean, in
`double` arithmetic: `totalCount = count + newPixelCount`, then for each channel
`(mean * count + channel * newPixelCount) / totalCount`, every operation rounded
on its own. -/
def foldInto (info : ColorInfo) (r g b newPixelCount : ℚ) : ColorInfo :=
  ⟨toDouble (toDouble (toDouble (info.r * info.count) + toDouble (r * newPixelCount))
      / toDouble (info.count + newPixelCount)),
    toDouble (toDouble (toDouble (info.g * info.count) + toDouble (g * newPixelCount))
      / toDouble (info.count + newPixelCount)),
    toDouble (toDouble (toDouble (info.b * info.count) + toDouble (b * newPixelCount))
      / toDouble (info.count + newPixelCount)),
    toDouble (info.count + newPixelCount)⟩

/-- The reduction loop `while (true)`, run for at most `fuel` pops; `none` when the
loop has not reached `Return` by then. -/
def reduceLoop : Nat → Buffer → List (Nat × Nat) → Nat → List ColorInfo →
    Option (List ColorInfo)
  | 0, _, _, _, _ => none
  | fuel + 1, buf, map, decrementPixelCount, counter =>
    match popMax buf map decrementPixelCount SkipMinCount with
    | .inl _ => some counter
    | .inr pop =>
      let reduceIndex := (nearestInfo (byte2 pop.rgb) (byte1 pop.rgb) (byte0 pop.rgb) counter 0
        (none, 0)).2
      match counter[reduceIndex]? with
      | some info =>
        reduceLoop fuel pop.sortedBuffer pop.sortedMap pop.decrementPixelCount
          (counter.set reduceIndex
            (foldInto info (byte2 pop.rgb) (byte1 pop.rgb) (byte0 pop.rgb) pop.pixelCount))
      | none => reduceLoop fuel pop.sortedBuffer pop.sortedMap pop.decrementPixelCount counter

/-- The value `round(x)` cast to `uint32_t`, for `x ≥ 0`. -/
def roundU32 (x : ℚ) : Nat := (⌊x + 1 / 2⌋).toNat % 2 ^ 32

/-- The loop at `Return`: write the rounded means to positions
`forceColorCount + i`. -/
def writeReduced (forceColorCount : Nat) : List ColorInfo → Nat → List Nat → List Nat
  | [], _, colorTable => colorTable
  | info :: rest, i, colorTable =>
    writeReduced forceColorCount rest (i + 1)
      (colorTable.set (forceColorCount + i)
        (((roundU32 info.r <<< 16) ||| (roundU32 info.g <<< 8) ||| roundU32 info.b) % 2 ^ 32))

/-- The initial `maxPixelCount`: the largest key of the map, or else the largest
`m ≤ BaseLength` with `sortedBuffer[m - 1] != 0` (`0` when there is none). -/
def maxPixelCountOf (buf : Buffer) (map : List (Nat × Nat)) : Nat :=
  match map.getLast? with
  | some (count, _) => count
  | none => scanDown buf 0 BaseLength

/-- What `get_color_table` leaves behind: the returned value, the caller's table,
the extractor. -/
structure TableResult where
  ret : Nat
  colorTable : List Nat
  extractor : SpaceShockColorExtractor

/-- `get_color_table`.  `tableLength` is the length of `colorTable` (the caller's
buffer with its prior contents), `forceColorCount` the length of `forceColors`.
The reduction loop runs on `fuel`; `none` when it has not ended by then. -/
def get_color_table (oracle : KernelOracle) (extractor : SpaceShockColorExtractor)
    (colorTable : List Nat) (forceColors : List Nat) (fuel : Nat) : Option TableResult :=
  if colorTable.length < forceColors.length then some ⟨SIZE_MAX, colorTable, extractor⟩
  else
    let forceColorList := forceColors.map (fun c => c &&& 0xffffff)
    let sorted := sort_colors extractor
    let st1 := forcePhase oracle (maxPixelCountOf sorted.sortedBuffer sorted.sortedMap)
      forceColorList
      ⟨sorted.colorCounts, sorted.sortedBuffer, sorted.sortedMap, colorTable, [], BaseLength, 0⟩
    if st1.outIndex = colorTable.length then
      some ⟨st1.outIndex, st1.colorTable,
        ⟨extractor.colorList, extractor.pixelTotalCount, st1.colorCounts⟩⟩
    else
      let st2 := pickLoop oracle (colorTable.length - st1.outIndex) st1
      if st2.outIndex < colorTable.length then
        some ⟨st2.outIndex, st2.colorTable,
          ⟨extractor.colorList, extractor.pixelTotalCount, st2.colorCounts⟩⟩
      else
        match reduceLoop fuel st2.sortedBuffer st2.sortedMap st2.decrementPixelCount
            st2.counter with
        | none => none
        | some counter =>
          some ⟨colorTable.length, writeReduced forceColors.length counter 0 st2.colorTable,
            ⟨extractor.colorList, extractor.pixelTotalCount, st2.colorCounts⟩⟩

/-- An oracle with one kernel size and one weight throughout. -/
def flatOracle (size weight : Nat) : KernelOracle :=
  ⟨size, fun _ => weight, fun _ => size, fun _ _ => weight⟩

end SpaceShockColorExtractor

/-! ## Specification vocabulary and invariants for the extractor -/

namespace SpaceShockColorExtractor

open EuclideanPalette (setAt byte0 byte1 byte2)

/-- The state in which `get_color_table` enters its pick loop when there is no
forced colour: the index of `sort_colors`, the caller's table, nothing emitted. -/
def pickStart (extractor : SpaceShockColorExtractor) (colorTable : List Nat) : TableState :=
  ⟨(sort_colors extractor).colorCounts, (sort_colors extractor).sortedBuffer,
    (sort_colors extractor).sortedMap, colorTable, [], BaseLength, 0⟩

/-- A histogram as `add_bitmap` builds it: the colour list has no repetition and
holds 24-bit colours, a colour of the list has a count from 1 to `2 ^ 32 - 1`,
every other slot has count 0. -/
def Histogram (extractor : SpaceShockColorExtractor) : Prop :=
  extractor.colorList.Nodup ∧
  (∀ c ∈ extractor.colorList,
    c < 2 ^ 24 ∧ 1 ≤ (extractor.colorCounts c).count ∧ (extractor.colorCounts c).count < 2 ^ 32) ∧
  ∀ c, c ∉ extractor.colorList → (extractor.colorCounts c).count = 0

/-- Every slot of a colour outside the list `colors` is `{0, 0}`. -/
def ZeroOutside (colors : List Nat) (colorCounts : Nat → CountNode) : Prop :=
  ∀ c, c ∉ colors → colorCounts c = ⟨0, 0⟩

end SpaceShockColorExtractor

namespace SpaceShockColorExtractor

open EuclideanPalette (setAt byte0 byte1 byte2)

/-- Walking from node `n` along the links stored at offset `field` of each node
(1 for the `prev` link, 2 for the `next` link) comes to node `m`; a link 0 ends
the walk. -/
inductive Reaches (buf : Buffer) (field : Nat) : Nat → Nat → Prop
  | here (n : Nat) : n ≠ 0 → Reaches buf field n n
  | step (n m : Nat) : n ≠ 0 → Reaches buf field (buf.data (n + field)) m → Reaches buf field n m

/-- The head node of the order list of count `k`: `small_heads[k - 1]` for
`k ≤ BaseLength`, otherwise the node in the head cell that `large_heads[k]`
names (0 when the map has no such key). -/
def listHeadOf (buf : Buffer) (map : List (Nat × Nat)) (k : Nat) : Nat :=
  if k ≤ BaseLength then buf.data (k - 1)
  else
    match mapFind map k with
    | some listHead => buf.data listHead
    | none => 0

/-- The nodes `nodes`, in this order, are the list that starts at `start` and is
linked through the `prev` links, ending with link 0. -/
def PrevChain (buf : Buffer) : Nat → List Nat → Prop
  | start, [] => start = 0
  | start, n :: rest => start = n ∧ n ≠ 0 ∧ PrevChain buf (buf.data (n + 1)) rest

/-- The colours of `live` whose recorded count is `k`, in the order of `live`. -/
def bucketOf (count : Nat → Nat) (live : List Nat) (k : Nat) : List Nat :=
  live.filter (fun c => count c = k)

/-- The index `(sortedBuffer, sortedMap)` represents the colours `live` (latest
inserted first) with the recorded counts `count` and the nodes `node`: nodes lie
above the small heads and do not overlap each other or a head cell, a node
holds its colour, the list of each count from 1 to `BaseLength` starts at its
small head, the map is in key order and has exactly the counts above
`BaseLength` that occur, each with its own head cell and its list. -/
structure IndexInv (count node : Nat → Nat) (buf : Buffer) (map : List (Nat × Nat))
    (live : List Nat) : Prop where
  nodup : live.Nodup
  count_pos : ∀ c ∈ live, 1 ≤ count c
  node_ge : ∀ c ∈ live, BaseLength ≤ node c
  node_sep : ∀ c ∈ live, ∀ d ∈ live, c ≠ d → node c + 3 ≤ node d ∨ node d + 3 ≤ node c
  colour : ∀ c ∈ live, buf.data (node c) = c
  small : ∀ k, 1 ≤ k → k ≤ BaseLength →
    PrevChain buf (buf.data (k - 1)) ((bucketOf count live k).map node)
  map_sorted : map.Pairwise (fun a b => a.1 < b.1)
  map_key : ∀ kh ∈ map, BaseLength < kh.1 ∧ BaseLength ≤ kh.2 ∧ bucketOf count live kh.1 ≠ [] ∧
    PrevChain buf (buf.data kh.2) ((bucketOf count live kh.1).map node)
  map_head_sep : ∀ kh ∈ map, ∀ c ∈ live, kh.2 < node c ∨ node c + 3 ≤ kh.2
  map_head_inj : ∀ kh ∈ map, ∀ kj ∈ map, kh.2 = kj.2 → kh = kj
  large : ∀ c ∈ live, BaseLength < count c → ∃ h, (count c, h) ∈ map

/-- The invariant of the loop of `sort_colors` after the colours `live` (latest
first): the index represents them, the counts are untouched, and every cell in
use lies below `lastNewIndex`. -/
def SortInv (count : Nat → Nat) (st : SortState) (live : List Nat) : Prop :=
  IndexInv count (fun c => (st.colorCounts c).node) st.sortedBuffer st.sortedMap live ∧
  (∀ c, (st.colorCounts c).count = count c) ∧ BaseLength ≤ st.lastNewIndex ∧
  (∀ c ∈ live, (st.colorCounts c).node + 3 ≤ st.lastNewIndex) ∧
  ∀ kh ∈ st.sortedMap, kh.2 < st.lastNewIndex

/-- The distance between two channel values. -/
def channelGap (a b : Nat) : Nat := max a b - min a b

/-- Two colours differ by more than `MaxKernelSize = 28` in at least one
channel. -/
def FarApart (c d : Nat) : Prop :=
  MaxKernelSize < channelGap (byte2 c) (byte2 d) ∨ MaxKernelSize < channelGap (byte1 c) (byte1 d) ∨
    MaxKernelSize < channelGap (byte0 c) (byte0 d)

instance (c d : Nat) : Decidable (FarApart c d) := inferInstanceAs (Decidable (_ ∨ _))

end SpaceShockColorExtractor

namespace SpaceShockColorExtractor

open EuclideanPalette (setAt byte0 byte1 byte2)

/-- The invariant of the loops of `get_color_table` while no colour is relocated:
the index represents the colours `live` still to pop, a live colour has its
recorded count and node and every other slot has count 0, and no live colour
of count at most `BaseLength` has a count above `decrementPixelCount`. -/
def PickInv (count node : Nat → Nat) (live : List Nat) (st : TableState) : Prop :=
  IndexInv count node st.sortedBuffer st.sortedMap live ∧
  (∀ x, st.colorCounts x = ⟨if x ∈ live then count x else 0, node x⟩) ∧
  st.decrementPixelCount ≤ BaseLength ∧
  ∀ y ∈ live, count y ≤ BaseLength → count y ≤ st.decrementPixelCount

/-- The `ColorInfo` that the pick loop records for a popped colour that absorbs
nothing. -/
def infoOf (count : Nat → Nat) (c : Nat) : ColorInfo :=
  ⟨byte2 c, byte1 c, byte0 c, toDouble ((count c + 0 : Nat) : ℚ)⟩


/-- Modelled from the spec: the mean of one channel (`channel` picks it) over a
list of colours. -/
def channelMean (channel : Nat → Nat) (colors : List Nat) : ℚ :=
  (((colors.map channel).sum : Nat) : ℚ) / ((colors.length : Nat) : ℚ)

/-- The record `info` holds, for the colours `colors`, each of count `k`, their
total count and in each channel a value that is not negative and within
`colors.length * 2 ^ -43` of the mean of the channel. -/
def NearMean (colors : List Nat) (k : Nat) (info : ColorInfo) : Prop :=
  info.count = ((k * colors.length : Nat) : ℚ) ∧
  (0 ≤ info.r ∧ |info.r - channelMean byte2 colors| ≤ (colors.length : ℚ) * pow2 (-43)) ∧
  (0 ≤ info.g ∧ |info.g - channelMean byte1 colors| ≤ (colors.length : ℚ) * pow2 (-43)) ∧
  (0 ≤ info.b ∧ |info.b - channelMean byte0 colors| ≤ (colors.length : ℚ) * pow2 (-43))

end SpaceShockColorExtractor

namespace SpaceShockColorExtractor

open EuclideanPalette (setAt byte0 byte1 byte2)

/-- The colour `x` lies in the box `[c - size, c + size]³ ∩ [0, 255]³` that
`absorb_color` sweeps around the centre `color`. -/
def InSweep (kernelSize color x : Nat) : Prop :=
  x < 2 ^ 24 ∧ channelGap (byte2 color) (byte2 x) ≤ kernelSize ∧
    channelGap (byte1 color) (byte1 x) ≤ kernelSize ∧
    channelGap (byte0 color) (byte0 x) ≤ kernelSize

instance (kernelSize color x : Nat) : Decidable (InSweep kernelSize color x) :=
  inferInstanceAs (Decidable (_ ∧ _))

/-- The flat kernel index that `absorb_color` reads for the colour `x`:
`(r - rStart) * kernelBaseSize * kernelBaseSize + (g - gStart) * kernelBaseSize
+ (b - bStart)`, the starts being the clamped lower ends of the sweep. -/
def sweepIndex (kernelSize color x : Nat) : Nat :=
  (byte2 x - (byte2 color - kernelSize)) * (kernelSize * 2 + 1) * (kernelSize * 2 + 1)
    + (byte1 x - (byte1 color - kernelSize)) * (kernelSize * 2 + 1)
    + (byte0 x - (byte0 color - kernelSize))

/-- The entry of a kernel laid out by `create_kernel` for the offset
`(dr, dg, db)` in `[-kernelSize, kernelSize]³`: `create_kernel` stores the weight
of the offset `(z - kernelSize, y - kernelSize, x - kernelSize)` at the flat
index `z * base2 + y * base1 + x`. -/
def kernelAt (kernel : Nat → Nat) (kernelSize : Nat) (dr dg db : Int) : Nat :=
  kernel ((dr + kernelSize) * (kernelSize * 2 + 1) * (kernelSize * 2 + 1)
    + (dg + kernelSize) * (kernelSize * 2 + 1) + (db + kernelSize)).toNat

/-- The colour of a cell `(r, g, b)` of the sweep, as `absorb_color` packs it. -/
def cellColor (c : Nat × Nat × Nat) : Nat := (c.1 <<< 16) ||| (c.2.1 <<< 8) ||| c.2.2

/-- The count that the body of the sweep leaves at a cell whose count was `n`. -/
def cellCount (kernel : Nat → Nat) (kernelBaseSize kernelHeight rStart gStart bStart : Nat)
    (n : Nat) (c : Nat × Nat × Nat) : Nat :=
  n - ((kernelHeight * kernel ((c.1 - rStart) * kernelBaseSize * kernelBaseSize
    + (c.2.1 - gStart) * kernelBaseSize + (c.2.2 - bStart))) >>> 16)

end SpaceShockColorExtractor

namespace SpaceShockColorExtractor

open EuclideanPalette (setAt byte0 byte1 byte2)

/-- The cells `(r, g, b)` that the three loops of `absorb_color` visit, in the
order of the visits. -/
def sweepCells (kernelSize color : Nat) : List (Nat × Nat × Nat) :=
  List.range' (byte2 color - kernelSize)
      (min (byte2 color + kernelSize) 255 + 1 - (byte2 color - kernelSize)) ×ˢ
    (List.range' (byte1 color - kernelSize)
        (min (byte1 color + kernelSize) 255 + 1 - (byte1 color - kernelSize)) ×ˢ
      List.range' (byte0 color - kernelSize)
        (min (byte0 color + kernelSize) 255 + 1 - (byte0 color - kernelSize)))

end SpaceShockColorExtractor

namespace SpaceShockColorExtractor

open EuclideanPalette (setAt byte0 byte1 byte2)

/-- The body of the pick loop after the pop, with the sweep of `absorb_color` cut
down to the cell of the colour `x`: it is `pickStep` whenever `x` is the only
colour of the swept box with a non-zero count. -/
def pickStepAt (oracle : KernelOracle) (st : TableState) (pop : PopResult) (x : Nat) :
    TableState :=
  let counts1 := setAt st.colorCounts pop.rgb ⟨0, (st.colorCounts pop.rgb).node⟩
  let ab := absorbCell (oracle.kernel st.outIndex) (oracle.kernelSize st.outIndex * 2 + 1)
    pop.pixelCount (byte2 pop.rgb - oracle.kernelSize st.outIndex)
    (byte1 pop.rgb - oracle.kernelSize st.outIndex)
    (byte0 pop.rgb - oracle.kernelSize st.outIndex)
    ⟨counts1, pop.sortedBuffer, pop.sortedMap, 0⟩ (byte2 x) (byte1 x) (byte0 x)
  ⟨ab.colorCounts, ab.sortedBuffer, ab.sortedMap, st.colorTable.set st.outIndex pop.rgb,
    st.counter ++ [⟨byte2 pop.rgb, byte1 pop.rgb, byte0 pop.rgb,
      toDouble ((pop.pixelCount + ab.pixelCount : Nat) : ℚ)⟩],
    pop.decrementPixelCount, st.outIndex + 1⟩

/-- One iteration of the pick loop with `pickStepAt` for its body. -/
def pickOnceAt (oracle : KernelOracle) (st : TableState) (x : Nat) : TableState :=
  match popMax st.sortedBuffer st.sortedMap st.decrementPixelCount 0 with
  | .inl d => { st with decrementPixelCount := d }
  | .inr pop => pickStepAt oracle st pop x

end SpaceShockColorExtractor

/-! # Theorems

## The mapper -/

namespace EuclideanPalette

theorem byte0_lt (c : Nat) : byte0 c < 256 := Nat.mod_lt _ (by norm_num)

theorem byte1_lt (c : Nat) : byte1 c < 256 := Nat.mod_lt _ (by norm_num)

theorem byte2_lt (c : Nat) : byte2 c < 256 := Nat.mod_lt _ (by norm_num)

theorem toByte_of_lt {n : Nat} (h : n < 256) : toByte n = n := Nat.mod_eq_of_lt h

theorem toByte_le (n : Nat) : toByte n ≤ n := Nat.mod_le _ _

theorem setAt_same {α : Type} (f : Nat → α) (i : Nat) (v : α) : setAt f i v i = v := by
  simp [setAt]

theorem setAt_ne {α : Type} (f : Nat → α) {i j : Nat} (v : α) (h : j ≠ i) :
    setAt f i v j = f j := by
  simp [setAt, h]

theorem mask24_eq_mod (c : Nat) : c &&& 0xffffff = c % 2 ^ 24 := by
  have h : (0xffffff : Nat) = 2 ^ 24 - 1 := by norm_num
  rw [h, Nat.and_pow_two_sub_one_eq_mod]

theorem byte0_mask (c : Nat) : byte0 (c &&& 0xffffff) = byte0 c := by
  rw [mask24_eq_mod]; unfold byte0; omega

theorem byte1_mask (c : Nat) : byte1 (c &&& 0xffffff) = byte1 c := by
  rw [mask24_eq_mod]; unfold byte1; omega

theorem byte2_mask (c : Nat) : byte2 (c &&& 0xffffff) = byte2 c := by
  rw [mask24_eq_mod]; unfold byte2; omega

/-- A squared distance between byte triples lies in `[0, 3 * 255 ^ 2]`. -/
theorem color_distance_bounds (r1 g1 b1 r2 g2 b2 : Nat) (h1 : r1 < 256) (h2 : g1 < 256)
    (h3 : b1 < 256) (h4 : r2 < 256) (h5 : g2 < 256) (h6 : b2 < 256) :
    0 ≤ color_distance r1 g1 b1 r2 g2 b2 ∧ color_distance r1 g1 b1 r2 g2 b2 < INT_MAX := by
  unfold color_distance square_sum3 INT_MAX
  constructor
  · nlinarith [mul_self_nonneg ((r1 : Int) - r2), mul_self_nonneg ((g1 : Int) - g2),
      mul_self_nonneg ((b1 : Int) - b2)]
  · have hr : ((r1 : Int) - r2) * ((r1 : Int) - r2) ≤ 255 * 255 := by
      have : -255 ≤ (r1 : Int) - r2 ∧ (r1 : Int) - r2 ≤ 255 := by omega
      nlinarith
    have hg : ((g1 : Int) - g2) * ((g1 : Int) - g2) ≤ 255 * 255 := by
      have : -255 ≤ (g1 : Int) - g2 ∧ (g1 : Int) - g2 ≤ 255 := by omega
      nlinarith
    have hb : ((b1 : Int) - b2) * ((b1 : Int) - b2) ≤ 255 * 255 := by
      have : -255 ≤ (b1 : Int) - b2 ∧ (b1 : Int) - b2 ≤ 255 := by omega
      nlinarith
    omega

theorem dist2_bounds (colorTable : List Nat) (pixel i : Nat) :
    0 ≤ dist2 colorTable pixel i ∧ dist2 colorTable pixel i < INT_MAX :=
  color_distance_bounds _ _ _ _ _ _ (byte2_lt _) (byte1_lt _) (byte0_lt _) (byte2_lt _)
    (byte1_lt _) (byte0_lt _)


theorem drop_cons_inv {α : Type} {t : List α} {i : Nat} {c : α} {rest : List α} (d : α)
    (h : t.drop i = c :: rest) : i < t.length ∧ t.getD i d = c ∧ t.drop (i + 1) = rest := by
  have hi : i < t.length := by
    by_contra hcon
    rw [List.drop_eq_nil_of_le (by omega)] at h
    cases h
  have h2 := List.drop_eq_getElem_cons hi
  rw [h2] at h
  injection h with h3 h4
  refine ⟨hi, ?_, h4⟩
  rw [List.getD_eq_getElem?_getD, List.getElem?_eq_getElem hi]
  simpa using h3

/-- The linear scan from a consistent intermediate state ends on the lowest
nearest entry (or on `0` for an empty table). -/
theorem linear_scan_spec (t : List Nat) (p : Nat) :
    ∀ (l : List Nat) (i : Nat) (m : Int) (f : Nat), t.drop i = l → i ≤ t.length →
      ((i = 0 ∧ m = INT_MAX ∧ f = 0) ∨
        (f < i ∧ m = dist2 t p f ∧ 0 < m ∧ (∀ j < i, m ≤ dist2 t p j) ∧
          ∀ j < f, m < dist2 t p j)) →
      ((t = [] ∧ NoOptimizationPalette.scan (byte2 p) (byte1 p) (byte0 p) l i m f = 0) ∨
        IsLowestNearest t p (NoOptimizationPalette.scan (byte2 p) (byte1 p) (byte0 p) l i m f)) := by
  intro l
  induction l with
  | nil =>
    intro i m f hdrop hile hinv
    simp only [NoOptimizationPalette.scan]
    have hlen : t.length ≤ i := by
      by_contra hcon
      have := List.drop_eq_getElem_cons (l := t) (n := i) (by omega)
      rw [hdrop] at this
      cases this
    rcases hinv with ⟨hi0, _, hf0⟩ | ⟨hfi, hm, hpos, hall, hlow⟩
    · left
      subst hi0
      exact ⟨List.length_eq_zero.mp (by omega), hf0⟩
    · right
      have hi : i = t.length := by omega
      subst hi
      refine ⟨⟨hfi, ?_⟩, ?_⟩
      · intro j hj
        rw [← hm]; exact hall j hj
      · intro j hj
        rw [← hm]; exact hlow j hj
  | cons c rest ih =>
    intro i m f hdrop hile hinv
    obtain ⟨hi, hc, hrest⟩ := drop_cons_inv 0 hdrop
    have hd : color_distance (byte2 p) (byte1 p) (byte0 p) (byte2 c) (byte1 c) (byte0 c)
        = dist2 t p i := by
      unfold dist2; rw [hc]
    have hb := dist2_bounds t p i
    simp only [NoOptimizationPalette.scan, hd]
    by_cases hlt : dist2 t p i < m
    · rw [if_pos hlt]
      by_cases hz : dist2 t p i = 0
      · rw [if_pos hz]
        right
        refine ⟨⟨hi, ?_⟩, ?_⟩
        · intro j _
          rw [hz]; exact (dist2_bounds t p j).1
        · intro j hj
          rcases hinv with ⟨hi0, _, _⟩ | ⟨_, _, _, hall, _⟩
          · omega
          · have := hall j hj
            omega
      · rw [if_neg hz]
        apply ih (i + 1) (dist2 t p i) i hrest (by omega)
        right
        refine ⟨by omega, rfl, by omega, ?_, ?_⟩
        · intro j hj
          rcases hinv with ⟨hi0, _, _⟩ | ⟨_, _, _, hall, _⟩
          · have : j = i := by omega
            subst this; exact le_refl _
          · by_cases hji : j = i
            · subst hji; exact le_refl _
            · have := hall j (by omega)
              omega
        · intro j hj
          rcases hinv with ⟨hi0, _, _⟩ | ⟨_, _, _, hall, _⟩
          · omega
          · have := hall j hj
            omega
    · rw [if_neg hlt]
      apply ih (i + 1) m f hrest (by omega)
      rcases hinv with ⟨_, hm, _⟩ | ⟨hfi, hm, hpos, hall, hlow⟩
      · exfalso
        rw [hm] at hlt
        exact hlt hb.2
      · right
        refine ⟨by omega, hm, hpos, ?_, hlow⟩
        intro j hj
        by_cases hji : j = i
        · subst hji; omega
        · exact hall j (by omega)

/-- The uncached linear scan returns the lowest index among the nearest entries
of a non-empty table of at most 256 colours. -/
theorem linear_slow_map_spec (t : List Nat) (p : Nat) (h1 : 1 ≤ t.length)
    (h2 : t.length ≤ 256) : IsLowestNearest t p (NoOptimizationPalette.slow_map t p) := by
  unfold NoOptimizationPalette.slow_map
  rcases linear_scan_spec t p t 0 INT_MAX 0 rfl (by omega) (Or.inl ⟨rfl, rfl, rfl⟩) with
    ⟨hnil, _⟩ | h
  · subst hnil; simp at h1
  · have hlt := h.1.1
    rw [toByte_of_lt (by omega)]
    exact h

/-- The uncached linear scan returns an index below the table length, or `0`. -/
theorem linear_slow_map_lt (t : List Nat) (p : Nat) (h2 : t.length ≤ 256) :
    NoOptimizationPalette.slow_map t p < t.length ∨ NoOptimizationPalette.slow_map t p = 0 := by
  unfold NoOptimizationPalette.slow_map
  rcases linear_scan_spec t p t 0 INT_MAX 0 rfl (by omega) (Or.inl ⟨rfl, rfl, rfl⟩) with
    ⟨_, h0⟩ | h
  · right; rw [h0]; rfl
  · left
    have hlt := h.1.1
    rw [toByte_of_lt (by omega)]
    exact hlt


theorem single_cache_index_fst (f : Nat → Nat) (cache : SingleCachePalette)
    (q : Nat) (hc : cache.Consistent f) (hf : ∀ c, f c < 255) :
    (cache.palette_index f q).1 = f q := by
  unfold SingleCachePalette.palette_index
  by_cases h : cache.indexMap q ≠ 0
  · rw [if_pos h]
    rcases hc q with h0 | h1
    · exact absurd h0 h
    · simp only [h1, Nat.add_sub_cancel]
      exact toByte_of_lt (by have := hf q; omega)
  · rw [if_neg h]

theorem single_cache_index_consistent (f : Nat → Nat) (cache : SingleCachePalette)
    (q : Nat) (hc : cache.Consistent f) (hf : ∀ c, f c < 255) :
    (cache.palette_index f q).2.Consistent f := by
  unfold SingleCachePalette.palette_index
  by_cases h : cache.indexMap q ≠ 0
  · rw [if_pos h]; exact hc
  · rw [if_neg h]
    intro c
    by_cases hcq : c = q
    · subst hcq
      right
      simp only [setAt_same]
      exact toByte_of_lt (by have := hf c; omega)
    · simp only [setAt_ne _ _ hcq]
      exact hc c

theorem bit_test_iff (m k : Nat) : m &&& (1 <<< k) ≠ 0 ↔ m.testBit k = true := by
  rw [Nat.one_shiftLeft, Nat.and_two_pow]
  cases h : m.testBit k
  · simp
  · simp

theorem shift_and_inj {c q : Nat} (h1 : c >>> 3 = q >>> 3) (h2 : c &&& 7 = q &&& 7) : c = q := by
  have e7 : (7 : Nat) = 2 ^ 3 - 1 := by norm_num
  rw [e7, Nat.and_pow_two_sub_one_eq_mod, Nat.and_pow_two_sub_one_eq_mod] at h2
  rw [Nat.shiftRight_eq_div_pow, Nat.shiftRight_eq_div_pow] at h1
  omega

theorem and7_lt (q : Nat) : q &&& 7 < 8 := by
  have e7 : (7 : Nat) = 2 ^ 3 - 1 := by norm_num
  rw [e7, Nat.and_pow_two_sub_one_eq_mod]
  omega

theorem double_cache_index_fst (f : Nat → Nat) (cache : DoubleCachePalette)
    (q : Nat) (hc : cache.Consistent f) : (cache.palette_index f q).1 = f q := by
  unfold DoubleCachePalette.palette_index
  by_cases h : cache.masks (q >>> 3) &&& (1 <<< (q &&& 7)) ≠ 0
  · rw [if_pos h]; exact hc q h
  · rw [if_neg h]

theorem double_cache_index_consistent (f : Nat → Nat) (cache : DoubleCachePalette)
    (q : Nat) (hc : cache.Consistent f) : (cache.palette_index f q).2.Consistent f := by
  unfold DoubleCachePalette.palette_index
  by_cases h : cache.masks (q >>> 3) &&& (1 <<< (q &&& 7)) ≠ 0
  · rw [if_pos h]; exact hc
  · rw [if_neg h]
    intro c hbit
    by_cases hcq : c = q
    · subst hcq; simp only [setAt_same]
    · simp only [setAt_ne _ _ hcq]
      apply hc c
      by_cases hs : c >>> 3 = q >>> 3
      · rw [hs] at hbit ⊢
        simp only [setAt_same] at hbit
        rw [bit_test_iff] at hbit ⊢
        have h256 : (256 : Nat) = 2 ^ 8 := by norm_num
        unfold toByte at hbit
        rw [h256, Nat.testBit_mod_two_pow, Nat.testBit_or, Nat.one_shiftLeft,
          Nat.testBit_two_pow] at hbit
        have hne : ¬ (q &&& 7 = c &&& 7) := fun e => hcq (shift_and_inj hs e.symm)
        simp only [hne, decide_False, Bool.or_false, Bool.and_eq_true] at hbit
        exact hbit.2
      · simpa only [setAt_ne _ _ hs] using hbit

/-- A `palette_index` call on a mapper with a consistent cache returns what the
mapper's `slow_map` returns and leaves a consistent cache, the same table and
the same `slow_map`. -/
theorem palette_index_spec (p : Palette) (q : Nat) (h : p.CacheOK) :
    (p.palette_index q).1 = p.slow_map q ∧ (p.palette_index q).2.CacheOK ∧
      (p.palette_index q).2.slow_map = p.slow_map ∧
      (p.palette_index q).2.colorTable = p.colorTable := by
  cases p with
  | DoubleCacheOptimization t opt cache =>
    exact ⟨double_cache_index_fst _ _ _ h,
      double_cache_index_consistent _ _ _ h, rfl, rfl⟩
  | DoubleCacheEuclidean t cache =>
    exact ⟨double_cache_index_fst _ _ _ h,
      double_cache_index_consistent _ _ _ h, rfl, rfl⟩
  | SingleCacheOptimization t opt cache =>
    exact ⟨single_cache_index_fst _ _ _ h.1 h.2,
      ⟨single_cache_index_consistent _ _ _ h.1 h.2, h.2⟩, rfl, rfl⟩
  | SingleCacheEuclidean t cache =>
    exact ⟨single_cache_index_fst _ _ _ h.1 h.2,
      ⟨single_cache_index_consistent _ _ _ h.1 h.2, h.2⟩, rfl, rfl⟩

/-- A sequence of `palette_index` calls from a consistent cache returns the
`slow_map` results and ends in a consistent cache. -/
theorem palette_index_seq_spec (qs : List Nat) :
    ∀ (p : Palette), p.CacheOK →
      (palette_index_seq Palette.palette_index p qs).1 = qs.map p.slow_map ∧
      (palette_index_seq Palette.palette_index p qs).2.CacheOK ∧
      (palette_index_seq Palette.palette_index p qs).2.slow_map = p.slow_map ∧
      (palette_index_seq Palette.palette_index p qs).2.colorTable = p.colorTable := by
  induction qs with
  | nil => intro p h; exact ⟨rfl, h, rfl, rfl⟩
  | cons q rest ih =>
    intro p h
    obtain ⟨h1, h2, h3, h4⟩ := palette_index_spec p q h
    obtain ⟨i1, i2, i3, i4⟩ := ih (p.palette_index q).2 h2
    simp only [palette_index_seq, List.map_cons]
    refine ⟨?_, i2, i3.trans h3, i4.trans h4⟩
    rw [h1, i1, h3]


theorem getD_lt_of_forall {l : List Nat} {n : Nat} (h : ∀ x ∈ l, x < n) (hn : 0 < n) (i : Nat) :
    l.getD i 0 < n := by
  rw [List.getD_eq_getElem?_getD]
  by_cases hi : i < l.length
  · rw [List.getElem?_eq_getElem hi]
    exact h _ (List.getElem_mem hi)
  · rw [List.getElem?_eq_none (by omega)]
    exact hn

theorem seedInBucket_snd_lt (t : List Nat) (rs re gs ge bs be : Int) (n : Nat) :
    ∀ (chain : List Nat) (acc : Int × Nat), (∀ i ∈ chain, i < n) → acc.2 < n →
      (seedInBucket t rs re gs ge bs be chain acc).2 < n := by
  intro chain
  induction chain with
  | nil => intro acc _ h; exact h
  | cons i rest ih =>
    intro acc hc hacc
    simp only [seedInBucket]
    split
    · exact ih _ (fun x hx => hc x (List.mem_cons_of_mem _ hx)) (hc i (List.mem_cons_self _ _))
    · exact ih _ (fun x hx => hc x (List.mem_cons_of_mem _ hx)) hacc

theorem seedNearest_snd_lt (t : List Nat) (rs re gs ge bs be : Int) (n : Nat) :
    ∀ (l : List Nat) (acc : Int × Nat), (∀ i ∈ l, i < n) → acc.2 < n →
      (seedNearest t rs re gs ge bs be l acc).2 < n := by
  intro l
  induction l with
  | nil => intro acc _ h; exact h
  | cons i rest ih =>
    intro acc hc hacc
    simp only [seedNearest]
    split
    · exact ih _ (fun x hx => hc x (List.mem_cons_of_mem _ hx)) (hc i (List.mem_cons_self _ _))
    · exact ih _ (fun x hx => hc x (List.mem_cons_of_mem _ hx)) hacc

theorem bucket_lt (t : List Nat) (k : Nat) : ∀ i ∈ bucket t k, i < t.length := by
  unfold bucket
  have key : ∀ (l : List Nat) (acc : List Nat), (∀ i ∈ l, i < t.length) →
      (∀ i ∈ acc, i < t.length) →
      ∀ i ∈ l.foldl (fun chain i => if bucketIndexOf (t.getD i 0) = k then i :: chain else chain)
        acc, i < t.length := by
    intro l
    induction l with
    | nil => intro acc _ h; exact h
    | cons x rest ih =>
      intro acc hl hacc
      simp only [List.foldl_cons]
      apply ih _ (fun i hi => hl i (List.mem_cons_of_mem _ hi))
      split
      · intro i hi
        rcases List.mem_cons.mp hi with h | h
        · rw [h]; exact hl x (List.mem_cons_self _ _)
        · exact hacc i h
      · exact hacc
  exact key _ [] (fun i hi => List.mem_range.mp hi) (fun i hi => by cases hi)

theorem cubeSeed_snd_lt (t : List Nat) (k : Nat) (rs re gs ge bs be : Int) (h : 1 ≤ t.length) :
    (cubeSeed t (bucket t k) rs re gs ge bs be).2 < t.length := by
  unfold cubeSeed
  split
  · exact seedInBucket_snd_lt t _ _ _ _ _ _ _ _ _ (bucket_lt t k) (by simpa using h)
  · exact seedNearest_snd_lt t _ _ _ _ _ _ _ _ _ (fun i hi => List.mem_range.mp hi)
      (by simpa using h)

theorem admissionSweep_lt (t : List Nat) (findIndex : Nat) (searchRange : Int)
    (rs re gs ge bs be : Int) (n : Nat) :
    ∀ (line : List DistanceInfo) (indexes : List Nat), (∀ info ∈ line, info.otherIndex < n) →
      (∀ i ∈ indexes, i < n) →
      ∀ i ∈ admissionSweep t findIndex searchRange rs re gs ge bs be line indexes, i < n := by
  intro line
  induction line with
  | nil => intro indexes _ h; exact h
  | cons info rest ih =>
    intro indexes hl hi
    simp only [admissionSweep]
    split
    · exact hi
    · split
      · apply ih _ (fun x hx => hl x (List.mem_cons_of_mem _ hx))
        intro i him
        rcases List.mem_append.mp him with h | h
        · exact hi i h
        · rw [List.mem_singleton.mp h]
          exact lt_of_le_of_lt (toByte_le _) (hl info (List.mem_cons_self _ _))
      · exact ih _ (fun x hx => hl x (List.mem_cons_of_mem _ hx)) hi

theorem sortedDistCache_lt (sort : List DistanceInfo → List DistanceInfo) (hsort : IsSort sort)
    (t : List Nat) (i : Nat) : ∀ info ∈ sortedDistCache sort t i, info.otherIndex < t.length := by
  intro info hinfo
  unfold sortedDistCache at hinfo
  have hmem := ((hsort (distRow t i)).1.mem_iff).mp hinfo
  unfold distRow at hmem
  obtain ⟨j, hj, rfl⟩ := List.mem_map.mp hmem
  exact List.mem_range.mp hj

theorem cubeList_lt (sort : List DistanceInfo → List DistanceInfo) (hsort : IsSort sort)
    (t : List Nat) (h : 1 ≤ t.length) (bucketOffset : Nat) :
    ∀ i ∈ cubeList sort t bucketOffset, i < t.length := by
  unfold cubeList
  simp only
  apply admissionSweep_lt
  · intro info hinfo
    exact sortedDistCache_lt sort hsort t _ info (List.mem_of_mem_tail hinfo)
  · intro i hi
    rw [List.mem_singleton.mp hi]
    exact lt_of_le_of_lt (toByte_le _) (cubeSeed_snd_lt t _ _ _ _ _ _ _ h)

theorem buildCubes_bytes_lt (sort : List DistanceInfo → List DistanceInfo) (hsort : IsSort sort)
    (t : List Nat) (h : 1 ≤ t.length) :
    ∀ (cubes : List Nat) (offset : Nat), ∀ i ∈ (buildCubes sort t cubes offset).2, i < t.length := by
  intro cubes
  induction cubes with
  | nil => intro _ i hi; cases hi
  | cons c rest ih =>
    intro offset i hi
    simp only [buildCubes] at hi
    rcases List.mem_append.mp hi with h1 | h1
    · exact cubeList_lt sort hsort t h c i h1
    · exact ih _ i h1

theorem optimized_scan_lt (t : List Nat) (r g b : Int) (n : Nat) :
    ∀ (l : List Nat) (m : Int) (f : Nat), (∀ x ∈ l, x < n) → f < n →
      OptimizationPalette.scan t r g b l m f < n := by
  intro l
  induction l with
  | nil => intro m f _ hf; exact hf
  | cons x rest ih =>
    intro m f hl hf
    simp only [OptimizationPalette.scan]
    split
    · exact hl x (List.mem_cons_self _ _)
    · split
      · exact ih _ _ (fun y hy => hl y (List.mem_cons_of_mem _ hy)) (hl x (List.mem_cons_self _ _))
      · exact ih _ _ (fun y hy => hl y (List.mem_cons_of_mem _ hy)) hf

/-- Every result of the optimised `slow_map` is a palette index. -/
theorem optimized_slow_map_lt (sort : List DistanceInfo → List DistanceInfo)
    (hsort : IsSort sort) (raw : List Nat) (h : 1 ≤ raw.length) (t : List Nat) (p : Nat) :
    (OptimizationPalette.create sort raw).slow_map t p < raw.length := by
  have hb : ∀ i ∈ (OptimizationPalette.create sort raw).bytes, i < raw.length :=
    buildCubes_bytes_lt sort hsort raw h _ _
  unfold OptimizationPalette.slow_map
  split
  · exact getD_lt_of_forall hb (by omega) _
  · apply lt_of_le_of_lt (toByte_le _)
    apply optimized_scan_lt
    · intro x hx
      unfold OptimizationPalette.candidates at hx
      obtain ⟨j, _, rfl⟩ := List.mem_map.mp hx
      exact getD_lt_of_forall hb (by omega) _
    · omega

theorem color_table_length (raw : List Nat) : (color_table raw).length = raw.length := by
  simp [color_table]

/-- A freshly created mapper has a consistent cache. -/
theorem palette_create_cacheOK (sort : List DistanceInfo → List DistanceInfo)
    (hsort : IsSort sort) (raw : List Nat) (optimize : Bool) (p : Palette)
    (hp : palette_create sort raw optimize = some p) : p.CacheOK := by
  have hE : raw.length < 256 → ∀ c, NoOptimizationPalette.slow_map (color_table raw) c < 255 := by
    intro hl c
    rcases linear_slow_map_lt (color_table raw) c
      (by rw [color_table_length]; omega) with h | h
    · rw [color_table_length] at h; omega
    · omega
  unfold palette_create at hp
  split at hp
  · injection hp with hp; subst hp
    exact ⟨fun c => Or.inl rfl, hE (by omega)⟩
  · split at hp
    · split at hp
      · injection hp with hp; subst hp
        refine ⟨fun c => Or.inl rfl, fun c => ?_⟩
        have := optimized_slow_map_lt sort hsort raw (by omega) (color_table raw) c
        omega
      · split at hp
        · injection hp with hp; subst hp
          intro c hc
          simp [DoubleCachePalette.create] at hc
        · cases hp
    · split at hp
      · injection hp with hp; subst hp
        exact ⟨fun c => Or.inl rfl, hE (by omega)⟩
      · split at hp
        · injection hp with hp; subst hp
          intro c hc
          simp [DoubleCachePalette.create] at hc
        · cases hp


theorem getD_set_same {l : List Nat} {i : Nat} (v d : Nat) (h : i < l.length) :
    (l.set i v).getD i d = v := by
  simp [List.getD_eq_getElem?_getD, h]

theorem getD_set_ne {l : List Nat} {i j : Nat} (v d : Nat) (h : i ≠ j) :
    (l.set i v).getD j d = l.getD j d := by
  simp [List.getD_eq_getElem?_getD, List.getElem?_set_ne h]

theorem take_set_succ (v : Nat) :
    ∀ (l : List Nat) (i : Nat), i < l.length → (l.set i v).take (i + 1) = l.take i ++ [v]
  | [], _, h => by simp at h
  | _ :: _, 0, _ => by simp
  | a :: l, i + 1, h => by
    have := take_set_succ v l i (by simpa using h)
    simp [this]

/-- On a mapper with a consistent cache, `palette_map_no_dither` overwrites an
index buffer of the right length with the `slow_map` results. -/
theorem palette_map_no_dither_spec (pixels : List Nat) :
    ∀ (p : Palette) (indexes : List Nat) (i : Nat), p.CacheOK →
      i + pixels.length = indexes.length →
      (palette_map_no_dither Palette.palette_index p pixels indexes i).2
        = indexes.take i ++ pixels.map (fun px => p.slow_map (px &&& 0xffffff)) := by
  induction pixels with
  | nil =>
    intro p indexes i _ hlen
    simp only [palette_map_no_dither, List.map_nil, List.append_nil, List.length_nil,
      Nat.add_zero] at hlen ⊢
    rw [hlen, List.take_length]
  | cons px rest ih =>
    intro p indexes i hok hlen
    obtain ⟨h1, h2, h3, _⟩ := palette_index_spec p (px &&& 0xffffff) hok
    simp only [palette_map_no_dither, List.map_cons, List.length_cons] at hlen ⊢
    rw [ih _ _ (i + 1) h2 (by rw [List.length_set]; omega), h3, h1,
      take_set_succ _ _ _ (by omega)]
    simp


theorem insertionSort_isSort : IsSort insertionSort := fun l =>
  ⟨List.perm_insertionSort _ l, List.sorted_insertionSort _ l⟩

/-- A mapper created on the direct-scan path has a consistent cache, the masked
table, and the linear scan as its `slow_map`. -/
theorem palette_create_direct (sort : List DistanceInfo → List DistanceInfo) (raw : List Nat)
    (optimize : Bool) (h2 : raw.length ≤ 256) (hd : raw.length < 8 ∨ optimize = false) :
    ∃ p, palette_create sort raw optimize = some p ∧ p.CacheOK ∧
      p.slow_map = NoOptimizationPalette.slow_map (color_table raw) ∧
      p.colorTable = color_table raw := by
  have hE : raw.length < 256 → ∀ c, NoOptimizationPalette.slow_map (color_table raw) c < 255 := by
    intro hl c
    rcases linear_slow_map_lt (color_table raw) c
      (by rw [color_table_length]; omega) with h | h
    · rw [color_table_length] at h; omega
    · omega
  unfold palette_create
  by_cases h8 : raw.length < 8
  · rw [if_pos h8]
    exact ⟨_, rfl, ⟨fun c => Or.inl rfl, hE (by omega)⟩, rfl, rfl⟩
  · have ho : optimize = false := by
      rcases hd with h | h
      · exact absurd h h8
      · exact h
    subst ho
    rw [if_neg h8]
    simp only [Bool.false_eq_true, if_false]
    by_cases hl : raw.length < 256
    · rw [if_pos hl]
      exact ⟨_, rfl, ⟨fun c => Or.inl rfl, hE hl⟩, rfl, rfl⟩
    · rw [if_neg hl, if_pos (by omega)]
      refine ⟨_, rfl, ?_, rfl, rfl⟩
      intro c hc
      simp [DoubleCachePalette.create] at hc

/-- C7: `palette_create` returns null exactly when the table has more than 256
entries, whatever `optimize` is; so it returns a mapper for `optimize = true`
with fewer than 8 colours and for the empty table. -/
theorem palette_create_null_iff (sort : List DistanceInfo → List DistanceInfo)
    (colorTable : List Nat) (optimize : Bool) :
    palette_create sort colorTable optimize = none ↔ 256 < colorTable.length := by
  unfold palette_create
  constructor
  · intro h
    split at h
    · cases h
    · split at h
      · split at h
        · cases h
        · split at h
          · cases h
          · omega
      · split at h
        · cases h
        · split at h
          · cases h
          · omega
  · intro h
    rw [if_neg (by omega)]
    split
    · rw [if_neg (by omega), if_neg (by omega)]
    · rw [if_neg (by omega), if_neg (by omega)]

/-- C2: on a direct-scan mapper (fewer than 8 colours, or `optimize = false`) over
a table of 1 to 256 colours, every `palette_index` query of any sequence returns
what the uncached linear scan returns, and that is the lowest index among the
entries at minimum squared distance from the queried colour. -/
theorem direct_scan_cache_refines_linear_scan (sort : List DistanceInfo → List DistanceInfo)
    (colorTable : List Nat) (optimize : Bool) (queries : List Nat)
    (h1 : 1 ≤ colorTable.length) (h2 : colorTable.length ≤ 256)
    (hd : colorTable.length < 8 ∨ optimize = false) :
    ∃ p, palette_create sort colorTable optimize = some p ∧
      (palette_index_seq Palette.palette_index p queries).1
        = queries.map (NoOptimizationPalette.slow_map p.colorTable) ∧
      ∀ q ∈ queries, IsLowestNearest p.colorTable q
        (NoOptimizationPalette.slow_map p.colorTable q) := by
  obtain ⟨p, hp, hok, hslow, htab⟩ := palette_create_direct sort colorTable optimize h2 hd
  refine ⟨p, hp, ?_, ?_⟩
  · rw [(palette_index_seq_spec queries p hok).1, hslow, htab]
  · intro q _
    rw [htab]
    exact linear_slow_map_spec _ q (by rw [color_table_length]; exact h1)
      (by rw [color_table_length]; exact h2)

theorem direct_scan_cache_refines_linear_scan_witness :
    ∃ p, palette_create insertionSort [0x000000, 0xFFFFFF, 0x808080] true = some p ∧
      (palette_index_seq Palette.palette_index p [0x010101, 0xFEFEFE, 0x010101, 0x404040]).1
        = [0x010101, 0xFEFEFE, 0x010101, 0x404040].map
            (NoOptimizationPalette.slow_map p.colorTable) ∧
      ∀ q ∈ [0x010101, 0xFEFEFE, 0x010101, 0x404040], IsLowestNearest p.colorTable q
        (NoOptimizationPalette.slow_map p.colorTable q) :=
  direct_scan_cache_refines_linear_scan insertionSort [0x000000, 0xFFFFFF, 0x808080] true
    [0x010101, 0xFEFEFE, 0x010101, 0x404040] (by decide) (by decide) (Or.inl (by decide))

/-- C8: `palette_map` is a function of the palette and the pixels.  On a mapper of
any variant, whatever `palette_index` calls were made on it before, a
`palette_map` call writes the index array that a freshly created mapper
writes; so does a second call on the same mapper after a first one. -/
theorem palette_map_deterministic (sort : List DistanceInfo → List DistanceInfo)
    (hsort : IsSort sort) (colorTable : List Nat) (optimize : Bool) (p : Palette)
    (hp : palette_create sort colorTable optimize = some p) (queries pixels : List Nat)
    (indexes indexes' : List Nat) (h1 : indexes.length = pixels.length)
    (h2 : indexes'.length = pixels.length) :
    (palette_map (p.afterQueries queries) pixels indexes').2 = (palette_map p pixels indexes).2 ∧
    (palette_map (palette_map p pixels indexes).1 pixels indexes').2
      = (palette_map p pixels indexes).2 := by
  have hok := palette_create_cacheOK sort hsort colorTable optimize p hp
  have hfresh : (palette_map p pixels indexes).2
      = pixels.map (fun px => p.slow_map (px &&& 0xffffff)) := by
    unfold palette_map
    rw [palette_map_no_dither_spec pixels p indexes 0 hok (by omega)]
    simp
  have hany : ∀ s : Palette, s.CacheOK → s.slow_map = p.slow_map →
      (palette_map s pixels indexes').2 = pixels.map (fun px => p.slow_map (px &&& 0xffffff)) := by
    intro s hs hsl
    unfold palette_map
    rw [palette_map_no_dither_spec pixels s indexes' 0 hs (by omega), hsl]
    simp
  obtain ⟨_, q2, q3, _⟩ := palette_index_seq_spec queries p hok
  have hstate : ∀ (px : List Nat) (s : Palette) (ix : List Nat) (i : Nat), s.CacheOK →
      (palette_map_no_dither Palette.palette_index s px ix i).1.CacheOK ∧
      (palette_map_no_dither Palette.palette_index s px ix i).1.slow_map = s.slow_map := by
    intro px
    induction px with
    | nil => intro s ix i hs; exact ⟨hs, rfl⟩
    | cons x rest ih =>
      intro s ix i hs
      obtain ⟨_, a2, a3, _⟩ := palette_index_spec s (x &&& 0xffffff) hs
      obtain ⟨b1, b2⟩ := ih (s.palette_index (x &&& 0xffffff)).2
        (ix.set i (s.palette_index (x &&& 0xffffff)).1) (i + 1) a2
      exact ⟨b1, b2.trans a3⟩
  refine ⟨?_, ?_⟩
  · rw [hfresh]; exact hany _ q2 q3
  · rw [hfresh]
    exact hany _ (hstate pixels p indexes 0 hok).1 (hstate pixels p indexes 0 hok).2

theorem palette_map_deterministic_witness :
    (palette_map ((Palette.SingleCacheEuclidean (color_table [0x000000, 0xFFFFFF])
        SingleCachePalette.create).afterQueries [0x123456, 0xFEFEFE]) [0x010101, 0xFEFEFE]
        [7, 7]).2
      = (palette_map (Palette.SingleCacheEuclidean (color_table [0x000000, 0xFFFFFF])
        SingleCachePalette.create) [0x010101, 0xFEFEFE] [0, 0]).2 ∧
    (palette_map (palette_map (Palette.SingleCacheEuclidean (color_table [0x000000, 0xFFFFFF])
        SingleCachePalette.create) [0x010101, 0xFEFEFE] [0, 0]).1 [0x010101, 0xFEFEFE] [7, 7]).2
      = (palette_map (Palette.SingleCacheEuclidean (color_table [0x000000, 0xFFFFFF])
        SingleCachePalette.create) [0x010101, 0xFEFEFE] [0, 0]).2 :=
  palette_map_deterministic insertionSort insertionSort_isSort [0x000000, 0xFFFFFF] false _ rfl
    [0x123456, 0xFEFEFE] [0x010101, 0xFEFEFE] [0, 0] [7, 7] rfl rfl

/-- A row whose distances are pairwise distinct has one sorted arrangement only:
every `std::sort` returns what insertion sort returns. -/
theorem sort_unique_of_nodup (sort : List DistanceInfo → List DistanceInfo) (hsort : IsSort sort)
    (row : List DistanceInfo) (hnd : (row.map (fun d => d.distance)).Nodup) :
    sort row = insertionSort row := by
  have hinj : ∀ a ∈ row, ∀ b ∈ row, a.distance = b.distance → a = b :=
    fun a ha b hb hab => List.inj_on_of_nodup_map hnd ha hb hab
  have hperm : (sort row).Perm (insertionSort row) :=
    (hsort row).1.trans (List.perm_insertionSort _ row).symm
  have hstrict : ∀ L : List DistanceInfo, L.Perm row → L.Sorted DistanceInfo.le →
      L.Sorted (fun a b => a.distance < b.distance ∨ a = b) := by
    intro L hp hs
    refine List.Pairwise.imp_of_mem ?_ hs
    intro a b ha hb hle
    rcases lt_or_eq_of_le (show a.distance ≤ b.distance from hle) with h | h
    · exact Or.inl h
    · exact Or.inr (hinj a (hp.mem_iff.mp ha) b (hp.mem_iff.mp hb) h)
  have hanti : IsAntisymm DistanceInfo (fun a b => a.distance < b.distance ∨ a = b) :=
    ⟨fun a b h1 h2 => by
      rcases h1 with h1 | h1
      · rcases h2 with h2 | h2
        · exact absurd h1 (not_lt.mpr (le_of_lt h2))
        · exact h2.symm
      · exact h1⟩
  exact @List.eq_of_perm_of_sorted _ _ hanti _ _ hperm
    (hstrict _ (hsort row).1 (hsort row).2)
    (hstrict _ (List.perm_insertionSort _ row) (List.sorted_insertionSort _ row))

/-- On a table whose distance rows have pairwise distinct entries, the candidate
buffer does not depend on the sort. -/
theorem create_sort_independent (sort : List DistanceInfo → List DistanceInfo)
    (hsort : IsSort sort) (t : List Nat) (h1 : 1 ≤ t.length)
    (hnd : ∀ i < t.length, ((distRow t i).map (fun d => d.distance)).Nodup) :
    OptimizationPalette.create sort t = OptimizationPalette.create insertionSort t := by
  have hrow : ∀ i < t.length, sortedDistCache sort t i = sortedDistCache insertionSort t i :=
    fun i hi => sort_unique_of_nodup sort hsort _ (hnd i hi)
  have hcube : ∀ k, cubeList sort t k = cubeList insertionSort t k := by
    intro k
    unfold cubeList
    simp only
    rw [hrow _ (cubeSeed_snd_lt t k _ _ _ _ _ _ h1)]
  have hbuild : ∀ (cubes : List Nat) (offset : Nat),
      buildCubes sort t cubes offset = buildCubes insertionSort t cubes offset := by
    intro cubes
    induction cubes with
    | nil => intro _; rfl
    | cons c rest ih =>
      intro offset
      simp only [buildCubes, hcube, ih]
  unfold OptimizationPalette.create
  rw [hbuild]

theorem biasPalette_rows_nodup :
    ∀ i < biasPalette.length, ((distRow biasPalette i).map (fun d => d.distance)).Nodup := by
  decide!

/-- C1 (failing input): the mapper that `palette_create` builds with
`optimize = true` for `biasPalette` maps the pixel `0x000010` to entry 0 (squared
distance 4), although entry 1 is at squared distance 1: entry 0 is not a
nearest entry.  The rows of the distance matrix of `biasPalette` have pairwise
distinct entries, so every `std::sort` builds the same mapper. -/
theorem optimized_map_misses_nearest :
    (∀ sort, IsSort sort →
      palette_create sort biasPalette true = palette_create insertionSort biasPalette true) ∧
    ∃ p, palette_create insertionSort biasPalette true = some p ∧
      (palette_map p [0x000010] [0]).2 = [0] ∧
      dist2 p.colorTable 0x000010 0 = 4 ∧ dist2 p.colorTable 0x000010 1 = 1 ∧
      ¬ IsNearest p.colorTable 0x000010 0 := by
  refine ⟨fun sort hsort => ?_, _, rfl, by decide!, by decide!, by decide!, by decide!⟩
  unfold palette_create
  rw [create_sort_independent sort hsort biasPalette (by decide) biasPalette_rows_nodup]

/-- C3 (failing input): for `biasPalette` the candidate list that the constructor
builds for cube 1 is `[0]`, whatever the sort; the point `0x000010` lies in
cube 1 and its nearest palette entry is entry 1, which the list lacks: no index
of the list is a nearest entry. -/
theorem candidate_list_misses_nearest :
    (∀ sort, IsSort sort → (OptimizationPalette.create sort biasPalette).candidates 1 = [0]) ∧
      cubeIndexOf 0x000010 = 1 ∧ IsNearest biasPalette 0x000010 1 ∧
      ∀ i ∈ (OptimizationPalette.create insertionSort biasPalette).candidates 1,
        ¬ IsNearest biasPalette 0x000010 i := by
  have h : (OptimizationPalette.create insertionSort biasPalette).candidates 1 = [0] := by
    decide!
  refine ⟨fun sort hsort => ?_, by decide!, by decide!, ?_⟩
  · rw [create_sort_independent sort hsort biasPalette (by decide) biasPalette_rows_nodup]
    exact h
  · rw [h]
    decide!

end EuclideanPalette

/-! ## The extractor -/

namespace SpaceShockColorExtractor

open EuclideanPalette (setAt byte0 byte1 byte2 getD_set_ne getD_set_same setAt_same setAt_ne
  mask24_eq_mod)

/-- The forced phase writes the forced colours at `outIndex, outIndex + 1, …` and
leaves the table below `outIndex` as it was. -/
theorem forcePhase_table (oracle : KernelOracle) (maxPixelCount : Nat) (fl : List Nat) :
    ∀ st : TableState, st.outIndex + fl.length ≤ st.colorTable.length →
      (forcePhase oracle maxPixelCount fl st).outIndex = st.outIndex + fl.length ∧
      (forcePhase oracle maxPixelCount fl st).colorTable.length = st.colorTable.length ∧
      (∀ i < st.outIndex, (forcePhase oracle maxPixelCount fl st).colorTable.getD i 0
        = st.colorTable.getD i 0) ∧
      ∀ j < fl.length, (forcePhase oracle maxPixelCount fl st).colorTable.getD (st.outIndex + j) 0
        = fl.getD j 0 := by
  induction fl with
  | nil =>
    intro st _
    simp [forcePhase]
  | cons c rest ih =>
    intro st hlen
    simp only [List.length_cons] at hlen
    have hstep : forcePhase oracle maxPixelCount (c :: rest) st
        = forcePhase oracle maxPixelCount rest (forceStep oracle maxPixelCount st c) := rfl
    have ho : (forceStep oracle maxPixelCount st c).outIndex = st.outIndex + 1 := rfl
    have ht : (forceStep oracle maxPixelCount st c).colorTable
        = st.colorTable.set st.outIndex c := rfl
    obtain ⟨h1, h2, h3, h4⟩ := ih (forceStep oracle maxPixelCount st c)
      (by rw [ho, ht, List.length_set]; omega)
    rw [ho] at h1 h3 h4
    rw [ht] at h2 h3
    rw [List.length_set] at h2
    rw [hstep]
    refine ⟨by rw [h1, List.length_cons]; omega, h2, ?_, ?_⟩
    · intro i hi
      rw [h3 i (by omega), getD_set_ne _ _ (by omega)]
    · intro j hj
      cases j with
      | zero =>
        rw [Nat.add_zero, h3 st.outIndex (by omega), getD_set_same _ _ (by omega)]
        rfl
      | succ k =>
        have := h4 k (by simpa using hj)
        rw [show st.outIndex + (k + 1) = st.outIndex + 1 + k by omega, this]
        rfl

/-- The pick loop never moves `outIndex` down, keeps the table length and leaves
the table below the initial `outIndex` as it was. -/
theorem pickLoop_table (oracle : KernelOracle) (n : Nat) :
    ∀ st : TableState,
      st.outIndex ≤ (pickLoop oracle n st).outIndex ∧
      (pickLoop oracle n st).outIndex ≤ st.outIndex + n ∧
      (pickLoop oracle n st).colorTable.length = st.colorTable.length ∧
      ∀ i < st.outIndex, (pickLoop oracle n st).colorTable.getD i 0 = st.colorTable.getD i 0 := by
  induction n with
  | zero => intro st; simp [pickLoop]
  | succ n ih =>
    intro st
    simp only [pickLoop]
    cases hpop : popMax st.sortedBuffer st.sortedMap st.decrementPixelCount 0 with
    | inl d => simp
    | inr pop =>
      simp only
      have ho : (pickStep oracle st pop).outIndex = st.outIndex + 1 := rfl
      have ht : (pickStep oracle st pop).colorTable = st.colorTable.set st.outIndex pop.rgb := rfl
      obtain ⟨h1, h2, h3, h4⟩ := ih (pickStep oracle st pop)
      rw [ho] at h1 h2 h4
      rw [ht] at h3 h4
      rw [List.length_set] at h3
      refine ⟨by omega, by omega, h3, ?_⟩
      intro i hi
      rw [h4 i (by omega), getD_set_ne _ _ (by omega)]

/-- The loop at `Return` writes from position `forceColorCount + i` on and leaves
the table below as it was. -/
theorem writeReduced_table (forceColorCount : Nat) (counter : List ColorInfo) :
    ∀ (i : Nat) (colorTable : List Nat),
      (writeReduced forceColorCount counter i colorTable).length = colorTable.length ∧
      ∀ k < forceColorCount + i,
        (writeReduced forceColorCount counter i colorTable).getD k 0 = colorTable.getD k 0 := by
  induction counter with
  | nil => intro i ct; simp [writeReduced]
  | cons info rest ih =>
    intro i ct
    simp only [writeReduced]
    obtain ⟨h1, h2⟩ := ih (i + 1) (ct.set (forceColorCount + i)
      (((roundU32 info.r <<< 16) ||| (roundU32 info.g <<< 8) ||| roundU32 info.b) % 2 ^ 32))
    simp only [List.length_set] at h1
    refine ⟨h1, ?_⟩
    intro k hk
    rw [h2 k (by omega), getD_set_ne _ _ (by omega)]


theorem setAt_setAt {α : Type} (f : Nat → α) (i : Nat) (v w : α) :
    setAt (setAt f i v) i w = setAt f i w := by
  funext j
  unfold setAt
  split <;> rfl

/-- Adding `n ≥ 1` pixels of one 24-bit colour raises its count by `n` (below
`2 ^ 32`) and appends it to the colour list when its count was zero. -/
theorem foldl_add_pixel_replicate (c : Nat) (hc : c < 2 ^ 24) :
    ∀ (n : Nat) (e : SpaceShockColorExtractor), (e.colorCounts c).count + (n + 1) < 2 ^ 32 →
      (List.replicate (n + 1) c).foldl add_pixel e
        = ⟨if (e.colorCounts c).count = 0 then e.colorList ++ [c] else e.colorList,
            e.pixelTotalCount,
            setAt e.colorCounts c ⟨(e.colorCounts c).count + (n + 1), (e.colorCounts c).node⟩⟩ := by
  have hm : c &&& 0xffffff = c := by rw [mask24_eq_mod]; exact Nat.mod_eq_of_lt hc
  intro n
  induction n with
  | zero =>
    intro e hlt
    simp only [List.replicate, List.foldl_cons, List.foldl_nil, add_pixel, hm]
    rw [Nat.mod_eq_of_lt (by omega)]
  | succ n ih =>
    intro e hlt
    rw [List.replicate_succ, List.foldl_cons]
    have h1 : ((add_pixel e c).colorCounts c) = ⟨(e.colorCounts c).count + 1, (e.colorCounts c).node⟩ := by
      simp only [add_pixel, hm, setAt_same]
      rw [Nat.mod_eq_of_lt (by omega)]
    rw [ih (add_pixel e c) (by rw [h1]; simp only; omega), h1]
    simp only [Nat.add_one_ne_zero, if_false]
    have h2 : (add_pixel e c).colorCounts
        = setAt e.colorCounts c ⟨(e.colorCounts c).count + 1, (e.colorCounts c).node⟩ := by
      simp only [add_pixel, hm]
      rw [Nat.mod_eq_of_lt (by omega)]
    rw [h2, setAt_setAt]
    rw [show (e.colorCounts c).count + 1 + (n + 1) = (e.colorCounts c).count + (n + 1 + 1) by omega]
    simp only [add_pixel, hm]

/-- C5 (failing input): a histogram of two colours, 2000 pixels of `0x808080` and
2000 pixels of `0x808081`, a table of length 150, no forced colour.  The oracle
has kernel size 2 (the `MinKernelSize` of a table of 150, used while `x0` is
near 0) and the weight `33215` that `create_kernel(2, 1 / E)` gives at offset
`(0, 0, -1)`, the only cell that meets a live colour.  `get_color_table` returns
3 and the table starts with `0x808081, 0x808080, 0x808080`: three colours out of
a histogram of two.  The pop from the list of count 2000 leaves the `next` link
of the new head `0x808080` pointing at the popped node (the pop from a small
list clears it); `absorb_color` then moves `0x808080` to the list of count 987
without resetting the head of the list of 2000, and the colour is popped from
both lists. -/
theorem large_count_colour_emitted_twice :
    (add_bitmap create (List.replicate 2000 0x808080 ++ List.replicate 2000 0x808081)).colorList
      = [0x808080, 0x808081] ∧
    (get_color_table (flatOracle 2 33215)
        (add_bitmap create (List.replicate 2000 0x808080 ++ List.replicate 2000 0x808081))
        (List.replicate 150 0) [] 0).map (fun r => (r.ret, r.colorTable.take 3))
      = some (3, [0x808081, 0x808080, 0x808080]) := by
  have h : add_bitmap create (List.replicate 2000 0x808080 ++ List.replicate 2000 0x808081)
      = ⟨[0x808080, 0x808081], 4000,
          setAt (setAt (fun _ => ⟨0, 0⟩) 0x808080 ⟨2000, 0⟩) 0x808081 ⟨2000, 0⟩⟩ := by
    unfold add_bitmap
    rw [List.foldl_append, foldl_add_pixel_replicate 0x808080 (by norm_num) 1999 create
      (by simp [create]), foldl_add_pixel_replicate 0x808081 (by norm_num) 1999 _
      (by simp [create, setAt])]
    simp only [List.length_append, List.length_replicate]
    rfl
  rw [h]
  exact ⟨rfl, by decide!⟩


/-- C6: `get_color_table` returns `SIZE_MAX` exactly when the table is shorter
than the forced list, and then it returns at once, with the table and the
extractor (colour list, total, counts and nodes) as they were.  The table length
is below `SIZE_MAX`, as the length of any buffer of 32-bit entries is. -/
theorem get_color_table_size_max_iff (oracle : KernelOracle)
    (extractor : SpaceShockColorExtractor) (colorTable forceColors : List Nat) (fuel : Nat)
    (hfit : colorTable.length < SIZE_MAX) :
    (colorTable.length < forceColors.length →
      get_color_table oracle extractor colorTable forceColors fuel
        = some ⟨SIZE_MAX, colorTable, extractor⟩) ∧
    ∀ r, get_color_table oracle extractor colorTable forceColors fuel = some r →
      (r.ret = SIZE_MAX ↔ colorTable.length < forceColors.length) := by
  constructor
  · intro h
    unfold get_color_table
    rw [if_pos h]
  · intro r hr
    unfold get_color_table at hr
    by_cases h : colorTable.length < forceColors.length
    · rw [if_pos h] at hr
      injection hr with hr
      subst hr
      exact ⟨fun _ => h, fun _ => rfl⟩
    · rw [if_neg h] at hr
      simp only at hr
      refine ⟨fun hret => ?_, fun hlt => absurd hlt h⟩
      exfalso
      split at hr
      · rename_i heq
        injection hr with hr
        subst hr
        simp only at hret
        omega
      · split at hr
        · rename_i hlt
          injection hr with hr
          subst hr
          simp only at hret
          omega
        · split at hr
          · cases hr
          · injection hr with hr
            subst hr
            simp only at hret
            omega

theorem get_color_table_size_max_iff_witness :
    ([0, 0].length < [0xABCDEF, 0x123456, 0x000001].length →
      get_color_table (flatOracle 2 33215) (add_bitmap create [0x123456]) [0, 0]
          [0xABCDEF, 0x123456, 0x000001] 5
        = some ⟨SIZE_MAX, [0, 0], add_bitmap create [0x123456]⟩) ∧
    ∀ r, get_color_table (flatOracle 2 33215) (add_bitmap create [0x123456]) [0, 0]
        [0xABCDEF, 0x123456, 0x000001] 5 = some r →
      (r.ret = SIZE_MAX ↔ [0, 0].length < [0xABCDEF, 0x123456, 0x000001].length) :=
  get_color_table_size_max_iff (flatOracle 2 33215) (add_bitmap create [0x123456]) [0, 0]
    [0xABCDEF, 0x123456, 0x000001] 5 (by decide)

/-- Whenever `get_color_table` is called with no more forced colours than table
entries and returns, the returned count is at least the number of forced colours
and the table starts with the forced colours, masked to 24 bits. -/
theorem forced_prefix_of_result (oracle : KernelOracle)
    (extractor : SpaceShockColorExtractor) (colorTable forceColors : List Nat) (fuel : Nat)
    (r : TableResult) (hlen : forceColors.length ≤ colorTable.length)
    (hr : get_color_table oracle extractor colorTable forceColors fuel = some r) :
    forceColors.length ≤ r.ret ∧ r.ret ≤ colorTable.length ∧
    ∀ i < forceColors.length, r.colorTable.getD i 0 = forceColors.getD i 0 &&& 0xffffff := by
  unfold get_color_table at hr
  rw [if_neg (by omega)] at hr
  simp only at hr
  generalize hst0 : (⟨(sort_colors extractor).colorCounts, (sort_colors extractor).sortedBuffer,
    (sort_colors extractor).sortedMap, colorTable, [], BaseLength, 0⟩ : TableState) = st0 at hr
  generalize hm : maxPixelCountOf (sort_colors extractor).sortedBuffer
    (sort_colors extractor).sortedMap = maxPixelCount at hr
  have h0o : st0.outIndex = 0 := by rw [← hst0]
  have h0t : st0.colorTable = colorTable := by rw [← hst0]
  obtain ⟨f1, f2, _, f4⟩ := forcePhase_table oracle maxPixelCount
    (forceColors.map (fun c => c &&& 0xffffff)) st0
    (by rw [h0o, h0t, List.length_map]; omega)
  rw [h0o, List.length_map, Nat.zero_add] at f1
  rw [h0t] at f2
  have hforced : ∀ i < forceColors.length,
      (forcePhase oracle maxPixelCount (forceColors.map (fun c => c &&& 0xffffff)) st0).colorTable.getD
        i 0 = forceColors.getD i 0 &&& 0xffffff := by
    intro i hi
    have := f4 i (by rw [List.length_map]; exact hi)
    rw [h0o, Nat.zero_add] at this
    rw [this]
    simp [List.getD_eq_getElem?_getD, List.getElem?_map, List.getElem?_eq_getElem hi]
  generalize hst1 : forcePhase oracle maxPixelCount (forceColors.map (fun c => c &&& 0xffffff))
    st0 = st1 at hr f1 f2 hforced
  obtain ⟨p1, p2, p3, p4⟩ := pickLoop_table oracle (colorTable.length - st1.outIndex) st1
  generalize hst2 : pickLoop oracle (colorTable.length - st1.outIndex) st1 = st2 at hr p1 p2 p3 p4
  split at hr
  · injection hr with hr
    subst hr
    exact ⟨by simp only; omega, by simp only; omega, hforced⟩
  · split at hr
    · injection hr with hr
      subst hr
      refine ⟨by simp only; omega, by simp only; omega, ?_⟩
      intro i hi
      simp only
      rw [p4 i (by omega)]
      exact hforced i hi
    · split at hr
      · cases hr
      · rename_i counter _
        injection hr with hr
        subst hr
        refine ⟨by simp only; omega, by simp only; omega, ?_⟩
        intro i hi
        simp only
        rw [(writeReduced_table forceColors.length counter 0 st2.colorTable).2 i (by omega),
          p4 i (by omega)]
        exact hforced i hi

theorem foldl_const_step {S A : Type} (f : S → A → S) (h : ∀ s a, f s a = s) :
    ∀ (l : List A) (s : S), l.foldl f s = s := by
  intro l
  induction l with
  | nil => intro s; rfl
  | cons a rest ih => intro s; rw [List.foldl_cons, h, ih]

/-- A cell whose decrement `(kernelHeight * weight) >> 16` is zero is left as it
is. -/
theorem absorbCell_of_zero_decrement (kernel : Nat → Nat)
    (kernelBaseSize kernelHeight rStart gStart bStart : Nat) (st : AbsorbState) (r g b : Nat)
    (hk : ∀ j, (kernelHeight * kernel j) >>> 16 = 0) :
    absorbCell kernel kernelBaseSize kernelHeight rStart gStart bStart st r g b = st := by
  unfold absorbCell
  simp only [hk, Nat.sub_zero, if_true, ite_self]

/-- With every decrement zero, `absorb_color` changes nothing and returns 0. -/
theorem absorb_color_of_zero_decrement (colorCounts : Nat → CountNode) (sortedBuffer : Buffer)
    (sortedMap : List (Nat × Nat)) (kernel : Nat → Nat) (kernelSize color kernelHeight : Nat)
    (hk : ∀ j, (kernelHeight * kernel j) >>> 16 = 0) :
    absorb_color colorCounts sortedBuffer sortedMap kernel kernelSize color kernelHeight
      = ⟨colorCounts, sortedBuffer, sortedMap, 0⟩ := by
  unfold absorb_color
  simp only
  apply foldl_const_step
  intro s r
  apply foldl_const_step
  intro s g
  apply foldl_const_step
  intro s b
  exact absorbCell_of_zero_decrement _ _ _ _ _ _ _ _ _ _ hk

/-- A kernel height of at most 1 gives a zero decrement under any 16-bit weight. -/
theorem decrement_zero_of_height_le_one (kernel : Nat → Nat) (kernelHeight : Nat)
    (hh : kernelHeight ≤ 1) (hw : ∀ j, kernel j < 65536) :
    ∀ j, (kernelHeight * kernel j) >>> 16 = 0 := by
  intro j
  rw [Nat.shiftRight_eq_div_pow]
  apply Nat.div_eq_of_lt
  have := hw j
  interval_cases kernelHeight <;> omega

/-- Scenario S3 under every kernel oracle with 16-bit weights: one pixel
`0x123456`, a table of two entries, the forced colour `0xABCDEF`.  Both
absorptions run with height 1 and change nothing; the call returns 2 with the
table `[0xABCDEF, 0x123456]`. -/
theorem scenario_forced_then_picked (oracle : KernelOracle)
    (hf : ∀ j, oracle.forcedKernel j < 65536) (hk : ∀ i j, oracle.kernel i j < 65536)
    (fuel : Nat) :
    (get_color_table oracle (add_bitmap create [0x123456]) [0, 0] [0xABCDEF] (fuel + 1)).map
      (fun r => (r.ret, r.colorTable)) = some (2, [0xABCDEF, 0x123456]) := by
  have hmax : maxPixelCountOf (sort_colors (add_bitmap create [0x123456])).sortedBuffer
      (sort_colors (add_bitmap create [0x123456])).sortedMap = 1 := by decide!
  have hpop : ((popMax (sort_colors (add_bitmap create [0x123456])).sortedBuffer
      (sort_colors (add_bitmap create [0x123456])).sortedMap BaseLength 0).getRight?.map
      (fun p => (p.rgb, p.pixelCount, p.sortedMap, p.decrementPixelCount)))
      = some (0x123456, 1, [], 1) := by decide!
  obtain ⟨pop, hpop1, hpop2⟩ := Option.map_eq_some'.mp hpop
  have hpopeq : popMax (sort_colors (add_bitmap create [0x123456])).sortedBuffer
      (sort_colors (add_bitmap create [0x123456])).sortedMap BaseLength 0 = Sum.inr pop :=
    Sum.getRight?_eq_some_iff.mp hpop1
  have hrgb : pop.rgb = 0x123456 := congrArg (fun t => t.1) hpop2
  have hcnt : pop.pixelCount = 1 := congrArg (fun t => t.2.1) hpop2
  have hmap : pop.sortedMap = [] := congrArg (fun t => t.2.2.1) hpop2
  have hdec : pop.decrementPixelCount = 1 := congrArg (fun t => t.2.2.2) hpop2
  have hz1 := decrement_zero_of_height_le_one oracle.forcedKernel 1 (le_refl _) hf
  have hz2 := decrement_zero_of_height_le_one (oracle.kernel 1) 1 (le_refl _) (hk 1)
  unfold get_color_table
  simp only [List.length_cons, List.length_nil, List.map_cons, List.map_nil, hmax, forcePhase,
    List.foldl_cons, List.foldl_nil, forceStep, absorb_color_of_zero_decrement _ _ _ _ _ _ _ hz1,
    Nat.zero_add, Nat.reduceAdd, Nat.reduceLT, Nat.reduceEqDiff, if_false, Nat.reduceSub,
    pickLoop, hpopeq, pickStep, hcnt, absorb_color_of_zero_decrement _ _ _ _ _ _ _ hz2]
  have hscan : ∀ buf : Buffer, scanDown buf 3 1 = 1 := fun buf => rfl
  simp only [reduceLoop, popMax, hmap, hdec, List.getLast?_nil, hscan, SkipMinCount,
    Nat.reduceLeDiff, if_true, Option.map_some', writeReduced, hrgb, List.nil_append]
  decide!

/-- C4: whenever `get_color_table` is called with no more forced colours than
table entries and returns, the returned count is at least the number of forced
colours (and at most the table length) and the table starts with the forced
colours, masked to 24 bits, in their given order, whether or not they occur in
the histogram.  In scenario S3 (one pixel `0x123456`, a table of two entries,
forced colour `0xABCDEF`) the call returns 2 with the table
`[0xABCDEF, 0x123456]`, under every kernel oracle in the ranges of the source. -/
theorem forced_colours_lead_the_table :
    (∀ (oracle : KernelOracle) (extractor : SpaceShockColorExtractor)
        (colorTable forceColors : List Nat) (fuel : Nat) (r : TableResult),
      forceColors.length ≤ colorTable.length →
      get_color_table oracle extractor colorTable forceColors fuel = some r →
      forceColors.length ≤ r.ret ∧ r.ret ≤ colorTable.length ∧
      ∀ i < forceColors.length, r.colorTable.getD i 0 = forceColors.getD i 0 &&& 0xffffff) ∧
    ∀ (oracle : KernelOracle), oracle.Valid → ∀ fuel : Nat,
      (get_color_table oracle (add_bitmap create [0x123456]) [0, 0] [0xABCDEF] (fuel + 1)).map
        (fun r => (r.ret, r.colorTable)) = some (2, [0xABCDEF, 0x123456]) :=
  ⟨forced_prefix_of_result,
    fun oracle hv fuel => scenario_forced_then_picked oracle hv.2.2.2.1 hv.2.2.2.2 fuel⟩

theorem forced_colours_lead_the_table_witness :
    ∃ r, get_color_table (flatOracle 2 33215) (add_bitmap create [0x123456]) [0, 0]
        [0xFFABCDEF] 5 = some r ∧
      r.ret = 2 ∧ r.colorTable = [0xABCDEF, 0x123456] ∧
      [0xFFABCDEF].length ≤ r.ret ∧ r.ret ≤ [0, 0].length ∧
      ∀ i < [0xFFABCDEF].length, r.colorTable.getD i 0 = [0xFFABCDEF].getD i 0 &&& 0xffffff := by
  have h : (get_color_table (flatOracle 2 33215) (add_bitmap create [0x123456]) [0, 0]
      [0xFFABCDEF] 5).map (fun r => (r.ret, r.colorTable)) = some (2, [0xABCDEF, 0x123456]) := by
    decide!
  obtain ⟨r, hr, hv⟩ := Option.map_eq_some'.mp h
  have h1 : r.ret = 2 := congrArg Prod.fst hv
  have h2 : r.colorTable = [0xABCDEF, 0x123456] := congrArg Prod.snd hv
  exact ⟨r, hr, h1, h2, forced_colours_lead_the_table.1 (flatOracle 2 33215)
    (add_bitmap create [0x123456]) [0, 0] [0xFFABCDEF] 5 r (by decide) hr⟩

end SpaceShockColorExtractor

/-! ## The dither -/

namespace EuclideanPalette

theorem foldl_range'_inv {S : Type} (P : Nat → S → Prop) (step : S → Nat → S) (base : Nat) :
    ∀ (n a : Nat) (s : S), P (base + a) s →
      (∀ x s, a ≤ x → x < a + n → P (base + x) s → P (base + x + 1) (step s x)) →
      P (base + a + n) ((List.range' a n).foldl step s) := by
  intro n
  induction n with
  | zero => intro a s h _; simpa using h
  | succ n ih =>
    intro a s h hstep
    rw [List.range'_succ, List.foldl_cons]
    have h1 := hstep a s (le_refl _) (by omega) h
    have := ih (a + 1) (step s a) h1 (fun x s hx1 hx2 hp => hstep x s (by omega) (by omega) hp)
    rw [show base + a + (n + 1) = base + (a + 1) + n by omega]
    exact this

theorem toInt32_of_lt {v : Nat} (h : v < 2 ^ 31) : toInt32 v = v := by
  unfold toInt32
  have h1 : v % 2 ^ 32 = v := Nat.mod_eq_of_lt (by omega)
  rw [h1, if_pos h]

/-- For a width whose offsets fit a 32-bit `int`, the offset table is
`1, width - 1, width, width + 1`. -/
theorem pixelOffsets_eq (width : Nat) (h1 : 1 ≤ width) (h2 : width + 1 < 2 ^ 31) :
    pixelOffsets width = [1, ((width - 1 : Nat) : Int), (width : Int), ((width + 1 : Nat) : Int)] := by
  have e0 : (0 * width + 2 + (2 ^ 64 - Cols / 2)) % 2 ^ 64 = 1 := by
    simp [Cols]
  have e1 : (1 * width + 0 + (2 ^ 64 - Cols / 2)) % 2 ^ 64 = width - 1 := by
    simp only [Cols]; omega
  have e2 : (1 * width + 1 + (2 ^ 64 - Cols / 2)) % 2 ^ 64 = width := by
    simp only [Cols]; omega
  have e3 : (1 * width + 2 + (2 ^ 64 - Cols / 2)) % 2 ^ 64 = width + 1 := by
    simp only [Cols]; omega
  simp only [pixelOffsets, DitherMat, List.map_cons, List.map_nil, e0, e1, e2, e3]
  rw [toInt32_of_lt (by omega), toInt32_of_lt (by omega), toInt32_of_lt (by omega),
    toInt32_of_lt (by omega)]
  rfl

theorem weights_eq : weights = [21503, 9215, 15359, 3071] := by decide

/-- The diffusion loop keeps the buffer length and touches no position up to
`pos` when every offset is positive. -/
theorem diffuseLoop_frame (errR errG errB : Int) (pos : Nat) :
    ∀ (l : List (Int × Nat)) (pixels : List Nat), (∀ ow ∈ l, 1 ≤ ow.1) →
      (diffuseLoop errR errG errB pos l pixels).length = pixels.length ∧
      ∀ i ≤ pos, (diffuseLoop errR errG errB pos l pixels).getD i 0 = pixels.getD i 0 := by
  intro l
  induction l with
  | nil => intro px _; exact ⟨rfl, fun _ _ => rfl⟩
  | cons ow rest ih =>
    intro px h
    obtain ⟨off, w⟩ := ow
    simp only [diffuseLoop]
    obtain ⟨h1, h2⟩ := ih (px.set ((pos : Int) + off).toNat
      (diffusePixel (px.getD ((pos : Int) + off).toNat 0) errR errG errB w))
      (fun x hx => h x (List.mem_cons_of_mem _ hx))
    rw [List.length_set] at h1
    refine ⟨h1, ?_⟩
    intro i hi
    have hoff : 1 ≤ off := h (off, w) (List.mem_cons_self _ _)
    rw [h2 i hi, getD_set_ne _ _ (by omega)]

theorem directStep_inv {σ : Type} (pi : σ → Nat → Nat × σ) (tblOf : σ → List Nat)
    (I : σ → Prop) (tbl : List Nat) (len : Nat)
    (hI : ∀ s q, I s → I (pi s q).2 ∧ (pi s q).1 < tbl.length) (hT : ∀ s, I s → tblOf s = tbl)
    (n : Nat) (st : DitherState σ) (h : DitherInv I tbl len n st) :
    DitherInv I tbl len (n + 1) (directStep pi tblOf st n) := by
  obtain ⟨h1, h2, h3, h4⟩ := h
  obtain ⟨i1, i2⟩ := hI st.palette (st.pixels.getD n 0 &&& 0xffffff) h1
  refine ⟨i1, by simp only [directStep, List.length_set]; exact h2,
    by simp only [directStep, List.length_set]; exact h3, ?_⟩
  intro i hi hil
  simp only [directStep, List.length_set] at hil ⊢
  by_cases hin : i = n
  · subst hin
    rw [getD_set_same _ _ (by omega), getD_set_same _ _ hil, hT _ h1]
    exact ⟨i2, rfl⟩
  · rw [getD_set_ne _ _ (fun e => hin e.symm), getD_set_ne _ _ (fun e => hin e.symm)]
    exact h4 i (by omega) hil

theorem diffuseStep_inv {σ : Type} (pi : σ → Nat → Nat × σ) (tblOf : σ → List Nat)
    (I : σ → Prop) (tbl : List Nat) (len : Nat)
    (hI : ∀ s q, I s → I (pi s q).2 ∧ (pi s q).1 < tbl.length) (hT : ∀ s, I s → tblOf s = tbl)
    (width : Nat) (hoff : ∀ off ∈ pixelOffsets width, 1 ≤ off)
    (n : Nat) (st : DitherState σ) (h : DitherInv I tbl len n st) :
    DitherInv I tbl len (n + 1) (diffuseStep pi tblOf width st n) := by
  obtain ⟨h1, h2, h3, h4⟩ := h
  obtain ⟨i1, i2⟩ := hI st.palette (st.pixels.getD n 0 &&& 0xffffff) h1
  have hz : ∀ ow ∈ (pixelOffsets width).zip weights, 1 ≤ ow.1 := by
    intro ow how
    obtain ⟨a, b⟩ := ow
    exact hoff a (List.of_mem_zip how).1
  simp only [diffuseStep]
  obtain ⟨f1, f2⟩ := diffuseLoop_frame
    (((st.pixels.getD n 0 &&& 0xffffff &&& 0xff0000 : Nat) : Int)
      - (((tblOf st.palette).getD (pi st.palette (st.pixels.getD n 0 &&& 0xffffff)).1 0
        &&& 0xff0000 : Nat) : Int))
    (((st.pixels.getD n 0 &&& 0xffffff &&& 0x00ff00 : Nat) : Int)
      - (((tblOf st.palette).getD (pi st.palette (st.pixels.getD n 0 &&& 0xffffff)).1 0
        &&& 0x00ff00 : Nat) : Int))
    (((st.pixels.getD n 0 &&& 0xffffff &&& 0x0000ff : Nat) : Int)
      - (((tblOf st.palette).getD (pi st.palette (st.pixels.getD n 0 &&& 0xffffff)).1 0
        &&& 0x0000ff : Nat) : Int))
    n ((pixelOffsets width).zip weights)
    (st.pixels.set n ((tblOf st.palette).getD (pi st.palette (st.pixels.getD n 0 &&& 0xffffff)).1 0))
    hz
  rw [List.length_set] at f1
  refine ⟨i1, by rw [f1]; exact h2, by rw [List.length_set]; exact h3, ?_⟩
  intro i hi hil
  rw [f1] at hil
  rw [f2 i (by omega)]
  by_cases hin : i = n
  · subst hin
    rw [getD_set_same _ _ (by omega), getD_set_same _ _ hil, hT _ h1]
    exact ⟨i2, rfl⟩
  · rw [getD_set_ne _ _ (fun e => hin e.symm), getD_set_ne _ _ (fun e => hin e.symm)]
    exact h4 i (by omega) hil

/-- After `palette_map_dither` over buffers of `width * height` entries, every
pixel is quantised, whichever branch the size selects. -/
theorem palette_map_dither_inv {σ : Type} (pi : σ → Nat → Nat × σ) (tblOf : σ → List Nat)
    (I : σ → Prop) (tbl : List Nat)
    (hI : ∀ s q, I s → I (pi s q).2 ∧ (pi s q).1 < tbl.length) (hT : ∀ s, I s → tblOf s = tbl)
    (width height : Nat) (hfit : width ≤ Cols ∨ height ≤ Rows ∨ width + 1 < 2 ^ 31)
    (st : DitherState σ) (h : DitherInv I tbl (width * height) 0 st) :
    DitherInv I tbl (width * height) (width * height)
      (palette_map_dither pi tblOf st width height) := by
  unfold palette_map_dither
  by_cases hsmall : width ≤ Cols ∨ height ≤ Rows
  · rw [if_pos hsmall, List.range_eq_range']
    have := foldl_range'_inv (fun n s => DitherInv I tbl (width * height) n s)
      (directStep pi tblOf) 0 (width * height) 0 st (by simpa using h)
      (fun x s _ _ hp => by
        simp only [Nat.zero_add] at hp ⊢
        exact directStep_inv pi tblOf I tbl _ hI hT x s hp)
    simpa using this
  · rw [if_neg hsmall]
    have hfit2 : width + 1 < 2 ^ 31 := by
      rcases hfit with h | h | h
      · exact absurd (Or.inl h) hsmall
      · exact absurd (Or.inr h) hsmall
      · exact h
    simp only [Cols, Rows, not_or, not_le] at hsmall
    obtain ⟨hw, hh⟩ := hsmall
    have hoff : ∀ off ∈ pixelOffsets width, 1 ≤ off := by
      rw [pixelOffsets_eq width (by omega) hfit2]
      intro off hmem
      simp only [List.mem_cons, List.mem_singleton, List.not_mem_nil, or_false] at hmem
      rcases hmem with h | h | h | h <;> omega
    -- one row of the main loop
    have hrow : ∀ (y : Nat) (s : DitherState σ), DitherInv I tbl (width * height) (y * width) s →
        DitherInv I tbl (width * height) (y * width + width) (ditherRow pi tblOf width s y) := by
      intro y s hs
      unfold ditherRow
      simp only [Cols]
      have s1 := foldl_range'_inv (fun n s => DitherInv I tbl (width * height) n s)
        (fun s x => directStep pi tblOf s (y * width + x)) (y * width) 1 0 s (by simpa using hs)
        (fun x s _ _ hp => directStep_inv pi tblOf I tbl _ hI hT _ s hp)
      have s2 := foldl_range'_inv (fun n s => DitherInv I tbl (width * height) n s)
        (fun s x => diffuseStep pi tblOf width s (y * width + x)) (y * width) (width - 1 - 1) 1 _
        (by simpa using s1)
        (fun x s _ _ hp => diffuseStep_inv pi tblOf I tbl _ hI hT width hoff _ s hp)
      have s3 := foldl_range'_inv (fun n s => DitherInv I tbl (width * height) n s)
        (fun s x => directStep pi tblOf s (y * width + x)) (y * width)
        (width - (width - 1)) (width - 1) _
        (by
          have e : y * width + 1 + (width - 1 - 1) = y * width + (width - 1) := by omega
          rw [← e]; exact s2)
        (fun x s _ _ hp => directStep_inv pi tblOf I tbl _ hI hT _ s hp)
      have e : y * width + (width - 1) + (width - (width - 1)) = y * width + width := by omega
      rw [← e]
      exact s3
    -- the rows of the main loop
    have hmain := foldl_range'_inv
      (fun n s => DitherInv I tbl (width * height) (n * width) s)
      (ditherRow pi tblOf width) 0 (height - Rows + 1) 0 st (by simpa using h)
      (fun y s _ _ hp => by
        simp only [Nat.zero_add] at hp ⊢
        rw [Nat.add_mul, Nat.one_mul]
        exact hrow y s hp)
    rw [← List.range_eq_range'] at hmain
    simp only [Nat.zero_add, Rows] at hmain ⊢
    -- the last row
    have hlast := foldl_range'_inv
      (fun n s => DitherInv I tbl (width * height) (n * width) s)
      (fun s y => (List.range width).foldl (fun s x => directStep pi tblOf s (y * width + x)) s)
      0 (height - (height - 2 + 1)) (height - 2 + 1) _ (by simpa using hmain)
      (fun y s _ _ hp => by
        simp only [Nat.zero_add] at hp ⊢
        rw [List.range_eq_range', Nat.add_mul, Nat.one_mul]
        have := foldl_range'_inv (fun n s => DitherInv I tbl (width * height) n s)
          (fun s x => directStep pi tblOf s (y * width + x)) (y * width) width 0 s
          (by simpa using hp)
          (fun x s _ _ hp => directStep_inv pi tblOf I tbl _ hI hT _ s hp)
        simpa using this)
    have e : (0 + (height - 2 + 1) + (height - (height - 2 + 1))) * width = width * height := by
      have : 0 + (height - 2 + 1) + (height - (height - 2 + 1)) = height := by omega
      rw [this, Nat.mul_comm]
    beta_reduce at hlast
    rw [e] at hlast
    exact hlast

theorem color_table_getD_lt (raw : List Nat) (k : Nat) : (color_table raw).getD k 0 < 2 ^ 24 := by
  rw [List.getD_eq_getElem?_getD]
  unfold color_table
  rw [List.getElem?_map]
  cases raw[k]? with
  | none => simp
  | some c =>
    simp only [Option.map_some', Option.getD_some]
    rw [mask24_eq_mod]
    exact Nat.mod_lt _ (by norm_num)

/-- A mapper created over a non-empty table serves that table: consistent cache,
masked table, and `slow_map` results below the table length. -/
theorem palette_create_serves (sort : List DistanceInfo → List DistanceInfo)
    (hsort : IsSort sort) (raw : List Nat) (optimize : Bool) (p : Palette)
    (hp : palette_create sort raw optimize = some p) (hne : 1 ≤ raw.length) :
    p.Serves (color_table raw) := by
  have hok := palette_create_cacheOK sort hsort raw optimize p hp
  have hlen : raw.length ≤ 256 := by
    by_contra hcon
    have := (palette_create_null_iff sort raw optimize).mpr (by omega)
    rw [this] at hp
    cases hp
  have hE : ∀ q, NoOptimizationPalette.slow_map (color_table raw) q < (color_table raw).length := by
    intro q
    rcases linear_slow_map_lt (color_table raw) q (by rw [color_table_length]; exact hlen) with
      h | h
    · exact h
    · rw [h, color_table_length]; omega
  have hO : ∀ q, (OptimizationPalette.create sort raw).slow_map (color_table raw) q
      < (color_table raw).length := by
    intro q
    rw [color_table_length]
    exact optimized_slow_map_lt sort hsort raw hne _ q
  unfold palette_create at hp
  split at hp
  · injection hp with hp; subst hp; exact ⟨hok, rfl, hE⟩
  · split at hp
    · split at hp
      · injection hp with hp; subst hp; exact ⟨hok, rfl, hO⟩
      · split at hp
        · injection hp with hp; subst hp; exact ⟨hok, rfl, hO⟩
        · cases hp
    · split at hp
      · injection hp with hp; subst hp; exact ⟨hok, rfl, hE⟩
      · split at hp
        · injection hp with hp; subst hp; exact ⟨hok, rfl, hE⟩
        · cases hp

theorem palette_index_serves (tbl : List Nat) (p : Palette) (q : Nat) (h : p.Serves tbl) :
    (p.palette_index q).2.Serves tbl ∧ (p.palette_index q).1 < tbl.length := by
  obtain ⟨h1, h2, h3⟩ := h
  obtain ⟨a1, a2, a3, a4⟩ := palette_index_spec p q h1
  exact ⟨⟨a2, a4.trans h2, fun c => by rw [a3]; exact h3 c⟩, by rw [a1]; exact h3 q⟩

theorem afterQueries_serves (tbl : List Nat) (p : Palette) (queries : List Nat)
    (h : p.Serves tbl) : (p.afterQueries queries).Serves tbl := by
  obtain ⟨h1, h2, h3⟩ := h
  obtain ⟨_, a2, a3, a4⟩ := palette_index_seq_spec queries p h1
  exact ⟨a2, a4.trans h2, fun c => by
    show (palette_index_seq Palette.palette_index p queries).2.slow_map c < tbl.length
    rw [a3]; exact h3 c⟩

/-- C9 (amended): after `palette_dither` on a mapper with a non-empty palette (in
any cache state) over an image whose buffers hold `width * height` entries,
every pixel of the buffer is the palette colour of its index, a 24-bit colour,
and every index is a palette index: no error diffusion changes a pixel that is
already quantised.  The image is one that takes the direct loop (width at most
3 or height at most 2) or one whose row offsets fit the 32-bit `int` of the
offset table (`width + 1 < 2 ^ 31`). -/
theorem dither_leaves_palette_colours (sort : List DistanceInfo → List DistanceInfo)
    (hsort : IsSort sort) (colorTable : List Nat) (optimize : Bool) (p : Palette)
    (hp : palette_create sort colorTable optimize = some p) (hne : 1 ≤ colorTable.length)
    (queries pixels indexes : List Nat) (width height : Nat)
    (hfit : width ≤ Cols ∨ height ≤ Rows ∨ width + 1 < 2 ^ 31)
    (hpx : pixels.length = width * height) (hix : indexes.length = width * height) :
    ∀ i < width * height,
      (palette_dither (p.afterQueries queries) pixels indexes width height).indexes.getD i 0
        < p.colorTable.length ∧
      (palette_dither (p.afterQueries queries) pixels indexes width height).pixels.getD i 0
        = p.colorTable.getD
          ((palette_dither (p.afterQueries queries) pixels indexes width height).indexes.getD i 0)
          0 ∧
      (palette_dither (p.afterQueries queries) pixels indexes width height).pixels.getD i 0
        < 2 ^ 24 := by
  have hs := palette_create_serves sort hsort colorTable optimize p hp hne
  have hs' := afterQueries_serves _ p queries hs
  have hinv := palette_map_dither_inv Palette.palette_index Palette.colorTable
    (Palette.Serves (color_table colorTable)) (color_table colorTable)
    (fun s q h => palette_index_serves _ s q h) (fun s h => h.2.1) width height hfit
    ⟨p.afterQueries queries, pixels, indexes⟩
    ⟨hs', hpx, hix, fun i hi _ => absurd hi (Nat.not_lt_zero i)⟩
  obtain ⟨_, hl, _, hq⟩ := hinv
  intro i hi
  have := hq i hi (by rw [hl]; exact hi)
  unfold palette_dither
  rw [hs.2.1]
  refine ⟨this.1, this.2, ?_⟩
  rw [this.2]
  exact color_table_getD_lt _ _

theorem dither_leaves_palette_colours_witness :
    (palette_dither ((Palette.SingleCacheEuclidean (color_table [0x000000, 0xFFFFFF])
        SingleCachePalette.create).afterQueries [0x123456]) (List.replicate 20 0x707070)
        (List.replicate 20 0) 5 4).indexes.getD 7 0
      < (Palette.SingleCacheEuclidean (color_table [0x000000, 0xFFFFFF])
        SingleCachePalette.create).colorTable.length ∧
    (palette_dither ((Palette.SingleCacheEuclidean (color_table [0x000000, 0xFFFFFF])
        SingleCachePalette.create).afterQueries [0x123456]) (List.replicate 20 0x707070)
        (List.replicate 20 0) 5 4).pixels.getD 7 0
      = (Palette.SingleCacheEuclidean (color_table [0x000000, 0xFFFFFF])
        SingleCachePalette.create).colorTable.getD
        ((palette_dither ((Palette.SingleCacheEuclidean (color_table [0x000000, 0xFFFFFF])
          SingleCachePalette.create).afterQueries [0x123456]) (List.replicate 20 0x707070)
          (List.replicate 20 0) 5 4).indexes.getD 7 0) 0 ∧
    (palette_dither ((Palette.SingleCacheEuclidean (color_table [0x000000, 0xFFFFFF])
        SingleCachePalette.create).afterQueries [0x123456]) (List.replicate 20 0x707070)
        (List.replicate 20 0) 5 4).pixels.getD 7 0 < 2 ^ 24 :=
  dither_leaves_palette_colours insertionSort insertionSort_isSort [0x000000, 0xFFFFFF] true _ rfl
    (by decide) [0x123456] (List.replicate 20 0x707070) (List.replicate 20 0) 5 4
    (Or.inr (Or.inr (by norm_num))) rfl rfl 7 (by decide)

theorem range'_split3 (width : Nat) (hw : 2 ≤ width) :
    List.range width = List.range' 0 1 ++ (List.range' 1 (width - 1 - 1) ++
      List.range' (width - 1) (width - (width - 1))) := by
  rw [List.range_eq_range']
  have e1 : List.range' 1 (width - 1 - 1) ++ List.range' (width - 1) (width - (width - 1))
      = List.range' 1 (width - 1) := by
    have := List.range'_append_1 1 (width - 1 - 1) (width - (width - 1))
    rw [show 1 + (width - 1 - 1) = width - 1 by omega,
      show width - (width - 1) + (width - 1 - 1) = width - 1 by omega] at this
    exact this
  rw [e1]
  have := List.range'_append_1 0 1 (width - 1)
  rw [show 0 + 1 = 1 by rfl, show width - 1 + 1 = width by omega] at this
  exact this.symm

/-- At an interior pixel, for a width whose offsets fit a 32-bit `int`, the
diffusion through `pixelOffsets` is the diffusion to the four named
neighbours. -/
theorem diffuseStep_eq_spreadStep {σ : Type} (pi : σ → Nat → Nat × σ) (tblOf : σ → List Nat)
    (width : Nat) (hfit : width + 1 < 2 ^ 31) (st : DitherState σ) (x y : Nat) (hx : 1 ≤ x)
    (hw : 1 ≤ width) :
    diffuseStep pi tblOf width st (y * width + x) = spreadStep pi tblOf width st x y := by
  have t1 : (((y * width + x : Nat) : Int) + 1).toNat = y * width + (x + 1) := by omega
  have t2 : (((y * width + x : Nat) : Int) + ((width - 1 : Nat) : Int)).toNat
      = (y + 1) * width + (x - 1) := by
    rw [Nat.add_mul, Nat.one_mul]; omega
  have t3 : (((y * width + x : Nat) : Int) + (width : Int)).toNat = (y + 1) * width + x := by
    rw [Nat.add_mul, Nat.one_mul]; omega
  have t4 : (((y * width + x : Nat) : Int) + ((width + 1 : Nat) : Int)).toNat
      = (y + 1) * width + (x + 1) := by
    rw [Nat.add_mul, Nat.one_mul]; omega
  unfold diffuseStep spreadStep spreadToNeighbours
  rw [pixelOffsets_eq width hw hfit, weights_eq]
  simp only [List.zip_cons_cons, List.zip_nil_right, diffuseLoop, List.foldl_cons,
    List.foldl_nil, t1, t2, t3, t4, List.getD_cons_zero, List.getD_cons_succ]

/-- C10 (amended): for every image more than 3 pixels wide and more than 2 rows
high (a width whose row offsets fit the 32-bit `int` of the source),
`palette_map_dither` is the dither of the border policy: every pixel `(x, y)` with
`1 ≤ x ≤ width - 2` and `y ≤ height - 2` is mapped and its error spread to
`(x+1, y)`, `(x-1, y+1)`, `(x, y+1)`, `(x+1, y+1)`, and exactly the pixels of
the leftmost column, of the rightmost column and of the bottom row are mapped
without spreading error. -/
theorem dither_follows_border_policy {σ : Type} (palette_index : σ → Nat → Nat × σ)
    (colorTable : σ → List Nat) (st : DitherState σ) (width height : Nat) (hw : 3 < width)
    (hh : 2 < height) (hfit : width + 1 < 2 ^ 31) :
    palette_map_dither palette_index colorTable st width height
      = dither_by_border_policy palette_index colorTable st width height := by
  unfold palette_map_dither dither_by_border_policy
  rw [if_neg (by simp only [Cols, Rows]; omega)]
  simp only [Rows]
  have hrow : ∀ (y : Nat), y < height - 1 → ∀ s : DitherState σ,
      ditherRow palette_index colorTable width s y
        = (List.range width).foldl (fun s x =>
            if x = 0 ∨ x = width - 1 ∨ y = height - 1 then
              directStep palette_index colorTable s (y * width + x)
            else spreadStep palette_index colorTable width s x y) s := by
    intro y hy s
    unfold ditherRow
    simp only [Cols]
    rw [range'_split3 width (by omega), List.foldl_append, List.foldl_append]
    have c1 : ∀ s : DitherState σ,
        (List.range' 0 1).foldl (fun s x => directStep palette_index colorTable s (y * width + x)) s
        = (List.range' 0 1).foldl (fun s x =>
            if x = 0 ∨ x = width - 1 ∨ y = height - 1 then
              directStep palette_index colorTable s (y * width + x)
            else spreadStep palette_index colorTable width s x y) s := by
      intro s
      apply List.foldl_ext
      intro a b hb
      rw [List.mem_range'_1] at hb
      rw [if_pos (Or.inl (by omega))]
    have c2 : ∀ s : DitherState σ,
        (List.range' 1 (width - 1 - 1)).foldl
          (fun s x => diffuseStep palette_index colorTable width s (y * width + x)) s
        = (List.range' 1 (width - 1 - 1)).foldl (fun s x =>
            if x = 0 ∨ x = width - 1 ∨ y = height - 1 then
              directStep palette_index colorTable s (y * width + x)
            else spreadStep palette_index colorTable width s x y) s := by
      intro s
      apply List.foldl_ext
      intro a b hb
      rw [List.mem_range'_1] at hb
      rw [if_neg (by omega)]
      exact diffuseStep_eq_spreadStep palette_index colorTable width hfit a b y (by omega)
        (by omega)
    have c3 : ∀ s : DitherState σ,
        (List.range' (width - 1) (width - (width - 1))).foldl
          (fun s x => directStep palette_index colorTable s (y * width + x)) s
        = (List.range' (width - 1) (width - (width - 1))).foldl (fun s x =>
            if x = 0 ∨ x = width - 1 ∨ y = height - 1 then
              directStep palette_index colorTable s (y * width + x)
            else spreadStep palette_index colorTable width s x y) s := by
      intro s
      apply List.foldl_ext
      intro a b hb
      rw [List.mem_range'_1] at hb
      rw [if_pos (Or.inr (Or.inl (by omega)))]
    rw [c1, c2, c3]
  have hsplit : List.range height
      = List.range (height - 2 + 1) ++ List.range' (height - 2 + 1) (height - (height - 2 + 1)) := by
    rw [List.range_eq_range', List.range_eq_range']
    have := List.range'_append_1 0 (height - 2 + 1) (height - (height - 2 + 1))
    rw [show height - (height - 2 + 1) + (height - 2 + 1) = height by omega, Nat.zero_add] at this
    exact this.symm
  rw [hsplit, List.foldl_append]
  have hmain : ∀ s : DitherState σ,
      (List.range (height - 2 + 1)).foldl (ditherRow palette_index colorTable width) s
        = (List.range (height - 2 + 1)).foldl (fun s y => (List.range width).foldl (fun s x =>
            if x = 0 ∨ x = width - 1 ∨ y = height - 1 then
              directStep palette_index colorTable s (y * width + x)
            else spreadStep palette_index colorTable width s x y) s) s := by
    intro s
    apply List.foldl_ext
    intro a y hy
    rw [List.mem_range] at hy
    exact hrow y (by omega) a
  rw [hmain]
  apply List.foldl_ext
  intro a y hy
  rw [List.mem_range'_1] at hy
  apply List.foldl_ext
  intro s x _
  rw [if_pos (Or.inr (Or.inr (by omega)))]

theorem dither_follows_border_policy_witness :
    palette_map_dither Palette.palette_index Palette.colorTable
        ⟨Palette.SingleCacheEuclidean (color_table [0x000000, 0xFFFFFF]) SingleCachePalette.create,
          List.replicate 20 0x707070, List.replicate 20 0⟩ 5 4
      = dither_by_border_policy Palette.palette_index Palette.colorTable
        ⟨Palette.SingleCacheEuclidean (color_table [0x000000, 0xFFFFFF]) SingleCachePalette.create,
          List.replicate 20 0x707070, List.replicate 20 0⟩ 5 4 :=
  dither_follows_border_policy Palette.palette_index Palette.colorTable _ 5 4 (by decide)
    (by decide) (by norm_num)

/-- C10 (counterexample): on the image of width 3 and height 2 whose six pixels are
`0x707070`, with the palette `[0x000000, 0xFFFFFF]`, `palette_dither` maps every
pixel to index 0, the pixel `(1, 0)` included without spreading its error; the
dither of the border policy spreads the error of `(1, 0)` and maps its right
neighbour `(2, 0)` to index 1. -/
theorem dither_skips_policy_on_3x2 :
    (palette_dither (Palette.SingleCacheEuclidean (color_table [0x000000, 0xFFFFFF])
        SingleCachePalette.create) (List.replicate 6 0x707070) (List.replicate 6 0) 3 2).indexes
      = [0, 0, 0, 0, 0, 0] ∧
    (dither_by_border_policy Palette.palette_index Palette.colorTable
        ⟨Palette.SingleCacheEuclidean (color_table [0x000000, 0xFFFFFF]) SingleCachePalette.create,
          List.replicate 6 0x707070, List.replicate 6 0⟩ 3 2).indexes
      = [0, 0, 1, 0, 1, 0] ∧
    palette_create insertionSort [0x000000, 0xFFFFFF] true
      = some (Palette.SingleCacheEuclidean (color_table [0x000000, 0xFFFFFF])
        SingleCachePalette.create) ∧
    palette_map_dither Palette.palette_index Palette.colorTable
        ⟨Palette.SingleCacheEuclidean (color_table [0x000000, 0xFFFFFF]) SingleCachePalette.create,
          List.replicate 6 0x707070, List.replicate 6 0⟩ 3 2
      ≠ dither_by_border_policy Palette.palette_index Palette.colorTable
        ⟨Palette.SingleCacheEuclidean (color_table [0x000000, 0xFFFFFF]) SingleCachePalette.create,
          List.replicate 6 0x707070, List.replicate 6 0⟩ 3 2 := by
  have h1 : (palette_dither (Palette.SingleCacheEuclidean (color_table [0x000000, 0xFFFFFF])
      SingleCachePalette.create) (List.replicate 6 0x707070) (List.replicate 6 0) 3 2).indexes
      = [0, 0, 0, 0, 0, 0] := by decide!
  have h2 : (dither_by_border_policy Palette.palette_index Palette.colorTable
      ⟨Palette.SingleCacheEuclidean (color_table [0x000000, 0xFFFFFF]) SingleCachePalette.create,
        List.replicate 6 0x707070, List.replicate 6 0⟩ 3 2).indexes
      = [0, 0, 1, 0, 1, 0] := by decide!
  refine ⟨h1, h2, rfl, fun h => ?_⟩
  have h3 := congrArg DitherState.indexes h
  unfold palette_dither at h1
  rw [h1, h2] at h3
  exact absurd h3 (by decide)

end EuclideanPalette

/-! ## The positions of the dither and the small images -/

namespace EuclideanPalette

theorem foldl_frame {S A B : Type} (get : S → B) (step : S → A → S) (acc : A → List Int)
    (j : Int) :
    ∀ (l : List A) (s : S), (∀ a ∈ l, ∀ s, j ∉ acc a → get (step s a) = get s) →
      j ∉ l.flatMap acc → get (l.foldl step s) = get s := by
  intro l
  induction l with
  | nil => intro s _ _; rfl
  | cons a rest ih =>
    intro s h hj
    simp only [List.flatMap_cons, List.mem_append, not_or] at hj
    rw [List.foldl_cons, ih (step s a) (fun b hb => h b (List.mem_cons_of_mem _ hb)) hj.2]
    exact h a (List.mem_cons_self _ _) s hj.1

theorem directStep_frame {σ : Type} (pi : σ → Nat → Nat × σ) (tblOf : σ → List Nat)
    (st : DitherState σ) (pos j : Nat) (h : (j : Int) ∉ directStepAccesses pos) :
    ((directStep pi tblOf st pos).pixels.getD j 0, (directStep pi tblOf st pos).indexes.getD j 0)
      = (st.pixels.getD j 0, st.indexes.getD j 0) := by
  simp only [directStepAccesses, List.mem_singleton, Nat.cast_inj] at h
  simp only [directStep]
  rw [getD_set_ne _ _ (fun e => h e.symm), getD_set_ne _ _ (fun e => h e.symm)]

theorem diffuseLoop_untouched (errR errG errB : Int) (pos j : Nat) :
    ∀ (l : List (Int × Nat)) (pixels : List Nat),
      (∀ ow ∈ l, 0 ≤ (pos : Int) + ow.1 ∧ (j : Int) ≠ (pos : Int) + ow.1) →
      (diffuseLoop errR errG errB pos l pixels).getD j 0 = pixels.getD j 0 := by
  intro l
  induction l with
  | nil => intro px _; rfl
  | cons ow rest ih =>
    intro px h
    obtain ⟨off, w⟩ := ow
    simp only [diffuseLoop]
    rw [ih _ (fun x hx => h x (List.mem_cons_of_mem _ hx))]
    obtain ⟨h1, h2⟩ := h (off, w) (List.mem_cons_self _ _)
    simp only at h1 h2
    exact getD_set_ne _ _ (by omega)

theorem diffuseStep_frame {σ : Type} (pi : σ → Nat → Nat × σ) (tblOf : σ → List Nat)
    (width : Nat) (hoff : ∀ off ∈ pixelOffsets width, 0 ≤ off)
    (st : DitherState σ) (pos j : Nat) (h : (j : Int) ∉ diffuseStepAccesses width pos) :
    ((diffuseStep pi tblOf width st pos).pixels.getD j 0,
        (diffuseStep pi tblOf width st pos).indexes.getD j 0)
      = (st.pixels.getD j 0, st.indexes.getD j 0) := by
  simp only [diffuseStepAccesses, List.mem_cons, List.mem_map, not_or, Nat.cast_inj,
    not_exists, not_and] at h
  obtain ⟨h1, h2⟩ := h
  simp only [diffuseStep]
  rw [diffuseLoop_untouched, getD_set_ne _ _ (fun e => h1 e.symm),
    getD_set_ne _ _ (fun e => h1 e.symm)]
  intro ow how
  obtain ⟨a, b⟩ := ow
  have ha := (List.of_mem_zip how).1
  exact ⟨by have := hoff a ha; simp only; omega, fun e => h2 a ha e.symm⟩

/-- The access trace covers the writes of the embedding: `palette_map_dither`
leaves the pixel and the index at every position outside
`palette_map_dither_accesses` as they were. -/
theorem palette_map_dither_frame {σ : Type} (pi : σ → Nat → Nat × σ) (tblOf : σ → List Nat)
    (width height : Nat) (hw : 1 ≤ width) (hfit : width + 1 < 2 ^ 31) (st : DitherState σ)
    (j : Nat) (h : (j : Int) ∉ palette_map_dither_accesses width height) :
    (palette_map_dither pi tblOf st width height).pixels.getD j 0 = st.pixels.getD j 0 ∧
      (palette_map_dither pi tblOf st width height).indexes.getD j 0 = st.indexes.getD j 0 := by
  have hoff : ∀ off ∈ pixelOffsets width, 0 ≤ off := by
    rw [pixelOffsets_eq width hw hfit]
    intro off hmem
    simp only [List.mem_cons, List.mem_singleton, List.not_mem_nil, or_false] at hmem
    rcases hmem with h | h | h | h <;> omega
  have hd : ∀ (base : Nat) (l : List Nat) (s : DitherState σ),
      (j : Int) ∉ l.flatMap (fun x => directStepAccesses (base + x)) →
      ((l.foldl (fun s x => directStep pi tblOf s (base + x)) s).pixels.getD j 0,
        (l.foldl (fun s x => directStep pi tblOf s (base + x)) s).indexes.getD j 0)
        = (s.pixels.getD j 0, s.indexes.getD j 0) := fun base l s hj =>
    foldl_frame (fun s : DitherState σ => (s.pixels.getD j 0, s.indexes.getD j 0))
      (fun s x => directStep pi tblOf s (base + x)) (fun x => directStepAccesses (base + x))
      j l s (fun a _ s ha => directStep_frame pi tblOf s _ j ha) hj
  have hrow : ∀ (y : Nat) (s : DitherState σ), (j : Int) ∉ ditherRowAccesses width y →
      ((ditherRow pi tblOf width s y).pixels.getD j 0,
        (ditherRow pi tblOf width s y).indexes.getD j 0)
        = (s.pixels.getD j 0, s.indexes.getD j 0) := by
    intro y s hj
    unfold ditherRowAccesses at hj
    simp only [List.mem_append, not_or] at hj
    obtain ⟨j1, j2, j3⟩ := hj
    unfold ditherRow
    simp only []
    rw [hd (y * width) _ _ j3,
      foldl_frame (fun s : DitherState σ => (s.pixels.getD j 0, s.indexes.getD j 0))
        (fun s x => diffuseStep pi tblOf width s (y * width + x))
        (fun x => diffuseStepAccesses width (y * width + x)) j _ _
        (fun a _ s ha => diffuseStep_frame pi tblOf width hoff s _ j ha) j2,
      hd (y * width) _ _ j1]
  have hall : ((palette_map_dither pi tblOf st width height).pixels.getD j 0,
      (palette_map_dither pi tblOf st width height).indexes.getD j 0)
      = (st.pixels.getD j 0, st.indexes.getD j 0) := by
    unfold palette_map_dither
    unfold palette_map_dither_accesses at h
    by_cases hsmall : width ≤ Cols ∨ height ≤ Rows
    · rw [if_pos hsmall] at h ⊢
      exact foldl_frame (fun s : DitherState σ => (s.pixels.getD j 0, s.indexes.getD j 0))
        (directStep pi tblOf) directStepAccesses j _ st
        (fun a _ s ha => directStep_frame pi tblOf s _ j ha) h
    · rw [if_neg hsmall] at h ⊢
      simp only [List.mem_append, not_or] at h
      obtain ⟨j1, j2⟩ := h
      simp only []
      rw [foldl_frame (fun s : DitherState σ => (s.pixels.getD j 0, s.indexes.getD j 0))
          (fun s y => (List.range width).foldl
            (fun s x => directStep pi tblOf s (y * width + x)) s)
          (fun y => (List.range width).flatMap (fun x => directStepAccesses (y * width + x)))
          j _ _ (fun y _ s hy => hd (y * width) _ s hy) j2,
        foldl_frame (fun s : DitherState σ => (s.pixels.getD j 0, s.indexes.getD j 0))
          (ditherRow pi tblOf width) (ditherRowAccesses width) j _ st
          (fun y _ s hy => hrow y s hy) j1]
  exact ⟨congrArg Prod.fst hall, congrArg Prod.snd hall⟩

/-- Every position listed by `palette_map_dither_accesses` lies in
`[0, width * height)`, for an image of width at least one that takes the direct
loop or whose row offsets fit the 32-bit `int` of the source. -/
theorem dither_positions_inside_image (width height : Nat) (hw : 1 ≤ width)
    (hfit : width ≤ Cols ∨ height ≤ Rows ∨ width + 1 < 2 ^ 31) :
    ∀ p ∈ palette_map_dither_accesses width height, 0 ≤ p ∧ p < ((width * height : Nat) : Int) := by
  intro p hp
  unfold palette_map_dither_accesses at hp
  by_cases hsmall : width ≤ Cols ∨ height ≤ Rows
  · rw [if_pos hsmall] at hp
    simp only [List.mem_flatMap, List.mem_range, directStepAccesses, List.mem_singleton] at hp
    obtain ⟨a, ha, rfl⟩ := hp
    omega
  · rw [if_neg hsmall] at hp
    have hfit2 : width + 1 < 2 ^ 31 := by
      rcases hfit with h | h | h
      · exact absurd (Or.inl h) hsmall
      · exact absurd (Or.inr h) hsmall
      · exact h
    simp only [Cols, Rows, not_or, not_le] at hsmall
    obtain ⟨hw3, hh2⟩ := hsmall
    simp only [List.mem_append, List.mem_flatMap, List.mem_range, List.mem_range'_1,
      ditherRowAccesses, directStepAccesses, diffuseStepAccesses, List.mem_singleton,
      List.mem_cons, Cols, Rows, pixelOffsets_eq width hw hfit2, List.map_cons, List.map_nil,
      List.not_mem_nil, or_false] at hp
    have key : ∀ y, y + 1 ≤ height → y * width + width ≤ width * height := by
      intro y hy
      have := Nat.mul_le_mul_right width hy
      rw [Nat.add_mul, Nat.one_mul, Nat.mul_comm height width] at this
      exact this
    rcases hp with ⟨y, hy, h⟩ | ⟨y, hy, x, hx, rfl⟩
    · have k1 := key y (by omega)
      have k2 := key (y + 1) (by omega)
      rw [Nat.add_mul, Nat.one_mul] at k2
      rcases h with ⟨x, hx, rfl⟩ | ⟨x, hx, h⟩ | ⟨x, hx, rfl⟩
      · omega
      · rcases h with rfl | rfl | rfl | rfl | rfl <;> omega
      · omega
    · have k1 := key y (by omega)
      omega

theorem dither_positions_inside_image_witness :
    (12 : Int) ∈ palette_map_dither_accesses 5 4 ∧ (0 : Int) ≤ 12 ∧
      (12 : Int) < ((5 * 4 : Nat) : Int) :=
  ⟨by decide,
    dither_positions_inside_image 5 4 (by decide) (Or.inr (Or.inr (by norm_num))) 12 (by decide)⟩

end EuclideanPalette

namespace EuclideanPalette

theorem list_eq_of_getD {l1 l2 : List Nat} (hl : l1.length = l2.length)
    (h : ∀ i < l1.length, l1.getD i 0 = l2.getD i 0) : l1 = l2 := by
  apply List.ext_getElem hl
  intro i h1 h2
  have := h i h1
  rw [List.getD_eq_getElem _ _ h1, List.getD_eq_getElem _ _ h2] at this
  exact this

theorem getD_map_of_lt (f : Nat → Nat) (l : List Nat) (i : Nat) (h : i < l.length) :
    (l.map f).getD i 0 = f (l.getD i 0) := by
  rw [List.getD_eq_getElem _ _ (by rw [List.length_map]; exact h), List.getD_eq_getElem _ _ h,
    List.getElem_map]

/-- The direct loop over the first `n` positions: every index is the `slow_map`
result of the original pixel, every pixel its table colour, and the pixels from
`n` on are the original ones. -/
theorem direct_loop_spec (tbl : List Nat) (P : Palette) (hP : P.Serves tbl)
    (pixels indexes : List Nat) (hlen : pixels.length = indexes.length) (n : Nat) :
    let st := (List.range' 0 n).foldl (directStep Palette.palette_index Palette.colorTable)
      ⟨P, pixels, indexes⟩
    st.palette.Serves tbl ∧ (∀ q, st.palette.slow_map q = P.slow_map q) ∧
      st.pixels.length = pixels.length ∧ st.indexes.length = indexes.length ∧
      (∀ i < n, i < pixels.length →
        st.indexes.getD i 0 = P.slow_map (pixels.getD i 0 &&& 0xffffff) ∧
        st.pixels.getD i 0 = tbl.getD (P.slow_map (pixels.getD i 0 &&& 0xffffff)) 0) ∧
      (∀ i, n ≤ i → st.pixels.getD i 0 = pixels.getD i 0) := by
  have := foldl_range'_inv
    (fun n (st : DitherState Palette) =>
      st.palette.Serves tbl ∧ (∀ q, st.palette.slow_map q = P.slow_map q) ∧
      st.pixels.length = pixels.length ∧ st.indexes.length = indexes.length ∧
      (∀ i < n, i < pixels.length →
        st.indexes.getD i 0 = P.slow_map (pixels.getD i 0 &&& 0xffffff) ∧
        st.pixels.getD i 0 = tbl.getD (P.slow_map (pixels.getD i 0 &&& 0xffffff)) 0) ∧
      (∀ i, n ≤ i → st.pixels.getD i 0 = pixels.getD i 0))
    (directStep Palette.palette_index Palette.colorTable) 0 n 0 ⟨P, pixels, indexes⟩
    ⟨hP, fun _ => rfl, rfl, rfl, fun i hi => absurd hi (Nat.not_lt_zero i), fun _ _ => rfl⟩
    (fun x s _ _ hp => by
      simp only [Nat.zero_add] at hp ⊢
      obtain ⟨h1, h2, h3, h4, h5, h6⟩ := hp
      obtain ⟨a1, a2, a3, a4⟩ := palette_index_spec s.palette (s.pixels.getD x 0 &&& 0xffffff) h1.1
      have hs := palette_index_serves tbl s.palette (s.pixels.getD x 0 &&& 0xffffff) h1
      refine ⟨hs.1, fun q => (congrFun a3 q).trans (h2 q), by simp only [directStep, List.length_set]; exact h3,
        by simp only [directStep, List.length_set]; exact h4, ?_, ?_⟩
      · intro i hi hil
        simp only [directStep]
        by_cases hix : i = x
        · subst hix
          rw [getD_set_same _ _ (by omega), getD_set_same _ _ (by omega), a1, h2, h6 i (le_refl _),
            h1.2.1]
          exact ⟨rfl, rfl⟩
        · rw [getD_set_ne _ _ (fun e => hix e.symm), getD_set_ne _ _ (fun e => hix e.symm)]
          exact h5 i (by omega) hil
      · intro i hi
        simp only [directStep]
        rw [getD_set_ne _ _ (by omega)]
        exact h6 i (by omega))
  simpa using this

/-- C12: for every mapper with a non-empty palette (in any cache state) and every
image of width at most 3 or height at most 2 whose buffers hold `width * height`
entries, `palette_dither` writes the index array that `palette_map` writes for
the original pixels, and replaces each pixel by the palette colour of its
index. -/
theorem small_image_dither_is_direct_map (sort : List DistanceInfo → List DistanceInfo)
    (hsort : IsSort sort) (colorTable : List Nat) (optimize : Bool) (p : Palette)
    (hp : palette_create sort colorTable optimize = some p) (hne : 1 ≤ colorTable.length)
    (queries pixels indexes : List Nat) (width height : Nat) (hsmall : width ≤ 3 ∨ height ≤ 2)
    (hpx : pixels.length = width * height) (hix : indexes.length = width * height) :
    (palette_dither (p.afterQueries queries) pixels indexes width height).indexes
        = (palette_map (p.afterQueries queries) pixels indexes).2 ∧
      (palette_dither (p.afterQueries queries) pixels indexes width height).pixels
        = (palette_map (p.afterQueries queries) pixels indexes).2.map
          (fun i => p.colorTable.getD i 0) := by
  have hs := palette_create_serves sort hsort colorTable optimize p hp hne
  have hs' := afterQueries_serves _ p queries hs
  have hmap : (palette_map (p.afterQueries queries) pixels indexes).2
      = pixels.map (fun px => (p.afterQueries queries).slow_map (px &&& 0xffffff)) := by
    unfold palette_map
    rw [palette_map_no_dither_spec pixels _ indexes 0 hs'.1 (by omega)]
    simp
  obtain ⟨_, _, d3, d4, d5, _⟩ := direct_loop_spec _ _ hs' pixels indexes (by omega) (width * height)
  have hd : palette_dither (p.afterQueries queries) pixels indexes width height
      = (List.range' 0 (width * height)).foldl
        (directStep Palette.palette_index Palette.colorTable)
        ⟨p.afterQueries queries, pixels, indexes⟩ := by
    unfold palette_dither palette_map_dither
    rw [if_pos (by simpa [Cols, Rows] using hsmall), List.range_eq_range']
  rw [hd, hmap, hs.2.1]
  constructor
  · apply list_eq_of_getD (by rw [d4, List.length_map]; omega)
    intro i hi
    rw [d4] at hi
    rw [(d5 i (by omega) (by omega)).1, getD_map_of_lt _ _ _ (by omega)]
  · apply list_eq_of_getD (by rw [d3, List.length_map, List.length_map])
    intro i hi
    rw [d3] at hi
    rw [(d5 i (by omega) hi).2, getD_map_of_lt _ _ _ (by rw [List.length_map]; exact hi),
      getD_map_of_lt _ _ _ hi]

theorem small_image_dither_is_direct_map_witness :
    (palette_dither ((Palette.SingleCacheEuclidean (color_table [0x000000, 0xFFFFFF])
        SingleCachePalette.create).afterQueries []) [0x010101, 0xFEFEFE] [0, 0] 2 1).indexes
      = [0, 1] ∧
    (palette_dither ((Palette.SingleCacheEuclidean (color_table [0x000000, 0xFFFFFF])
        SingleCachePalette.create).afterQueries []) [0x010101, 0xFEFEFE] [0, 0] 2 1).pixels
      = [0x000000, 0xFFFFFF] ∧
    ((palette_dither ((Palette.SingleCacheEuclidean (color_table [0x000000, 0xFFFFFF])
        SingleCachePalette.create).afterQueries []) [0x010101, 0xFEFEFE] [0, 0] 2 1).indexes
      = (palette_map ((Palette.SingleCacheEuclidean (color_table [0x000000, 0xFFFFFF])
        SingleCachePalette.create).afterQueries []) [0x010101, 0xFEFEFE] [0, 0]).2 ∧
    (palette_dither ((Palette.SingleCacheEuclidean (color_table [0x000000, 0xFFFFFF])
        SingleCachePalette.create).afterQueries []) [0x010101, 0xFEFEFE] [0, 0] 2 1).pixels
      = (palette_map ((Palette.SingleCacheEuclidean (color_table [0x000000, 0xFFFFFF])
        SingleCachePalette.create).afterQueries []) [0x010101, 0xFEFEFE] [0, 0]).2.map
        (fun i => (Palette.SingleCacheEuclidean (color_table [0x000000, 0xFFFFFF])
          SingleCachePalette.create).colorTable.getD i 0)) :=
  ⟨by decide!, by decide!,
    small_image_dither_is_direct_map insertionSort insertionSort_isSort [0x000000, 0xFFFFFF] true _
      rfl (by decide) [] [0x010101, 0xFEFEFE] [0, 0] 2 1 (by decide) rfl rfl⟩

end EuclideanPalette

/-! ## A palette entry and the candidate list of its cube -/

namespace EuclideanPalette

theorem edgePalette_rows_nodup :
    ∀ i < edgePalette.length, ((distRow edgePalette i).map (fun d => d.distance)).Nodup := by
  decide!

/-- C20 (failing input): entry 2 of `edgePalette`, the colour `0x080810`, lies in
cube 1, and the candidate list that the constructor builds for cube 1 is
`[0, 1]`, whatever the sort: no index of the list has the colour of entry 2.  The
mapper built with `optimize = true` therefore maps the palette colour `0x080810`
itself to entry 1, at squared distance 1. -/
theorem palette_entry_missing_from_own_cube :
    (∀ sort, IsSort sort →
      (OptimizationPalette.create sort edgePalette).candidates 1 = [0, 1]) ∧
      edgePalette.getD 2 0 = 0x080810 ∧ cubeIndexOf (edgePalette.getD 2 0) = 1 ∧
      (∀ i ∈ (OptimizationPalette.create insertionSort edgePalette).candidates 1,
        edgePalette.getD i 0 ≠ edgePalette.getD 2 0) ∧
      (∀ sort, IsSort sort → ∃ p, palette_create sort edgePalette true = some p ∧
        (palette_map p [0x080810] [0]).2 = [1] ∧ dist2 p.colorTable 0x080810 1 = 1 ∧
        dist2 p.colorTable 0x080810 2 = 0) := by
  have h : (OptimizationPalette.create insertionSort edgePalette).candidates 1 = [0, 1] := by
    decide!
  have hs : ∀ sort, IsSort sort →
      OptimizationPalette.create sort edgePalette
        = OptimizationPalette.create insertionSort edgePalette := fun sort hsort =>
    create_sort_independent sort hsort edgePalette (by decide) edgePalette_rows_nodup
  refine ⟨fun sort hsort => ?_, rfl, by decide!, ?_, fun sort hsort => ?_⟩
  · rw [hs sort hsort]
    exact h
  · rw [h]
    decide!
  · have e : palette_create sort edgePalette true = palette_create insertionSort edgePalette true := by
      unfold palette_create
      rw [hs sort hsort]
    rw [e]
    exact ⟨_, rfl, by decide!, by decide!, by decide!⟩

end EuclideanPalette

/-! ## The histogram, the reset and the order lists -/

namespace SpaceShockColorExtractor

open EuclideanPalette (setAt byte0 byte1 byte2 getD_set_ne getD_set_same setAt_same setAt_ne
  mask24_eq_mod)

theorem sum_counts_setAt (f : Nat → CountNode) (c : Nat) (v : CountNode) :
    ∀ l : List Nat, l.Nodup → c ∈ l →
      (l.map (fun x => (setAt f c v x).count)).sum + (f c).count
        = (l.map (fun x => (f x).count)).sum + v.count := by
  intro l
  induction l with
  | nil => intro _ h; cases h
  | cons a rest ih =>
    intro hnd hc
    rw [List.nodup_cons] at hnd
    simp only [List.map_cons, List.sum_cons]
    by_cases hac : a = c
    · subst hac
      have e : rest.map (fun x => (setAt f a v x).count) = rest.map (fun x => (f x).count) := by
        apply List.map_congr_left
        intro x hx
        rw [setAt_ne _ _ (fun (h : x = a) => hnd.1 (h ▸ hx))]
      rw [e, setAt_same]
      omega
    · have hc' : c ∈ rest := by
        rcases List.mem_cons.mp hc with h | h
        · exact absurd h.symm hac
        · exact h
      have := ih hnd.2 hc'
      rw [setAt_ne _ _ hac]
      omega

theorem count_le_sum (f : Nat → CountNode) (c : Nat) :
    ∀ l : List Nat, c ∈ l → (f c).count ≤ (l.map (fun x => (f x).count)).sum := by
  intro l
  induction l with
  | nil => intro h; cases h
  | cons a rest ih =>
    intro hc
    simp only [List.map_cons, List.sum_cons]
    rcases List.mem_cons.mp hc with h | h
    · subst h; omega
    · have := ih h; omega

/-- The invariant of the loop of `add_bitmap` after `n` pixels. -/
theorem add_pixel_inv (e : SpaceShockColorExtractor) (p n : Nat) (hn : n + 1 < 2 ^ 32)
    (h1 : e.colorList.Nodup)
    (h2 : ∀ c ∈ e.colorList, c < 2 ^ 24 ∧ 1 ≤ (e.colorCounts c).count)
    (h3 : ∀ c, c ∉ e.colorList → (e.colorCounts c).count = 0)
    (h4 : (e.colorList.map (fun c => (e.colorCounts c).count)).sum = n) :
    (add_pixel e p).colorList.Nodup ∧
    (∀ c ∈ (add_pixel e p).colorList, c < 2 ^ 24 ∧ 1 ≤ ((add_pixel e p).colorCounts c).count) ∧
    (∀ c, c ∉ (add_pixel e p).colorList → ((add_pixel e p).colorCounts c).count = 0) ∧
    ((add_pixel e p).colorList.map (fun c => ((add_pixel e p).colorCounts c).count)).sum = n + 1 ∧
    (add_pixel e p).pixelTotalCount = e.pixelTotalCount := by
  have hlt : p &&& 0xffffff < 2 ^ 24 := by
    rw [mask24_eq_mod]; exact Nat.mod_lt _ (by norm_num)
  unfold add_pixel
  generalize p &&& 0xffffff = c at hlt
  by_cases hz : (e.colorCounts c).count = 0
  · have hnot : c ∉ e.colorList := fun hm => by have := (h2 c hm).2; omega
    simp only [hz, if_true, Nat.zero_add]
    rw [Nat.mod_eq_of_lt (by norm_num : 1 < 2 ^ 32)]
    have hsame : ∀ x ∈ e.colorList,
        (setAt e.colorCounts c ⟨1, (e.colorCounts c).node⟩ x).count = (e.colorCounts x).count :=
      fun x hx => by rw [setAt_ne _ _ (fun (h : x = c) => hnot (h ▸ hx))]
    refine ⟨?_, ?_, ?_, ?_, trivial⟩
    · exact List.Nodup.append h1 (List.nodup_singleton c) (by simpa using hnot)
    · intro x hx
      rcases List.mem_append.mp hx with h | h
      · rw [hsame x h]; exact h2 x h
      · rw [List.mem_singleton.mp h, setAt_same]; exact ⟨hlt, le_refl _⟩
    · intro x hx
      have hx1 : x ∉ e.colorList := fun h => hx (List.mem_append_left _ h)
      have hx2 : x ≠ c := fun h => hx (List.mem_append_right _ (by simp [h]))
      rw [setAt_ne _ _ hx2]
      exact h3 x hx1
    · rw [List.map_append, List.sum_append, List.map_congr_left hsame, h4]
      simp [setAt_same]
  · have hin : c ∈ e.colorList := by
      by_contra hm
      exact hz (h3 c hm)
    have hle := count_le_sum e.colorCounts c e.colorList hin
    rw [h4] at hle
    simp only [hz, if_false]
    rw [Nat.mod_eq_of_lt (by omega)]
    refine ⟨h1, ?_, ?_, ?_, trivial⟩
    · intro x hx
      by_cases hxc : x = c
      · subst hxc; rw [setAt_same]; exact ⟨hlt, by simp⟩
      · rw [setAt_ne _ _ hxc]; exact h2 x hx
    · intro x hx
      rw [setAt_ne _ _ (fun (h : x = c) => hx (h ▸ hin))]
      exact h3 x hx
    · have := sum_counts_setAt e.colorCounts c ⟨(e.colorCounts c).count + 1, (e.colorCounts c).node⟩
        e.colorList h1 hin
      simp only at this
      omega

theorem foldl_add_pixel_inv :
    ∀ (pixels : List Nat) (e : SpaceShockColorExtractor) (n : Nat), n + pixels.length < 2 ^ 32 →
    e.colorList.Nodup → (∀ c ∈ e.colorList, c < 2 ^ 24 ∧ 1 ≤ (e.colorCounts c).count) →
    (∀ c, c ∉ e.colorList → (e.colorCounts c).count = 0) →
    (e.colorList.map (fun c => (e.colorCounts c).count)).sum = n →
    (pixels.foldl add_pixel e).colorList.Nodup ∧
    (∀ c ∈ (pixels.foldl add_pixel e).colorList,
      c < 2 ^ 24 ∧ 1 ≤ ((pixels.foldl add_pixel e).colorCounts c).count) ∧
    (∀ c, c ∉ (pixels.foldl add_pixel e).colorList →
      ((pixels.foldl add_pixel e).colorCounts c).count = 0) ∧
    ((pixels.foldl add_pixel e).colorList.map
      (fun c => ((pixels.foldl add_pixel e).colorCounts c).count)).sum = n + pixels.length := by
  intro pixels
  induction pixels with
  | nil => intro e n _ h1 h2 h3 h4; exact ⟨h1, h2, h3, by simpa using h4⟩
  | cons p rest ih =>
    intro e n hn h1 h2 h3 h4
    simp only [List.length_cons] at hn
    obtain ⟨a1, a2, a3, a4, _⟩ := add_pixel_inv e p n (by omega) h1 h2 h3 h4
    have := ih (add_pixel e p) (n + 1) (by omega) a1 a2 a3 a4
    rw [List.foldl_cons, List.length_cons, show n + (rest.length + 1) = n + 1 + rest.length by omega]
    exact this

/-- The invariant of a sequence of `add_bitmap` calls: the state after the calls
is a histogram whose counts add up to the total, which is the number of pixels
added. -/
theorem foldl_add_bitmap_inv :
    ∀ (bitmaps : List (List Nat)) (e : SpaceShockColorExtractor) (n : Nat),
    n + (bitmaps.map List.length).sum < 2 ^ 32 →
    e.colorList.Nodup → (∀ c ∈ e.colorList, c < 2 ^ 24 ∧ 1 ≤ (e.colorCounts c).count) →
    (∀ c, c ∉ e.colorList → (e.colorCounts c).count = 0) →
    (e.colorList.map (fun c => (e.colorCounts c).count)).sum = n → e.pixelTotalCount = n →
    (bitmaps.foldl add_bitmap e).colorList.Nodup ∧
    (∀ c ∈ (bitmaps.foldl add_bitmap e).colorList,
      c < 2 ^ 24 ∧ 1 ≤ ((bitmaps.foldl add_bitmap e).colorCounts c).count) ∧
    (∀ c, c ∉ (bitmaps.foldl add_bitmap e).colorList →
      ((bitmaps.foldl add_bitmap e).colorCounts c).count = 0) ∧
    ((bitmaps.foldl add_bitmap e).colorList.map
      (fun c => ((bitmaps.foldl add_bitmap e).colorCounts c).count)).sum
      = n + (bitmaps.map List.length).sum ∧
    (bitmaps.foldl add_bitmap e).pixelTotalCount = n + (bitmaps.map List.length).sum := by
  intro bitmaps
  induction bitmaps with
  | nil => intro e n _ h1 h2 h3 h4 h5; exact ⟨h1, h2, h3, by simpa using h4, by simpa using h5⟩
  | cons px rest ih =>
    intro e n hn h1 h2 h3 h4 h5
    simp only [List.map_cons, List.sum_cons] at hn ⊢
    obtain ⟨a1, a2, a3, a4⟩ := foldl_add_pixel_inv px e n (by omega) h1 h2 h3 h4
    have := ih (add_bitmap e px) (n + px.length) (by omega) a1 a2 a3 a4
      (by simp only [add_bitmap]; rw [h5]; exact Nat.mod_eq_of_lt (by omega))
    rw [List.foldl_cons, show n + (px.length + (rest.map List.length).sum)
      = n + px.length + (rest.map List.length).sum by omega]
    exact this

/-- C15: from an extractor with an empty colour list, total 0 and every count 0 (a
fresh one, or one after `reset`), after any sequence of `add_bitmap` calls that
adds fewer than `2 ^ 32` pixels in all, the counts of the colours of the colour
list add up to `pixelTotalCount`, which is the number of pixels added; every
colour of the list has a count of at least 1 and every other slot has count
0. -/
theorem counts_sum_to_total (start : SpaceShockColorExtractor)
    (hlist : start.colorList = []) (htot : start.pixelTotalCount = 0)
    (hzero : ∀ c, (start.colorCounts c).count = 0) (bitmaps : List (List Nat))
    (hsum : (bitmaps.map List.length).sum < 2 ^ 32) :
    ((bitmaps.foldl add_bitmap start).colorList.map
        (fun c => ((bitmaps.foldl add_bitmap start).colorCounts c).count)).sum
      = (bitmaps.foldl add_bitmap start).pixelTotalCount ∧
    (bitmaps.foldl add_bitmap start).pixelTotalCount = (bitmaps.map List.length).sum ∧
    (∀ c ∈ (bitmaps.foldl add_bitmap start).colorList,
      1 ≤ ((bitmaps.foldl add_bitmap start).colorCounts c).count) ∧
    ∀ c, c ∉ (bitmaps.foldl add_bitmap start).colorList →
      ((bitmaps.foldl add_bitmap start).colorCounts c).count = 0 := by
  obtain ⟨_, a2, a3, a4, a5⟩ := foldl_add_bitmap_inv bitmaps start 0 (by omega)
    (by rw [hlist]; exact List.nodup_nil) (by rw [hlist]; intro c hc; cases hc)
    (fun c _ => hzero c) (by rw [hlist]; rfl) htot
  rw [Nat.zero_add] at a4 a5
  exact ⟨a4.trans a5.symm, a5, fun c hc => (a2 c hc).2, a3⟩

theorem counts_sum_to_total_witness :
    ((([[0xFF0000, 0x0000FF], [0xFF0000]] : List (List Nat)).foldl add_bitmap create).colorList.map
        (fun c => ((([[0xFF0000, 0x0000FF], [0xFF0000]] : List (List Nat)).foldl add_bitmap
          create).colorCounts c).count)).sum
      = (([[0xFF0000, 0x0000FF], [0xFF0000]] : List (List Nat)).foldl add_bitmap
        create).pixelTotalCount ∧
    (([[0xFF0000, 0x0000FF], [0xFF0000]] : List (List Nat)).foldl add_bitmap
        create).pixelTotalCount
      = (([[0xFF0000, 0x0000FF], [0xFF0000]] : List (List Nat)).map List.length).sum :=
  ⟨(counts_sum_to_total create rfl rfl (fun _ => rfl) [[0xFF0000, 0x0000FF], [0xFF0000]]
      (by decide)).1,
    (counts_sum_to_total create rfl rfl (fun _ => rfl) [[0xFF0000, 0x0000FF], [0xFF0000]]
      (by decide)).2.1⟩

end SpaceShockColorExtractor

namespace SpaceShockColorExtractor

open EuclideanPalette (setAt byte0 byte1 byte2 getD_set_ne getD_set_same setAt_same setAt_ne
  mask24_eq_mod)

theorem foldl_inv {S A : Type} (P : S → Prop) (f : S → A → S) (h : ∀ s a, P s → P (f s a)) :
    ∀ (l : List A) (s : S), P s → P (l.foldl f s) := by
  intro l
  induction l with
  | nil => intro s hs; exact hs
  | cons a rest ih => intro s hs; exact ih _ (h s a hs)

theorem foldl_inv_mem {S A : Type} (P : S → Prop) (f : S → A → S) :
    ∀ (l : List A) (s : S), (∀ s, ∀ a ∈ l, P s → P (f s a)) → P s → P (l.foldl f s) := by
  intro l
  induction l with
  | nil => intro s _ hs; exact hs
  | cons a rest ih =>
    intro s h hs
    exact ih _ (fun s b hb => h s b (List.mem_cons_of_mem _ hb)) (h s a (List.mem_cons_self _ _) hs)

theorem foldl_reset_apply (x : Nat) :
    ∀ (l : List Nat) (counts : Nat → CountNode),
      l.foldl (fun counts color => setAt counts color ⟨0, 0⟩) counts x
        = if x ∈ l then ⟨0, 0⟩ else counts x := by
  intro l
  induction l with
  | nil => intro counts; simp
  | cons a rest ih =>
    intro counts
    rw [List.foldl_cons, ih]
    by_cases hr : x ∈ rest
    · simp [hr]
    · by_cases ha : x = a
      · subst ha; simp [hr, setAt_same]
      · simp [hr, ha, setAt_ne _ _ ha]

theorem reset_of_zeroOutside (e : SpaceShockColorExtractor)
    (h : ZeroOutside e.colorList e.colorCounts) : reset e = create := by
  unfold reset create
  congr 1
  funext x
  rw [foldl_reset_apply]
  split
  · rfl
  · exact h x (by assumption)

theorem add_pixel_zeroOutside (e : SpaceShockColorExtractor) (p : Nat)
    (h : ZeroOutside e.colorList e.colorCounts) :
    ZeroOutside (add_pixel e p).colorList (add_pixel e p).colorCounts := by
  intro x hx
  unfold add_pixel at hx ⊢
  simp only at hx ⊢
  by_cases hz : (e.colorCounts (p &&& 0xffffff)).count = 0
  · rw [if_pos hz] at hx
    have hx1 : x ∉ e.colorList := fun h => hx (List.mem_append_left _ h)
    have hx2 : x ≠ p &&& 0xffffff := fun h => hx (List.mem_append_right _ (by simp [h]))
    rw [setAt_ne _ _ hx2]
    exact h x hx1
  · rw [if_neg hz] at hx
    have hx2 : x ≠ p &&& 0xffffff := by
      intro hxp
      apply hz
      rw [← hxp, h x hx]
    rw [setAt_ne _ _ hx2]
    exact h x hx

theorem add_bitmap_zeroOutside (e : SpaceShockColorExtractor) (pixels : List Nat)
    (h : ZeroOutside e.colorList e.colorCounts) :
    ZeroOutside (add_bitmap e pixels).colorList (add_bitmap e pixels).colorCounts :=
  foldl_inv (fun e : SpaceShockColorExtractor => ZeroOutside e.colorList e.colorCounts) add_pixel
    (fun s a hs => add_pixel_zeroOutside s a hs) pixels e h

theorem sortStep_zeroOutside (colors : List Nat) (st : SortState) (color : Nat)
    (hc : color ∈ colors) (h : ZeroOutside colors st.colorCounts) :
    ZeroOutside colors (sortStep st color).colorCounts := by
  intro x hx
  have hne : x ≠ color := fun e => hx (e ▸ hc)
  unfold sortStep
  split
  · simp only [linkNode]
    rw [setAt_ne _ _ hne]; exact h x hx
  · simp only
    split
    · simp only [linkNode]
      rw [setAt_ne _ _ hne]; exact h x hx
    · simp only [linkNode]
      rw [setAt_ne _ _ hne]; exact h x hx

theorem absorbCell_zeroOutside (colors : List Nat) (kernel : Nat → Nat)
    (kernelBaseSize kernelHeight rStart gStart bStart : Nat) (st : AbsorbState) (r g b : Nat)
    (h : ZeroOutside colors st.colorCounts) :
    ZeroOutside colors
      (absorbCell kernel kernelBaseSize kernelHeight rStart gStart bStart st r g b).colorCounts := by
  unfold absorbCell
  simp only
  split
  · exact h
  · split
    · exact h
    · rename_i hz _
      intro x hx
      have hne : x ≠ (r <<< 16) ||| (g <<< 8) ||| b := by
        intro e
        apply hz
        rw [← e, h x hx]
      simp only
      rw [setAt_ne _ _ hne]
      exact h x hx

theorem absorb_color_zeroOutside (colors : List Nat) (colorCounts : Nat → CountNode)
    (buf : Buffer) (map : List (Nat × Nat)) (kernel : Nat → Nat)
    (kernelSize color kernelHeight : Nat) (h : ZeroOutside colors colorCounts) :
    ZeroOutside colors
      (absorb_color colorCounts buf map kernel kernelSize color kernelHeight).colorCounts := by
  unfold absorb_color
  simp only
  apply foldl_inv (fun st : AbsorbState => ZeroOutside colors st.colorCounts)
  · intro s r hs
    apply foldl_inv (fun st : AbsorbState => ZeroOutside colors st.colorCounts)
    · intro s g hs
      apply foldl_inv (fun st : AbsorbState => ZeroOutside colors st.colorCounts)
      · intro s b hs
        exact absorbCell_zeroOutside colors _ _ _ _ _ _ s r g b hs
      · exact hs
    · exact hs
  · exact h

theorem pickLoop_zeroOutside (colors : List Nat) (oracle : KernelOracle) :
    ∀ (n : Nat) (st : TableState), ZeroOutside colors st.colorCounts →
      ZeroOutside colors (pickLoop oracle n st).colorCounts := by
  intro n
  induction n with
  | zero => intro st h; exact h
  | succ n ih =>
    intro st h
    unfold pickLoop
    split
    · exact h
    · rename_i pop _
      apply ih
      simp only [pickStep]
      apply absorb_color_zeroOutside
      intro x hx
      by_cases hxr : x = pop.rgb
      · rw [hxr, setAt_same, ← hxr, h x hx]
      · rw [setAt_ne _ _ hxr]
        exact h x hx

/-- Whatever `get_color_table` does to the slots, it leaves the slot of every
colour outside the colour list `{0, 0}`. -/
theorem get_color_table_zeroOutside (oracle : KernelOracle) (e : SpaceShockColorExtractor)
    (colorTable forceColors : List Nat) (fuel : Nat) (r : TableResult)
    (h : ZeroOutside e.colorList e.colorCounts)
    (hr : get_color_table oracle e colorTable forceColors fuel = some r) :
    ZeroOutside r.extractor.colorList r.extractor.colorCounts := by
  have hsort : ZeroOutside e.colorList (sort_colors e).colorCounts := by
    unfold sort_colors
    exact foldl_inv_mem (fun st : SortState => ZeroOutside e.colorList st.colorCounts) sortStep
      e.colorList _ (fun s a ha hs => sortStep_zeroOutside e.colorList s a ha hs) h
  have hforce : ∀ m l (st : TableState), ZeroOutside e.colorList st.colorCounts →
      ZeroOutside e.colorList (forcePhase oracle m l st).colorCounts := by
    intro m l st hst
    unfold forcePhase
    exact foldl_inv (fun st : TableState => ZeroOutside e.colorList st.colorCounts)
      (forceStep oracle m)
      (fun s a hs => by
        simp only [forceStep]
        exact absorb_color_zeroOutside _ _ _ _ _ _ _ _ hs) l st hst
  unfold get_color_table at hr
  split at hr
  · injection hr with hr; subst hr; exact h
  · simp only at hr
    have h1 := hforce (maxPixelCountOf (sort_colors e).sortedBuffer (sort_colors e).sortedMap)
      (forceColors.map (fun c => c &&& 0xffffff))
      ⟨(sort_colors e).colorCounts, (sort_colors e).sortedBuffer, (sort_colors e).sortedMap,
        colorTable, [], BaseLength, 0⟩ hsort
    split at hr
    · injection hr with hr; subst hr; exact h1
    · have h2 := pickLoop_zeroOutside e.colorList oracle
        (colorTable.length - (forcePhase oracle
          (maxPixelCountOf (sort_colors e).sortedBuffer (sort_colors e).sortedMap)
          (forceColors.map (fun c => c &&& 0xffffff))
          ⟨(sort_colors e).colorCounts, (sort_colors e).sortedBuffer, (sort_colors e).sortedMap,
            colorTable, [], BaseLength, 0⟩).outIndex) _ h1
      split at hr
      · injection hr with hr; subst hr; exact h2
      · split at hr
        · cases hr
        · injection hr with hr; subst hr; exact h2

/-- C18: after any sequence of `add_bitmap` calls on a fresh extractor, and after
one `get_color_table` call that follows them (any oracle, table, forced colours
and fuel, when the call returns), `reset` gives the state of a fresh extractor:
every slot `{0, 0}`, the colour list empty, the total 0.  A second `reset`
changes nothing. -/
theorem reset_gives_fresh_state (bitmaps : List (List Nat)) :
    reset (bitmaps.foldl add_bitmap create) = create ∧
    (∀ (oracle : KernelOracle) (colorTable forceColors : List Nat) (fuel : Nat) (r : TableResult),
      get_color_table oracle (bitmaps.foldl add_bitmap create) colorTable forceColors fuel = some r →
        reset r.extractor = create) ∧
    ∀ e : SpaceShockColorExtractor, reset (reset e) = reset e := by
  have h : ZeroOutside (bitmaps.foldl add_bitmap create).colorList
      (bitmaps.foldl add_bitmap create).colorCounts :=
    foldl_inv (fun e : SpaceShockColorExtractor => ZeroOutside e.colorList e.colorCounts) add_bitmap
      (fun s a hs => add_bitmap_zeroOutside s a hs) bitmaps create (fun _ _ => rfl)
  refine ⟨reset_of_zeroOutside _ h, fun oracle colorTable forceColors fuel r hr =>
    reset_of_zeroOutside _ (get_color_table_zeroOutside oracle _ colorTable forceColors fuel r h hr),
    fun e => rfl⟩

theorem reset_gives_fresh_state_witness :
    reset (([[0xFF0000, 0x0000FF], [0xFF0000]] : List (List Nat)).foldl add_bitmap create)
      = create :=
  (reset_gives_fresh_state [[0xFF0000, 0x0000FF], [0xFF0000]]).1

end SpaceShockColorExtractor

namespace SpaceShockColorExtractor

open EuclideanPalette (setAt)

/-- C17 (failing input): the histogram of C5, 2000 pixels of `0x808080` and 2000
pixels of `0x808081`, under the oracle of kernel size 2 and weight `33215`.  In
the state that the first iteration of the pick loop leaves (the pop of
`0x808081` from the list of count 2000, then `absorb_color`, which moves
`0x808080` to count 987), the head of the list of count 2000 is still the node
`1025` of `0x808080`, whose current count is 987, and the same node is the head
of the list of count 987: the node is on two lists, and a node reachable from
the head of the list of 2000 belongs to a colour whose count is not 2000. -/
theorem relocated_node_stays_on_large_list :
    (pickLoop (flatOracle 2 33215) 1
      (pickStart (add_bitmap create
        (List.replicate 2000 0x808080 ++ List.replicate 2000 0x808081))
        (List.replicate 150 0))).sortedMap = [(2000, 1024)] ∧
    (fun st : TableState =>
      (st.sortedBuffer.data 1024, st.sortedBuffer.data (987 - 1), st.sortedBuffer.data 1025,
        (st.colorCounts 0x808080).count, (st.colorCounts 0x808080).node))
      (pickLoop (flatOracle 2 33215) 1
        (pickStart (add_bitmap create
          (List.replicate 2000 0x808080 ++ List.replicate 2000 0x808081))
          (List.replicate 150 0)))
      = (1025, 1025, 0x808080, 987, 1025) := by
  have h : add_bitmap create (List.replicate 2000 0x808080 ++ List.replicate 2000 0x808081)
      = ⟨[0x808080, 0x808081], 4000,
          setAt (setAt (fun _ => ⟨0, 0⟩) 0x808080 ⟨2000, 0⟩) 0x808081 ⟨2000, 0⟩⟩ := by
    unfold add_bitmap
    rw [List.foldl_append, foldl_add_pixel_replicate 0x808080 (by norm_num) 1999 create
      (by simp [create]), foldl_add_pixel_replicate 0x808081 (by norm_num) 1999 _
      (by simp [create, setAt])]
    simp only [List.length_append, List.length_replicate]
    rfl
  rw [h]
  exact ⟨by decide!, by decide!⟩

end SpaceShockColorExtractor

/-! ## The error bound on the 216-colour palette -/

namespace EuclideanPalette

theorem color_distance_comm (a b c d e f : Int) :
    color_distance a b c d e f = color_distance d e f a b c := by
  unfold color_distance square_sum3; ring

theorem distance_to_rect_farthest_eq (r g b rs re gs ge bs be : Int) :
    distance_to_rect_farthest r g b rs re gs ge bs be
      = color_distance r g b (farEnd r rs re) (farEnd g gs ge) (farEnd b bs be) := by
  unfold distance_to_rect_farthest farEnd
  split_ifs <;> rfl

theorem distance_to_rect_eq (r g b rs re gs ge bs be : Int) :
    distance_to_rect r g b rs re gs ge bs be
      = gapTo r rs re * gapTo r rs re + gapTo g gs ge * gapTo g gs ge
        + gapTo b bs be * gapTo b bs be := by
  unfold distance_to_rect gapTo square_sum3 square_sum2 square_sum1
  split_ifs <;> ring

theorem int_shiftRight_one (m : Int) : m >>> (1 : Int) = m / 2 := by
  cases m with
  | ofNat a =>
    have h := Int.shiftRight_coe_nat a 1
    simp only [Nat.cast_one] at h
    rw [Int.ofNat_eq_coe, h, Nat.shiftRight_eq_div_pow]
    norm_num
  | negSucc a =>
    have h := Int.shiftRight_negSucc a 1
    simp only [Nat.cast_one] at h
    rw [h, Nat.shiftRight_eq_div_pow, Int.negSucc_eq, Int.negSucc_eq]
    norm_num
    omega

theorem farEnd_eq (x s : Int) : farEnd x s (s + 16) = if x < s + 8 then s + 16 else s := by
  unfold farEnd
  have : (s + (s + 16)) >>> (1 : Int) = s + 8 := by
    rw [int_shiftRight_one]; omega
  rw [this]

/-- The end that `distance_to_rect_farthest` picks is at least as far from `x` as
any point of the interval. -/
theorem sq_le_farEnd (x y s : Int) (h1 : s ≤ y) (h2 : y ≤ s + 16) :
    (x - y) * (x - y) ≤ (x - farEnd x s (s + 16)) * (x - farEnd x s (s + 16)) := by
  rw [farEnd_eq]
  split
  · nlinarith
  · nlinarith

/-- The end that `distance_to_rect_farthest` picks is within the gap plus the
cube side. -/
theorem farEnd_le_gap (x s : Int) :
    (x - farEnd x s (s + 16)) * (x - farEnd x s (s + 16))
      ≤ (gapTo x s (s + 16) + 16) * (gapTo x s (s + 16) + 16) := by
  rw [farEnd_eq]
  unfold gapTo
  split_ifs <;> nlinarith

theorem gap_le_of_sq (d : Int) (h0 : 0 ≤ d) (h : d * d ≤ 768) : d ≤ 27 := by
  nlinarith

theorem gapTo_nonneg (x s e : Int) : 0 ≤ gapTo x s e := by
  unfold gapTo; split_ifs <;> omega


theorem color_distance_nonneg (a b c d e f : Int) : 0 ≤ color_distance a b c d e f := by
  unfold color_distance square_sum3
  nlinarith [mul_self_nonneg (a - d), mul_self_nonneg (b - e), mul_self_nonneg (c - f)]

/-- The scan over a candidate list returns the initial `findIndex` when no
candidate is below the initial `minDist`, and otherwise a candidate at the least
distance of the list. -/
theorem optimized_scan_min (t : List Nat) (r g b : Int) :
    ∀ (l : List Nat) (m : Int) (f : Nat),
      (OptimizationPalette.scan t r g b l m f = f ∧
        ∀ c ∈ l, m ≤ color_distance (byte2 (t.getD c 0)) (byte1 (t.getD c 0))
          (byte0 (t.getD c 0)) r g b) ∨
      (OptimizationPalette.scan t r g b l m f ∈ l ∧
        (color_distance (byte2 (t.getD (OptimizationPalette.scan t r g b l m f) 0))
            (byte1 (t.getD (OptimizationPalette.scan t r g b l m f) 0))
            (byte0 (t.getD (OptimizationPalette.scan t r g b l m f) 0)) r g b < m ∨
          color_distance (byte2 (t.getD (OptimizationPalette.scan t r g b l m f) 0))
            (byte1 (t.getD (OptimizationPalette.scan t r g b l m f) 0))
            (byte0 (t.getD (OptimizationPalette.scan t r g b l m f) 0)) r g b = 0) ∧
        ∀ c ∈ l,
          color_distance (byte2 (t.getD (OptimizationPalette.scan t r g b l m f) 0))
            (byte1 (t.getD (OptimizationPalette.scan t r g b l m f) 0))
            (byte0 (t.getD (OptimizationPalette.scan t r g b l m f) 0)) r g b
          ≤ color_distance (byte2 (t.getD c 0)) (byte1 (t.getD c 0)) (byte0 (t.getD c 0)) r g b) := by
  intro l
  induction l with
  | nil => intro m f; exact Or.inl ⟨rfl, fun c hc => by cases hc⟩
  | cons c rest ih =>
    intro m f
    unfold OptimizationPalette.scan
    by_cases h0 : color_distance (byte2 (t.getD c 0)) (byte1 (t.getD c 0)) (byte0 (t.getD c 0))
        r g b = 0
    · rw [if_pos h0]
      refine Or.inr ⟨List.mem_cons_self _ _, Or.inr h0, fun c' _ => ?_⟩
      rw [h0]
      exact color_distance_nonneg _ _ _ _ _ _
    · rw [if_neg h0]
      by_cases hlt : color_distance (byte2 (t.getD c 0)) (byte1 (t.getD c 0))
          (byte0 (t.getD c 0)) r g b < m
      · rw [if_pos hlt]
        rcases ih (color_distance (byte2 (t.getD c 0)) (byte1 (t.getD c 0))
          (byte0 (t.getD c 0)) r g b) c with ⟨e, hall⟩ | ⟨hm, hd, hall⟩
        · rw [e]
          refine Or.inr ⟨List.mem_cons_self _ _, Or.inl hlt, fun c' hc' => ?_⟩
          rcases List.mem_cons.mp hc' with h | h
          · rw [h]
          · exact hall c' h
        · refine Or.inr ⟨List.mem_cons_of_mem _ hm, ?_, fun c' hc' => ?_⟩
          · rcases hd with hd | hd
            · exact Or.inl (lt_trans hd hlt)
            · exact Or.inr hd
          · rcases List.mem_cons.mp hc' with h | h
            · rw [h]
              rcases hd with hd | hd
              · exact le_of_lt hd
              · rw [hd]; exact color_distance_nonneg _ _ _ _ _ _
            · exact hall c' h
      · rw [if_neg hlt]
        rcases ih m f with ⟨e, hall⟩ | ⟨hm, hd, hall⟩
        · refine Or.inl ⟨e, fun c' hc' => ?_⟩
          rcases List.mem_cons.mp hc' with h | h
          · rw [h]; exact not_lt.mp hlt
          · exact hall c' h
        · refine Or.inr ⟨List.mem_cons_of_mem _ hm, hd, fun c' hc' => ?_⟩
          rcases List.mem_cons.mp hc' with h | h
          · rw [h]
            rcases hd with hd | hd
            · exact le_trans (le_of_lt hd) (not_lt.mp hlt)
            · rw [hd]; exact color_distance_nonneg _ _ _ _ _ _
          · exact hall c' h

/-- The admission sweep only appends to the cube's list. -/
theorem admissionSweep_prefix (t : List Nat) (findIndex : Nat) (searchRange : Int)
    (rs re gs ge bs be : Int) :
    ∀ (line : List DistanceInfo) (indexes : List Nat),
      ∃ more, admissionSweep t findIndex searchRange rs re gs ge bs be line indexes
        = indexes ++ more := by
  intro line
  induction line with
  | nil => intro indexes; exact ⟨[], by simp [admissionSweep]⟩
  | cons info rest ih =>
    intro indexes
    unfold admissionSweep
    split
    · exact ⟨[], by simp⟩
    · split
      · obtain ⟨more, hm⟩ := ih (indexes ++ [toByte info.otherIndex])
        exact ⟨toByte info.otherIndex :: more, by rw [hm]; simp⟩
      · exact ih indexes

/-- The list of a cube starts with the byte of its seed. -/
theorem cubeList_head (sort : List DistanceInfo → List DistanceInfo) (t : List Nat) (k : Nat) :
    ∃ more, cubeList sort t k
      = toByte (cubeSeed t (bucket t k)
          ((k / (N * N) * CubeSize : Nat) : Int)
          (((k / (N * N) * CubeSize : Nat) : Int) + (CubeSize : Nat))
          ((k / N % N * CubeSize : Nat) : Int)
          (((k / N % N * CubeSize : Nat) : Int) + (CubeSize : Nat))
          ((k % N * CubeSize : Nat) : Int)
          (((k % N * CubeSize : Nat) : Int) + (CubeSize : Nat))).2 :: more := by
  unfold cubeList
  simp only
  obtain ⟨more, hm⟩ := admissionSweep_prefix t _ _ _ _ _ _ _ _
    (sortedDistCache sort t (cubeSeed t (bucket t k)
          ((k / (N * N) * CubeSize : Nat) : Int)
          (((k / (N * N) * CubeSize : Nat) : Int) + (CubeSize : Nat))
          ((k / N % N * CubeSize : Nat) : Int)
          (((k / N % N * CubeSize : Nat) : Int) + (CubeSize : Nat))
          ((k % N * CubeSize : Nat) : Int)
          (((k % N * CubeSize : Nat) : Int) + (CubeSize : Nat))).2).tail
    [toByte (cubeSeed t (bucket t k)
          ((k / (N * N) * CubeSize : Nat) : Int)
          (((k / (N * N) * CubeSize : Nat) : Int) + (CubeSize : Nat))
          ((k / N % N * CubeSize : Nat) : Int)
          (((k / N % N * CubeSize : Nat) : Int) + (CubeSize : Nat))
          ((k % N * CubeSize : Nat) : Int)
          (((k % N * CubeSize : Nat) : Int) + (CubeSize : Nat))).2]
  exact ⟨more, by rw [hm]; rfl⟩

/-- The layout of the candidate buffer: the header of the `j`-th cube records the
length of the cube's list and the offset at which the list lies in the bytes. -/
theorem buildCubes_layout (sort : List DistanceInfo → List DistanceInfo) (t : List Nat) :
    ∀ (cubes : List Nat) (offset j : Nat), j < cubes.length →
      ((buildCubes sort t cubes offset).1.getD j ⟨0, 0⟩).count
        = (cubeList sort t (cubes.getD j 0)).length ∧
      offset ≤ ((buildCubes sort t cubes offset).1.getD j ⟨0, 0⟩).index ∧
      ∀ i < (cubeList sort t (cubes.getD j 0)).length,
        (buildCubes sort t cubes offset).2.getD
            (((buildCubes sort t cubes offset).1.getD j ⟨0, 0⟩).index - offset + i) 0
          = (cubeList sort t (cubes.getD j 0)).getD i 0 := by
  intro cubes
  induction cubes with
  | nil => intro _ j hj; cases hj
  | cons c rest ih =>
    intro offset j hj
    cases j with
    | zero =>
      simp only [buildCubes, List.getD_cons_zero, Nat.sub_self, Nat.zero_add, le_refl, true_and]
      intro i hi
      rw [List.getD_append _ _ _ _ hi]
    | succ j =>
      simp only [List.length_cons, Nat.add_lt_add_iff_right] at hj
      obtain ⟨h1, h2, h3⟩ := ih (offset + (cubeList sort t c).length) j hj
      simp only [buildCubes, List.getD_cons_succ]
      refine ⟨h1, by omega, fun i hi => ?_⟩
      rw [List.getD_append_right _ _ _ _ (by omega)]
      rw [← h3 i hi]
      congr 1
      omega

/-- The candidate list that `slow_map` reads for cube `k` is the list the
constructor built for it. -/
theorem create_candidates (sort : List DistanceInfo → List DistanceInfo) (t : List Nat) (k : Nat)
    (hk : k < CubeCount) :
    ((OptimizationPalette.create sort t).heads.getD k ⟨0, 0⟩).count
        = (cubeList sort t k).length ∧
      (OptimizationPalette.create sort t).candidates k = cubeList sort t k := by
  have hlen : (List.range' 0 CubeCount).length = CubeCount := List.length_range' _ _ _
  have hget : (List.range' 0 CubeCount).getD k 0 = k := by
    rw [List.getD_eq_getElem _ _ (by rw [hlen]; exact hk), List.getElem_range'_1]
    omega
  obtain ⟨h1, _, h3⟩ := buildCubes_layout sort t (List.range' 0 CubeCount) 0 k
    (by rw [hlen]; exact hk)
  rw [hget] at h1 h3
  refine ⟨h1, ?_⟩
  unfold OptimizationPalette.candidates OptimizationPalette.create
  simp only
  apply list_eq_of_getD
  · rw [List.length_map, List.length_range, h1]
  · intro i hi
    rw [List.length_map, List.length_range, h1] at hi
    rw [List.getD_eq_getElem _ _ (by rw [List.length_map, List.length_range, h1]; exact hi),
      List.getElem_map, List.getElem_range]
    have := h3 i hi
    rw [Nat.sub_zero] at this
    exact this


theorem bucket_mem (t : List Nat) (k : Nat) :
    ∀ i ∈ bucket t k, bucketIndexOf (t.getD i 0) = k := by
  unfold bucket
  have key : ∀ (l : List Nat) (acc : List Nat), (∀ i ∈ acc, bucketIndexOf (t.getD i 0) = k) →
      ∀ i ∈ l.foldl (fun chain i => if bucketIndexOf (t.getD i 0) = k then i :: chain else chain)
        acc, bucketIndexOf (t.getD i 0) = k := by
    intro l
    induction l with
    | nil => intro acc h; exact h
    | cons x rest ih =>
      intro acc hacc
      simp only [List.foldl_cons]
      apply ih
      split
      · intro i hi
        rcases List.mem_cons.mp hi with h | h
        · rw [h]; assumption
        · exact hacc i h
      · exact hacc
  exact key _ [] (fun i hi => by cases hi)

theorem seedInBucket_mem (t : List Nat) (rs re gs ge bs be : Int) :
    ∀ (chain : List Nat) (acc : Int × Nat),
      (seedInBucket t rs re gs ge bs be chain acc).2 ∈ chain ∨
        seedInBucket t rs re gs ge bs be chain acc = acc := by
  intro chain
  induction chain with
  | nil => intro acc; exact Or.inr rfl
  | cons i rest ih =>
    intro acc
    simp only [seedInBucket]
    split
    · rcases ih (distance_to_rect_farthest (byte2 (t.getD i 0)) (byte1 (t.getD i 0))
        (byte0 (t.getD i 0)) rs re gs ge bs be, i) with h | h
      · exact Or.inl (List.mem_cons_of_mem _ h)
      · rw [h]; exact Or.inl (List.mem_cons_self _ _)
    · rcases ih acc with h | h
      · exact Or.inl (List.mem_cons_of_mem _ h)
      · exact Or.inr h

theorem seedNearest_min (t : List Nat) (rs re gs ge bs be : Int) :
    ∀ (l : List Nat) (acc : Int × Nat),
      (seedNearest t rs re gs ge bs be l acc).1 ≤ acc.1 ∧
      (∀ j ∈ l, (seedNearest t rs re gs ge bs be l acc).1
        ≤ distance_to_rect (byte2 (t.getD j 0)) (byte1 (t.getD j 0)) (byte0 (t.getD j 0))
          rs re gs ge bs be) ∧
      (seedNearest t rs re gs ge bs be l acc = acc ∨
        (seedNearest t rs re gs ge bs be l acc).1
          = distance_to_rect (byte2 (t.getD (seedNearest t rs re gs ge bs be l acc).2 0))
            (byte1 (t.getD (seedNearest t rs re gs ge bs be l acc).2 0))
            (byte0 (t.getD (seedNearest t rs re gs ge bs be l acc).2 0)) rs re gs ge bs be) := by
  intro l
  induction l with
  | nil => intro acc; exact ⟨le_refl _, ⟨fun j hj => absurd hj (List.not_mem_nil j), Or.inl rfl⟩⟩
  | cons i rest ih =>
    intro acc
    simp only [seedNearest]
    split
    · rename_i hlt
      obtain ⟨a1, a2, a3⟩ := ih (distance_to_rect (byte2 (t.getD i 0)) (byte1 (t.getD i 0))
        (byte0 (t.getD i 0)) rs re gs ge bs be, i)
      refine ⟨le_trans a1 (le_of_lt hlt), fun j hj => ?_, ?_⟩
      · rcases List.mem_cons.mp hj with h | h
        · rw [h]; exact a1
        · exact a2 j h
      · rcases a3 with h | h
        · rw [h]; exact Or.inr rfl
        · exact Or.inr h
    · rename_i hlt
      obtain ⟨a1, a2, a3⟩ := ih acc
      refine ⟨a1, fun j hj => ?_, a3⟩
      rcases List.mem_cons.mp hj with h | h
      · rw [h]; exact le_trans a1 (not_lt.mp hlt)
      · exact a2 j h

/-- Each interval `[16 c, 16 c + 16]` has a channel level within 16 of it. -/
theorem level_near_interval :
    ∀ c < 16, ∃ l ∈ channelLevels,
      gapTo (l : Int) ((c * 16 : Nat) : Int) (((c * 16 : Nat) : Int) + 16) ≤ 16 := by
  decide

/-- A coordinate inside `[s, s + 15]` is at most 16 and more than 0 away from the
end that `distance_to_rect_farthest` picks. -/
theorem farEnd_inside (x s : Int) (h1 : s ≤ x) (h2 : x ≤ s + 15) :
    0 < (x - farEnd x s (s + 16)) * (x - farEnd x s (s + 16)) ∧
      (x - farEnd x s (s + 16)) * (x - farEnd x s (s + 16)) ≤ 256 := by
  rw [farEnd_eq]
  split
  · constructor <;> nlinarith
  · constructor <;> nlinarith


theorem farthest_le_of_inside (x y z rs gs bs : Int) (h1 : rs ≤ x) (h2 : x ≤ rs + 15)
    (h3 : gs ≤ y) (h4 : y ≤ gs + 15) (h5 : bs ≤ z) (h6 : z ≤ bs + 15) :
    0 < distance_to_rect_farthest x y z rs (rs + 16) gs (gs + 16) bs (bs + 16) ∧
      distance_to_rect_farthest x y z rs (rs + 16) gs (gs + 16) bs (bs + 16) ≤ 768 := by
  rw [distance_to_rect_farthest_eq]
  unfold color_distance square_sum3
  have a := farEnd_inside x rs h1 h2
  have b := farEnd_inside y gs h3 h4
  have c := farEnd_inside z bs h5 h6
  constructor <;> omega

theorem farthest_le_of_near (x y z rs gs bs : Int)
    (h : distance_to_rect x y z rs (rs + 16) gs (gs + 16) bs (bs + 16) ≤ 768) :
    distance_to_rect_farthest x y z rs (rs + 16) gs (gs + 16) bs (bs + 16) ≤ 5547 := by
  rw [distance_to_rect_eq] at h
  rw [distance_to_rect_farthest_eq]
  unfold color_distance square_sum3
  have a := farEnd_le_gap x rs
  have b := farEnd_le_gap y gs
  have c := farEnd_le_gap z bs
  have a0 := gapTo_nonneg x rs (rs + 16)
  have b0 := gapTo_nonneg y gs (gs + 16)
  have c0 := gapTo_nonneg z bs (bs + 16)
  have a1 : gapTo x rs (rs + 16) ≤ 27 := gap_le_of_sq _ a0 (by nlinarith)
  have b1 : gapTo y gs (gs + 16) ≤ 27 := gap_le_of_sq _ b0 (by nlinarith)
  have c1 : gapTo z bs (bs + 16) ≤ 27 := gap_le_of_sq _ c0 (by nlinarith)
  have a2 : (gapTo x rs (rs + 16) + 16) * (gapTo x rs (rs + 16) + 16) ≤ 1849 := by nlinarith
  have b2 : (gapTo y gs (gs + 16) + 16) * (gapTo y gs (gs + 16) + 16) ≤ 1849 := by nlinarith
  have c2 : (gapTo z bs (bs + 16) + 16) * (gapTo z bs (bs + 16) + 16) ≤ 1849 := by nlinarith
  omega

theorem farthest_ge_of_inside (x y z px py pz rs gs bs : Int) (h1 : rs ≤ px) (h2 : px ≤ rs + 16)
    (h3 : gs ≤ py) (h4 : py ≤ gs + 16) (h5 : bs ≤ pz) (h6 : pz ≤ bs + 16) :
    color_distance x y z px py pz
      ≤ distance_to_rect_farthest x y z rs (rs + 16) gs (gs + 16) bs (bs + 16) := by
  rw [distance_to_rect_farthest_eq]
  unfold color_distance square_sum3
  have a := sq_le_farEnd x px rs h1 h2
  have b := sq_le_farEnd y py gs h3 h4
  have c := sq_le_farEnd z pz bs h5 h6
  omega

/-- A colour whose bucket index is that of the cube `(cr, cg, cb)` has its channels
in the cube. -/
theorem cube_coordinates (cr cg cb a b c : Nat) (h2 : cg < 16) (h3 : cb < 16)
    (hb : b < 256) (hc : c < 256)
    (h : a / CubeSize * N * N + b / CubeSize * N + c / CubeSize = cr * 256 + cg * 16 + cb) :
    cr * 16 ≤ a ∧ a ≤ cr * 16 + 15 ∧ cg * 16 ≤ b ∧ b ≤ cg * 16 + 15 ∧ cb * 16 ≤ c ∧
      c ≤ cb * 16 + 15 := by
  have hN : N = 16 := rfl
  have hC : CubeSize = 16 := rfl
  rw [hN, hC] at h
  omega

/-- The seed of a cube is within the bound: its farthest-corner distance to the
cube is at most `5547` when the table holds every colour whose channels are
channel levels. -/
theorem cubeSeed_farthest_bound (t : List Nat)
    (hcov : ∀ r ∈ channelLevels, ∀ g ∈ channelLevels, ∀ b ∈ channelLevels,
      ∃ i < t.length, byte2 (t.getD i 0) = r ∧ byte1 (t.getD i 0) = g ∧ byte0 (t.getD i 0) = b)
    (cr cg cb : Nat) (h1 : cr < 16) (h2 : cg < 16) (h3 : cb < 16) :
    distance_to_rect_farthest
      (byte2 (t.getD (cubeSeed t (bucket t (cr * 256 + cg * 16 + cb))
        ((cr * 16 : Nat) : Int) (((cr * 16 : Nat) : Int) + 16)
        ((cg * 16 : Nat) : Int) (((cg * 16 : Nat) : Int) + 16)
        ((cb * 16 : Nat) : Int) (((cb * 16 : Nat) : Int) + 16)).2 0))
      (byte1 (t.getD (cubeSeed t (bucket t (cr * 256 + cg * 16 + cb))
        ((cr * 16 : Nat) : Int) (((cr * 16 : Nat) : Int) + 16)
        ((cg * 16 : Nat) : Int) (((cg * 16 : Nat) : Int) + 16)
        ((cb * 16 : Nat) : Int) (((cb * 16 : Nat) : Int) + 16)).2 0))
      (byte0 (t.getD (cubeSeed t (bucket t (cr * 256 + cg * 16 + cb))
        ((cr * 16 : Nat) : Int) (((cr * 16 : Nat) : Int) + 16)
        ((cg * 16 : Nat) : Int) (((cg * 16 : Nat) : Int) + 16)
        ((cb * 16 : Nat) : Int) (((cb * 16 : Nat) : Int) + 16)).2 0))
      ((cr * 16 : Nat) : Int) (((cr * 16 : Nat) : Int) + 16)
      ((cg * 16 : Nat) : Int) (((cg * 16 : Nat) : Int) + 16)
      ((cb * 16 : Nat) : Int) (((cb * 16 : Nat) : Int) + 16) ≤ 5547 := by
  generalize hrs : ((cr * 16 : Nat) : Int) = rs
  generalize hgs : ((cg * 16 : Nat) : Int) = gs
  generalize hbs : ((cb * 16 : Nat) : Int) = bs
  have inside : ∀ i, bucketIndexOf (t.getD i 0) = cr * 256 + cg * 16 + cb →
      0 < distance_to_rect_farthest (byte2 (t.getD i 0)) (byte1 (t.getD i 0)) (byte0 (t.getD i 0))
        rs (rs + 16) gs (gs + 16) bs (bs + 16) ∧
      distance_to_rect_farthest (byte2 (t.getD i 0)) (byte1 (t.getD i 0)) (byte0 (t.getD i 0))
        rs (rs + 16) gs (gs + 16) bs (bs + 16) ≤ 768 := by
    intro i hi
    have := cube_coordinates cr cg cb _ _ _ h2 h3 (byte1_lt (t.getD i 0))
      (byte0_lt (t.getD i 0)) hi
    apply farthest_le_of_inside <;> omega
  unfold cubeSeed
  by_cases hne : bucket t (cr * 256 + cg * 16 + cb) ≠ []
  · rw [if_pos hne]
    simp only
    obtain ⟨i, rest, hb⟩ := List.exists_cons_of_ne_nil hne
    have hi := inside i (bucket_mem t _ i (by rw [hb]; exact List.mem_cons_self _ _))
    have hmem : (seedInBucket t rs (rs + 16) gs (gs + 16) bs (bs + 16)
        (bucket t (cr * 256 + cg * 16 + cb)) (0, 0)).2 ∈ bucket t (cr * 256 + cg * 16 + cb) := by
      rw [hb]
      simp only [seedInBucket]
      rw [if_pos hi.1]
      rcases seedInBucket_mem t rs (rs + 16) gs (gs + 16) bs (bs + 16) rest
        (distance_to_rect_farthest (byte2 (t.getD i 0)) (byte1 (t.getD i 0))
          (byte0 (t.getD i 0)) rs (rs + 16) gs (gs + 16) bs (bs + 16), i) with h | h
      · exact List.mem_cons_of_mem _ h
      · rw [h]; exact List.mem_cons_self _ _
    have := (inside _ (bucket_mem t _ _ hmem)).2
    omega
  · rw [if_neg hne]
    simp only
    obtain ⟨lr, hlr, glr⟩ := level_near_interval cr h1
    obtain ⟨lg, hlg, glg⟩ := level_near_interval cg h2
    obtain ⟨lb, hlb, glb⟩ := level_near_interval cb h3
    obtain ⟨j, hj, j1, j2, j3⟩ := hcov lr hlr lg hlg lb hlb
    rw [hrs] at glr
    rw [hgs] at glg
    rw [hbs] at glb
    have hnear : distance_to_rect (byte2 (t.getD j 0)) (byte1 (t.getD j 0)) (byte0 (t.getD j 0))
        rs (rs + 16) gs (gs + 16) bs (bs + 16) ≤ 768 := by
      rw [distance_to_rect_eq, j1, j2, j3]
      have a0 := gapTo_nonneg lr rs (rs + 16)
      have b0 := gapTo_nonneg lg gs (gs + 16)
      have c0 := gapTo_nonneg lb bs (bs + 16)
      nlinarith
    obtain ⟨_, m2, m3⟩ := seedNearest_min t rs (rs + 16) gs (gs + 16) bs (bs + 16)
      (List.range t.length) (INT_MAX, 0)
    have hle := m2 j (List.mem_range.mpr hj)
    apply farthest_le_of_near
    rcases m3 with h | h
    · rw [h] at hle
      simp only [INT_MAX] at hle
      omega
    · rw [← h]
      exact le_trans hle hnear


theorem color_table_getD (raw : List Nat) (i : Nat) :
    (color_table raw).getD i 0 = raw.getD i 0 &&& 0xffffff := by
  rw [List.getD_eq_getElem?_getD, List.getD_eq_getElem?_getD]
  unfold color_table
  rw [List.getElem?_map]
  cases raw[i]? with
  | none => simp
  | some c => simp

theorem cubeList_head_of_coordinates (sort : List DistanceInfo → List DistanceInfo) (t : List Nat)
    (cr cg cb : Nat) (h2 : cg < 16) (h3 : cb < 16) :
    ∃ more, cubeList sort t (cr * 256 + cg * 16 + cb)
      = toByte (cubeSeed t (bucket t (cr * 256 + cg * 16 + cb))
        ((cr * 16 : Nat) : Int) (((cr * 16 : Nat) : Int) + 16)
        ((cg * 16 : Nat) : Int) (((cg * 16 : Nat) : Int) + 16)
        ((cb * 16 : Nat) : Int) (((cb * 16 : Nat) : Int) + 16)).2 :: more := by
  have hN : N = 16 := rfl
  have hC : CubeSize = 16 := rfl
  have e1 : (cr * 256 + cg * 16 + cb) / (N * N) * CubeSize = cr * 16 := by rw [hN, hC]; omega
  have e2 : (cr * 256 + cg * 16 + cb) / N % N * CubeSize = cg * 16 := by rw [hN, hC]; omega
  have e3 : (cr * 256 + cg * 16 + cb) % N * CubeSize = cb * 16 := by rw [hN, hC]; omega
  have e4 : ((CubeSize : Nat) : Int) = 16 := rfl
  have := cubeList_head sort t (cr * 256 + cg * 16 + cb)
  rw [e1, e2, e3, e4] at this
  exact this

/-- With a table that holds every colour whose channels are channel levels, the
candidate scan maps every pixel to an entry at squared distance at most `5547`. -/
theorem optimized_slow_map_bound (sort : List DistanceInfo → List DistanceInfo)
    (hsort : IsSort sort) (t : List Nat) (hlen1 : 1 ≤ t.length) (hlen2 : t.length ≤ 256)
    (hcov : ∀ r ∈ channelLevels, ∀ g ∈ channelLevels, ∀ b ∈ channelLevels,
      ∃ i < t.length, byte2 (t.getD i 0) = r ∧ byte1 (t.getD i 0) = g ∧ byte0 (t.getD i 0) = b)
    (q : Nat) :
    dist2 (color_table t) q ((OptimizationPalette.create sort t).slow_map (color_table t) q)
      ≤ 5547 := by
  have hN : N = 16 := rfl
  have hC : CubeSize = 16 := rfl
  have hk : cubeIndexOf q = byte2 q / 16 * 256 + byte1 q / 16 * 16 + byte0 q / 16 := by
    unfold cubeIndexOf
    rw [hN, hC]
    omega
  have b2 := byte2_lt q
  have b1 := byte1_lt q
  have b0 := byte0_lt q
  have hkl : cubeIndexOf q < CubeCount := by
    rw [hk]
    show _ < 16 * 16 * 16
    omega
  obtain ⟨hcount, hcand⟩ := create_candidates sort t (cubeIndexOf q) hkl
  obtain ⟨more, hcl⟩ := cubeList_head_of_coordinates sort t (byte2 q / 16) (byte1 q / 16)
    (byte0 q / 16) (by omega) (by omega)
  have hbound := cubeSeed_farthest_bound t hcov (byte2 q / 16) (byte1 q / 16) (byte0 q / 16)
    (by omega) (by omega) (by omega)
  have hseedlt := cubeSeed_snd_lt t (byte2 q / 16 * 256 + byte1 q / 16 * 16 + byte0 q / 16)
    ((byte2 q / 16 * 16 : Nat) : Int) (((byte2 q / 16 * 16 : Nat) : Int) + 16)
    ((byte1 q / 16 * 16 : Nat) : Int) (((byte1 q / 16 * 16 : Nat) : Int) + 16)
    ((byte0 q / 16 * 16 : Nat) : Int) (((byte0 q / 16 * 16 : Nat) : Int) + 16) hlen1
  rw [← hk] at hcl hbound hseedlt
  generalize hS : (cubeSeed t (bucket t (cubeIndexOf q))
    ((byte2 q / 16 * 16 : Nat) : Int) (((byte2 q / 16 * 16 : Nat) : Int) + 16)
    ((byte1 q / 16 * 16 : Nat) : Int) (((byte1 q / 16 * 16 : Nat) : Int) + 16)
    ((byte0 q / 16 * 16 : Nat) : Int) (((byte0 q / 16 * 16 : Nat) : Int) + 16)).2 = S
    at hcl hbound hseedlt
  rw [toByte_of_lt (by omega)] at hcl
  -- the distance from the pixel to the seed
  have hseed : color_distance (byte2 ((color_table t).getD S 0)) (byte1 ((color_table t).getD S 0))
      (byte0 ((color_table t).getD S 0)) (byte2 q) (byte1 q) (byte0 q) ≤ 5547 := by
    rw [color_table_getD, byte2_mask, byte1_mask, byte0_mask]
    refine le_trans (farthest_ge_of_inside _ _ _ _ _ _ _ _ _ ?_ ?_ ?_ ?_ ?_ ?_) hbound <;> omega
  -- the result is no farther than the seed
  have hres : color_distance
      (byte2 ((color_table t).getD
        ((OptimizationPalette.create sort t).slow_map (color_table t) q) 0))
      (byte1 ((color_table t).getD
        ((OptimizationPalette.create sort t).slow_map (color_table t) q) 0))
      (byte0 ((color_table t).getD
        ((OptimizationPalette.create sort t).slow_map (color_table t) q) 0))
      (byte2 q) (byte1 q) (byte0 q) ≤ 5547 := by
    unfold OptimizationPalette.slow_map
    by_cases h1 : ((OptimizationPalette.create sort t).heads.getD (cubeIndexOf q) ⟨0, 0⟩).count = 1
    · rw [if_pos h1]
      have : (OptimizationPalette.create sort t).candidates (cubeIndexOf q)
          = [(OptimizationPalette.create sort t).bytes.getD
            ((OptimizationPalette.create sort t).heads.getD (cubeIndexOf q) ⟨0, 0⟩).index 0] := by
        unfold OptimizationPalette.candidates
        rw [h1]
        rfl
      rw [hcand, hcl] at this
      injection this with e _
      rw [← e]
      exact hseed
    · rw [if_neg h1, hcand, hcl]
      have hlt : ∀ x ∈ S :: more, x < t.length := by
        rw [← hcl]
        exact cubeList_lt sort hsort t hlen1 _
      rcases optimized_scan_min (color_table t) (byte2 q) (byte1 q) (byte0 q) (S :: more)
        INT_MAX 0 with ⟨_, hall⟩ | ⟨hm, _, hall⟩
      · have := hall S (List.mem_cons_self _ _)
        simp only [INT_MAX] at this
        omega
      · rw [toByte_of_lt (by have := hlt _ hm; omega)]
        exact le_trans (hall S (List.mem_cons_self _ _)) hseed
  unfold dist2
  rw [color_distance_comm]
  exact hres


/-- Each channel value has a channel level within 25 of it. -/
theorem level_near_value :
    ∀ x : Nat, x < 256 →
      ∃ l ∈ channelLevels, ((x : Int) - (l : Int)) * ((x : Int) - (l : Int)) ≤ 625 := by
  decide!

/-- With a table that holds every colour whose channels are channel levels, the
linear scan maps every pixel to an entry at squared distance at most `1875`. -/
theorem linear_slow_map_bound (t : List Nat) (hlen2 : t.length ≤ 256)
    (hcov : ∀ r ∈ channelLevels, ∀ g ∈ channelLevels, ∀ b ∈ channelLevels,
      ∃ i < t.length, byte2 (t.getD i 0) = r ∧ byte1 (t.getD i 0) = g ∧ byte0 (t.getD i 0) = b)
    (q : Nat) :
    dist2 (color_table t) q (NoOptimizationPalette.slow_map (color_table t) q) ≤ 1875 := by
  obtain ⟨lr, hlr, glr⟩ := level_near_value (byte2 q) (byte2_lt q)
  obtain ⟨lg, hlg, glg⟩ := level_near_value (byte1 q) (byte1_lt q)
  obtain ⟨lb, hlb, glb⟩ := level_near_value (byte0 q) (byte0_lt q)
  obtain ⟨j, hj, j1, j2, j3⟩ := hcov lr hlr lg hlg lb hlb
  have hn := linear_slow_map_spec (color_table t) q (by rw [color_table_length]; omega)
    (by rw [color_table_length]; exact hlen2)
  have := hn.1.2 j (by rw [color_table_length]; exact hj)
  refine le_trans this ?_
  unfold dist2 color_distance square_sum3
  rw [color_table_getD, byte2_mask, byte1_mask, byte0_mask, j1, j2, j3]
  omega

/-- C19: for a palette that holds every colour whose channels are in
`{0, 51, 102, 153, 204, 255}` (the 216-colour palette, in any order), with
either value of `optimize` and in any cache state, `palette_map` maps every
pixel to an entry whose colour is at squared RGB distance at most
`221² = 48841` from the pixel. -/
theorem level_palette_map_within_bound (sort : List DistanceInfo → List DistanceInfo)
    (hsort : IsSort sort) (colorTable : List Nat) (optimize : Bool) (p : Palette)
    (hp : palette_create sort colorTable optimize = some p)
    (hcov : ∀ r ∈ channelLevels, ∀ g ∈ channelLevels, ∀ b ∈ channelLevels,
      ∃ i < colorTable.length, byte2 (colorTable.getD i 0) = r ∧
        byte1 (colorTable.getD i 0) = g ∧ byte0 (colorTable.getD i 0) = b)
    (queries pixels indexes : List Nat) (hlen : pixels.length = indexes.length) :
    ∀ k < pixels.length,
      dist2 p.colorTable (pixels.getD k 0)
        ((palette_map (p.afterQueries queries) pixels indexes).2.getD k 0) ≤ 48841 := by
  obtain ⟨i0, hi0, _⟩ := hcov 0 (by decide) 0 (by decide) 0 (by decide)
  have hlen1 : 1 ≤ colorTable.length := by omega
  have hlen2 : colorTable.length ≤ 256 := by
    by_contra hcon
    have := (palette_create_null_iff sort colorTable optimize).mpr (by omega)
    rw [this] at hp
    cases hp
  have hs := palette_create_serves sort hsort colorTable optimize p hp hlen1
  have hs' := afterQueries_serves _ p queries hs
  have hsm : (p.afterQueries queries).slow_map = p.slow_map :=
    (palette_index_seq_spec queries p hs.1).2.2.1
  have hmask : ∀ q, dist2 (color_table colorTable) q = dist2 (color_table colorTable)
      (q &&& 0xffffff) := by
    intro q
    funext i
    unfold dist2
    rw [byte2_mask, byte1_mask, byte0_mask]
  have hE := linear_slow_map_bound colorTable hlen2 hcov
  have hO := optimized_slow_map_bound sort hsort colorTable hlen1 hlen2 hcov
  have hall : ∀ q, dist2 p.colorTable q (p.slow_map (q &&& 0xffffff)) ≤ 48841 := by
    intro q
    rw [hs.2.1, hmask]
    unfold palette_create at hp
    split at hp
    · injection hp with hp; subst hp; exact le_trans (hE _) (by norm_num)
    · split at hp
      · split at hp
        · injection hp with hp; subst hp; exact le_trans (hO _) (by norm_num)
        · split at hp
          · injection hp with hp; subst hp; exact le_trans (hO _) (by norm_num)
          · cases hp
      · split at hp
        · injection hp with hp; subst hp; exact le_trans (hE _) (by norm_num)
        · split at hp
          · injection hp with hp; subst hp; exact le_trans (hE _) (by norm_num)
          · cases hp
  intro k hk
  unfold palette_map
  rw [palette_map_no_dither_spec pixels _ indexes 0 hs'.1 (by omega), List.take_zero,
    List.nil_append, getD_map_of_lt _ _ _ hk, hsm]
  exact hall _

theorem levelPalette_entry :
    ∀ a < 6, ∀ b < 6, ∀ c < 6,
      byte2 (levelPalette.getD (a * 36 + b * 6 + c) 0) = channelLevels.getD a 0 ∧
      byte1 (levelPalette.getD (a * 36 + b * 6 + c) 0) = channelLevels.getD b 0 ∧
      byte0 (levelPalette.getD (a * 36 + b * 6 + c) 0) = channelLevels.getD c 0 := by
  decide!

theorem channelLevels_index : ∀ r ∈ channelLevels, ∃ a < 6, channelLevels.getD a 0 = r := by
  decide

theorem levelPalette_covers :
    ∀ r ∈ channelLevels, ∀ g ∈ channelLevels, ∀ b ∈ channelLevels,
      ∃ i < levelPalette.length, byte2 (levelPalette.getD i 0) = r ∧
        byte1 (levelPalette.getD i 0) = g ∧ byte0 (levelPalette.getD i 0) = b := by
  intro r hr g hg b hb
  obtain ⟨a1, h1, e1⟩ := channelLevels_index r hr
  obtain ⟨a2, h2, e2⟩ := channelLevels_index g hg
  obtain ⟨a3, h3, e3⟩ := channelLevels_index b hb
  have hl : levelPalette.length = 216 := by decide!
  refine ⟨a1 * 36 + a2 * 6 + a3, by rw [hl]; omega, ?_⟩
  rw [← e1, ← e2, ← e3]
  exact levelPalette_entry a1 h1 a2 h2 a3 h3

theorem levelPalette_create :
    palette_create insertionSort levelPalette true
      = some (Palette.SingleCacheOptimization (color_table levelPalette)
        (OptimizationPalette.create insertionSort levelPalette) SingleCachePalette.create) := by
  have h : levelPalette.length = 216 := by decide!
  unfold palette_create
  rw [h, if_neg (by decide), if_pos rfl, if_pos (by decide)]

theorem level_palette_map_within_bound_witness :
    dist2 (Palette.SingleCacheOptimization (color_table levelPalette)
        (OptimizationPalette.create insertionSort levelPalette)
        SingleCachePalette.create).colorTable (([0x123456] : List Nat).getD 0 0)
      ((palette_map ((Palette.SingleCacheOptimization (color_table levelPalette)
        (OptimizationPalette.create insertionSort levelPalette)
        SingleCachePalette.create).afterQueries []) [0x123456] [0]).2.getD 0 0) ≤ 48841 :=
  level_palette_map_within_bound insertionSort insertionSort_isSort levelPalette true _
    levelPalette_create levelPalette_covers [] [0x123456] [0] rfl 0 (by decide)

end EuclideanPalette

/-! ## The order lists after `sort_colors` -/

namespace SpaceShockColorExtractor

open EuclideanPalette (setAt byte0 byte1 byte2 getD_set_ne getD_set_same setAt_same setAt_ne
  mask24_eq_mod)

theorem mapFind_mem : ∀ (m : List (Nat × Nat)) (k h : Nat), mapFind m k = some h → (k, h) ∈ m := by
  intro m
  induction m with
  | nil => intro k h e; cases e
  | cons a rest ih =>
    intro k h e
    obtain ⟨k1, v1⟩ := a
    simp only [mapFind] at e
    split at e
    · rename_i hk
      injection e with e
      rw [← hk, ← e]
      exact List.mem_cons_self _ _
    · exact List.mem_cons_of_mem _ (ih k h e)

theorem mapFind_none : ∀ (m : List (Nat × Nat)) (k : Nat), mapFind m k = none →
    ∀ h, (k, h) ∉ m := by
  intro m
  induction m with
  | nil => intro k _ h hm; cases hm
  | cons a rest ih =>
    intro k e h hm
    obtain ⟨k1, v1⟩ := a
    simp only [mapFind] at e
    split at e
    · cases e
    · rename_i hk
      rcases List.mem_cons.mp hm with h1 | h1
      · injection h1 with h1 _
        exact hk h1.symm
      · exact ih k e h h1

theorem mapFind_of_mem : ∀ (m : List (Nat × Nat)), m.Pairwise (fun a b => a.1 < b.1) →
    ∀ (k h : Nat), (k, h) ∈ m → mapFind m k = some h := by
  intro m
  induction m with
  | nil => intro _ k h hm; cases hm
  | cons a rest ih =>
    intro hs k h hm
    obtain ⟨k1, v1⟩ := a
    rw [List.pairwise_cons] at hs
    simp only [mapFind]
    rcases List.mem_cons.mp hm with h1 | h1
    · injection h1 with h1 h2
      rw [if_pos h1.symm, h2]
    · have := hs.1 (k, h) h1
      simp only at this
      rw [if_neg (by omega)]
      exact ih hs.2 k h h1

theorem mapSet_mem : ∀ (m : List (Nat × Nat)), m.Pairwise (fun a b => a.1 < b.1) →
    ∀ (k v : Nat) (kh : Nat × Nat),
      kh ∈ mapSet m k v ↔ kh = (k, v) ∨ (kh ∈ m ∧ kh.1 ≠ k) := by
  intro m
  induction m with
  | nil =>
    intro _ k v kh
    simp [mapSet]
  | cons a rest ih =>
    intro hs k v kh
    obtain ⟨k1, v1⟩ := a
    rw [List.pairwise_cons] at hs
    simp only [mapSet]
    by_cases h1 : k1 = k
    · rw [if_pos h1]
      subst h1
      constructor
      · intro hm
        rcases List.mem_cons.mp hm with h | h
        · exact Or.inl h
        · have := hs.1 kh h
          simp only at this
          exact Or.inr ⟨List.mem_cons_of_mem _ h, by omega⟩
      · intro hm
        rcases hm with h | ⟨h, hne⟩
        · rw [h]; exact List.mem_cons_self _ _
        · rcases List.mem_cons.mp h with h' | h'
          · rw [h'] at hne; exact absurd rfl hne
          · exact List.mem_cons_of_mem _ h'
    · rw [if_neg h1]
      by_cases h2 : k < k1
      · rw [if_pos h2]
        constructor
        · intro hm
          rcases List.mem_cons.mp hm with h | h
          · exact Or.inl h
          · refine Or.inr ⟨h, ?_⟩
            rcases List.mem_cons.mp h with h' | h'
            · rw [h']; exact h1
            · have := hs.1 kh h'
              simp only at this
              omega
        · intro hm
          rcases hm with h | ⟨h, _⟩
          · rw [h]; exact List.mem_cons_self _ _
          · exact List.mem_cons_of_mem _ h
      · rw [if_neg h2]
        constructor
        · intro hm
          rcases List.mem_cons.mp hm with h | h
          · rw [h]; exact Or.inr ⟨List.mem_cons_self _ _, h1⟩
          · rcases (ih hs.2 k v kh).mp h with h' | ⟨h', hne⟩
            · exact Or.inl h'
            · exact Or.inr ⟨List.mem_cons_of_mem _ h', hne⟩
        · intro hm
          rcases hm with h | ⟨h, hne⟩
          · exact List.mem_cons_of_mem _ ((ih hs.2 k v kh).mpr (Or.inl h))
          · rcases List.mem_cons.mp h with h' | h'
            · rw [h']; exact List.mem_cons_self _ _
            · exact List.mem_cons_of_mem _ ((ih hs.2 k v kh).mpr (Or.inr ⟨h', hne⟩))

theorem mapSet_sorted : ∀ (m : List (Nat × Nat)), m.Pairwise (fun a b => a.1 < b.1) →
    ∀ (k v : Nat), (mapSet m k v).Pairwise (fun a b => a.1 < b.1) := by
  intro m
  induction m with
  | nil => intro _ k v; simp [mapSet]
  | cons a rest ih =>
    intro hs k v
    obtain ⟨k1, v1⟩ := a
    have hs' := hs
    rw [List.pairwise_cons] at hs
    simp only [mapSet]
    by_cases h1 : k1 = k
    · rw [if_pos h1]
      rw [List.pairwise_cons]
      exact ⟨hs.1, hs.2⟩
    · rw [if_neg h1]
      by_cases h2 : k < k1
      · rw [if_pos h2, List.pairwise_cons]
        refine ⟨fun b hb => ?_, hs'⟩
        rcases List.mem_cons.mp hb with h | h
        · rw [h]; exact h2
        · have := hs.1 b h
          simp only at this ⊢
          omega
      · rw [if_neg h2, List.pairwise_cons]
        refine ⟨fun b hb => ?_, ih hs.2 k v⟩
        rcases (mapSet_mem rest hs.2 k v b).mp hb with h | ⟨h, _⟩
        · rw [h]; simp only; omega
        · exact hs.1 b h

theorem mapSet_mapSet : ∀ (m : List (Nat × Nat)) (k v w : Nat),
    mapSet (mapSet m k v) k w = mapSet m k w := by
  intro m
  induction m with
  | nil => intro k v w; simp [mapSet]
  | cons a rest ih =>
    intro k v w
    obtain ⟨k1, v1⟩ := a
    simp only [mapSet]
    by_cases h1 : k1 = k
    · rw [if_pos h1, if_pos h1]
      simp only [mapSet, if_pos h1]
    · rw [if_neg h1, if_neg h1]
      by_cases h2 : k < k1
      · rw [if_pos h2, if_pos h2]
        simp only [mapSet, if_true]
      · rw [if_neg h2, if_neg h2]
        simp only [mapSet, if_neg h1, if_neg h2, ih]

theorem prevChain_congr (buf buf2 : Buffer) :
    ∀ (l : List Nat) (s : Nat), (∀ n ∈ l, buf2.data (n + 1) = buf.data (n + 1)) →
      PrevChain buf s l → PrevChain buf2 s l := by
  intro l
  induction l with
  | nil => intro s _ h; exact h
  | cons n rest ih =>
    intro s hf h
    obtain ⟨h1, h2, h3⟩ := h
    refine ⟨h1, h2, ?_⟩
    rw [hf n (List.mem_cons_self _ _)]
    exact ih _ (fun x hx => hf x (List.mem_cons_of_mem _ hx)) h3

/-- The start of a chain is 0 or its first node. -/
theorem prevChain_start (buf : Buffer) (s : Nat) (l : List Nat) (h : PrevChain buf s l) :
    s = 0 ∨ s ∈ l := by
  cases l with
  | nil => exact Or.inl h
  | cons n rest => exact Or.inr (by rw [h.1]; exact List.mem_cons_self _ _)

theorem prevChain_reaches (buf : Buffer) :
    ∀ (l : List Nat) (s : Nat), PrevChain buf s l → ∀ n ∈ l, Reaches buf 1 s n := by
  intro l
  induction l with
  | nil => intro s _ n hn; cases hn
  | cons a rest ih =>
    intro s h n hn
    obtain ⟨h1, h2, h3⟩ := h
    rw [h1]
    rcases List.mem_cons.mp hn with e | e
    · rw [e]; exact Reaches.here a h2
    · exact Reaches.step a n h2 (ih _ h3 n e)

theorem reaches_prevChain (buf : Buffer) (s n : Nat) (hr : Reaches buf 1 s n) :
    ∀ (l : List Nat), PrevChain buf s l → n ∈ l := by
  induction hr with
  | here a ha =>
    intro l h
    cases l with
    | nil => exact absurd h ha
    | cons b rest => rw [h.1]; exact List.mem_cons_self _ _
  | step a m ha _ ih =>
    intro l h
    cases l with
    | nil => exact absurd h ha
    | cons b rest =>
      obtain ⟨h1, _, h3⟩ := h
      rw [h1] at ih
      exact List.mem_cons_of_mem _ (ih rest h3)


/-- The step of `sort_colors` for a colour of count at most `BaseLength`. -/
theorem sortStep_small (st : SortState) (c : Nat) (h1 : 1 ≤ (st.colorCounts c).count)
    (h2 : (st.colorCounts c).count ≤ BaseLength) (h3 : (st.colorCounts c).count < 2 ^ 32)
    (hL : BaseLength ≤ st.lastNewIndex) :
    (sortStep st c).colorCounts
        = setAt st.colorCounts c ⟨(st.colorCounts c).count, st.lastNewIndex⟩ ∧
      (sortStep st c).sortedMap = st.sortedMap ∧
      (sortStep st c).lastNewIndex = st.lastNewIndex + 3 ∧
      (sortStep st c).sortedBuffer.data st.lastNewIndex = c ∧
      (sortStep st c).sortedBuffer.data (st.lastNewIndex + 1)
        = st.sortedBuffer.data ((st.colorCounts c).count - 1) ∧
      (sortStep st c).sortedBuffer.data ((st.colorCounts c).count - 1) = st.lastNewIndex ∧
      ∀ x, x < st.lastNewIndex → x ≠ (st.colorCounts c).count - 1 →
        (st.sortedBuffer.data ((st.colorCounts c).count - 1) = 0 ∨
          x ≠ st.sortedBuffer.data ((st.colorCounts c).count - 1) + 2) →
        (sortStep st c).sortedBuffer.data x = st.sortedBuffer.data x := by
  have hidx : ((st.colorCounts c).count + (2 ^ 32 - 1)) % 2 ^ 32 = (st.colorCounts c).count - 1 := by
    omega
  have hB : BaseLength = 1024 := rfl
  unfold sortStep
  rw [if_pos h2]
  simp only [hidx, linkNode, Buffer.write, Buffer.resize, Nat.add_zero]
  refine ⟨trivial, trivial, trivial, ?_, ?_, ?_, ?_⟩
  · rw [setAt_ne _ _ (by omega), setAt_ne _ _ (by omega), setAt_same]
  · rw [setAt_ne _ _ (by omega), setAt_same]
  · rw [setAt_ne _ _ (by omega), setAt_ne _ _ (by omega), setAt_ne _ _ (by omega), setAt_same]
  · intro x hx hx1 hx2
    rw [setAt_ne _ _ (by omega), setAt_ne _ _ (by omega), setAt_ne _ _ (by omega),
      setAt_ne _ _ hx1]
    split
    · rename_i hne
      simp only
      rw [setAt_ne _ _ (by omega)]
    · rfl

/-- The step of `sort_colors` for a colour of count above `BaseLength` whose list
exists. -/
theorem sortStep_large_old (st : SortState) (c h : Nat)
    (h2 : BaseLength < (st.colorCounts c).count)
    (hf : mapFind st.sortedMap (st.colorCounts c).count = some h) (hh : h ≠ 0)
    (hhL : h < st.lastNewIndex) :
    (sortStep st c).colorCounts
        = setAt st.colorCounts c ⟨(st.colorCounts c).count, st.lastNewIndex⟩ ∧
      (sortStep st c).sortedMap = st.sortedMap ∧
      (sortStep st c).lastNewIndex = st.lastNewIndex + 3 ∧
      (sortStep st c).sortedBuffer.data st.lastNewIndex = c ∧
      (sortStep st c).sortedBuffer.data (st.lastNewIndex + 1) = st.sortedBuffer.data h ∧
      (sortStep st c).sortedBuffer.data h = st.lastNewIndex ∧
      ∀ x, x < st.lastNewIndex → x ≠ h → x ≠ st.sortedBuffer.data h + 2 →
        (sortStep st c).sortedBuffer.data x = st.sortedBuffer.data x := by
  unfold sortStep
  rw [if_neg (by omega)]
  simp only [mapIndex, hf, if_neg hh, linkNode, Buffer.write, Buffer.resize, Nat.add_zero]
  refine ⟨trivial, trivial, trivial, ?_, ?_, ?_, ?_⟩
  · rw [setAt_ne _ _ (by omega), setAt_ne _ _ (by omega), setAt_same]
  · rw [setAt_ne _ _ (by omega), setAt_same]
  · rw [setAt_ne _ _ (by omega), setAt_ne _ _ (by omega), setAt_ne _ _ (by omega), setAt_same]
  · intro x hx hx1 hx2
    rw [setAt_ne _ _ (by omega), setAt_ne _ _ (by omega), setAt_ne _ _ (by omega),
      setAt_ne _ _ hx1, setAt_ne _ _ hx2]

/-- The step of `sort_colors` for a colour of count above `BaseLength` whose list
does not exist yet. -/
theorem sortStep_large_new (st : SortState) (c : Nat)
    (h2 : BaseLength < (st.colorCounts c).count)
    (hf : mapFind st.sortedMap (st.colorCounts c).count = none) :
    (sortStep st c).colorCounts
        = setAt st.colorCounts c ⟨(st.colorCounts c).count, st.lastNewIndex + 1⟩ ∧
      (sortStep st c).sortedMap
        = mapSet st.sortedMap (st.colorCounts c).count st.lastNewIndex ∧
      (sortStep st c).lastNewIndex = st.lastNewIndex + 4 ∧
      (sortStep st c).sortedBuffer.data st.lastNewIndex = st.lastNewIndex + 1 ∧
      (sortStep st c).sortedBuffer.data (st.lastNewIndex + 1) = c ∧
      (sortStep st c).sortedBuffer.data (st.lastNewIndex + 2) = 0 ∧
      ∀ x, x < st.lastNewIndex →
        (sortStep st c).sortedBuffer.data x = st.sortedBuffer.data x := by
  unfold sortStep
  rw [if_neg (by omega)]
  simp only [mapIndex, hf, if_true, linkNode, Buffer.write, Buffer.resize, Nat.add_zero,
    mapSet_mapSet]
  refine ⟨trivial, trivial, trivial, ?_, ?_, ?_, ?_⟩
  · rw [setAt_ne _ _ (by omega), setAt_ne _ _ (by omega), setAt_ne _ _ (by omega), setAt_same]
  · rw [setAt_ne _ _ (by omega), setAt_ne _ _ (by omega), setAt_same]
  · rw [setAt_ne _ _ (by omega), setAt_same]
  · intro x hx
    rw [setAt_ne _ _ (by omega), setAt_ne _ _ (by omega), setAt_ne _ _ (by omega),
      setAt_ne _ _ (by omega)]


theorem bucketOf_cons (count : Nat → Nat) (c : Nat) (live : List Nat) (k : Nat) :
    bucketOf count (c :: live) k
      = if count c = k then c :: bucketOf count live k else bucketOf count live k := by
  unfold bucketOf
  rw [List.filter_cons]
  by_cases h : count c = k <;> simp [h]

theorem mem_bucketOf (count : Nat → Nat) (live : List Nat) (k x : Nat) :
    x ∈ bucketOf count live k ↔ x ∈ live ∧ count x = k := by
  unfold bucketOf
  simp [List.mem_filter]

/-- A chain of bucket nodes is kept by a change of the buffer and of the node
function that leaves the `prev` cells and the nodes of the live colours
alone. -/
theorem prevChain_bucket_frame (count node node2 : Nat → Nat) (buf buf2 : Buffer)
    (live : List Nat) (k s : Nat) (hn : ∀ y ∈ live, node2 y = node y)
    (hf : ∀ y ∈ live, buf2.data (node y + 1) = buf.data (node y + 1))
    (h : PrevChain buf s ((bucketOf count live k).map node)) :
    PrevChain buf2 s ((bucketOf count live k).map node2) := by
  have e : (bucketOf count live k).map node2 = (bucketOf count live k).map node :=
    List.map_congr_left (fun y hy => hn y ((mem_bucketOf count live k y).mp hy).1)
  rw [e]
  apply prevChain_congr buf buf2 _ _ _ h
  intro n hn'
  obtain ⟨y, hy, rfl⟩ := List.mem_map.mp hn'
  exact hf y ((mem_bucketOf count live k y).mp hy).1

/-- Linking a new colour `c` at the head of the list of its count keeps the
index invariant. -/
theorem indexInv_push (count node node2 : Nat → Nat) (buf buf2 : Buffer)
    (map map2 : List (Nat × Nat)) (live : List Nat) (c N s : Nat)
    (I : IndexInv count node buf map live) (hc : c ∉ live) (h1 : 1 ≤ count c)
    (hNge : BaseLength ≤ N) (hNsep : ∀ y ∈ live, node y + 3 ≤ N)
    (hn2c : node2 c = N) (hn2 : ∀ y ∈ live, node2 y = node y)
    (hcol : buf2.data N = c)
    (hframe : ∀ y ∈ live, buf2.data (node y) = buf.data (node y) ∧
      buf2.data (node y + 1) = buf.data (node y + 1))
    (hprev : buf2.data (N + 1) = s)
    (hs : PrevChain buf s ((bucketOf count live (count c)).map node))
    (hsmall : ∀ j, 1 ≤ j → j ≤ BaseLength →
      buf2.data (j - 1) = if j = count c then N else buf.data (j - 1))
    (hsorted : map2.Pairwise (fun a b => a.1 < b.1))
    (hmap : ∀ kh ∈ map2, BaseLength < kh.1 ∧ BaseLength ≤ kh.2 ∧ kh.2 < N ∧
      (∀ y ∈ live, kh.2 < node y ∨ node y + 3 ≤ kh.2) ∧
      buf2.data kh.2 = (if kh.1 = count c then N else buf.data kh.2) ∧
      (kh.1 ≠ count c → kh ∈ map))
    (hinj : ∀ kh ∈ map2, ∀ kj ∈ map2, kh.2 = kj.2 → kh = kj)
    (hlargec : BaseLength < count c → ∃ h, (count c, h) ∈ map2)
    (hlarge : ∀ kh ∈ map, ∃ h, (kh.1, h) ∈ map2) :
    IndexInv count node2 buf2 map2 (c :: live) := by
  have hchain : ∀ k s', PrevChain buf s' ((bucketOf count live k).map node) →
      PrevChain buf2 s' ((bucketOf count live k).map node2) := fun k s' h =>
    prevChain_bucket_frame count node node2 buf buf2 live k s' hn2 (fun y hy => (hframe y hy).2) h
  have hnew : PrevChain buf2 N ((bucketOf count (c :: live) (count c)).map node2) := by
    rw [bucketOf_cons, if_pos rfl, List.map_cons, hn2c]
    refine ⟨rfl, by have : BaseLength = 1024 := rfl; omega, ?_⟩
    rw [hprev]
    exact hchain _ _ hs
  have hold : ∀ k, k ≠ count c → bucketOf count (c :: live) k = bucketOf count live k := by
    intro k hk
    rw [bucketOf_cons, if_neg (fun e => hk e.symm)]
  refine ⟨List.nodup_cons.mpr ⟨hc, I.nodup⟩, ?_, ?_, ?_, ?_, ?_, hsorted, ?_, ?_, hinj, ?_⟩
  · intro x hx
    rcases List.mem_cons.mp hx with e | e
    · rw [e]; exact h1
    · exact I.count_pos x e
  · intro x hx
    rcases List.mem_cons.mp hx with e | e
    · rw [e, hn2c]; exact hNge
    · rw [hn2 x e]; exact I.node_ge x e
  · intro x hx y hy hxy
    rcases List.mem_cons.mp hx with e | e
    · rcases List.mem_cons.mp hy with e' | e'
      · exact absurd (e.trans e'.symm) hxy
      · rw [e, hn2c, hn2 y e']
        exact Or.inr (hNsep y e')
    · rcases List.mem_cons.mp hy with e' | e'
      · rw [e', hn2c, hn2 x e]
        exact Or.inl (hNsep x e)
      · rw [hn2 x e, hn2 y e']
        exact I.node_sep x e y e' hxy
  · intro x hx
    rcases List.mem_cons.mp hx with e | e
    · rw [e, hn2c]; exact hcol
    · rw [hn2 x e, (hframe x e).1]; exact I.colour x e
  · intro k hk1 hk2
    rw [hsmall k hk1 hk2]
    by_cases hk : k = count c
    · rw [if_pos hk, hk]
      exact hnew
    · rw [if_neg hk, hold k hk]
      exact hchain _ _ (I.small k hk1 hk2)
  · intro kh hkh
    obtain ⟨m1, m2, _, _, m5, m6⟩ := hmap kh hkh
    refine ⟨m1, m2, ?_, ?_⟩
    · by_cases hk : kh.1 = count c
      · rw [hk, bucketOf_cons, if_pos rfl]
        exact List.cons_ne_nil _ _
      · rw [hold _ hk]
        exact (I.map_key kh (m6 hk)).2.2.1
    · rw [m5]
      by_cases hk : kh.1 = count c
      · rw [if_pos hk, hk]
        exact hnew
      · rw [if_neg hk, hold _ hk]
        exact hchain _ _ (I.map_key kh (m6 hk)).2.2.2
  · intro kh hkh x hx
    obtain ⟨_, _, m3, m4, _, _⟩ := hmap kh hkh
    rcases List.mem_cons.mp hx with e | e
    · rw [e, hn2c]; exact Or.inl m3
    · rw [hn2 x e]; exact m4 x e
  · intro x hx hbig
    rcases List.mem_cons.mp hx with e | e
    · rw [e]; rw [e] at hbig; exact hlargec hbig
    · obtain ⟨h, hh⟩ := I.large x e hbig
      exact hlarge _ hh


/-- The head of a bucket chain is 0 or the node of a live colour of the bucket. -/
theorem bucket_head_cases (count node : Nat → Nat) (buf : Buffer) (live : List Nat) (k s : Nat)
    (h : PrevChain buf s ((bucketOf count live k).map node)) :
    s = 0 ∨ ∃ y ∈ live, count y = k ∧ s = node y := by
  rcases prevChain_start buf s _ h with e | e
  · exact Or.inl e
  · obtain ⟨y, hy, e'⟩ := List.mem_map.mp e
    have := (mem_bucketOf count live k y).mp hy
    exact Or.inr ⟨y, this.1, this.2, e'.symm⟩

/-- One step of `sort_colors` keeps the invariant of its loop. -/
theorem sortStep_inv (count : Nat → Nat) (st : SortState) (live : List Nat) (c : Nat)
    (inv : SortInv count st live) (hc : c ∉ live) (h1 : 1 ≤ count c) (h3 : count c < 2 ^ 32) :
    SortInv count (sortStep st c) (c :: live) := by
  obtain ⟨I, hcnt, hL, hnodes, hheads⟩ := inv
  have hB : BaseLength = 1024 := rfl
  have hcc := hcnt c
  by_cases hsmall : count c ≤ BaseLength
  · -- a small count
    obtain ⟨e1, e2, e3, d1, d2, d3, d4⟩ := sortStep_small st c (by rw [hcc]; exact h1)
      (by rw [hcc]; exact hsmall) (by rw [hcc]; exact h3) hL
    rw [hcc] at e1 d2 d3 d4
    have hlast := bucket_head_cases count _ _ live (count c) _ (I.small (count c) h1 hsmall)
    have hnode2 : ∀ y ∈ live, ((sortStep st c).colorCounts y).node = (st.colorCounts y).node := by
      intro y hy
      rw [e1, setAt_ne _ _ (fun (e : y = c) => hc (e ▸ hy))]
    have hfree : ∀ x, x < st.lastNewIndex → x ≠ count c - 1 →
        (∀ y ∈ live, x ≠ (st.colorCounts y).node + 2) → BaseLength ≤ x ∨ x < 3 →
        (sortStep st c).sortedBuffer.data x = st.sortedBuffer.data x := by
      intro x hx1 hx2 hx3 hx4
      apply d4 x hx1 hx2
      rcases hlast with e | ⟨y, hy, _, e⟩
      · exact Or.inl e
      · right
        rw [e]
        exact hx3 y hy
    refine ⟨?_, ?_, by rw [e3]; omega, ?_, ?_⟩
    · apply indexInv_push count _ _ st.sortedBuffer _ st.sortedMap _ live c st.lastNewIndex
        (st.sortedBuffer.data (count c - 1)) I hc h1 hL hnodes
        (by rw [e1, setAt_same]) hnode2 d1
      · intro y hy
        have g1 := I.node_ge y hy
        have g2 := hnodes y hy
        constructor
        · apply d4 _ (by omega) (by omega)
          rcases hlast with e | ⟨z, hz, _, e⟩
          · exact Or.inl e
          · right
            rw [e]
            by_cases hyz : y = z
            · rw [hyz]; omega
            · have := I.node_sep y hy z hz hyz
              omega
        · apply d4 _ (by omega) (by omega)
          rcases hlast with e | ⟨z, hz, _, e⟩
          · exact Or.inl e
          · right
            rw [e]
            by_cases hyz : y = z
            · rw [hyz]; omega
            · have := I.node_sep y hy z hz hyz
              omega
      · exact d2
      · exact I.small (count c) h1 hsmall
      · intro j hj1 hj2
        by_cases hj : j = count c
        · rw [if_pos hj, hj]; exact d3
        · rw [if_neg hj]
          apply d4 _ (by omega) (by omega)
          rcases hlast with e | ⟨z, hz, _, e⟩
          · exact Or.inl e
          · right
            rw [e]
            have := I.node_ge z hz
            omega
      · rw [e2]; exact I.map_sorted
      · intro kh hkh
        rw [e2] at hkh
        obtain ⟨m1, m2, _, _⟩ := I.map_key kh hkh
        refine ⟨m1, m2, hheads kh hkh, I.map_head_sep kh hkh, ?_, fun _ => hkh⟩
        rw [if_neg (by omega)]
        apply d4 _ (hheads kh hkh) (by omega)
        rcases hlast with e | ⟨z, hz, _, e⟩
        · exact Or.inl e
        · right
          rw [e]
          have := I.map_head_sep kh hkh z hz
          omega
      · rw [e2]; exact I.map_head_inj
      · intro hbig
        omega
      · intro kh hkh
        rw [e2]
        exact ⟨kh.2, hkh⟩
    · intro x
      rw [e1]
      by_cases hx : x = c
      · rw [hx, setAt_same]
      · rw [setAt_ne _ _ hx]; exact hcnt x
    · intro x hx
      rw [e3]
      rcases List.mem_cons.mp hx with e | e
      · rw [e, e1, setAt_same]
      · rw [hnode2 x e]
        have := hnodes x e
        omega
    · intro kh hkh
      rw [e2] at hkh
      rw [e3]
      have := hheads kh hkh
      omega
  · -- a count above `BaseLength`
    have hbig : BaseLength < count c := by omega
    cases hf : mapFind st.sortedMap (count c) with
    | some h =>
      have hmem := mapFind_mem _ _ _ hf
      obtain ⟨k1, k2, k3, k4⟩ := I.map_key _ hmem
      simp only at k1 k2 k3 k4
      have hhL := hheads _ hmem
      simp only at hhL
      obtain ⟨e1, e2, e3, d1, d2, d3, d4⟩ := sortStep_large_old st c h (by rw [hcc]; exact hbig)
        (by rw [hcc]; exact hf) (by omega) hhL
      rw [hcc] at e1
      have hlast := bucket_head_cases count _ _ live (count c) _ k4
      have hlast' : ∃ z ∈ live, count z = count c ∧ st.sortedBuffer.data h = (st.colorCounts z).node := by
        rcases hlast with e | e
        · exfalso
          cases hb : bucketOf count live (count c) with
          | nil => exact k3 hb
          | cons a rest =>
            rw [hb] at k4
            obtain ⟨q1, q2, _⟩ := k4
            exact q2 (q1 ▸ e)
        · exact e
      obtain ⟨z, hz, _, ez⟩ := hlast'
      have hnode2 : ∀ y ∈ live, ((sortStep st c).colorCounts y).node = (st.colorCounts y).node := by
        intro y hy
        rw [e1, setAt_ne _ _ (fun (e : y = c) => hc (e ▸ hy))]
      refine ⟨?_, ?_, by rw [e3]; omega, ?_, ?_⟩
      · apply indexInv_push count _ _ st.sortedBuffer _ st.sortedMap _ live c st.lastNewIndex
          (st.sortedBuffer.data h) I hc h1 hL hnodes
          (by rw [e1, setAt_same]) hnode2 d1
        · intro y hy
          have g1 := I.node_ge y hy
          have g2 := hnodes y hy
          have g3 := I.map_head_sep _ hmem y hy
          simp only at g3
          constructor
          · apply d4 _ (by omega) (by omega)
            rw [ez]
            by_cases hyz : y = z
            · rw [hyz]; omega
            · have := I.node_sep y hy z hz hyz
              omega
          · apply d4 _ (by omega) (by omega)
            rw [ez]
            by_cases hyz : y = z
            · rw [hyz]; omega
            · have := I.node_sep y hy z hz hyz
              omega
        · exact d2
        · exact k4
        · intro j hj1 hj2
          rw [if_neg (by omega)]
          apply d4 _ (by omega) (by omega)
          rw [ez]
          have := I.node_ge z hz
          omega
        · rw [e2]; exact I.map_sorted
        · intro kh hkh
          rw [e2] at hkh
          obtain ⟨m1, m2, _, _⟩ := I.map_key kh hkh
          refine ⟨m1, m2, hheads kh hkh, I.map_head_sep kh hkh, ?_, fun _ => hkh⟩
          by_cases hk : kh.1 = count c
          · rw [if_pos hk]
            have : kh = (count c, h) := by
              have := mapFind_of_mem _ I.map_sorted kh.1 kh.2 hkh
              rw [hk, hf] at this
              injection this with this
              exact Prod.ext hk this.symm
            rw [this]
            exact d3
          · rw [if_neg hk]
            apply d4 _ (hheads kh hkh)
            · intro e
              exact hk (congrArg Prod.fst (I.map_head_inj kh hkh _ hmem e))
            · rw [ez]
              have := I.map_head_sep kh hkh z hz
              omega
        · rw [e2]; exact I.map_head_inj
        · intro _
          rw [e2]
          exact ⟨h, hmem⟩
        · intro kh hkh
          rw [e2]
          exact ⟨kh.2, hkh⟩
      · intro x
        rw [e1]
        by_cases hx : x = c
        · rw [hx, setAt_same]
        · rw [setAt_ne _ _ hx]; exact hcnt x
      · intro x hx
        rw [e3]
        rcases List.mem_cons.mp hx with e | e
        · rw [e, e1, setAt_same]
        · rw [hnode2 x e]
          have := hnodes x e
          omega
      · intro kh hkh
        rw [e2] at hkh
        rw [e3]
        have := hheads kh hkh
        omega
    | none =>
      have hnone := mapFind_none _ _ hf
      obtain ⟨e1, e2, e3, d1, d2, d3, d4⟩ := sortStep_large_new st c (by rw [hcc]; exact hbig)
        (by rw [hcc]; exact hf)
      rw [hcc] at e1 e2
      have hempty : bucketOf count live (count c) = [] := by
        cases hb : bucketOf count live (count c) with
        | nil => rfl
        | cons a rest =>
          exfalso
          have ha : a ∈ bucketOf count live (count c) := by rw [hb]; exact List.mem_cons_self _ _
          obtain ⟨ha1, ha2⟩ := (mem_bucketOf count live (count c) a).mp ha
          obtain ⟨h, hh⟩ := I.large a ha1 (by omega)
          rw [ha2] at hh
          exact hnone h hh
      have hnode2 : ∀ y ∈ live, ((sortStep st c).colorCounts y).node = (st.colorCounts y).node := by
        intro y hy
        rw [e1, setAt_ne _ _ (fun (e : y = c) => hc (e ▸ hy))]
      have hmem2 := mapSet_mem st.sortedMap I.map_sorted (count c) st.lastNewIndex
      refine ⟨?_, ?_, by rw [e3]; omega, ?_, ?_⟩
      · apply indexInv_push count _ _ st.sortedBuffer _ st.sortedMap _ live c
          (st.lastNewIndex + 1) 0 I hc h1 (by omega)
          (fun y hy => by have := hnodes y hy; omega)
          (by rw [e1, setAt_same]) hnode2 d2
        · intro y hy
          have g2 := hnodes y hy
          exact ⟨d4 _ (by omega), d4 _ (by omega)⟩
        · exact d3
        · rw [hempty]; rfl
        · intro j hj1 hj2
          rw [if_neg (by omega)]
          exact d4 _ (by omega)
        · rw [e2]; exact mapSet_sorted _ I.map_sorted _ _
        · intro kh hkh
          rw [e2] at hkh
          rcases (hmem2 kh).mp hkh with e | ⟨hin, hne⟩
          · rw [e]
            refine ⟨hbig, hL, by simp only; omega, fun y hy => ?_, ?_, fun h => absurd rfl h⟩
            · have := hnodes y hy
              simp only
              omega
            · simp only [if_true]
              exact d1
          · obtain ⟨m1, m2, _, _⟩ := I.map_key kh hin
            have := hheads kh hin
            refine ⟨m1, m2, by omega, I.map_head_sep kh hin, ?_, fun _ => hin⟩
            rw [if_neg hne]
            exact d4 _ this
        · intro kh hkh kj hkj hkk
          rw [e2] at hkh hkj
          rcases (hmem2 kh).mp hkh with e | ⟨hin, hne⟩
          · rcases (hmem2 kj).mp hkj with e' | ⟨hin', hne'⟩
            · rw [e, e']
            · have := hheads kj hin'
              rw [e] at hkk
              simp only at hkk
              omega
          · rcases (hmem2 kj).mp hkj with e' | ⟨hin', hne'⟩
            · have := hheads kh hin
              rw [e'] at hkk
              simp only at hkk
              omega
            · exact I.map_head_inj kh hin kj hin' hkk
        · intro _
          rw [e2]
          exact ⟨st.lastNewIndex, (hmem2 _).mpr (Or.inl rfl)⟩
        · intro kh hkh
          rw [e2]
          by_cases hk : kh.1 = count c
          · exact ⟨st.lastNewIndex, (hmem2 _).mpr (Or.inl (by rw [hk]))⟩
          · exact ⟨kh.2, (hmem2 _).mpr (Or.inr ⟨hkh, hk⟩)⟩
      · intro x
        rw [e1]
        by_cases hx : x = c
        · rw [hx, setAt_same]
        · rw [setAt_ne _ _ hx]; exact hcnt x
      · intro x hx
        rw [e3]
        rcases List.mem_cons.mp hx with e | e
        · rw [e, e1, setAt_same]
        · rw [hnode2 x e]
          have := hnodes x e
          omega
      · intro kh hkh
        rw [e2] at hkh
        rw [e3]
        rcases (hmem2 kh).mp hkh with e | ⟨hin, _⟩
        · rw [e]; simp only; omega
        · have := hheads kh hin
          omega


/-- A sequence of `add_bitmap` calls that adds fewer than `2 ^ 32` pixels to a
fresh extractor leaves a histogram. -/
theorem histogram_of_bitmaps (bitmaps : List (List Nat))
    (hsum : (bitmaps.map List.length).sum < 2 ^ 32) :
    Histogram (bitmaps.foldl add_bitmap create) := by
  obtain ⟨a1, a2, a3, a4, _⟩ := foldl_add_bitmap_inv bitmaps create 0 (by omega)
    List.nodup_nil (fun c hc => absurd hc (List.not_mem_nil c)) (fun _ _ => rfl) rfl rfl
  refine ⟨a1, fun c hc => ⟨(a2 c hc).1, (a2 c hc).2, ?_⟩, a3⟩
  have := count_le_sum (bitmaps.foldl add_bitmap create).colorCounts c _ hc
  rw [a4] at this
  omega

theorem foldl_sortStep_inv (count : Nat → Nat) :
    ∀ (l : List Nat) (st : SortState) (live : List Nat), SortInv count st live →
      (∀ c ∈ l, c ∉ live ∧ 1 ≤ count c ∧ count c < 2 ^ 32) → l.Nodup →
      SortInv count (l.foldl sortStep st) (l.reverse ++ live) := by
  intro l
  induction l with
  | nil => intro st live h _ _; simpa using h
  | cons c rest ih =>
    intro st live h hl hnd
    rw [List.nodup_cons] at hnd
    obtain ⟨c1, c2, c3⟩ := hl c (List.mem_cons_self _ _)
    have := ih (sortStep st c) (c :: live) (sortStep_inv count st live c h c1 c2 c3)
      (fun x hx => by
        obtain ⟨x1, x2, x3⟩ := hl x (List.mem_cons_of_mem _ hx)
        refine ⟨fun hm => ?_, x2, x3⟩
        rcases List.mem_cons.mp hm with e | e
        · exact hnd.1 (e ▸ hx)
        · exact x1 e) hnd.2
    rw [List.foldl_cons, List.reverse_cons, List.append_assoc]
    exact this

/-- After `sort_colors` on a histogram the index represents the colours of the
colour list, the last of the list first. -/
theorem sort_colors_inv (e : SpaceShockColorExtractor) (h : Histogram e) :
    SortInv (fun c => (e.colorCounts c).count) (sort_colors e) e.colorList.reverse := by
  obtain ⟨h1, h2, _⟩ := h
  have h0 : SortInv (fun c => (e.colorCounts c).count)
      ⟨e.colorCounts, ⟨fun _ => 0, BaseLength⟩, [], BaseLength⟩ [] := by
    refine ⟨⟨List.nodup_nil, ?_, ?_, ?_, ?_, ?_, List.Pairwise.nil, ?_, ?_, ?_, ?_⟩,
      fun _ => rfl, le_refl _, ?_, ?_⟩
    all_goals first
      | (intro k _ _; rfl)
      | (intro c hc; exact absurd hc (List.not_mem_nil c))
  have := foldl_sortStep_inv _ e.colorList _ [] h0
    (fun c hc => ⟨List.not_mem_nil c, (h2 c hc).2.1, (h2 c hc).2.2⟩) h1
  rw [List.append_nil] at this
  exact this

theorem reaches_zero (buf : Buffer) (field n : Nat) : ¬ Reaches buf field 0 n := by
  intro h
  cases h with
  | here _ h0 => exact h0 rfl
  | step _ _ h0 _ => exact h0 rfl

/-- C16 (amended): after `sort_colors` on a histogram, for every colour `c` of the
colour list with count `k`, walking from the head of the list of count `k` along
the `prev` links comes to the node of `c`; and every node that such a walk
from the head of the list of any count `k ≥ 1` comes to is the node of a colour
of the colour list that holds this colour and whose count is `k`. -/
theorem sorted_lists_follow_prev_links (e : SpaceShockColorExtractor) (h : Histogram e) :
    (∀ c ∈ e.colorList,
      Reaches (sort_colors e).sortedBuffer 1
        (listHeadOf (sort_colors e).sortedBuffer (sort_colors e).sortedMap
          (e.colorCounts c).count)
        ((sort_colors e).colorCounts c).node) ∧
    ∀ k, 1 ≤ k → ∀ n,
      Reaches (sort_colors e).sortedBuffer 1
        (listHeadOf (sort_colors e).sortedBuffer (sort_colors e).sortedMap k) n →
      ∃ c ∈ e.colorList, ((sort_colors e).colorCounts c).node = n ∧
        (sort_colors e).sortedBuffer.data n = c ∧ (e.colorCounts c).count = k ∧
        ((sort_colors e).colorCounts c).count = k := by
  obtain ⟨I, hcnt, _, _, _⟩ := sort_colors_inv e h
  constructor
  · intro c hc
    have hlive : c ∈ e.colorList.reverse := List.mem_reverse.mpr hc
    have hmem : ((sort_colors e).colorCounts c).node
        ∈ (bucketOf (fun c => (e.colorCounts c).count) e.colorList.reverse
          (e.colorCounts c).count).map (fun c => ((sort_colors e).colorCounts c).node) :=
      List.mem_map.mpr ⟨c, (mem_bucketOf _ _ _ _).mpr ⟨hlive, rfl⟩, rfl⟩
    unfold listHeadOf
    by_cases hk : (e.colorCounts c).count ≤ BaseLength
    · rw [if_pos hk]
      exact prevChain_reaches _ _ _ (I.small _ (I.count_pos c hlive) hk) _ hmem
    · rw [if_neg hk]
      obtain ⟨hd, hhd⟩ := I.large c hlive (by omega)
      rw [mapFind_of_mem _ I.map_sorted _ _ hhd]
      exact prevChain_reaches _ _ _ (I.map_key _ hhd).2.2.2 _ hmem
  · intro k hk n hr
    have key : ∀ s, PrevChain (sort_colors e).sortedBuffer s
        ((bucketOf (fun c => (e.colorCounts c).count) e.colorList.reverse k).map
          (fun c => ((sort_colors e).colorCounts c).node)) →
        Reaches (sort_colors e).sortedBuffer 1 s n →
        ∃ c ∈ e.colorList, ((sort_colors e).colorCounts c).node = n ∧
          (sort_colors e).sortedBuffer.data n = c ∧ (e.colorCounts c).count = k ∧
          ((sort_colors e).colorCounts c).count = k := by
      intro s hs hrs
      obtain ⟨c, hc, e1⟩ := List.mem_map.mp (reaches_prevChain _ _ _ hrs _ hs)
      obtain ⟨c1, c2⟩ := (mem_bucketOf _ _ _ _).mp hc
      refine ⟨c, List.mem_reverse.mp c1, e1, ?_, c2, (hcnt c).trans c2⟩
      rw [← e1]
      exact I.colour c c1
    unfold listHeadOf at hr
    by_cases hkb : k ≤ BaseLength
    · rw [if_pos hkb] at hr
      exact key _ (I.small k hk hkb) hr
    · rw [if_neg hkb] at hr
      cases hf : mapFind (sort_colors e).sortedMap k with
      | none =>
        rw [hf] at hr
        exact absurd hr (reaches_zero _ _ _)
      | some hd =>
        rw [hf] at hr
        exact key _ (I.map_key _ (mapFind_mem _ _ _ hf)).2.2.2 hr

theorem sorted_lists_follow_prev_links_witness :
    Reaches (sort_colors (([[0xFF0000, 0x0000FF]] : List (List Nat)).foldl add_bitmap
        create)).sortedBuffer 1
      (listHeadOf
        (sort_colors (([[0xFF0000, 0x0000FF]] : List (List Nat)).foldl add_bitmap
          create)).sortedBuffer
        (sort_colors (([[0xFF0000, 0x0000FF]] : List (List Nat)).foldl add_bitmap
          create)).sortedMap
        ((([[0xFF0000, 0x0000FF]] : List (List Nat)).foldl add_bitmap
          create).colorCounts 0xFF0000).count)
      ((sort_colors (([[0xFF0000, 0x0000FF]] : List (List Nat)).foldl add_bitmap
        create)).colorCounts 0xFF0000).node :=
  (sorted_lists_follow_prev_links _
    (histogram_of_bitmaps [[0xFF0000, 0x0000FF]] (by decide))).1 0xFF0000 (by decide)

/-- C16 (counterexample): in the index that `sort_colors` builds for the pixels
`0xFF0000, 0x0000FF`, both of count 1, the head of the list of count 1 is the
node `1027` of `0x0000FF`, whose `next` link is 0: the walk along the `next`
links ends there and does not come to the node `1024` of `0xFF0000`. -/
theorem next_links_miss_older_node :
    0xFF0000 ∈ (add_bitmap create [0xFF0000, 0x0000FF]).colorList ∧
    ((add_bitmap create [0xFF0000, 0x0000FF]).colorCounts 0xFF0000).count = 1 ∧
    listHeadOf (sort_colors (add_bitmap create [0xFF0000, 0x0000FF])).sortedBuffer
      (sort_colors (add_bitmap create [0xFF0000, 0x0000FF])).sortedMap 1 = 1027 ∧
    ((sort_colors (add_bitmap create [0xFF0000, 0x0000FF])).colorCounts 0xFF0000).node = 1024 ∧
    (sort_colors (add_bitmap create [0xFF0000, 0x0000FF])).sortedBuffer.data (1027 + 2) = 0 ∧
    ¬ Reaches (sort_colors (add_bitmap create [0xFF0000, 0x0000FF])).sortedBuffer 2
      (listHeadOf (sort_colors (add_bitmap create [0xFF0000, 0x0000FF])).sortedBuffer
        (sort_colors (add_bitmap create [0xFF0000, 0x0000FF])).sortedMap
        ((add_bitmap create [0xFF0000, 0x0000FF]).colorCounts 0xFF0000).count)
      ((sort_colors (add_bitmap create [0xFF0000, 0x0000FF])).colorCounts 0xFF0000).node := by
  have h1 : ((add_bitmap create [0xFF0000, 0x0000FF]).colorCounts 0xFF0000).count = 1 := by
    decide!
  have h2 : listHeadOf (sort_colors (add_bitmap create [0xFF0000, 0x0000FF])).sortedBuffer
      (sort_colors (add_bitmap create [0xFF0000, 0x0000FF])).sortedMap 1 = 1027 := by decide!
  have h3 : ((sort_colors (add_bitmap create [0xFF0000, 0x0000FF])).colorCounts 0xFF0000).node
      = 1024 := by decide!
  have h4 : (sort_colors (add_bitmap create [0xFF0000, 0x0000FF])).sortedBuffer.data (1027 + 2)
      = 0 := by decide!
  refine ⟨by decide!, h1, h2, h3, h4, ?_⟩
  rw [h1, h2, h3]
  intro hr
  cases hr with
  | step _ _ _ hr' =>
    rw [h4] at hr'
    exact reaches_zero _ _ _ hr'

end SpaceShockColorExtractor

/-! ## The pick loop and the reduction loop on colours far apart -/

namespace SpaceShockColorExtractor

open EuclideanPalette (setAt byte0 byte1 byte2 getD_set_ne getD_set_same setAt_same setAt_ne
  mask24_eq_mod list_eq_of_getD)

theorem bucketOf_erase (count : Nat → Nat) (c k : Nat) :
    ∀ live : List Nat, live.Nodup →
      bucketOf count (live.erase c) k = (bucketOf count live k).erase c := by
  intro live
  induction live with
  | nil => intro _; rfl
  | cons a rest ih =>
    intro hnd
    rw [List.nodup_cons] at hnd
    by_cases hac : a = c
    · subst hac
      rw [List.erase_cons_head, bucketOf_cons]
      have hnot : a ∉ bucketOf count rest k := fun h => hnd.1 ((mem_bucketOf _ _ _ _).mp h).1
      split
      · rw [List.erase_cons_head]
      · rw [List.erase_of_not_mem hnot]
    · rw [List.erase_cons_tail (by simpa using hac), bucketOf_cons, bucketOf_cons, ih hnd.2]
      split
      · rw [List.erase_cons_tail (by simpa using hac)]
      · rfl

/-- Unlinking the head colour `c` of the list of its count keeps the index
invariant for the remaining colours. -/
theorem indexInv_pop (count node : Nat → Nat) (buf buf2 : Buffer)
    (map map2 : List (Nat × Nat)) (live rest : List Nat) (c : Nat)
    (I : IndexInv count node buf map live)
    (hb : bucketOf count live (count c) = c :: rest)
    (hframe : ∀ y ∈ live, y ≠ c → buf2.data (node y) = buf.data (node y) ∧
      buf2.data (node y + 1) = buf.data (node y + 1))
    (hsmall : ∀ j, 1 ≤ j → j ≤ BaseLength →
      buf2.data (j - 1) = if j = count c then buf.data (node c + 1) else buf.data (j - 1))
    (hsorted : map2.Pairwise (fun a b => a.1 < b.1))
    (hmap : ∀ kh ∈ map2, kh ∈ map ∧
      buf2.data kh.2 = (if kh.1 = count c then buf.data (node c + 1) else buf.data kh.2) ∧
      (kh.1 = count c → rest ≠ []))
    (hlarge : ∀ kh ∈ map, kh.1 ≠ count c ∨ rest ≠ [] → kh ∈ map2) :
    IndexInv count node buf2 map2 (live.erase c) := by
  have hnd := I.nodup
  have hmem : ∀ x, x ∈ live.erase c ↔ x ≠ c ∧ x ∈ live := fun x => hnd.mem_erase_iff
  have hbk : ∀ k, bucketOf count (live.erase c) k
      = if k = count c then rest else bucketOf count live k := by
    intro k
    rw [bucketOf_erase count c k live hnd]
    by_cases hk : k = count c
    · rw [if_pos hk, hk, hb, List.erase_cons_head]
    · rw [if_neg hk]
      exact List.erase_of_not_mem (fun h => hk ((mem_bucketOf _ _ _ _).mp h).2.symm)
  have hrest : ∀ y ∈ rest, y ∈ live ∧ y ≠ c := by
    intro y hy
    have h1 : y ∈ bucketOf count live (count c) := by rw [hb]; exact List.mem_cons_of_mem _ hy
    refine ⟨((mem_bucketOf _ _ _ _).mp h1).1, fun e => ?_⟩
    have hnb : (bucketOf count live (count c)).Nodup := by
      unfold bucketOf
      exact hnd.filter _
    rw [hb, List.nodup_cons] at hnb
    exact hnb.1 (e ▸ hy)
  -- the chain of a bucket other than that of `c`, and the chain of `rest`
  have hother : ∀ k s, k ≠ count c → PrevChain buf s ((bucketOf count live k).map node) →
      PrevChain buf2 s ((bucketOf count live k).map node) := by
    intro k s hk h
    apply prevChain_congr buf buf2 _ _ _ h
    intro n hn
    obtain ⟨y, hy, rfl⟩ := List.mem_map.mp hn
    obtain ⟨y1, y2⟩ := (mem_bucketOf _ _ _ _).mp hy
    exact (hframe y y1 (fun e => hk (by rw [← y2, e]))).2
  have hchain : ∀ s, PrevChain buf s ((bucketOf count live (count c)).map node) →
      PrevChain buf2 (buf.data (node c + 1)) (rest.map node) := by
    intro s h
    rw [hb, List.map_cons] at h
    apply prevChain_congr buf buf2 _ _ _ h.2.2
    intro n hn
    obtain ⟨y, hy, rfl⟩ := List.mem_map.mp hn
    exact (hframe y (hrest y hy).1 (hrest y hy).2).2
  refine ⟨hnd.erase c, ?_, ?_, ?_, ?_, ?_, hsorted, ?_, ?_, ?_, ?_⟩
  · intro x hx
    exact I.count_pos x ((hmem x).mp hx).2
  · intro x hx
    exact I.node_ge x ((hmem x).mp hx).2
  · intro x hx y hy hxy
    exact I.node_sep x ((hmem x).mp hx).2 y ((hmem y).mp hy).2 hxy
  · intro x hx
    rw [(hframe x ((hmem x).mp hx).2 ((hmem x).mp hx).1).1]
    exact I.colour x ((hmem x).mp hx).2
  · intro k hk1 hk2
    rw [hsmall k hk1 hk2, hbk]
    by_cases hk : k = count c
    · rw [if_pos hk, if_pos hk]
      have := I.small k hk1 hk2
      rw [hk] at this
      exact hchain _ this
    · rw [if_neg hk, if_neg hk]
      exact hother k _ hk (I.small k hk1 hk2)
  · intro kh hkh
    obtain ⟨m1, m2, m3⟩ := hmap kh hkh
    obtain ⟨k1, k2, k3, k4⟩ := I.map_key kh m1
    refine ⟨k1, k2, ?_, ?_⟩
    · rw [hbk]
      by_cases hk : kh.1 = count c
      · rw [if_pos hk]; exact m3 hk
      · rw [if_neg hk]; exact k3
    · rw [m2, hbk]
      by_cases hk : kh.1 = count c
      · rw [if_pos hk, if_pos hk]
        rw [hk] at k4
        exact hchain _ k4
      · rw [if_neg hk, if_neg hk]
        exact hother _ _ hk k4
  · intro kh hkh x hx
    exact I.map_head_sep kh (hmap kh hkh).1 x ((hmem x).mp hx).2
  · intro kh hkh kj hkj e
    exact I.map_head_inj kh (hmap kh hkh).1 kj (hmap kj hkj).1 e
  · intro x hx hbig
    obtain ⟨x1, x2⟩ := (hmem x).mp hx
    obtain ⟨h, hh⟩ := I.large x x2 hbig
    refine ⟨h, hlarge _ hh ?_⟩
    by_cases hk : count x = count c
    · right
      have : x ∈ bucketOf count live (count c) := (mem_bucketOf _ _ _ _).mpr ⟨x2, hk⟩
      rw [hb] at this
      rcases List.mem_cons.mp this with e | e
      · exact absurd e x1
      · exact List.ne_nil_of_mem e
    · exact Or.inl hk

theorem scanDown_spec (buf : Buffer) (skip : Nat) :
    ∀ d, scanDown buf skip d ≤ d ∧
      (∀ j, scanDown buf skip d < j → j ≤ d → buf.data (j - 1) = 0) ∧
      (scanDown buf skip d ≤ skip ∨
        (1 ≤ scanDown buf skip d ∧ buf.data (scanDown buf skip d - 1) ≠ 0)) := by
  intro d
  induction d with
  | zero => exact ⟨le_refl _, fun j h1 h2 => by simp [scanDown] at h1; omega, Or.inl (by simp [scanDown])⟩
  | succ d ih =>
    unfold scanDown
    by_cases h1 : d + 1 ≤ skip
    · rw [if_pos h1]
      exact ⟨le_refl _, fun j h1 h2 => by omega, Or.inl h1⟩
    · rw [if_neg h1]
      by_cases h2 : buf.data d ≠ 0
      · rw [if_pos h2]
        exact ⟨le_refl _, fun j h1 h2 => by omega, Or.inr ⟨by omega, by simpa using h2⟩⟩
      · rw [if_neg h2]
        obtain ⟨a1, a2, a3⟩ := ih
        refine ⟨by omega, fun j hj1 hj2 => ?_, a3⟩
        by_cases hj : j = d + 1
        · rw [hj]
          simpa using h2
        · exact a2 j hj1 (by omega)

/-- A chain that starts at a non-zero node belongs to a non-empty bucket, whose
first colour has that node. -/
theorem bucket_of_head (count node : Nat → Nat) (buf : Buffer) (live : List Nat) (k s : Nat)
    (h : PrevChain buf s ((bucketOf count live k).map node)) (hs : s ≠ 0) :
    ∃ c rest, bucketOf count live k = c :: rest ∧ s = node c ∧ c ∈ live ∧ count c = k := by
  cases hb : bucketOf count live k with
  | nil =>
    rw [hb] at h
    exact absurd h hs
  | cons c rest =>
    rw [hb] at h
    have hc : c ∈ bucketOf count live k := by rw [hb]; exact List.mem_cons_self _ _
    obtain ⟨c1, c2⟩ := (mem_bucketOf _ _ _ _).mp hc
    exact ⟨c, rest, rfl, h.1, c1, c2⟩

/-- The head of the rest of a chain: 0 exactly when the rest is empty, and
otherwise the node of a colour of the rest. -/
theorem rest_head (count node : Nat → Nat) (buf : Buffer) (live rest : List Nat) (c : Nat)
    (s : Nat) (hb : bucketOf count live (count c) = c :: rest)
    (h : PrevChain buf s ((bucketOf count live (count c)).map node)) :
    (rest = [] → buf.data (node c + 1) = 0) ∧
      (rest ≠ [] → ∃ z ∈ rest, buf.data (node c + 1) = node z ∧ node z ≠ 0) := by
  rw [hb, List.map_cons] at h
  obtain ⟨_, _, h3⟩ := h
  cases rest with
  | nil => exact ⟨fun _ => h3, fun hne => absurd rfl hne⟩
  | cons z more =>
    exact ⟨fun e => (by cases e), fun _ => ⟨z, List.mem_cons_self _ _, h3.1, h3.2.1⟩⟩

/-- When the pop leaves the loop, every colour left has a count of at most
`skip`. -/
theorem popMax_inl (count node : Nat → Nat) (buf : Buffer) (map : List (Nat × Nat))
    (live : List Nat) (d skip d2 : Nat) (I : IndexInv count node buf map live)
    (hD : ∀ y ∈ live, count y ≤ BaseLength → count y ≤ d)
    (h : popMax buf map d skip = .inl d2) : ∀ y ∈ live, count y ≤ skip := by
  unfold popMax at h
  cases hg : map.getLast? with
  | some kh =>
    rw [hg] at h
    simp only at h
    cases h
  | none =>
    rw [hg] at h
    simp only at h
    have hmap : map = [] := List.getLast?_eq_none_iff.mp hg
    obtain ⟨a1, a2, a3⟩ := scanDown_spec buf skip d
    split at h
    · rename_i hle
      intro y hy
      have hpos := I.count_pos y hy
      by_cases hbig : BaseLength < count y
      · obtain ⟨h0, hh⟩ := I.large y hy hbig
        rw [hmap] at hh
        cases hh
      · have hyd := hD y hy (by omega)
        by_contra hcon
        have hz := a2 (count y) (by omega) hyd
        have hch := I.small (count y) hpos (by omega)
        rw [hz] at hch
        cases hb : bucketOf count live (count y) with
        | nil =>
          have : y ∈ bucketOf count live (count y) := (mem_bucketOf _ _ _ _).mpr ⟨hy, rfl⟩
          rw [hb] at this
          cases this
        | cons c rest =>
          rw [hb] at hch
          exact hch.2.1 hch.1.symm
    · cases h

/-- A pop yields a live colour with its recorded count and leaves the index of
the remaining colours. -/
theorem popMax_inr (count node : Nat → Nat) (buf : Buffer) (map : List (Nat × Nat))
    (live : List Nat) (d skip : Nat) (pop : PopResult)
    (I : IndexInv count node buf map live) (hdB : d ≤ BaseLength)
    (hD : ∀ y ∈ live, count y ≤ BaseLength → count y ≤ d)
    (h : popMax buf map d skip = .inr pop) :
    pop.rgb ∈ live ∧ pop.pixelCount = count pop.rgb ∧
      IndexInv count node pop.sortedBuffer pop.sortedMap (live.erase pop.rgb) ∧
      pop.decrementPixelCount ≤ BaseLength ∧
      (∀ y ∈ live.erase pop.rgb, count y ≤ BaseLength → count y ≤ pop.decrementPixelCount) ∧
      (map = [] → skip < pop.pixelCount) := by
  have hB : BaseLength = 1024 := rfl
  have hmemE : ∀ c x, x ∈ live.erase c → x ∈ live := fun c x hx => (I.nodup.mem_erase_iff.mp hx).2
  unfold popMax at h
  cases hg : map.getLast? with
  | some kh =>
    rw [hg] at h
    obtain ⟨k, h0⟩ := kh
    simp only at h
    injection h with h
    obtain ⟨ys, hys⟩ := List.getLast?_eq_some_iff.mp hg
    have hmem : (k, h0) ∈ map := by rw [hys]; simp
    obtain ⟨k1, k2, k3, k4⟩ := I.map_key _ hmem
    simp only at k1 k2 k3 k4
    have hne : buf.data h0 ≠ 0 := by
      intro e
      rw [e] at k4
      cases hb : bucketOf count live k with
      | nil => exact k3 hb
      | cons c rest =>
        rw [hb] at k4
        exact k4.2.1 k4.1.symm
    obtain ⟨c, rest, hb, hs, hc, hck⟩ := bucket_of_head count node buf live k _ k4 hne
    rw [← hck] at hb k4
    obtain ⟨r1, r2⟩ := rest_head count node buf live rest c _ hb k4
    have hrgb : pop.rgb = c := by
      rw [← h]
      simp only
      rw [hs]
      exact I.colour c hc
    have hnew : (buf.write h0 (buf.data (buf.data h0 + 1))).data h0 = buf.data (node c + 1) := by
      simp only [Buffer.write, setAt_same, hs]
    have hsorted_ys : ys.Pairwise (fun a b => a.1 < b.1) := by
      have := I.map_sorted
      rw [hys] at this
      exact (List.pairwise_append.mp this).1
    have hkey_ys : ∀ kh ∈ ys, kh.1 ≠ k := by
      intro kh hkh
      have := I.map_sorted
      rw [hys] at this
      have := (List.pairwise_append.mp this).2.2 kh hkh (k, h0) (by simp)
      simp only at this
      omega
    rw [hrgb]
    refine ⟨hc, by rw [← h]; exact hck.symm, ?_, by rw [← h]; exact hdB, ?_, ?_⟩
    · rw [← h]
      simp only
      apply indexInv_pop count node buf _ map _ live rest c I hb
      · intro y hy hyc
        have := I.map_head_sep _ hmem y hy
        simp only at this
        simp only [Buffer.write]
        exact ⟨setAt_ne _ _ (by omega), setAt_ne _ _ (by omega)⟩
      · intro j hj1 hj2
        simp only [Buffer.write]
        rw [setAt_ne _ _ (by omega), if_neg (by omega)]
      · split
        · rw [hys, List.dropLast_concat]
          exact hsorted_ys
        · exact I.map_sorted
      · intro kh hkh
        have hin : kh ∈ map := by
          split at hkh
          · exact List.Sublist.subset (List.dropLast_sublist _) hkh
          · exact hkh
        refine ⟨hin, ?_, ?_⟩
        · by_cases hk : kh.1 = count c
          · rw [if_pos hk]
            have : kh = (k, h0) := by
              have e1 := mapFind_of_mem _ I.map_sorted kh.1 kh.2 hin
              have e2 := mapFind_of_mem _ I.map_sorted k h0 hmem
              rw [hk, hck, e2] at e1
              injection e1 with e1
              exact Prod.ext (by rw [hk, hck]) e1.symm
            rw [this]
            exact hnew
          · rw [if_neg hk]
            simp only [Buffer.write]
            apply setAt_ne
            intro e
            exact hk (by rw [I.map_head_inj kh hin _ hmem e]; exact hck.symm)
        · intro hk
          split at hkh
          · rename_i hz
            rw [hys, List.dropLast_concat] at hkh
            exact absurd (by rw [hk, hck]) (hkey_ys kh hkh)
          · rename_i hz
            intro e
            exact hz (by rw [hnew]; exact r1 e)
      · intro kh hkh hor
        split
        · rename_i hz
          rw [hnew] at hz
          rw [hys, List.dropLast_concat]
          rw [hys] at hkh
          rcases List.mem_append.mp hkh with e | e
          · exact e
          · exfalso
            simp only [List.mem_singleton] at e
            rcases hor with hor | hor
            · exact hor (by rw [e]; exact hck.symm)
            · obtain ⟨z, _, z1, z2⟩ := r2 hor
              exact z2 (z1 ▸ hz)
        · exact hkh
    · intro y hy hys
      rw [← h]
      exact hD y (hmemE _ y hy) hys
    · intro e
      rw [e] at hmem
      cases hmem
  | none =>
    rw [hg] at h
    simp only at h
    have hmap : map = [] := List.getLast?_eq_none_iff.mp hg
    obtain ⟨a1, a2, a3⟩ := scanDown_spec buf skip d
    split at h
    · cases h
    · rename_i hgt
      injection h with h
      rcases a3 with a3 | ⟨a3, a4⟩
      · exact absurd a3 hgt
      · generalize hres : scanDown buf skip d = res at *
        have hch := I.small res a3 (by omega)
        obtain ⟨c, rest, hb, hs, hc, hck⟩ := bucket_of_head count node buf live res _ hch a4
        rw [← hck] at hb hch
        obtain ⟨r1, r2⟩ := rest_head count node buf live rest c _ hb hch
        have hrgb : pop.rgb = c := by
          rw [← h]
          simp only
          rw [hs]
          exact I.colour c hc
        have hnodec := I.node_ge c hc
        -- the new head of the list
        have hnh : buf.data (node c + 1) = 0 ∨
            ∃ z ∈ live, z ≠ c ∧ buf.data (node c + 1) = node z := by
          by_cases hr : rest = []
          · exact Or.inl (r1 hr)
          · obtain ⟨z, hz, z1, _⟩ := r2 hr
            have hzb : z ∈ bucketOf count live (count c) := by
              rw [hb]; exact List.mem_cons_of_mem _ hz
            have hnb : (bucketOf count live (count c)).Nodup := by
              unfold bucketOf
              exact I.nodup.filter _
            rw [hb, List.nodup_cons] at hnb
            exact Or.inr ⟨z, ((mem_bucketOf _ _ _ _).mp hzb).1, fun e => hnb.1 (e ▸ hz), z1⟩
        have hdata : ∀ x, x ≠ res - 1 →
            (buf.data (node c + 1) = 0 ∨ x ≠ buf.data (node c + 1) + 2) →
            pop.sortedBuffer.data x = buf.data x := by
          intro x hx1 hx2
          rw [← h]
          simp only [Buffer.write, setAt_same, hs]
          split
          · rename_i hnz
            simp only
            rw [setAt_ne _ _ (by omega), setAt_ne _ _ hx1]
          · exact setAt_ne _ _ hx1
        have hhead : pop.sortedBuffer.data (res - 1) = buf.data (node c + 1) := by
          rw [← h]
          simp only [Buffer.write, setAt_same, hs]
          split
          · rename_i hnz
            simp only
            rcases hnh with e | ⟨z, hz, _, e⟩
            · exact absurd e hnz
            · have := I.node_ge z hz
              rw [setAt_ne _ _ (by omega), setAt_same]
          · exact setAt_same _ _ _
        have hpm : pop.sortedMap = map := by rw [← h]
        have hpd : pop.decrementPixelCount = res := by rw [← h]
        have hpc : pop.pixelCount = res := by rw [← h]
        rw [hrgb]
        refine ⟨hc, by rw [hpc]; exact hck.symm, ?_, by rw [hpd]; omega, ?_,
          fun _ => by rw [hpc]; omega⟩
        · rw [hpm]
          apply indexInv_pop count node buf _ map _ live rest c I hb
          · intro y hy hyc
            have g1 := I.node_ge y hy
            constructor
            · apply hdata _ (by omega)
              rcases hnh with e | ⟨z, hz, _, e⟩
              · exact Or.inl e
              · right
                rw [e]
                by_cases hyz : y = z
                · rw [hyz]; omega
                · have := I.node_sep y hy z hz hyz
                  omega
            · apply hdata _ (by omega)
              rcases hnh with e | ⟨z, hz, _, e⟩
              · exact Or.inl e
              · right
                rw [e]
                by_cases hyz : y = z
                · rw [hyz]; omega
                · have := I.node_sep y hy z hz hyz
                  omega
          · intro j hj1 hj2
            by_cases hj : j = count c
            · rw [if_pos hj, hj, hck]
              exact hhead
            · rw [if_neg hj]
              apply hdata _ (by omega)
              rcases hnh with e | ⟨z, hz, _, e⟩
              · exact Or.inl e
              · right
                rw [e]
                have := I.node_ge z hz
                omega
          · exact I.map_sorted
          · intro kh hkh
            rw [hmap] at hkh
            cases hkh
          · intro kh hkh _
            exact hkh
        · intro y hy hys
          rw [hpd]
          have hy' := hmemE _ y hy
          have hyd := hD y hy' hys
          by_contra hcon
          have hz := a2 (count y) (by omega) hyd
          have hch' := I.small (count y) (I.count_pos y hy') hys
          rw [hz] at hch'
          cases hb' : bucketOf count live (count y) with
          | nil =>
            have : y ∈ bucketOf count live (count y) := (mem_bucketOf _ _ _ _).mpr ⟨hy', rfl⟩
            rw [hb'] at this
            cases this
          | cons c' rest' =>
            rw [hb'] at hch'
            exact hch'.2.1 hch'.1.symm

theorem pack_eq (r g b : Nat) (hg : g < 256) (hb : b < 256) :
    (r <<< 16) ||| (g <<< 8) ||| b = r * 65536 + g * 256 + b := by
  have e1 : 2 ^ 8 * g ||| b = 2 ^ 8 * g + b :=
    (Nat.mul_add_lt_is_or (show b < 2 ^ 8 by omega) g).symm
  have e2 : 2 ^ 16 * r ||| (2 ^ 8 * g + b) = 2 ^ 16 * r + (2 ^ 8 * g + b) :=
    (Nat.mul_add_lt_is_or (show 2 ^ 8 * g + b < 2 ^ 16 by omega) r).symm
  rw [Nat.lor_assoc, Nat.shiftLeft_eq, Nat.shiftLeft_eq, Nat.mul_comm r, Nat.mul_comm g, e1, e2]
  omega

theorem pack_bytes (r g b : Nat) (hr : r < 256) (hg : g < 256) (hb : b < 256) :
    byte2 ((r <<< 16) ||| (g <<< 8) ||| b) = r ∧ byte1 ((r <<< 16) ||| (g <<< 8) ||| b) = g ∧
      byte0 ((r <<< 16) ||| (g <<< 8) ||| b) = b := by
  rw [pack_eq r g b hg hb]
  unfold byte2 byte1 byte0
  omega

theorem foldl_fixed {S A : Type} (f : S → A → S) (s : S) :
    ∀ l : List A, (∀ a ∈ l, f s a = s) → l.foldl f s = s := by
  intro l
  induction l with
  | nil => intro _; rfl
  | cons a rest ih =>
    intro h
    rw [List.foldl_cons, h a (List.mem_cons_self _ _)]
    exact ih (fun b hb => h b (List.mem_cons_of_mem _ hb))

theorem absorbCell_of_zero_count (kernel : Nat → Nat)
    (kernelBaseSize kernelHeight rStart gStart bStart : Nat) (st : AbsorbState) (r g b : Nat)
    (h : (st.colorCounts ((r <<< 16) ||| (g <<< 8) ||| b)).count = 0) :
    absorbCell kernel kernelBaseSize kernelHeight rStart gStart bStart st r g b = st := by
  unfold absorbCell
  simp only
  rw [if_pos h]

/-- A channel value in the range that `absorb_color` sweeps is a byte within the
kernel size of the centre. -/
theorem swept_channel (center size x : Nat) (hs : size ≤ 28) (hc : center < 256)
    (hx : x ∈ List.range' (center - size) (min (center + size) 255 + 1 - (center - size))) :
    x < 256 ∧ max center x - min center x ≤ 28 := by
  rw [List.mem_range'_1] at hx
  omega

/-- When every colour with a non-zero count is more than the kernel size away
from `color` in some channel, `absorb_color` changes nothing. -/
theorem absorb_color_far (colorCounts : Nat → CountNode) (buf : Buffer)
    (map : List (Nat × Nat)) (kernel : Nat → Nat) (kernelSize color kernelHeight : Nat)
    (hsize : kernelSize ≤ MaxKernelSize)
    (hfar : ∀ x, (colorCounts x).count ≠ 0 → FarApart color x) :
    absorb_color colorCounts buf map kernel kernelSize color kernelHeight
      = ⟨colorCounts, buf, map, 0⟩ := by
  have hM : MaxKernelSize = 28 := rfl
  rw [hM] at hsize
  unfold absorb_color
  simp only
  apply foldl_fixed
  intro r hr
  apply foldl_fixed
  intro g hg
  apply foldl_fixed
  intro b hb
  apply absorbCell_of_zero_count
  simp only
  obtain ⟨hr1, gr⟩ := swept_channel _ _ r hsize (EuclideanPalette.byte2_lt color) hr
  obtain ⟨hg1, gg⟩ := swept_channel _ _ g hsize (EuclideanPalette.byte1_lt color) hg
  obtain ⟨hb1, gb⟩ := swept_channel _ _ b hsize (EuclideanPalette.byte0_lt color) hb
  by_contra hne
  have hf := hfar _ hne
  obtain ⟨p2, p1, p0⟩ := pack_bytes r g b hr1 hg1 hb1
  unfold FarApart channelGap at hf
  rw [p2, p1, p0, hM] at hf
  rcases hf with h | h | h
  · exact absurd gr (not_le.mpr h)
  · exact absurd gg (not_le.mpr h)
  · exact absurd gb (not_le.mpr h)

/-- One iteration of the pick loop on colours that are far apart: the popped
colour is a live one, it is emitted and recorded, and nothing is relocated. -/
theorem pickStep_far (oracle : KernelOracle) (hv : oracle.Valid) (count node : Nat → Nat)
    (live : List Nat) (st : TableState) (pop : PopResult)
    (inv : PickInv count node live st)
    (hfar : ∀ a ∈ live, ∀ b ∈ live, a ≠ b → FarApart a b)
    (h : popMax st.sortedBuffer st.sortedMap st.decrementPixelCount 0 = .inr pop) :
    pop.rgb ∈ live ∧ PickInv count node (live.erase pop.rgb) (pickStep oracle st pop) ∧
      (pickStep oracle st pop).colorTable = st.colorTable.set st.outIndex pop.rgb ∧
      (pickStep oracle st pop).outIndex = st.outIndex + 1 ∧
      (pickStep oracle st pop).counter = st.counter ++ [infoOf count pop.rgb] := by
  obtain ⟨I, hcounts, hdB, hD⟩ := inv
  obtain ⟨p1, p2, p3, p4, p5, _⟩ := popMax_inr count node _ _ live _ 0 pop I hdB hD h
  have hab := absorb_color_far (setAt st.colorCounts pop.rgb ⟨0, (st.colorCounts pop.rgb).node⟩)
    pop.sortedBuffer pop.sortedMap (oracle.kernel st.outIndex) (oracle.kernelSize st.outIndex)
    pop.rgb pop.pixelCount (hv.2.2.1 st.outIndex).2
    (by
      intro x hx
      by_cases hxc : x = pop.rgb
      · rw [hxc, setAt_same] at hx
        exact absurd rfl hx
      · rw [setAt_ne _ _ hxc, hcounts x] at hx
        by_cases hxl : x ∈ live
        · exact hfar _ p1 x hxl (fun e => hxc e.symm)
        · rw [if_neg hxl] at hx
          exact absurd rfl hx)
  refine ⟨p1, ⟨?_, ?_, ?_, ?_⟩, rfl, rfl, ?_⟩
  · show IndexInv count node (absorb_color _ _ _ _ _ _ _).sortedBuffer
      (absorb_color _ _ _ _ _ _ _).sortedMap _
    rw [hab]
    exact p3
  · intro x
    show (absorb_color _ _ _ _ _ _ _).colorCounts x = _
    rw [hab]
    simp only
    by_cases hxc : x = pop.rgb
    · rw [hxc, setAt_same, hcounts pop.rgb, if_neg (fun hm => (I.nodup.mem_erase_iff.mp hm).1 rfl)]
    · rw [setAt_ne _ _ hxc, hcounts x]
      by_cases hxl : x ∈ live
      · rw [if_pos hxl, if_pos (I.nodup.mem_erase_iff.mpr ⟨hxc, hxl⟩)]
      · rw [if_neg hxl, if_neg (fun hm => hxl (I.nodup.mem_erase_iff.mp hm).2)]
  · exact p4
  · exact p5
  · show st.counter ++ [_] = _
    rw [hab, p2]
    rfl

/-- The pick loop on colours that are far apart pops `min n (number of live
colours)` of them, each a different live colour, emits them in the order of
the pops and records them; nothing is relocated. -/
theorem pickLoop_far (oracle : KernelOracle) (hv : oracle.Valid) (count node : Nat → Nat) :
    ∀ (n : Nat) (live : List Nat) (st : TableState), PickInv count node live st →
      (∀ a ∈ live, ∀ b ∈ live, a ≠ b → FarApart a b) →
      st.outIndex + n ≤ st.colorTable.length →
      ∃ popped rest, (popped ++ rest).Perm live ∧ popped.length = min n live.length ∧
        (pickLoop oracle n st).outIndex = st.outIndex + popped.length ∧
        (pickLoop oracle n st).counter = st.counter ++ popped.map (infoOf count) ∧
        (pickLoop oracle n st).colorTable.length = st.colorTable.length ∧
        (∀ i < popped.length,
          (pickLoop oracle n st).colorTable.getD (st.outIndex + i) 0 = popped.getD i 0) ∧
        (n ≤ live.length → PickInv count node rest (pickLoop oracle n st)) := by
  intro n
  induction n with
  | zero =>
    intro live st inv _ _
    exact ⟨[], live, List.Perm.refl _, by simp, rfl, by simp [pickLoop], rfl,
      fun i hi => absurd hi (Nat.not_lt_zero i), fun _ => inv⟩
  | succ n ih =>
    intro live st inv hfar hlen
    unfold pickLoop
    cases hpop : popMax st.sortedBuffer st.sortedMap st.decrementPixelCount 0 with
    | inl d =>
      simp only
      have hall := popMax_inl count node _ _ live _ 0 d inv.1 inv.2.2.2 hpop
      have hnil : live = [] := by
        cases live with
        | nil => rfl
        | cons a rest =>
          have h1 := inv.1.count_pos a (List.mem_cons_self _ _)
          have h2 := hall a (List.mem_cons_self _ _)
          omega
      subst hnil
      refine ⟨[], [], List.Perm.refl _, by simp, by simp, by simp, by simp,
        fun i hi => absurd hi (Nat.not_lt_zero i), fun h => ?_⟩
      simp at h
    | inr pop =>
      simp only
      obtain ⟨q1, q2, q3, q4, q5⟩ := pickStep_far oracle hv count node live st pop inv hfar hpop
      have hnd := inv.1.nodup
      obtain ⟨popped, rest, r1, r2, r3, r4, r5, r6, r7⟩ := ih (live.erase pop.rgb)
        (pickStep oracle st pop) q2
        (fun a ha b hb hab => hfar a (hnd.mem_erase_iff.mp ha).2 b (hnd.mem_erase_iff.mp hb).2 hab)
        (by rw [q3, q4, List.length_set]; omega)
      have hl := List.length_erase_of_mem q1
      have hpos : 0 < live.length := List.length_pos_of_mem q1
      have ht := pickLoop_table oracle n (pickStep oracle st pop)
      refine ⟨pop.rgb :: popped, rest, ?_, ?_, ?_, ?_, ?_, ?_, ?_⟩
      · exact (List.Perm.cons _ r1).trans (List.perm_cons_erase q1).symm
      · rw [List.length_cons, r2, hl]
        omega
      · rw [r3, q4, List.length_cons]
        omega
      · rw [r4, q5, List.map_cons, List.append_assoc]
        rfl
      · rw [r5, q3, List.length_set]
      · intro i hi
        cases i with
        | zero =>
          rw [Nat.add_zero, ht.2.2.2 st.outIndex (by rw [q4]; omega), q3,
            getD_set_same _ _ (by omega)]
          rfl
        | succ i =>
          rw [List.length_cons] at hi
          have := r6 i (by omega)
          rw [q4] at this
          rw [show st.outIndex + (i + 1) = st.outIndex + 1 + i by omega, this]
          rfl
      · intro hle
        exact r7 (by rw [hl]; omega)

theorem roundU32_natCast (n : Nat) (h : n < 2 ^ 32) : roundU32 (n : ℚ) = n := by
  unfold roundU32
  have : ⌊(n : ℚ) + 1 / 2⌋ = (n : Int) := by
    rw [Int.floor_eq_iff]
    constructor
    · push_cast
      linarith
    · push_cast
      linarith
  rw [this, Int.toNat_ofNat, Nat.mod_eq_of_lt h]

/-- The colour that the loop at `Return` writes for the record of a popped
colour that nothing was folded into is the colour itself. -/
theorem pack_infoOf (count : Nat → Nat) (c : Nat) (hc : c < 2 ^ 24) :
    ((roundU32 (infoOf count c).r <<< 16) ||| (roundU32 (infoOf count c).g <<< 8) |||
      roundU32 (infoOf count c).b) % 2 ^ 32 = c := by
  have b2 := EuclideanPalette.byte2_lt c
  have b1 := EuclideanPalette.byte1_lt c
  have b0 := EuclideanPalette.byte0_lt c
  simp only [infoOf]
  rw [roundU32_natCast _ (by omega), roundU32_natCast _ (by omega), roundU32_natCast _ (by omega),
    pack_eq _ _ _ b1 b0]
  unfold byte2 byte1 byte0
  omega

theorem writeReduced_infoOf (count : Nat → Nat) (forceColorCount : Nat) :
    ∀ (l : List Nat) (i : Nat) (colorTable : List Nat), (∀ c ∈ l, c < 2 ^ 24) →
      forceColorCount + i + l.length ≤ colorTable.length →
      ∀ j < l.length,
        (writeReduced forceColorCount (l.map (infoOf count)) i colorTable).getD
          (forceColorCount + i + j) 0 = l.getD j 0 := by
  intro l
  induction l with
  | nil => intro i ct _ _ j hj; cases hj
  | cons c rest ih =>
    intro i ct hc hlen j hj
    rw [List.length_cons] at hlen hj
    simp only [List.map_cons, writeReduced]
    rw [pack_infoOf count c (hc c (List.mem_cons_self _ _))]
    cases j with
    | zero =>
      have e0 : forceColorCount + i + 0 = forceColorCount + i := rfl
      rw [e0, (writeReduced_table forceColorCount _ (i + 1) _).2 _ (by omega),
        getD_set_same _ _ (by omega)]
      rfl
    | succ j =>
      have := ih (i + 1) (ct.set (forceColorCount + i) c)
        (fun x hx => hc x (List.mem_cons_of_mem _ hx)) (by rw [List.length_set]; omega) j
        (by omega)
      rw [show forceColorCount + i + (j + 1) = forceColorCount + (i + 1) + j by omega, this]
      rfl

/-- The run of `get_color_table` when there is no forced colour. -/
theorem get_color_table_no_forced (oracle : KernelOracle) (e : SpaceShockColorExtractor)
    (colorTable : List Nat) (fuel : Nat) :
    get_color_table oracle e colorTable [] fuel
      = if 0 = colorTable.length then
          some ⟨0, colorTable, ⟨e.colorList, e.pixelTotalCount, (sort_colors e).colorCounts⟩⟩
        else if (pickLoop oracle colorTable.length (pickStart e colorTable)).outIndex
            < colorTable.length then
          some ⟨(pickLoop oracle colorTable.length (pickStart e colorTable)).outIndex,
            (pickLoop oracle colorTable.length (pickStart e colorTable)).colorTable,
            ⟨e.colorList, e.pixelTotalCount,
              (pickLoop oracle colorTable.length (pickStart e colorTable)).colorCounts⟩⟩
        else
          match reduceLoop fuel
              (pickLoop oracle colorTable.length (pickStart e colorTable)).sortedBuffer
              (pickLoop oracle colorTable.length (pickStart e colorTable)).sortedMap
              (pickLoop oracle colorTable.length (pickStart e colorTable)).decrementPixelCount
              (pickLoop oracle colorTable.length (pickStart e colorTable)).counter with
          | none => none
          | some counter =>
            some ⟨colorTable.length,
              writeReduced 0 counter 0
                (pickLoop oracle colorTable.length (pickStart e colorTable)).colorTable,
              ⟨e.colorList, e.pixelTotalCount,
                (pickLoop oracle colorTable.length (pickStart e colorTable)).colorCounts⟩⟩ := by
  unfold get_color_table
  rw [if_neg (by simp)]
  rfl

/-- The state in which the pick loop starts on a histogram satisfies the
invariant of the loop for the colours of the colour list. -/
theorem pickStart_inv (e : SpaceShockColorExtractor) (h : Histogram e) (colorTable : List Nat) :
    PickInv (fun c => (e.colorCounts c).count) (fun c => ((sort_colors e).colorCounts c).node)
      e.colorList.reverse (pickStart e colorTable) := by
  obtain ⟨I, hcnt, _, _, _⟩ := sort_colors_inv e h
  refine ⟨I, ?_, le_refl _, fun y _ hy => hy⟩
  intro x
  show (sort_colors e).colorCounts x
    = ⟨if x ∈ e.colorList.reverse then (e.colorCounts x).count else 0,
      ((sort_colors e).colorCounts x).node⟩
  have hx := hcnt x
  simp only at hx
  by_cases hm : x ∈ e.colorList.reverse
  · rw [if_pos hm, ← hx]
  · rw [if_neg hm]
    have h0 := h.2.2 x (fun hx' => hm (List.mem_reverse.mpr hx'))
    rw [h0] at hx
    rw [← hx]

/-- C13: with no forced colour, for every histogram whose colours pairwise differ
by more than 28 in at least one channel and every table at least as long as
the colour list, `get_color_table` returns (the reduction loop needs one unit of
fuel at most) the number `D` of colours of the histogram, and the first `D`
entries of the table are a rearrangement of the colour list.  The oracle is any
one within the ranges of the source. -/
theorem far_apart_histogram_is_returned (oracle : KernelOracle) (hv : oracle.Valid)
    (e : SpaceShockColorExtractor) (h : Histogram e)
    (hfar : ∀ a ∈ e.colorList, ∀ b ∈ e.colorList, a ≠ b → FarApart a b)
    (colorTable : List Nat) (hT : e.colorList.length ≤ colorTable.length) (fuel : Nat) :
    ∃ r, get_color_table oracle e colorTable [] (fuel + 1) = some r ∧
      r.ret = e.colorList.length ∧ (r.colorTable.take e.colorList.length).Perm e.colorList := by
  have hinv := pickStart_inv e h colorTable
  obtain ⟨popped, rest, r1, r2, r3, r4, r5, r6, r7⟩ := pickLoop_far oracle hv _ _
    colorTable.length e.colorList.reverse (pickStart e colorTable) hinv
    (fun a ha b hb hab => hfar a (List.mem_reverse.mp ha) b (List.mem_reverse.mp hb) hab)
    (by show 0 + colorTable.length ≤ colorTable.length; omega)
  have hout0 : (pickStart e colorTable).outIndex = 0 := rfl
  have htab0 : (pickStart e colorTable).colorTable = colorTable := rfl
  have hcnt0 : (pickStart e colorTable).counter = [] := rfl
  rw [hout0, Nat.zero_add] at r3
  rw [htab0] at r5
  rw [hcnt0, List.nil_append] at r4
  rw [List.length_reverse, Nat.min_eq_right hT] at r2
  have hrest : rest = [] := by
    have := r1.length_eq
    rw [List.length_append, List.length_reverse, r2] at this
    exact List.eq_nil_of_length_eq_zero (by omega)
  subst hrest
  rw [List.append_nil] at r1
  have hperm : popped.Perm e.colorList := r1.trans (List.reverse_perm _)
  have hlt : ∀ c ∈ popped, c < 2 ^ 24 := fun c hc => (h.2.1 c (hperm.mem_iff.mp hc)).1
  rw [get_color_table_no_forced]
  by_cases hz : 0 = colorTable.length
  · rw [if_pos hz]
    have hD : e.colorList.length = 0 := by omega
    exact ⟨_, rfl, hD.symm, by rw [hD]; simp [List.eq_nil_of_length_eq_zero hD]⟩
  · rw [if_neg hz, r3]
    by_cases hlt2 : popped.length < colorTable.length
    · rw [if_pos hlt2]
      refine ⟨_, rfl, r2, ?_⟩
      show ((pickLoop oracle colorTable.length (pickStart e colorTable)).colorTable.take
        e.colorList.length).Perm e.colorList
      rw [← r2]
      have : (pickLoop oracle colorTable.length (pickStart e colorTable)).colorTable.take
          popped.length = popped := by
        apply list_eq_of_getD (by rw [List.length_take, r5]; omega)
        intro i hi
        rw [List.length_take, r5] at hi
        have hi' : i < popped.length := by omega
        have := r6 i hi'
        rw [hout0, Nat.zero_add] at this
        rw [← this, List.getD_eq_getElem?_getD, List.getD_eq_getElem?_getD,
          List.getElem?_take_of_lt hi']
      rw [this]
      exact hperm
    · rw [if_neg hlt2]
      have hfull : e.colorList.length = colorTable.length := by omega
      have hpi := r7 (by rw [List.length_reverse]; omega)
      have hred : reduceLoop (fuel + 1)
          (pickLoop oracle colorTable.length (pickStart e colorTable)).sortedBuffer
          (pickLoop oracle colorTable.length (pickStart e colorTable)).sortedMap
          (pickLoop oracle colorTable.length (pickStart e colorTable)).decrementPixelCount
          (pickLoop oracle colorTable.length (pickStart e colorTable)).counter
          = some (popped.map (infoOf fun c => (e.colorCounts c).count)) := by
        unfold reduceLoop
        cases hpop : popMax
            (pickLoop oracle colorTable.length (pickStart e colorTable)).sortedBuffer
            (pickLoop oracle colorTable.length (pickStart e colorTable)).sortedMap
            (pickLoop oracle colorTable.length (pickStart e colorTable)).decrementPixelCount
            SkipMinCount with
        | inr pop =>
          exfalso
          have := (popMax_inr _ _ _ _ [] _ SkipMinCount pop hpi.1 hpi.2.2.1 hpi.2.2.2 hpop).1
          cases this
        | inl d =>
          simp only
          rw [r4]
      rw [hred]
      refine ⟨_, rfl, hfull.symm, ?_⟩
      show ((writeReduced 0 (popped.map (infoOf fun c => (e.colorCounts c).count)) 0
        (pickLoop oracle colorTable.length (pickStart e colorTable)).colorTable).take
        e.colorList.length).Perm e.colorList
      rw [← r2]
      have : (writeReduced 0 (popped.map (infoOf fun c => (e.colorCounts c).count)) 0
          (pickLoop oracle colorTable.length (pickStart e colorTable)).colorTable).take
          popped.length = popped := by
        have hl := (writeReduced_table 0 (popped.map (infoOf fun c => (e.colorCounts c).count)) 0
          (pickLoop oracle colorTable.length (pickStart e colorTable)).colorTable).1
        apply list_eq_of_getD (by rw [List.length_take, hl, r5]; omega)
        intro i hi
        rw [List.length_take, hl, r5] at hi
        have hi' : i < popped.length := by omega
        have := writeReduced_infoOf (fun c => (e.colorCounts c).count) 0 popped 0
          (pickLoop oracle colorTable.length (pickStart e colorTable)).colorTable hlt
          (by rw [r5]; omega) i hi'
        simp only [Nat.zero_add] at this
        rw [← this, List.getD_eq_getElem?_getD, List.getD_eq_getElem?_getD,
          List.getElem?_take_of_lt hi']
      rw [this]
      exact hperm

theorem pow2_eq (e : Int) : pow2 e = (2 : ℚ) ^ e := by
  unfold pow2
  split_ifs with h
  · obtain ⟨n, rfl⟩ := Int.eq_ofNat_of_zero_le h
    simp
  · have h2 : 0 ≤ -e := by omega
    obtain ⟨n, hn⟩ := Int.eq_ofNat_of_zero_le h2
    have he : e = -(n : Int) := by omega
    subst he
    simp

theorem pow2_pos (e : Int) : 0 < pow2 e := by
  rw [pow2_eq]; positivity

theorem pow2_add (a b : Int) : pow2 (a + b) = pow2 a * pow2 b := by
  rw [pow2_eq, pow2_eq, pow2_eq, zpow_add₀ (by norm_num)]

theorem pow2_mono {a b : Int} (h : a ≤ b) : pow2 a ≤ pow2 b := by
  rw [pow2_eq, pow2_eq]
  exact zpow_le_zpow_right₀ (by norm_num) h

theorem pow2_natCast (n : Nat) : pow2 (n : Int) = ((2 ^ n : Nat) : ℚ) := by
  rw [pow2_eq]; simp

theorem bitLength_spec : ∀ (fuel n : Nat), n ≤ fuel →
    n < 2 ^ bitLength fuel n ∧ (0 < n → 2 ^ (bitLength fuel n - 1) ≤ n) := by
  intro fuel
  induction fuel with
  | zero =>
    intro n h
    have : n = 0 := by omega
    subst this
    simp [bitLength]
  | succ fuel ih =>
    intro n h
    unfold bitLength
    by_cases hn : n = 0
    · subst hn; simp
    · rw [if_neg hn]
      obtain ⟨h1, h2⟩ := ih (n / 2) (by omega)
      refine ⟨?_, fun _ => ?_⟩
      · rw [pow_succ]; omega
      · rw [Nat.add_sub_cancel]
        by_cases h0 : n / 2 = 0
        · rw [h0]
          cases fuel with
          | zero => simp [bitLength]; omega
          | succ f => simp [bitLength]; omega
        · have h3 := h2 (by omega)
          have hb : 1 ≤ bitLength fuel (n / 2) := by
            by_contra hc
            have : bitLength fuel (n / 2) = 0 := by omega
            rw [this] at h1
            simp at h1
            exact h0 h1
          have : bitLength fuel (n / 2) = (bitLength fuel (n / 2) - 1) + 1 := by omega
          rw [this, pow_succ]
          omega

theorem binade_spec (x : ℚ) (hx : 0 < x) : pow2 (binade x) ≤ x ∧ x < pow2 (binade x + 1) := by
  have hnum : 0 < x.num := Rat.num_pos.mpr hx
  have hden : 0 < x.den := x.den_pos
  have hna : 0 < x.num.natAbs := Int.natAbs_pos.mpr hnum.ne'
  obtain ⟨a1, a2⟩ := bitLength_spec x.num.natAbs x.num.natAbs (le_refl _)
  obtain ⟨b1, b2⟩ := bitLength_spec x.den x.den (le_refl _)
  have a2 := a2 hna
  have b2 := b2 hden
  have hxe : x = (x.num.natAbs : ℚ) / (x.den : ℚ) := by
    have h2 : (x.num.natAbs : ℚ) = (x.num : ℚ) := by
      rw [Nat.cast_natAbs, abs_of_pos hnum]
    rw [h2]
    exact (Rat.num_div_den x).symm
  unfold binade
  generalize bitLength x.num.natAbs x.num.natAbs = A at *
  generalize bitLength x.den x.den = B at *
  have hA : 1 ≤ A := by
    by_contra hc
    have : A = 0 := by omega
    rw [this, pow_zero] at a1
    omega
  have hB : 1 ≤ B := by
    by_contra hc
    have : B = 0 := by omega
    rw [this, pow_zero] at b1
    omega
  have hd : (0 : ℚ) < (x.den : ℚ) := by exact_mod_cast hden
  have n1 : (x.num.natAbs : ℚ) < pow2 A := by rw [pow2_natCast]; exact_mod_cast a1
  have n2 : pow2 (A - 1) ≤ (x.num.natAbs : ℚ) := by
    have : ((A : Int) - 1) = ((A - 1 : Nat) : Int) := by omega
    rw [this, pow2_natCast]; exact_mod_cast a2
  have d1 : (x.den : ℚ) < pow2 B := by rw [pow2_natCast]; exact_mod_cast b1
  have d2 : pow2 (B - 1) ≤ (x.den : ℚ) := by
    have : ((B : Int) - 1) = ((B - 1 : Nat) : Int) := by omega
    rw [this, pow2_natCast]; exact_mod_cast b2
  have lo : pow2 ((A : Int) - B - 1) < x := by
    rw [hxe, lt_div_iff₀ hd]
    calc pow2 ((A : Int) - B - 1) * (x.den : ℚ) < pow2 ((A : Int) - B - 1) * pow2 B :=
          mul_lt_mul_of_pos_left d1 (pow2_pos _)
      _ = pow2 (A - 1) := by rw [← pow2_add]; congr 1; ring
      _ ≤ _ := n2
  have hi : x < pow2 ((A : Int) - B + 1) := by
    rw [hxe, div_lt_iff₀ hd]
    calc (x.num.natAbs : ℚ) < pow2 A := n1
      _ = pow2 ((A : Int) - B + 1) * pow2 (B - 1) := by rw [← pow2_add]; congr 1; ring
      _ ≤ _ := mul_le_mul_of_nonneg_left d2 (pow2_pos _).le
  split_ifs with h
  · refine ⟨lo.le, ?_⟩
    rw [show (A : Int) - B - 1 + 1 = A - B by ring]
    exact h
  · exact ⟨not_lt.mp h, hi⟩

theorem roundHalfEven_spec (y : ℚ) : |(roundHalfEven y : ℚ) - y| ≤ 1 / 2 := by
  have h1 := Int.floor_le y
  have h2 := Int.lt_floor_add_one y
  unfold roundHalfEven
  split_ifs with a b c
  · rw [abs_le]; constructor <;> linarith
  · rw [abs_le]; push_cast; constructor <;> linarith
  · rw [abs_le]; constructor <;> linarith
  · rw [abs_le]; push_cast; constructor <;> linarith

theorem roundHalfEven_intCast (z : Int) : roundHalfEven (z : ℚ) = z := by
  unfold roundHalfEven
  rw [Int.floor_intCast, sub_self, if_pos (by norm_num)]

theorem roundHalfEven_nonneg (y : ℚ) (h : 0 ≤ y) : 0 ≤ roundHalfEven y := by
  have h1 : 0 ≤ ⌊y⌋ := Int.floor_nonneg.mpr h
  unfold roundHalfEven
  split_ifs <;> omega


theorem toDouble_of_pos (x : ℚ) (hx : 0 < x) :
    toDouble x = (roundHalfEven (x * pow2 (52 - max (binade x) (-1022))) : ℚ)
      * pow2 (max (binade x) (-1022) - 52) := by
  unfold toDouble
  rw [if_neg hx.ne', if_pos hx]

theorem toDouble_neg (x : ℚ) : toDouble (-x) = -toDouble x := by
  rcases lt_trichotomy x 0 with h | h | h
  · have h2 : 0 < -x := by linarith
    rw [toDouble_of_pos _ h2]
    unfold toDouble
    rw [if_neg h.ne, if_neg (by linarith), neg_neg]
  · subst h; simp [toDouble]
  · rw [toDouble_of_pos _ h]
    unfold toDouble
    rw [if_neg (by linarith), if_neg (by linarith), neg_neg]

theorem toDouble_zero : toDouble 0 = 0 := by simp [toDouble]

theorem toDouble_nonneg (x : ℚ) (hx : 0 ≤ x) : 0 ≤ toDouble x := by
  rcases hx.lt_or_eq with h | h
  · rw [toDouble_of_pos _ h]
    apply mul_nonneg
    · exact_mod_cast roundHalfEven_nonneg _ (mul_nonneg hx (pow2_pos _).le)
    · exact (pow2_pos _).le
  · rw [← h, toDouble_zero]

/-- The rounding error of a positive value: half a unit in the last place, which
is at most `2 ^ -53` of the value from the exponent `-1022` up and `2 ^ -1075`
below. -/
theorem toDouble_error_pos (x : ℚ) (hx : 0 < x) :
    |toDouble x - x| ≤ x * pow2 (-53) + pow2 (-1075) := by
  rw [toDouble_of_pos _ hx]
  obtain ⟨b1, _⟩ := binade_spec x hx
  generalize binade x = e at *
  have hq : 0 < pow2 (max e (-1022) - 52) := pow2_pos _
  have hxy : x = (x * pow2 (52 - max e (-1022))) * pow2 (max e (-1022) - 52) := by
    rw [mul_assoc, ← pow2_add, show 52 - max e (-1022) + (max e (-1022) - 52) = 0 by ring]
    simp [pow2]
  have hr := roundHalfEven_spec (x * pow2 (52 - max e (-1022)))
  have h1 : |(roundHalfEven (x * pow2 (52 - max e (-1022))) : ℚ) * pow2 (max e (-1022) - 52) - x|
      ≤ 1 / 2 * pow2 (max e (-1022) - 52) := by
    nth_rewrite 2 [hxy]
    rw [← sub_mul, abs_mul, abs_of_pos hq]
    exact mul_le_mul_of_nonneg_right hr hq.le
  have h2 : 1 / 2 * pow2 (max e (-1022) - 52) = pow2 (max e (-1022) - 53) := by
    rw [show max e (-1022) - 53 = -1 + (max e (-1022) - 52) by ring, pow2_add]
    congr 1
    simp [pow2]
  rw [h2] at h1
  refine h1.trans ?_
  rcases le_total e (-1022) with h | h
  · rw [max_eq_right h]
    have : (0 : ℚ) ≤ x * pow2 (-53) := mul_nonneg hx.le (pow2_pos _).le
    rw [show (-1022 : Int) - 53 = -1075 by norm_num]
    linarith
  · rw [max_eq_left h, show e - 53 = e + (-53) by ring, pow2_add]
    have := mul_le_mul_of_nonneg_right b1 (pow2_pos (-53)).le
    have := (pow2_pos (-1075)).le
    linarith

theorem toDouble_error (x : ℚ) : |toDouble x - x| ≤ |x| * pow2 (-53) + pow2 (-1075) := by
  rcases lt_trichotomy x 0 with h | h | h
  · have := toDouble_error_pos (-x) (by linarith)
    rw [toDouble_neg, show -toDouble x - -x = -(toDouble x - x) by ring, abs_neg] at this
    rw [abs_of_neg h]
    exact this
  · subst h
    rw [toDouble_zero]
    simp
    exact (pow2_pos _).le
  · rw [abs_of_pos h]
    exact toDouble_error_pos x h

/-- A natural number below `2 ^ 53` is a `double`. -/
theorem toDouble_natCast (n : Nat) (h : n < 2 ^ 53) : toDouble (n : ℚ) = n := by
  rcases Nat.eq_zero_or_pos n with h0 | h0
  · subst h0; simp [toDouble]
  have hx : (0 : ℚ) < (n : ℚ) := by exact_mod_cast h0
  rw [toDouble_of_pos _ hx]
  obtain ⟨b1, b2⟩ := binade_spec (n : ℚ) hx
  generalize binade (n : ℚ) = e at *
  have he0 : 0 ≤ e := by
    by_contra hc
    have h1 : pow2 (e + 1) ≤ pow2 0 := pow2_mono (by omega)
    have h2 : pow2 0 = 1 := by simp [pow2]
    have h3 : (1 : ℚ) ≤ (n : ℚ) := by exact_mod_cast h0
    linarith
  have he1 : e ≤ 52 := by
    by_contra hc
    have h1 : pow2 53 ≤ pow2 e := pow2_mono (by omega)
    have h2 : pow2 53 = ((2 ^ 53 : Nat) : ℚ) := pow2_natCast 53
    have h3 : (n : ℚ) < ((2 ^ 53 : Nat) : ℚ) := by exact_mod_cast h
    linarith
  rw [max_eq_left (by omega)]
  obtain ⟨m, hm⟩ := Int.eq_ofNat_of_zero_le (show 0 ≤ 52 - e by omega)
  rw [hm, pow2_natCast]
  have hc : ((n : ℚ) * ((2 ^ m : Nat) : ℚ)) = (((n * 2 ^ m : Nat) : Int) : ℚ) := by push_cast; ring
  rw [hc, roundHalfEven_intCast]
  have hp : ((2 ^ m : Nat) : ℚ) * pow2 (e - 52) = 1 := by
    rw [← pow2_natCast, ← hm, ← pow2_add, show 52 - e + (e - 52) = 0 by ring]
    simp [pow2]
  push_cast
  push_cast at hp
  rw [mul_assoc, hp, mul_one]

theorem channelMean_append (channel : Nat → Nat) (colors : List Nat) (c k : Nat)
    (hne : colors ≠ []) (hk : 0 < k) :
    (channelMean channel colors * ((k * colors.length : Nat) : ℚ)
        + ((channel c : Nat) : ℚ) * ((k : Nat) : ℚ))
      / (((k * colors.length : Nat) : ℚ) + ((k : Nat) : ℚ))
      = channelMean channel (colors ++ [c]) := by
  unfold channelMean
  have hl : (0 : ℚ) < ((colors.length : Nat) : ℚ) := by
    exact_mod_cast List.length_pos.mpr hne
  have hk' : (0 : ℚ) < ((k : Nat) : ℚ) := by exact_mod_cast hk
  rw [List.map_append, List.sum_append, List.length_append]
  simp only [List.map_cons, List.map_nil, List.sum_cons, List.sum_nil, List.length_singleton,
    Nat.add_zero]
  push_cast
  field_simp
  ring

theorem channelMean_perm (channel : Nat → Nat) (l1 l2 : List Nat) (h : l1.Perm l2) :
    channelMean channel l1 = channelMean channel l2 := by
  unfold channelMean
  rw [(h.map channel).sum_eq, h.length_eq]

/-- The rounded mean of a byte channel is a byte. -/
theorem roundU32_channelMean_lt (channel : Nat → Nat) (hch : ∀ c, channel c < 256)
    (colors : List Nat) (hne : colors ≠ []) : roundU32 (channelMean channel colors) < 256 := by
  have hsum : (colors.map channel).sum ≤ colors.length * 255 := by
    have := List.sum_le_card_nsmul (colors.map channel) 255 (fun x hx => by
      obtain ⟨c, _, rfl⟩ := List.mem_map.mp hx
      have := hch c
      omega)
    simpa using this
  have hl : (0 : ℚ) < ((colors.length : Nat) : ℚ) := by
    exact_mod_cast List.length_pos.mpr hne
  have hmean : channelMean channel colors ≤ 255 := by
    unfold channelMean
    rw [div_le_iff₀ hl]
    exact_mod_cast (by rw [Nat.mul_comm]; exact hsum : (colors.map channel).sum ≤ 255 * colors.length)
  have hmean0 : 0 ≤ channelMean channel colors := by
    unfold channelMean
    positivity
  unfold roundU32
  have h1 : ⌊channelMean channel colors + 1 / 2⌋ < 256 := by
    rw [Int.floor_lt]
    push_cast
    linarith
  have h0 : 0 ≤ ⌊channelMean channel colors + 1 / 2⌋ := by
    apply Int.floor_nonneg.mpr
    linarith
  have : (⌊channelMean channel colors + 1 / 2⌋).toNat < 256 := by omega
  omega

theorem abs_le_of_parts (new s t p q m M c d b e1 eps : ℚ) (ht : 0 < t) (hc : 0 ≤ c)
    (h3 : |new - s / t| ≤ d) (h2 : |s - (p + q)| ≤ b) (h1 : |p - m * c| ≤ e1)
    (h0 : |m - M| ≤ eps) :
    |new - (M * c + q) / t| ≤ d + (b + e1 + eps * c) / t := by
  have key : new - (M * c + q) / t
      = (new - s / t) + ((s - (p + q)) + (p - m * c) + (m - M) * c) / t := by
    field_simp
    ring
  rw [key]
  refine (abs_add _ _).trans (add_le_add h3 ?_)
  rw [abs_div, abs_of_pos ht]
  apply div_le_div_of_nonneg_right _ ht.le
  refine (abs_add _ _).trans (add_le_add ((abs_add _ _).trans (add_le_add h2 h1)) ?_)
  rw [abs_mul, abs_of_nonneg hc]
  exact mul_le_mul_of_nonneg_right h0 hc

theorem fold_error_arith (K N u η : ℚ) (hK : 1 ≤ K) (hN : 1 ≤ N) (hu0 : 0 < u) (hηu : η ≤ u) :
    258 * u + η + (257 * (K * N + K) * u + η + (256 * (K * N) * u + η)
        + N * (1024 * u) * (K * N)) / (K * N + K)
      ≤ (N + 1) * (1024 * u) := by
  have htpos : 0 < K * N + K := by nlinarith
  have hgoal : (257 * (K * N + K) * u + η + (256 * (K * N) * u + η) + N * (1024 * u) * (K * N))
      / (K * N + K) ≤ (N + 1) * (1024 * u) - (258 * u + η) := by
    rw [div_le_iff₀ htpos]
    have h1 : η * (K * N + K) ≤ u * (K * N + K) := mul_le_mul_of_nonneg_right hηu htpos.le
    have h2 : 0 ≤ u * K := mul_nonneg hu0.le (by linarith)
    have h3 : 0 ≤ u * K * N := mul_nonneg h2 (by linarith)
    have h4 : u ≤ u * K := by nlinarith
    have h5 : u * K ≤ u * K * N := by nlinarith
    nlinarith
  linarith

/-- One fold of a channel value `v` with weight `k` into a `double` mean `m` of
weight `k * n` that is within `n * 2 ^ -43` of the exact mean `M`: the new value
is within `(n + 1) * 2 ^ -43` of the exact new mean. -/
theorem fold_channel_error (m M : ℚ) (v k n : Nat) (hm0 : 0 ≤ m) (hM1 : M ≤ 255) (hv : v ≤ 255) (hk : 1 ≤ k) (hn : 1 ≤ n) (hb : k * (n + 1) < 2 ^ 32)
    (herr : |m - M| ≤ (n : ℚ) * pow2 (-43)) :
    0 ≤ toDouble (toDouble (toDouble (m * ((k * n : Nat) : ℚ)) + toDouble ((v : ℚ) * (k : ℚ)))
        / toDouble (((k * n : Nat) : ℚ) + (k : ℚ))) ∧
    |toDouble (toDouble (toDouble (m * ((k * n : Nat) : ℚ)) + toDouble ((v : ℚ) * (k : ℚ)))
        / toDouble (((k * n : Nat) : ℚ) + (k : ℚ)))
      - (M * ((k * n : Nat) : ℚ) + (v : ℚ) * (k : ℚ)) / (((k * n : Nat) : ℚ) + (k : ℚ))|
      ≤ ((n : ℚ) + 1) * pow2 (-43) := by
  have hu : pow2 (-53) = 1 / 2 ^ 53 := by simp [pow2]; norm_num
  have hC : pow2 (-43) = 1024 * pow2 (-53) := by
    rw [show (-43 : Int) = 10 + (-53) by norm_num, pow2_add]
    congr 1
  have hη0 : 0 < pow2 (-1075) := pow2_pos _
  have hηu : pow2 (-1075) ≤ pow2 (-53) := pow2_mono (by norm_num)
  have hu0 : 0 < pow2 (-53) := pow2_pos _
  rw [hC] at herr ⊢
  obtain ⟨u, hpu⟩ : ∃ u, pow2 (-53) = u := ⟨_, rfl⟩
  obtain ⟨η, hpη⟩ : ∃ η, pow2 (-1075) = η := ⟨_, rfl⟩
  rw [hpu] at hu hu0 hηu herr ⊢
  rw [hpη] at hη0 hηu
  have hkn : k * n + k < 2 ^ 32 := by
    have : k * (n + 1) = k * n + k := by ring
    omega
  have hk32 : k < 2 ^ 32 := by omega
  have hn32 : n < 2 ^ 32 := by
    have : n ≤ k * n := Nat.le_mul_of_pos_left n (by omega)
    omega
  have hvk : v * k < 2 ^ 53 := by
    have : v * k ≤ 255 * k := Nat.mul_le_mul_right k hv
    omega
  -- the exact operands
  have ht : toDouble (((k * n : Nat) : ℚ) + (k : ℚ)) = ((k * n : Nat) : ℚ) + (k : ℚ) := by
    have := toDouble_natCast (k * n + k) (by omega)
    push_cast at this ⊢
    exact this
  have hq : toDouble ((v : ℚ) * (k : ℚ)) = (v : ℚ) * (k : ℚ) := by
    have := toDouble_natCast (v * k) hvk
    push_cast at this
    exact this
  rw [ht, hq]
  have hK : (1 : ℚ) ≤ (k : ℚ) := by exact_mod_cast hk
  have hN : (1 : ℚ) ≤ (n : ℚ) := by exact_mod_cast hn
  have hN32 : (n : ℚ) ≤ 2 ^ 32 := by exact_mod_cast hn32.le
  have hV0 : (0 : ℚ) ≤ (v : ℚ) := by positivity
  have hV : (v : ℚ) ≤ 255 := by exact_mod_cast hv
  have hc : ((k * n : Nat) : ℚ) = (k : ℚ) * (n : ℚ) := by push_cast; ring
  rw [hc]
  generalize (k : ℚ) = K at *
  generalize (n : ℚ) = N at *
  generalize (v : ℚ) = V at *
  have hc1 : 1 ≤ K * N := by nlinarith
  have hc0 : 0 ≤ K * N := by linarith
  have htpos : 0 < K * N + K := by linarith
  have ht1 : 1 ≤ K * N + K := by linarith
  -- the mean is at most 256
  have hm256 : m ≤ 256 := by
    have := (abs_le.mp herr).2
    have h1 : N * (1024 * u) ≤ 1 := by
      rw [hu]
      have : N * (1024 * (1 / 2 ^ 53)) = N / 2 ^ 43 := by ring
      rw [this, div_le_one (by positivity)]
      calc N ≤ 2 ^ 32 := hN32
        _ ≤ 2 ^ 43 := by norm_num
    linarith
  have hu53 : u ≤ 1 / 1024 := by rw [hu]; norm_num
  -- first product
  have ha0 : 0 ≤ m * (K * N) := mul_nonneg hm0 hc0
  have ha1 : m * (K * N) ≤ 256 * (K * N) := mul_le_mul_of_nonneg_right hm256 hc0
  have e1 := toDouble_error (m * (K * N))
  rw [abs_of_nonneg ha0, hpu, hpη] at e1
  have p0 := toDouble_nonneg _ ha0
  generalize toDouble (m * (K * N)) = p at *
  have hcu : K * N * u ≤ K * N / 1024 := by
    have := mul_le_mul_of_nonneg_left hu53 hc0
    linarith
  have e1' : |p - m * (K * N)| ≤ 256 * (K * N) * u + η := by
    have := mul_le_mul_of_nonneg_right ha1 hu0.le
    linarith
  have hp1 : p ≤ 257 * (K * N) := by
    have := (abs_le.mp e1').2
    linarith
  -- the sum
  have hq0 : 0 ≤ V * K := mul_nonneg hV0 (by linarith)
  have hq1 : V * K ≤ 255 * K := mul_le_mul_of_nonneg_right hV (by linarith)
  have hs0 : 0 ≤ p + V * K := by linarith
  have hs1 : p + V * K ≤ 257 * (K * N + K) := by linarith
  have e2 := toDouble_error (p + V * K)
  rw [abs_of_nonneg hs0, hpu, hpη] at e2
  have s0 := toDouble_nonneg _ hs0
  generalize toDouble (p + V * K) = s at *
  have htu : (K * N + K) * u ≤ (K * N + K) / 1024 := by
    have := mul_le_mul_of_nonneg_left hu53 htpos.le
    linarith
  have e2' : |s - (p + V * K)| ≤ 257 * (K * N + K) * u + η := by
    have := mul_le_mul_of_nonneg_right hs1 hu0.le
    linarith
  have hs2 : s ≤ 258 * (K * N + K) := by
    have := (abs_le.mp e2').2
    linarith
  -- the quotient
  have hd0 : 0 ≤ s / (K * N + K) := div_nonneg s0 htpos.le
  have hd1 : s / (K * N + K) ≤ 258 := by
    rw [div_le_iff₀ htpos]
    exact hs2
  have e3 := toDouble_error (s / (K * N + K))
  rw [abs_of_nonneg hd0, hpu, hpη] at e3
  have r0 := toDouble_nonneg _ hd0
  generalize toDouble (s / (K * N + K)) = new at *
  have e3' : |new - s / (K * N + K)| ≤ 258 * u + η := by
    have := mul_le_mul_of_nonneg_right hd1 hu0.le
    linarith
  refine ⟨r0, ?_⟩
  have hall := abs_le_of_parts new s (K * N + K) p (V * K) m M (K * N) _ _ _ _ htpos hc0
    e3' e2' e1' herr
  refine hall.trans ?_
  exact fold_error_arith K N u η hK hN hu0 hηu

theorem channelMean_bounds (channel : Nat → Nat) (hch : ∀ c, channel c < 256)
    (colors : List Nat) :
    0 ≤ channelMean channel colors ∧ channelMean channel colors ≤ 255 := by
  unfold channelMean
  have hsum : (colors.map channel).sum ≤ colors.length * 255 := by
    have := List.sum_le_card_nsmul (colors.map channel) 255 (fun x hx => by
      obtain ⟨c, _, rfl⟩ := List.mem_map.mp hx
      have := hch c
      omega)
    simpa using this
  refine ⟨by positivity, ?_⟩
  rcases Nat.eq_zero_or_pos colors.length with h | h
  · rw [h]; simp
  · rw [div_le_iff₀ (by exact_mod_cast h)]
    have : (((colors.map channel).sum : Nat) : ℚ) ≤ (colors.length : ℚ) * 255 := by
      exact_mod_cast hsum
    linarith

/-- Folding one more colour of count `k` into a record near the means gives a
record near the means of the longer list. -/
theorem nearMean_fold (colors : List Nat) (k c : Nat) (info : ColorInfo)
    (h : NearMean colors k info) (hne : colors ≠ []) (hk : 0 < k)
    (hb : k * (colors.length + 1) < 2 ^ 32) :
    NearMean (colors ++ [c]) k
      (foldInto info ((byte2 c : Nat) : ℚ) ((byte1 c : Nat) : ℚ) ((byte0 c : Nat) : ℚ)
        ((k : Nat) : ℚ)) := by
  obtain ⟨h1, ⟨r0, r1⟩, ⟨g0, g1⟩, ⟨b0, b1⟩⟩ := h
  have hn : 1 ≤ colors.length := List.length_pos.mpr hne
  have hlen : (((colors ++ [c]).length : Nat) : ℚ) = (colors.length : ℚ) + 1 := by
    rw [List.length_append, List.length_singleton]; push_cast; ring
  have hcnt : toDouble (((k * colors.length : Nat) : ℚ) + (k : ℚ))
      = ((k * (colors ++ [c]).length : Nat) : ℚ) := by
    have := toDouble_natCast (k * colors.length + k) (by
      have : k * (colors.length + 1) = k * colors.length + k := by ring
      omega)
    rw [List.length_append, List.length_singleton]
    push_cast at this ⊢
    rw [this]; ring
  have step : ∀ (channel : Nat → Nat) (m : ℚ), (∀ x, channel x < 256) → 0 ≤ m →
      |m - channelMean channel colors| ≤ (colors.length : ℚ) * pow2 (-43) →
      0 ≤ toDouble (toDouble (toDouble (m * ((k * colors.length : Nat) : ℚ))
          + toDouble (((channel c : Nat) : ℚ) * ((k : Nat) : ℚ)))
          / toDouble (((k * colors.length : Nat) : ℚ) + ((k : Nat) : ℚ))) ∧
      |toDouble (toDouble (toDouble (m * ((k * colors.length : Nat) : ℚ))
          + toDouble (((channel c : Nat) : ℚ) * ((k : Nat) : ℚ)))
          / toDouble (((k * colors.length : Nat) : ℚ) + ((k : Nat) : ℚ)))
        - channelMean channel (colors ++ [c])| ≤ (((colors ++ [c]).length : Nat) : ℚ) * pow2 (-43) := by
    intro channel m hch hm0 herr
    have := fold_channel_error m (channelMean channel colors) (channel c) k colors.length hm0
      (channelMean_bounds channel hch colors).2 (by have := hch c; omega) hk hn hb herr
    rw [channelMean_append channel colors c k hne hk] at this
    rw [hlen]
    exact this
  unfold foldInto
  rw [h1]
  exact ⟨hcnt, step byte2 _ EuclideanPalette.byte2_lt r0 r1,
    step byte1 _ EuclideanPalette.byte1_lt g0 g1, step byte0 _ EuclideanPalette.byte0_lt b0 b1⟩

/-- The colour a pop yields is the first of the live colours of its count. -/
theorem popMax_head (count node : Nat → Nat) (buf : Buffer) (map : List (Nat × Nat))
    (live : List Nat) (d skip : Nat) (pop : PopResult)
    (I : IndexInv count node buf map live) (hdB : d ≤ BaseLength)
    (h : popMax buf map d skip = .inr pop) :
    ∃ rest, bucketOf count live pop.pixelCount = pop.rgb :: rest := by
  have hB : BaseLength = 1024 := rfl
  unfold popMax at h
  cases hg : map.getLast? with
  | some kh =>
    rw [hg] at h
    obtain ⟨k, h0⟩ := kh
    simp only at h
    injection h with h
    obtain ⟨ys, hys⟩ := List.getLast?_eq_some_iff.mp hg
    have hmem : (k, h0) ∈ map := by rw [hys]; simp
    obtain ⟨k1, k2, k3, k4⟩ := I.map_key _ hmem
    simp only at k1 k2 k3 k4
    have hne : buf.data h0 ≠ 0 := by
      intro e
      rw [e] at k4
      cases hb : bucketOf count live k with
      | nil => exact k3 hb
      | cons c rest =>
        rw [hb] at k4
        exact k4.2.1 k4.1.symm
    obtain ⟨c, rest, hb, hs, hc, hck⟩ := bucket_of_head count node buf live k _ k4 hne
    have hrgb : pop.rgb = c := by
      rw [← h]
      simp only
      rw [hs]
      exact I.colour c hc
    have hpc : pop.pixelCount = k := by rw [← h]
    exact ⟨rest, by rw [hpc, hrgb]; exact hb⟩
  | none =>
    rw [hg] at h
    simp only at h
    obtain ⟨a1, a2, a3⟩ := scanDown_spec buf skip d
    split at h
    · cases h
    · rename_i hgt
      injection h with h
      rcases a3 with a3 | ⟨a3, a4⟩
      · exact absurd a3 hgt
      · generalize hres : scanDown buf skip d = res at *
        have hch := I.small res a3 (by omega)
        obtain ⟨c, rest, hb, hs, hc, hck⟩ := bucket_of_head count node buf live res _ hch a4
        have hrgb : pop.rgb = c := by
          rw [← h]
          simp only
          rw [hs]
          exact I.colour c hc
        have hpc : pop.pixelCount = res := by rw [← h]
        exact ⟨rest, by rw [hpc, hrgb]; exact hb⟩

/-- An index of colours whose counts are all at most `BaseLength` has an empty
map. -/
theorem map_nil_of_small_counts (count node : Nat → Nat) (buf : Buffer)
    (map : List (Nat × Nat)) (live : List Nat) (I : IndexInv count node buf map live)
    (h : ∀ y ∈ live, count y ≤ BaseLength) : map = [] := by
  cases hm : map with
  | nil => rfl
  | cons kh rest =>
    exfalso
    obtain ⟨k1, _, k3, _⟩ := I.map_key kh (by rw [hm]; exact List.mem_cons_self _ _)
    cases hb : bucketOf count live kh.1 with
    | nil => exact k3 hb
    | cons c t =>
      have hc : c ∈ bucketOf count live kh.1 := by rw [hb]; exact List.mem_cons_self _ _
      obtain ⟨c1, c2⟩ := (mem_bucketOf _ _ _ _).mp hc
      have := h c c1
      omega

/-- The reduction loop on colours of one count above `SkipMinCount` that are
popped without relocation: it folds every remaining colour into the single
record, which stays near the means, and returns, given fuel for one pop per
colour and one more. -/
theorem reduceLoop_near_mean (count node : Nat → Nat) (k : Nat) (hk : SkipMinCount < k) :
    ∀ (fuel : Nat) (live : List Nat) (buf : Buffer) (map : List (Nat × Nat)) (d : Nat)
      (seen : List Nat) (info : ColorInfo),
      IndexInv count node buf map live → d ≤ BaseLength →
      (∀ y ∈ live, count y ≤ BaseLength → count y ≤ d) → (∀ y ∈ live, count y = k) →
      live.length < fuel → NearMean seen k info → seen ≠ [] →
      k * (seen.length + live.length) < 2 ^ 32 →
      ∃ info2 order, reduceLoop fuel buf map d [info] = some [info2] ∧
        NearMean (seen ++ order) k info2 ∧ order.Perm live := by
  have hS : SkipMinCount = 3 := rfl
  intro fuel
  induction fuel with
  | zero => intro live _ _ _ _ _ _ _ _ _ hf; exact absurd hf (Nat.not_lt_zero _)
  | succ fuel ih =>
    intro live buf map d seen info I hdB hD hcount hfuel hmean hne hbound
    unfold reduceLoop
    cases hpop : popMax buf map d SkipMinCount with
    | inl d2 =>
      simp only
      have hall := popMax_inl count node buf map live d SkipMinCount d2 I hD hpop
      have hnil : live = [] := by
        cases live with
        | nil => rfl
        | cons a rest =>
          have h1 := hcount a (List.mem_cons_self _ _)
          have h2 := hall a (List.mem_cons_self _ _)
          omega
      subst hnil
      exact ⟨info, [], rfl, by rw [List.append_nil]; exact hmean, List.Perm.refl _⟩
    | inr pop =>
      simp only
      obtain ⟨p1, p2, p3, p4, p5, _⟩ := popMax_inr count node buf map live d SkipMinCount pop I
        hdB hD hpop
      have hidx : (nearestInfo ((byte2 pop.rgb : Nat) : ℚ) ((byte1 pop.rgb : Nat) : ℚ)
          ((byte0 pop.rgb : Nat) : ℚ) [info] 0 (none, 0)).2 = 0 := by
        simp [nearestInfo]
      rw [hidx]
      simp only [List.getElem?_cons_zero, List.set_cons_zero]
      have hpk : pop.pixelCount = k := by rw [p2]; exact hcount _ p1
      rw [hpk]
      have hl := List.length_erase_of_mem p1
      have hpos : 0 < live.length := List.length_pos_of_mem p1
      have hb1 : k * (seen.length + 1) < 2 ^ 32 := by
        have : k * (seen.length + 1) ≤ k * (seen.length + live.length) :=
          Nat.mul_le_mul_left k (by omega)
        omega
      obtain ⟨info2, order, q1, q2, q3⟩ := ih (live.erase pop.rgb) pop.sortedBuffer pop.sortedMap
        pop.decrementPixelCount (seen ++ [pop.rgb])
        (foldInto info ((byte2 pop.rgb : Nat) : ℚ) ((byte1 pop.rgb : Nat) : ℚ)
          ((byte0 pop.rgb : Nat) : ℚ) ((k : Nat) : ℚ))
        p3 p4 p5 (fun y hy => hcount y (I.nodup.mem_erase_iff.mp hy).2) (by omega)
        (nearMean_fold seen k pop.rgb info hmean hne (by omega) hb1) (by simp)
        (by
          rw [List.length_append, List.length_singleton, hl]
          have : seen.length + 1 + (live.length - 1) = seen.length + live.length := by omega
          rw [this]; exact hbound)
      refine ⟨info2, pop.rgb :: order, q1, ?_, ?_⟩
      · rw [List.append_assoc] at q2
        exact q2
      · exact (List.Perm.cons _ q3).trans (List.perm_cons_erase p1).symm

/-- The cast of `round(x)` for a value `x` within `ε` of a mean `M` of bytes: a
byte within `1 / 2 + ε` of `M`, and the rounded `M` itself when no half-integer
lies within `ε` of `M`. -/
theorem roundU32_near (x M ε : ℚ) (hx : 0 ≤ x) (hM1 : M ≤ 255) (hε : ε ≤ 1 / 4)
    (h : |x - M| ≤ ε) :
    roundU32 x < 256 ∧ |((roundU32 x : Nat) : ℚ) - M| ≤ 1 / 2 + ε ∧
      ((∀ z : Int, ε < |M - ((z : ℚ) + 1 / 2)|) → roundU32 x = roundU32 M) := by
  obtain ⟨h1, h2⟩ := abs_le.mp h
  have f1 := Int.floor_le (x + 1 / 2)
  have f2 := Int.lt_floor_add_one (x + 1 / 2)
  have f0 : 0 ≤ ⌊x + 1 / 2⌋ := Int.floor_nonneg.mpr (by linarith)
  have f3 : ⌊x + 1 / 2⌋ < 256 := by
    have : ((⌊x + 1 / 2⌋ : Int) : ℚ) < 256 := by linarith
    exact_mod_cast this
  have hr : roundU32 x = (⌊x + 1 / 2⌋).toNat := by
    unfold roundU32
    apply Nat.mod_eq_of_lt
    omega
  have hc : (((⌊x + 1 / 2⌋).toNat : Nat) : ℚ) = ((⌊x + 1 / 2⌋ : Int) : ℚ) := by
    have : (((⌊x + 1 / 2⌋).toNat : Nat) : Int) = ⌊x + 1 / 2⌋ := Int.toNat_of_nonneg f0
    exact_mod_cast this
  refine ⟨by rw [hr]; omega, ?_, ?_⟩
  · rw [hr, hc, abs_le]
    constructor <;> linarith
  · intro hz
    unfold roundU32
    congr 2
    rw [Int.floor_eq_iff]
    have g1 := Int.floor_le (M + 1 / 2)
    have g2 := Int.lt_floor_add_one (M + 1 / 2)
    have z1 := hz (⌊M + 1 / 2⌋ - 1)
    have z2 := hz ⌊M + 1 / 2⌋
    push_cast at z1
    rw [abs_of_nonneg (by linarith)] at z1
    rw [abs_of_nonpos (by linarith)] at z2
    constructor <;> linarith

theorem sum_map_const (f : Nat → Nat) (k : Nat) :
    ∀ l : List Nat, (∀ c ∈ l, f c = k) → (l.map f).sum = k * l.length := by
  intro l
  induction l with
  | nil => intro _; simp
  | cons a t ih =>
    intro h
    rw [List.map_cons, List.sum_cons, List.length_cons, h a (List.mem_cons_self _ _),
      ih (fun c hc => h c (List.mem_cons_of_mem _ hc))]
    ring

/-- The first iteration of the pick loop on a histogram of far-apart colours of
one count `k`: it pops the colour added last, emits and records it, and leaves
the index of the other colours. -/
theorem pickLoop_one_equal_counts (oracle : KernelOracle) (hv : oracle.Valid)
    (e : SpaceShockColorExtractor) (h : Histogram e)
    (hfar : ∀ a ∈ e.colorList, ∀ b ∈ e.colorList, a ≠ b → FarApart a b)
    (k : Nat) (hcount : ∀ c ∈ e.colorList, (e.colorCounts c).count = k)
    (hne : e.colorList ≠ []) (entry : Nat) :
    PickInv (fun c => (e.colorCounts c).count) (fun c => ((sort_colors e).colorCounts c).node)
        (e.colorList.reverse.erase (e.colorList.getLast hne))
        (pickLoop oracle 1 (pickStart e [entry])) ∧
      (pickLoop oracle 1 (pickStart e [entry])).colorTable = [e.colorList.getLast hne] ∧
      (pickLoop oracle 1 (pickStart e [entry])).outIndex = 1 ∧
      (pickLoop oracle 1 (pickStart e [entry])).counter
        = [infoOf (fun c => (e.colorCounts c).count) (e.colorList.getLast hne)] := by
  have hinv := pickStart_inv e h [entry]
  have hlive : ∀ y ∈ e.colorList.reverse, (e.colorCounts y).count = k := fun y hy =>
    hcount y (List.mem_reverse.mp hy)
  obtain ⟨c0, hc0⟩ := List.exists_mem_of_ne_nil _ hne
  have hk1 : 1 ≤ k := by
    have := (h.2.1 c0 hc0).2.1
    rw [hcount c0 hc0] at this
    exact this
  unfold pickLoop
  cases hpop : popMax (pickStart e [entry]).sortedBuffer (pickStart e [entry]).sortedMap
      (pickStart e [entry]).decrementPixelCount 0 with
  | inl d =>
    exfalso
    have := popMax_inl _ _ _ _ _ _ 0 d hinv.1 hinv.2.2.2 hpop c0 (List.mem_reverse.mpr hc0)
    rw [hcount c0 hc0] at this
    omega
  | inr pop =>
    obtain ⟨p1, p2, p3, p4, p5⟩ := pickStep_far oracle hv _ _ _ _ pop hinv
      (fun a ha b hb hab => hfar a (List.mem_reverse.mp ha) b (List.mem_reverse.mp hb) hab) hpop
    obtain ⟨q1, q2, _⟩ := popMax_inr _ _ _ _ _ _ 0 pop hinv.1 hinv.2.2.1 hinv.2.2.2 hpop
    obtain ⟨rest, hrest⟩ := popMax_head _ _ _ _ _ _ 0 pop hinv.1 hinv.2.2.1 hpop
    rw [q2, hlive _ q1] at hrest
    have hb : bucketOf (fun c => (e.colorCounts c).count) e.colorList.reverse k
        = e.colorList.reverse := by
      unfold bucketOf
      rw [List.filter_eq_self]
      intro a ha
      simpa using hlive a ha
    rw [hb] at hrest
    have hlast : e.colorList.getLast hne = pop.rgb := by
      have : e.colorList = rest.reverse ++ [pop.rgb] := by
        have := congrArg List.reverse hrest
        rw [List.reverse_reverse, List.reverse_cons] at this
        exact this
      simp only [this, List.getLast_append_singleton]
    rw [hlast]
    unfold pickLoop
    refine ⟨p2, ?_, ?_, ?_⟩
    · rw [p3]; rfl
    · rw [p4]; rfl
    · rw [p5]; rfl

/-- C14 (amended): with a table of one entry and no forced colour, for every
non-empty histogram that `add_bitmap` builds from fewer than `2 ^ 32` pixels,
whose `D` colours all have the same count `k` and pairwise differ by more than
28 in at least one channel, `get_color_table` returns 1 (given fuel for one pop
per colour).  When `k ≤ SkipMinCount = 3` nothing is reduced and the output is
the colour added last.  When `k > 3` every other colour is folded into the
emitted one in `double` arithmetic, and each channel of the output is a byte
within `1 / 2 + D / 2 ^ 43` of the mean of that channel over the colours of the
histogram; it is the rounded mean whenever no half-integer lies within
`D / 2 ^ 43` of the mean.  The oracle is any one within the ranges of the
source. -/
theorem equal_counts_reduce_near_mean (oracle : KernelOracle) (hv : oracle.Valid)
    (bitmaps : List (List Nat)) (hsum : (bitmaps.map List.length).sum < 2 ^ 32)
    (e : SpaceShockColorExtractor) (he : e = bitmaps.foldl add_bitmap create)
    (hfar : ∀ a ∈ e.colorList, ∀ b ∈ e.colorList, a ≠ b → FarApart a b)
    (k : Nat) (hcount : ∀ c ∈ e.colorList, (e.colorCounts c).count = k)
    (hne : e.colorList ≠ []) (entry fuel : Nat) (hfuel : e.colorList.length ≤ fuel) :
    ∃ r, get_color_table oracle e [entry] [] fuel = some r ∧ r.ret = 1 ∧
      r.colorTable.length = 1 ∧
      (k ≤ SkipMinCount → r.colorTable = [e.colorList.getLast hne]) ∧
      (SkipMinCount < k →
        ∀ channel : Nat → Nat, channel = byte2 ∨ channel = byte1 ∨ channel = byte0 →
          |((channel (r.colorTable.getD 0 0) : Nat) : ℚ) - channelMean channel e.colorList|
            ≤ 1 / 2 + (e.colorList.length : ℚ) / 2 ^ 43 ∧
          ((∀ z : Int, (e.colorList.length : ℚ) / 2 ^ 43
              < |channelMean channel e.colorList - ((z : ℚ) + 1 / 2)|) →
            channel (r.colorTable.getD 0 0) = roundU32 (channelMean channel e.colorList))) := by
  have hS : SkipMinCount = 3 := rfl
  have hB : BaseLength = 1024 := rfl
  have h : Histogram e := by rw [he]; exact histogram_of_bitmaps bitmaps hsum
  have hD : 0 < e.colorList.length := List.length_pos.mpr hne
  have htot : k * e.colorList.length < 2 ^ 32 := by
    obtain ⟨_, _, _, a4, _⟩ := foldl_add_bitmap_inv bitmaps create 0 (by omega)
      List.nodup_nil (fun c hc => absurd hc (List.not_mem_nil c)) (fun _ _ => rfl) rfl rfl
    rw [← he, sum_map_const (fun c => (e.colorCounts c).count) k _ hcount] at a4
    omega
  have hlastmem : e.colorList.getLast hne ∈ e.colorList := List.getLast_mem hne
  have hk1 : 1 ≤ k := by
    have := (h.2.1 _ hlastmem).2.1
    rw [hcount _ hlastmem] at this
    exact this
  obtain ⟨inv, htab, hout, hcnt⟩ := pickLoop_one_equal_counts oracle hv e h hfar k hcount hne entry
  generalize e.colorList.getLast hne = c1 at *
  have hlive : ∀ y ∈ e.colorList.reverse.erase c1, (e.colorCounts y).count = k := fun y hy =>
    hcount y (List.mem_reverse.mp (List.mem_of_mem_erase hy))
  have hc1lt : c1 < 2 ^ 24 := (h.2.1 c1 hlastmem).1
  rw [get_color_table_no_forced]
  simp only [List.length_singleton]
  rw [if_neg (by simp), hout, if_neg (by simp), hcnt, htab]
  by_cases hk : k ≤ SkipMinCount
  · -- nothing is folded
    obtain ⟨f, hf⟩ : ∃ f, fuel = f + 1 := ⟨fuel - 1, by omega⟩
    have hmap : (pickLoop oracle 1 (pickStart e [entry])).sortedMap = [] :=
      map_nil_of_small_counts _ _ _ _ _ inv.1 (fun y hy => by
        have := hlive y hy
        omega)
    have hred : reduceLoop fuel (pickLoop oracle 1 (pickStart e [entry])).sortedBuffer
        (pickLoop oracle 1 (pickStart e [entry])).sortedMap
        (pickLoop oracle 1 (pickStart e [entry])).decrementPixelCount
        [infoOf (fun c => (e.colorCounts c).count) c1]
        = some [infoOf (fun c => (e.colorCounts c).count) c1] := by
      rw [hf]
      unfold reduceLoop
      cases hpop : popMax (pickLoop oracle 1 (pickStart e [entry])).sortedBuffer
          (pickLoop oracle 1 (pickStart e [entry])).sortedMap
          (pickLoop oracle 1 (pickStart e [entry])).decrementPixelCount SkipMinCount with
      | inl d => rfl
      | inr pop =>
        exfalso
        obtain ⟨p1, p2, _, _, _, p6⟩ := popMax_inr _ _ _ _ _ _ SkipMinCount pop inv.1 inv.2.2.1
          inv.2.2.2 hpop
        have := p6 hmap
        rw [p2] at this
        have := hlive _ p1
        omega
    rw [hred]
    have hw : writeReduced 0 [infoOf (fun c => (e.colorCounts c).count) c1] 0 [c1] = [c1] := by
      simp only [writeReduced, Nat.add_zero, List.set_cons_zero]
      rw [pack_infoOf _ c1 hc1lt]
    refine ⟨_, rfl, rfl, ?_, fun _ => ?_, fun hc => absurd hk (by omega)⟩
    · show (writeReduced 0 [infoOf (fun c => (e.colorCounts c).count) c1] 0 [c1]).length = 1
      rw [hw]; rfl
    · show writeReduced 0 [infoOf (fun c => (e.colorCounts c).count) c1] 0 [c1] = [c1]
      exact hw
  · -- the other colours are folded into the record
    have hk4 : SkipMinCount < k := by omega
    have hrl : (e.colorList.reverse.erase c1).length + 1 = e.colorList.length := by
      have := List.length_erase_of_mem (List.mem_reverse.mpr hlastmem)
      rw [List.length_reverse] at this
      omega
    have hmean0 : NearMean [c1] k (infoOf (fun c => (e.colorCounts c).count) c1) := by
      have hz : ∀ x : Nat, |((x : Nat) : ℚ) - (((([x] : List Nat).sum : Nat) : ℚ)
          / ((([c1] : List Nat).length : Nat) : ℚ))| ≤ ((([c1] : List Nat).length : Nat) : ℚ)
            * pow2 (-43) := by
        intro x
        have : ((x : Nat) : ℚ) - (((([x] : List Nat).sum : Nat) : ℚ)
            / ((([c1] : List Nat).length : Nat) : ℚ)) = 0 := by simp
        rw [this, abs_zero]
        exact mul_nonneg (by positivity) (pow2_pos _).le
      refine ⟨?_, ⟨by simp [infoOf], hz _⟩, ⟨by simp [infoOf], hz _⟩, ⟨by simp [infoOf], hz _⟩⟩
      simp only [infoOf, hcount c1 hlastmem, List.length_singleton, Nat.add_zero, Nat.mul_one]
      have hk32 : k ≤ k * e.colorList.length := Nat.le_mul_of_pos_right k hD
      exact toDouble_natCast k (by omega)
    obtain ⟨info2, order, q1, q2, q3⟩ := reduceLoop_near_mean
      (fun c => (e.colorCounts c).count) _ k hk4 fuel (e.colorList.reverse.erase c1) _ _ _ [c1] _
      inv.1 inv.2.2.1 inv.2.2.2 hlive (by omega) hmean0 (by simp)
      (by rw [List.length_singleton, Nat.add_comm, hrl]; exact htot)
    rw [q1]
    have hperm : ([c1] ++ order).Perm e.colorList :=
      ((List.Perm.append_left [c1] q3).trans
        (List.perm_cons_erase (List.mem_reverse.mpr hlastmem)).symm).trans
        (List.reverse_perm _)
    have hlen : ([c1] ++ order).length = e.colorList.length := hperm.length_eq
    obtain ⟨_, ⟨r0, r1⟩, ⟨g0, g1⟩, ⟨b0, b1⟩⟩ := q2
    rw [channelMean_perm _ _ _ hperm, hlen] at r1 g1 b1
    have hp : pow2 (-43) = 1 / 2 ^ 43 := by simp [pow2]; norm_num
    have hmul : (e.colorList.length : ℚ) * pow2 (-43) = (e.colorList.length : ℚ) / 2 ^ 43 := by
      rw [hp]; ring
    rw [hmul] at r1 g1 b1
    have hε : (e.colorList.length : ℚ) / 2 ^ 43 ≤ 1 / 4 := by
      have hDk : e.colorList.length < 2 ^ 32 := by
        have : e.colorList.length ≤ k * e.colorList.length := Nat.le_mul_of_pos_left _ hk1
        omega
      have : (e.colorList.length : ℚ) ≤ 2 ^ 32 := by exact_mod_cast hDk.le
      rw [div_le_iff₀ (by positivity)]
      linarith
    obtain ⟨n2, m2, x2⟩ := roundU32_near info2.r _ _ r0
      (channelMean_bounds byte2 EuclideanPalette.byte2_lt e.colorList).2 hε r1
    obtain ⟨n1, m1, x1⟩ := roundU32_near info2.g _ _ g0
      (channelMean_bounds byte1 EuclideanPalette.byte1_lt e.colorList).2 hε g1
    obtain ⟨n0, m0, x0⟩ := roundU32_near info2.b _ _ b0
      (channelMean_bounds byte0 EuclideanPalette.byte0_lt e.colorList).2 hε b1
    have hw : writeReduced 0 [info2] 0 [c1]
        = [(roundU32 info2.r <<< 16) ||| (roundU32 info2.g <<< 8) ||| roundU32 info2.b] := by
      simp only [writeReduced, Nat.add_zero, List.set_cons_zero]
      congr 1
      apply Nat.mod_eq_of_lt
      rw [pack_eq _ _ _ n1 n0]
      omega
    obtain ⟨p2, p1, p0⟩ := pack_bytes _ _ _ n2 n1 n0
    refine ⟨_, rfl, rfl, ?_, fun hc => absurd hc hk, fun _ channel hch => ?_⟩
    · show (writeReduced 0 [info2] 0 [c1]).length = 1
      rw [hw]; rfl
    · show |((channel ((writeReduced 0 [info2] 0 [c1]).getD 0 0) : Nat) : ℚ)
          - channelMean channel e.colorList| ≤ _ ∧
        (_ → channel ((writeReduced 0 [info2] 0 [c1]).getD 0 0) = _)
      rw [hw]
      simp only [List.getD_cons_zero]
      rcases hch with hch | hch | hch
      · rw [hch, p2]; exact ⟨m2, x2⟩
      · rw [hch, p1]; exact ⟨m1, x1⟩
      · rw [hch, p0]; exact ⟨m0, x0⟩

theorem flatOracle_valid : (flatOracle 2 100).Valid :=
  ⟨by decide, by decide, fun _ => ⟨(by decide : 2 ≤ 2), (by decide : 2 ≤ 28)⟩,
    fun _ => (by decide : 100 < 65536), fun _ _ => (by decide : 100 < 65536)⟩

theorem far_apart_histogram_is_returned_witness :
    (get_color_table (flatOracle 2 100)
        (([[0xFF0000, 0xFF0000, 0x0000FF, 0x0000FF]] : List (List Nat)).foldl add_bitmap create)
        [0, 0] [] 1).map (fun r => (r.ret, r.colorTable)) = some (2, [0x0000FF, 0xFF0000]) ∧
    ∃ r, get_color_table (flatOracle 2 100)
        (([[0xFF0000, 0xFF0000, 0x0000FF, 0x0000FF]] : List (List Nat)).foldl add_bitmap create)
        [0, 0] [] (0 + 1) = some r ∧
      r.ret = (([[0xFF0000, 0xFF0000, 0x0000FF, 0x0000FF]] : List (List Nat)).foldl add_bitmap
        create).colorList.length ∧
      (r.colorTable.take (([[0xFF0000, 0xFF0000, 0x0000FF, 0x0000FF]] : List (List Nat)).foldl
        add_bitmap create).colorList.length).Perm
        (([[0xFF0000, 0xFF0000, 0x0000FF, 0x0000FF]] : List (List Nat)).foldl add_bitmap
          create).colorList :=
  ⟨by decide!,
    far_apart_histogram_is_returned (flatOracle 2 100) flatOracle_valid _
      (histogram_of_bitmaps [[0xFF0000, 0xFF0000, 0x0000FF, 0x0000FF]] (by decide))
      (by decide!) [0, 0] (by decide!) 0⟩

theorem equal_counts_reduce_near_mean_witness :
    (get_color_table (flatOracle 2 100)
        (([[0x000000, 0x7F7F7F, 0xFFFFFF, 0x000000, 0x7F7F7F, 0xFFFFFF, 0x000000, 0x7F7F7F,
          0xFFFFFF, 0x000000, 0x7F7F7F, 0xFFFFFF]] : List (List Nat)).foldl add_bitmap create)
        [0] [] 3).map (fun r => (r.ret, r.colorTable)) = some (1, [0x7F7F7F]) ∧
    ∃ r, get_color_table (flatOracle 2 100)
        (([[0x000000, 0x7F7F7F, 0xFFFFFF, 0x000000, 0x7F7F7F, 0xFFFFFF, 0x000000, 0x7F7F7F,
          0xFFFFFF, 0x000000, 0x7F7F7F, 0xFFFFFF]] : List (List Nat)).foldl add_bitmap create)
        [0] [] 3 = some r ∧ r.ret = 1 ∧ r.colorTable.length = 1 ∧
      (4 ≤ SkipMinCount → r.colorTable = [(([[0x000000, 0x7F7F7F, 0xFFFFFF, 0x000000, 0x7F7F7F,
        0xFFFFFF, 0x000000, 0x7F7F7F, 0xFFFFFF, 0x000000, 0x7F7F7F, 0xFFFFFF]] :
          List (List Nat)).foldl add_bitmap create).colorList.getLastD 0]) ∧
      (SkipMinCount < 4 →
        ∀ channel : Nat → Nat, channel = byte2 ∨ channel = byte1 ∨ channel = byte0 →
          |((channel (r.colorTable.getD 0 0) : Nat) : ℚ) - channelMean channel
              (([[0x000000, 0x7F7F7F, 0xFFFFFF, 0x000000, 0x7F7F7F, 0xFFFFFF, 0x000000, 0x7F7F7F,
                0xFFFFFF, 0x000000, 0x7F7F7F, 0xFFFFFF]] : List (List Nat)).foldl add_bitmap
                create).colorList|
            ≤ 1 / 2 + ((([[0x000000, 0x7F7F7F, 0xFFFFFF, 0x000000, 0x7F7F7F, 0xFFFFFF, 0x000000,
                0x7F7F7F, 0xFFFFFF, 0x000000, 0x7F7F7F, 0xFFFFFF]] : List (List Nat)).foldl
                add_bitmap create).colorList.length : ℚ) / 2 ^ 43 ∧
          ((∀ z : Int, ((([[0x000000, 0x7F7F7F, 0xFFFFFF, 0x000000, 0x7F7F7F, 0xFFFFFF, 0x000000,
                0x7F7F7F, 0xFFFFFF, 0x000000, 0x7F7F7F, 0xFFFFFF]] : List (List Nat)).foldl
                add_bitmap create).colorList.length : ℚ) / 2 ^ 43
              < |channelMean channel (([[0x000000, 0x7F7F7F, 0xFFFFFF, 0x000000, 0x7F7F7F,
                0xFFFFFF, 0x000000, 0x7F7F7F, 0xFFFFFF, 0x000000, 0x7F7F7F, 0xFFFFFF]] :
                List (List Nat)).foldl add_bitmap create).colorList - ((z : ℚ) + 1 / 2)|) →
            channel (r.colorTable.getD 0 0) = roundU32 (channelMean channel
              (([[0x000000, 0x7F7F7F, 0xFFFFFF, 0x000000, 0x7F7F7F, 0xFFFFFF, 0x000000, 0x7F7F7F,
                0xFFFFFF, 0x000000, 0x7F7F7F, 0xFFFFFF]] : List (List Nat)).foldl add_bitmap
                create).colorList))) :=
  ⟨by decide!,
    equal_counts_reduce_near_mean (flatOracle 2 100) flatOracle_valid
      [[0x000000, 0x7F7F7F, 0xFFFFFF, 0x000000, 0x7F7F7F, 0xFFFFFF,
        0x000000, 0x7F7F7F, 0xFFFFFF, 0x000000, 0x7F7F7F, 0xFFFFFF]] (by decide) _ rfl
      (by decide!) 4 (by decide!) (by decide!) 0 3 (by decide!)⟩

/-- C14 (counterexample): scenario S2, the pixels `0x000000, 0x7F7F7F, 0xFFFFFF`
(each colour of count 1) with a table of one entry, under every kernel oracle
within the ranges of the source.  The pick loop pops `0xFFFFFF`, the colour
added last; the reduction loop then finds `decrementPixelCount = 1` at most
`SkipMinCount = 3` and folds nothing.  The call returns 1 with the table
`[0xFFFFFF]`, whose channels are 255, while the rounded mean of each channel
over the three colours is 127. -/
theorem equal_counts_of_one_are_not_reduced :
    (∀ (oracle : KernelOracle), oracle.Valid → ∀ fuel : Nat,
      (get_color_table oracle (add_bitmap create [0x000000, 0x7F7F7F, 0xFFFFFF]) [0] []
        (fuel + 1)).map (fun r => (r.ret, r.colorTable)) = some (1, [0xFFFFFF])) ∧
    (add_bitmap create [0x000000, 0x7F7F7F, 0xFFFFFF]).colorList
      = [0x000000, 0x7F7F7F, 0xFFFFFF] ∧
    (∀ c ∈ (add_bitmap create [0x000000, 0x7F7F7F, 0xFFFFFF]).colorList,
      ((add_bitmap create [0x000000, 0x7F7F7F, 0xFFFFFF]).colorCounts c).count = 1) ∧
    byte2 0xFFFFFF = 255 ∧
    roundU32 (channelMean byte2 [0x000000, 0x7F7F7F, 0xFFFFFF]) = 127 := by
  refine ⟨fun oracle hv fuel => ?_, by decide!, by decide!, by decide!, by decide!⟩
  have hpop : ((popMax (pickStart (add_bitmap create [0x000000, 0x7F7F7F, 0xFFFFFF])
      [0]).sortedBuffer
      (pickStart (add_bitmap create [0x000000, 0x7F7F7F, 0xFFFFFF]) [0]).sortedMap
      BaseLength 0).getRight?.map
      (fun p => (p.rgb, p.pixelCount, p.sortedMap, p.decrementPixelCount)))
      = some (0xFFFFFF, 1, [], 1) := by decide!
  obtain ⟨pop, hpop1, hpop2⟩ := Option.map_eq_some'.mp hpop
  have hpopeq : popMax (pickStart (add_bitmap create [0x000000, 0x7F7F7F, 0xFFFFFF])
      [0]).sortedBuffer
      (pickStart (add_bitmap create [0x000000, 0x7F7F7F, 0xFFFFFF]) [0]).sortedMap
      (pickStart (add_bitmap create [0x000000, 0x7F7F7F, 0xFFFFFF]) [0]).decrementPixelCount 0
      = Sum.inr pop :=
    Sum.getRight?_eq_some_iff.mp hpop1
  have hrgb : pop.rgb = 0xFFFFFF := congrArg (fun t => t.1) hpop2
  have hcnt : pop.pixelCount = 1 := congrArg (fun t => t.2.1) hpop2
  have hmap : pop.sortedMap = [] := congrArg (fun t => t.2.2.1) hpop2
  have hdec : pop.decrementPixelCount = 1 := congrArg (fun t => t.2.2.2) hpop2
  have hz := decrement_zero_of_height_le_one
    (oracle.kernel (pickStart (add_bitmap create [0x000000, 0x7F7F7F, 0xFFFFFF]) [0]).outIndex)
    1 (le_refl _) (hv.2.2.2.2 _)
  have hloop : pickLoop oracle 1 (pickStart (add_bitmap create [0x000000, 0x7F7F7F, 0xFFFFFF])
      [0]) = pickStep oracle (pickStart (add_bitmap create [0x000000, 0x7F7F7F, 0xFFFFFF]) [0])
        pop := by
    unfold pickLoop
    rw [hpopeq]
    rfl
  rw [get_color_table_no_forced, show ([0] : List Nat).length = 1 from rfl,
    if_neg (by decide), hloop]
  have hstep : pickStep oracle (pickStart (add_bitmap create [0x000000, 0x7F7F7F, 0xFFFFFF]) [0])
      pop = ⟨setAt (pickStart (add_bitmap create [0x000000, 0x7F7F7F, 0xFFFFFF]) [0]).colorCounts
        pop.rgb ⟨0, ((pickStart (add_bitmap create [0x000000, 0x7F7F7F, 0xFFFFFF])
          [0]).colorCounts pop.rgb).node⟩,
        pop.sortedBuffer, [], [0xFFFFFF], [⟨255, 255, 255, 1⟩], 1, 1⟩ := by
    unfold pickStep
    simp only [hcnt]
    rw [absorb_color_of_zero_decrement _ _ _ _ _ _ _ hz, hmap, hdec, hrgb]
    simp only [TableState.mk.injEq, true_and]
    refine ⟨rfl, ?_, rfl⟩
    show [] ++ [_] = _
    simp only [List.nil_append, List.cons.injEq, and_true, ColorInfo.mk.injEq]
    refine ⟨by decide!, by decide!, by decide!, toDouble_natCast (1 + 0) (by norm_num)⟩
  rw [hstep]
  simp only [Nat.lt_irrefl, if_false]
  have hscan : ∀ buf : Buffer, scanDown buf 3 1 = 1 := fun buf => rfl
  simp only [reduceLoop, popMax, List.getLast?_nil, hscan, SkipMinCount,
    Nat.reduceLeDiff, if_true, Option.map_some', writeReduced]
  decide!

/-- The `double` fold can miss the rounded mean: five pixels each of `0x000002`,
`0x28009F`, `0x500006`, `0x78001F` and a table of one entry.  The blue channels
2, 159, 6, 31 have the mean 49.5, which rounds to 50; the fold of 6, 159 and 2
into 31 gives `18.5`, then `65.33333333333333` (the `double` nearest to 196 / 3),
then `(65.33333333333333 * 15 + 10) / 20 = 49.49999999999999`, which rounds to
49.  The output is `0x3C0031`. -/
theorem double_fold_rounds_below_mean :
    (get_color_table (flatOracle 2 100)
        (add_bitmap create (List.replicate 5 0x000002 ++ List.replicate 5 0x28009F
          ++ List.replicate 5 0x500006 ++ List.replicate 5 0x78001F))
        [0] [] 4).map (fun r => (r.ret, r.colorTable)) = some (1, [0x3C0031]) ∧
    byte0 0x3C0031 = 49 ∧
    channelMean byte0 [0x000002, 0x28009F, 0x500006, 0x78001F] = 99 / 2 ∧
    roundU32 (channelMean byte0 [0x000002, 0x28009F, 0x500006, 0x78001F]) = 50 ∧
    toDouble (toDouble (toDouble (toDouble (196 / 3) * 15) + toDouble (2 * 5)) / toDouble (15 + 5))
      = 99 / 2 - 1 / 2 ^ 47 := by
  refine ⟨by decide!, by decide!, by decide!, by decide!, by decide!⟩

end SpaceShockColorExtractor

/-! ## The bisector test and its midpoint -/

namespace EuclideanPalette

theorem tdiv_two (d : Int) : Int.tdiv d 2 = if 0 ≤ d then d / 2 else -((-d) / 2) := by
  split_ifs with h
  · exact Int.tdiv_eq_ediv h (by norm_num)
  · have h2 : 0 ≤ -d := by omega
    rw [← Int.tdiv_eq_ediv h2 (by norm_num), Int.neg_tdiv, neg_neg]

theorem midpoint_eq (color other : Int) :
    midpoint color other
      = if color ≤ other then other - (other - color) / 2 else other + (color - other) / 2 := by
  unfold midpoint
  rw [tdiv_two]
  split_ifs <;> first | rfl | omega

theorem midpoint_normal (a b : Int) :
    (a - midpoint a b) * (b - a) ≤ 0 ∧ (a - midpoint a b = 0 ↔ a = b) := by
  rw [midpoint_eq]
  split_ifs with h
  · exact ⟨mul_nonpos_of_nonpos_of_nonneg (by omega) (by omega), by omega⟩
  · exact ⟨mul_nonpos_of_nonneg_of_nonpos (by omega) (by omega), by omega⟩

/-- C25 (amended): `vertical_intersect_to_rect(m, q, C)` is true exactly when some
corner `(x, y, z)` of the cube `C` satisfies `(m - mid) · ((x, y, z) - mid) < 0`,
with `mid` the midpoint of `m` and `q` as the source computes it: the normal of
the tested half-space is `m - mid`, which points from the plane to `m`, so the
corners counted are those on the side of `q`.  In each channel `m - mid` is zero
when the two values agree and otherwise has the sign opposite to `q - m`. -/
theorem vertical_intersect_iff_corner_on_far_side (m q : Nat) (r1 r2 g1 g2 b1 b2 : Int) :
    (vertical_intersect_to_rect m q r1 r2 g1 g2 b1 b2 = true ↔
      ∃ x ∈ [r1, r2], ∃ y ∈ [g1, g2], ∃ z ∈ [b1, b2],
        ((byte2 m : Int) - midpoint (byte2 m) (byte2 q)) * (x - midpoint (byte2 m) (byte2 q))
          + ((byte1 m : Int) - midpoint (byte1 m) (byte1 q)) * (y - midpoint (byte1 m) (byte1 q))
          + ((byte0 m : Int) - midpoint (byte0 m) (byte0 q)) * (z - midpoint (byte0 m) (byte0 q))
          < 0) ∧
    ∀ a b : Nat, ((a : Int) - midpoint a b) * ((b : Int) - a) ≤ 0 ∧
      ((a : Int) - midpoint a b = 0 ↔ a = b) := by
  refine ⟨?_, fun a b => ⟨(midpoint_normal a b).1, ?_⟩⟩
  · unfold vertical_intersect_to_rect
    simp only [List.mem_cons, List.mem_singleton, List.not_mem_nil, or_false, exists_eq_or_imp,
      exists_eq_left]
    split_ifs <;> simp_all
  · rw [(midpoint_normal a b).2]; exact Int.natCast_inj

/-- C25 (counterexample): for `m = (0, 0, 0)`, `q = (0, 0, 100)` and the cube
`[0, 16]³` the midpoint is `(0, 0, 50)` and the corner `(0, 0, 0)` lies in the
half-space `(q - m) · (x - mid) < 0` (value `-5000`), yet
`vertical_intersect_to_rect` returns false. -/
theorem corner_on_near_side_is_not_counted :
    midpoint (byte2 0x000000) (byte2 0x000064) = 0 ∧
    midpoint (byte1 0x000000) (byte1 0x000064) = 0 ∧
    midpoint (byte0 0x000000) (byte0 0x000064) = 50 ∧
    ((byte2 0x000064 : Int) - (byte2 0x000000 : Int))
        * (0 - midpoint (byte2 0x000000) (byte2 0x000064))
      + ((byte1 0x000064 : Int) - (byte1 0x000000 : Int))
        * (0 - midpoint (byte1 0x000000) (byte1 0x000064))
      + ((byte0 0x000064 : Int) - (byte0 0x000000 : Int))
        * (0 - midpoint (byte0 0x000000) (byte0 0x000064)) < 0 ∧
    vertical_intersect_to_rect 0x000000 0x000064 0 16 0 16 0 16 = false := by
  decide

/-- C26 (amended): for all channel values `color` and `other` (0..255 in the source) the midpoint
`other - (other - color) / 2` of `vertical_intersect_to_rect` lies between the
two values; its distance to `other` is half the difference rounded down and its
distance to `color` is the rest, so with an odd difference it is the integer
nearer to `other`, one step farther from `color`, and with an even difference
it is the exact middle. -/
theorem midpoint_between_nearer_to_other (color other : Nat) :
    min (color : Int) other ≤ midpoint color other ∧
    midpoint color other ≤ max (color : Int) other ∧
    |midpoint color other - (other : Int)| = |(other : Int) - color| / 2 ∧
    (((other : Int) - color) % 2 = 1 →
      |midpoint color other - (other : Int)| + 1 = |midpoint color other - (color : Int)|) ∧
    (((other : Int) - color) % 2 = 0 →
      |midpoint color other - (other : Int)| = |midpoint color other - (color : Int)|) := by
  rw [midpoint_eq]
  split_ifs with h
  · rw [min_eq_left h, max_eq_right h, abs_of_nonpos (by omega), abs_of_nonneg (by omega),
      abs_of_nonneg (by omega)]
    omega
  · have h2 : (other : Int) ≤ color := by omega
    rw [min_eq_right h2, max_eq_left h2, abs_of_nonneg (by omega), abs_of_nonpos (by omega),
      abs_of_nonpos (by omega)]
    omega

theorem midpoint_between_nearer_to_other_witness :
    min ((5 : Nat) : Int) (8 : Nat) ≤ midpoint (5 : Nat) (8 : Nat) ∧
    midpoint (5 : Nat) (8 : Nat) ≤ max ((5 : Nat) : Int) (8 : Nat) ∧
    midpoint (5 : Nat) (8 : Nat) = 7 ∧
    |midpoint (5 : Nat) (8 : Nat) - ((8 : Nat) : Int)| + 1
      = |midpoint (5 : Nat) (8 : Nat) - ((5 : Nat) : Int)| :=
  ⟨(midpoint_between_nearer_to_other 5 8).1,
    (midpoint_between_nearer_to_other 5 8).2.1, by decide,
    (midpoint_between_nearer_to_other 5 8).2.2.2.1 (by decide)⟩

/-- C26 (counterexample): for `color = 0` and `other = 1`, an odd difference, the
midpoint is `1`, the value `other` itself: it is at distance 1 from `color` and
at distance 0 from `other`, so it is not the integer nearer to `color`. -/
theorem midpoint_of_odd_difference_is_nearer_to_other :
    midpoint 0 1 = 1 ∧ ((1 : Int) - 0) % 2 = 1 ∧ |midpoint 0 1 - 0| = 1 ∧ |midpoint 0 1 - 1| = 0 ∧
      ¬ |midpoint 0 1 - 0| < |midpoint 0 1 - 1| := by
  decide

end EuclideanPalette

/-! ## The sweep of `absorb_color` -/

namespace SpaceShockColorExtractor

open EuclideanPalette (setAt byte0 byte1 byte2 setAt_same setAt_ne)

theorem foldl_product {S A B : Type} (f : S → A × B → S) (l2 : List B) :
    ∀ (l1 : List A) (s : S),
      (l1 ×ˢ l2).foldl f s
        = l1.foldl (fun s a => l2.foldl (fun s b => f s (a, b)) s) s := by
  intro l1
  induction l1 with
  | nil => intro s; rfl
  | cons a rest ih =>
    intro s
    rw [List.product_cons, List.foldl_append, List.foldl_map, List.foldl_cons]
    exact ih _

/-- The body of the sweep changes one slot: the count of the cell becomes its
`cellCount`, the node stays; the difference is added to `pixelCount`. -/
theorem absorbCell_counts (kernel : Nat → Nat)
    (kernelBaseSize kernelHeight rStart gStart bStart : Nat) (st : AbsorbState)
    (c : Nat × Nat × Nat) :
    (absorbCell kernel kernelBaseSize kernelHeight rStart gStart bStart st c.1 c.2.1
        c.2.2).colorCounts
      = setAt st.colorCounts (cellColor c)
          ⟨cellCount kernel kernelBaseSize kernelHeight rStart gStart bStart
            (st.colorCounts (cellColor c)).count c, (st.colorCounts (cellColor c)).node⟩ ∧
    (absorbCell kernel kernelBaseSize kernelHeight rStart gStart bStart st c.1 c.2.1
        c.2.2).pixelCount
      = st.pixelCount + ((st.colorCounts (cellColor c)).count
          - cellCount kernel kernelBaseSize kernelHeight rStart gStart bStart
            (st.colorCounts (cellColor c)).count c) := by
  unfold absorbCell cellCount cellColor
  simp only
  by_cases h1 : (st.colorCounts ((c.1 <<< 16) ||| (c.2.1 <<< 8) ||| c.2.2)).count = 0
  · rw [if_pos h1]
    refine ⟨?_, ?_⟩
    · funext x
      by_cases hx : x = (c.1 <<< 16) ||| (c.2.1 <<< 8) ||| c.2.2
      · rw [hx, setAt_same, h1, Nat.zero_sub]
        conv_lhs => rw [show st.colorCounts ((c.1 <<< 16) ||| (c.2.1 <<< 8) ||| c.2.2)
          = ⟨(st.colorCounts ((c.1 <<< 16) ||| (c.2.1 <<< 8) ||| c.2.2)).count,
            (st.colorCounts ((c.1 <<< 16) ||| (c.2.1 <<< 8) ||| c.2.2)).node⟩ from rfl, h1]
      · rw [setAt_ne _ _ hx]
    · rw [h1, Nat.zero_sub]
      rfl
  · rw [if_neg h1]
    by_cases h2 : (st.colorCounts ((c.1 <<< 16) ||| (c.2.1 <<< 8) ||| c.2.2)).count
        - ((kernelHeight * kernel ((c.1 - rStart) * kernelBaseSize * kernelBaseSize
          + (c.2.1 - gStart) * kernelBaseSize + (c.2.2 - bStart))) >>> 16)
        = (st.colorCounts ((c.1 <<< 16) ||| (c.2.1 <<< 8) ||| c.2.2)).count
    · rw [if_pos h2]
      refine ⟨?_, ?_⟩
      · funext x
        by_cases hx : x = (c.1 <<< 16) ||| (c.2.1 <<< 8) ||| c.2.2
        · rw [hx, setAt_same, h2]
        · rw [setAt_ne _ _ hx]
      · rw [h2, Nat.sub_self, Nat.add_zero]
    · rw [if_neg h2]
      exact ⟨rfl, rfl⟩

/-- The sweep over a list of cells with distinct colours: a colour that is no cell
keeps its slot, the slot of a cell gets its `cellCount`, and `pixelCount` grows
by the sum of the differences. -/
theorem foldl_absorbCell_counts (kernel : Nat → Nat)
    (kernelBaseSize kernelHeight rStart gStart bStart : Nat) :
    ∀ (l : List (Nat × Nat × Nat)) (st : AbsorbState), (l.map cellColor).Nodup →
      (∀ x, x ∉ l.map cellColor →
        ((l.foldl (fun st c => absorbCell kernel kernelBaseSize kernelHeight rStart gStart bStart
          st c.1 c.2.1 c.2.2) st).colorCounts x) = st.colorCounts x) ∧
      (∀ c ∈ l,
        (l.foldl (fun st c => absorbCell kernel kernelBaseSize kernelHeight rStart gStart bStart
          st c.1 c.2.1 c.2.2) st).colorCounts (cellColor c)
          = ⟨cellCount kernel kernelBaseSize kernelHeight rStart gStart bStart
            (st.colorCounts (cellColor c)).count c, (st.colorCounts (cellColor c)).node⟩) ∧
      (l.foldl (fun st c => absorbCell kernel kernelBaseSize kernelHeight rStart gStart bStart
          st c.1 c.2.1 c.2.2) st).pixelCount
        = st.pixelCount + (l.map (fun c => (st.colorCounts (cellColor c)).count
          - cellCount kernel kernelBaseSize kernelHeight rStart gStart bStart
            (st.colorCounts (cellColor c)).count c)).sum := by
  intro l
  induction l with
  | nil =>
    intro st _
    exact ⟨fun _ _ => rfl, fun c hc => absurd hc (List.not_mem_nil c), rfl⟩
  | cons c rest ih =>
    intro st hnd
    rw [List.map_cons, List.nodup_cons] at hnd
    obtain ⟨hc, hrest⟩ := hnd
    obtain ⟨s1, s2⟩ := absorbCell_counts kernel kernelBaseSize kernelHeight rStart gStart bStart
      st c
    obtain ⟨i1, i2, i3⟩ := ih (absorbCell kernel kernelBaseSize kernelHeight rStart gStart bStart
      st c.1 c.2.1 c.2.2) hrest
    rw [List.foldl_cons]
    refine ⟨?_, ?_, ?_⟩
    · intro x hx
      rw [List.map_cons, List.mem_cons, not_or] at hx
      rw [i1 x hx.2, s1, setAt_ne _ _ hx.1]
    · intro d hd
      rcases List.mem_cons.mp hd with hd | hd
      · rw [hd, i1 _ hc, s1, setAt_same]
      · have hne : cellColor d ≠ cellColor c := fun e => hc (e ▸ List.mem_map_of_mem _ hd)
        rw [i2 d hd, s1, setAt_ne _ _ hne]
    · rw [i3, s2, List.map_cons, List.sum_cons, Nat.add_assoc]
      congr 3
      apply List.map_congr_left
      intro d hd
      have hne : cellColor d ≠ cellColor c := fun e => hc (e ▸ List.mem_map_of_mem _ hd)
      rw [s1, setAt_ne _ _ hne]

end SpaceShockColorExtractor
namespace SpaceShockColorExtractor

open EuclideanPalette (setAt byte0 byte1 byte2 setAt_same setAt_ne)

theorem absorb_color_eq_fold (colorCounts : Nat → CountNode) (buf : Buffer)
    (map : List (Nat × Nat)) (kernel : Nat → Nat) (kernelSize color kernelHeight : Nat) :
    absorb_color colorCounts buf map kernel kernelSize color kernelHeight
      = (sweepCells kernelSize color).foldl
          (fun st c => absorbCell kernel (kernelSize * 2 + 1) kernelHeight
            (byte2 color - kernelSize) (byte1 color - kernelSize) (byte0 color - kernelSize)
            st c.1 c.2.1 c.2.2)
          ⟨colorCounts, buf, map, 0⟩ := by
  unfold absorb_color sweepCells
  simp only [foldl_product]

theorem mem_sweepCells (kernelSize color : Nat) (c : Nat × Nat × Nat) :
    c ∈ sweepCells kernelSize color ↔
      (byte2 color - kernelSize ≤ c.1 ∧ c.1 ≤ min (byte2 color + kernelSize) 255) ∧
      (byte1 color - kernelSize ≤ c.2.1 ∧ c.2.1 ≤ min (byte1 color + kernelSize) 255) ∧
      (byte0 color - kernelSize ≤ c.2.2 ∧ c.2.2 ≤ min (byte0 color + kernelSize) 255) := by
  obtain ⟨r, g, b⟩ := c
  unfold sweepCells
  rw [List.mem_product, List.mem_product, List.mem_range'_1, List.mem_range'_1,
    List.mem_range'_1]
  have h2 := EuclideanPalette.byte2_lt color
  have h1 := EuclideanPalette.byte1_lt color
  have h0 := EuclideanPalette.byte0_lt color
  simp only
  omega

theorem sweepCells_colors_nodup (kernelSize color : Nat) :
    ((sweepCells kernelSize color).map cellColor).Nodup := by
  apply List.Nodup.map_on
  · intro c hc d hd hcd
    rw [mem_sweepCells] at hc hd
    obtain ⟨c1, c2, c3⟩ := c
    obtain ⟨d1, d2, d3⟩ := d
    simp only at hc hd
    have pc := pack_bytes c1 c2 c3 (by omega) (by omega) (by omega)
    have pd := pack_bytes d1 d2 d3 (by omega) (by omega) (by omega)
    unfold cellColor at hcd
    simp only at hcd
    rw [hcd] at pc
    rw [← pc.1, ← pc.2.1, ← pc.2.2, pd.1, pd.2.1, pd.2.2]
  · unfold sweepCells
    exact List.Nodup.product (List.nodup_range' _ _) (List.Nodup.product (List.nodup_range' _ _)
      (List.nodup_range' _ _))

theorem unpack_bytes (x : Nat) (hx : x < 2 ^ 24) :
    cellColor (byte2 x, byte1 x, byte0 x) = x := by
  unfold cellColor
  simp only
  rw [pack_eq _ _ _ (EuclideanPalette.byte1_lt x) (EuclideanPalette.byte0_lt x)]
  unfold byte2 byte1 byte0
  omega

theorem inSweep_iff (kernelSize color x : Nat) :
    InSweep kernelSize color x ↔
      x < 2 ^ 24 ∧ (byte2 x, byte1 x, byte0 x) ∈ sweepCells kernelSize color := by
  rw [mem_sweepCells]
  unfold InSweep channelGap
  have a2 := EuclideanPalette.byte2_lt color
  have a1 := EuclideanPalette.byte1_lt color
  have a0 := EuclideanPalette.byte0_lt color
  have b2 := EuclideanPalette.byte2_lt x
  have b1 := EuclideanPalette.byte1_lt x
  have b0 := EuclideanPalette.byte0_lt x
  simp only
  omega

theorem cellColor_mem_sweep (kernelSize color : Nat) (c : Nat × Nat × Nat)
    (hc : c ∈ sweepCells kernelSize color) :
    cellColor c < 2 ^ 24 ∧ (byte2 (cellColor c), byte1 (cellColor c), byte0 (cellColor c)) = c := by
  rw [mem_sweepCells] at hc
  obtain ⟨c1, c2, c3⟩ := c
  simp only at hc
  have pc := pack_bytes c1 c2 c3 (by omega) (by omega) (by omega)
  unfold cellColor
  simp only
  rw [pc.1, pc.2.1, pc.2.2]
  refine ⟨?_, rfl⟩
  rw [pack_eq _ _ _ (by omega) (by omega)]
  omega

/-- What `absorb_color` does to the histogram: the slot of a colour `x` in the swept
box gets the count `n - ((kernelHeight * weight) >> 16)`, saturated at zero, for
the weight at the index `sweepIndex`; every other slot, and every node, stays. -/
theorem absorb_color_counts (colorCounts : Nat → CountNode) (buf : Buffer)
    (map : List (Nat × Nat)) (kernel : Nat → Nat) (kernelSize color kernelHeight : Nat)
    (x : Nat) :
    (absorb_color colorCounts buf map kernel kernelSize color kernelHeight).colorCounts x
      = if InSweep kernelSize color x then
          ⟨(colorCounts x).count
            - ((kernelHeight * kernel (sweepIndex kernelSize color x)) >>> 16),
            (colorCounts x).node⟩
        else colorCounts x := by
  rw [absorb_color_eq_fold]
  obtain ⟨i1, i2, _⟩ := foldl_absorbCell_counts kernel (kernelSize * 2 + 1) kernelHeight
    (byte2 color - kernelSize) (byte1 color - kernelSize) (byte0 color - kernelSize)
    (sweepCells kernelSize color) ⟨colorCounts, buf, map, 0⟩
    (sweepCells_colors_nodup kernelSize color)
  by_cases hx : InSweep kernelSize color x
  · rw [if_pos hx]
    rw [inSweep_iff] at hx
    have := i2 _ hx.2
    rw [unpack_bytes x hx.1] at this
    rw [this]
    rfl
  · rw [if_neg hx]
    apply i1
    intro hmem
    obtain ⟨c, hc, hcx⟩ := List.mem_map.mp hmem
    obtain ⟨q1, q2⟩ := cellColor_mem_sweep kernelSize color c hc
    apply hx
    rw [inSweep_iff, ← hcx, q2]
    exact ⟨q1, hc⟩

/-- The value `absorb_color` returns is the sum, over all 24-bit colours, of the
count before less the count after. -/
theorem absorb_color_pixelCount (colorCounts : Nat → CountNode) (buf : Buffer)
    (map : List (Nat × Nat)) (kernel : Nat → Nat) (kernelSize color kernelHeight : Nat) :
    (absorb_color colorCounts buf map kernel kernelSize color kernelHeight).pixelCount
      = ∑ x in Finset.range (2 ^ 24), ((colorCounts x).count
          - ((absorb_color colorCounts buf map kernel kernelSize color
              kernelHeight).colorCounts x).count) := by
  have hfold := absorb_color_eq_fold colorCounts buf map kernel kernelSize color kernelHeight
  obtain ⟨i1, i2, i3⟩ := foldl_absorbCell_counts kernel (kernelSize * 2 + 1) kernelHeight
    (byte2 color - kernelSize) (byte1 color - kernelSize) (byte0 color - kernelSize)
    (sweepCells kernelSize color) ⟨colorCounts, buf, map, 0⟩
    (sweepCells_colors_nodup kernelSize color)
  rw [← hfold] at i1 i2 i3
  have hsub : ((sweepCells kernelSize color).map cellColor).toFinset ⊆ Finset.range (2 ^ 24) := by
    intro x hx
    rw [List.mem_toFinset] at hx
    obtain ⟨c, hc, hcx⟩ := List.mem_map.mp hx
    rw [Finset.mem_range, ← hcx]
    exact (cellColor_mem_sweep kernelSize color c hc).1
  rw [← Finset.sum_subset hsub (by
    intro x _ hx
    rw [List.mem_toFinset] at hx
    rw [i1 x hx]
    exact Nat.sub_self _)]
  rw [List.sum_toFinset _ (sweepCells_colors_nodup kernelSize color), List.map_map, i3,
    Nat.zero_add]
  congr 1
  apply List.map_congr_left
  intro c hc
  show _ = (colorCounts (cellColor c)).count - _
  rw [i2 c hc]

end SpaceShockColorExtractor

namespace SpaceShockColorExtractor

open EuclideanPalette (setAt byte0 byte1 byte2 setAt_same setAt_ne)

/-- For a centre whose three channels are at least the kernel size, the index that
`absorb_color` reads for a colour of the swept box is the index of the offset
from the centre to that colour. -/
theorem sweepIndex_aligned (kernel : Nat → Nat) (kernelSize color x : Nat)
    (h2 : kernelSize ≤ byte2 color) (h1 : kernelSize ≤ byte1 color)
    (h0 : kernelSize ≤ byte0 color) (hx : InSweep kernelSize color x) :
    kernel (sweepIndex kernelSize color x)
      = kernelAt kernel kernelSize ((byte2 x : Int) - byte2 color) ((byte1 x : Int) - byte1 color)
          ((byte0 x : Int) - byte0 color) := by
  unfold InSweep channelGap at hx
  unfold kernelAt sweepIndex
  congr 1
  have e2 : (byte2 x : Int) - byte2 color + kernelSize
      = ((byte2 x - (byte2 color - kernelSize) : Nat) : Int) := by omega
  have e1 : (byte1 x : Int) - byte1 color + kernelSize
      = ((byte1 x - (byte1 color - kernelSize) : Nat) : Int) := by omega
  have e0 : (byte0 x : Int) - byte0 color + kernelSize
      = ((byte0 x - (byte0 color - kernelSize) : Nat) : Int) := by omega
  rw [e2, e1, e0]
  have : (((byte2 x - (byte2 color - kernelSize) : Nat) : Int) * ((kernelSize : Int) * 2 + 1)
      * ((kernelSize : Int) * 2 + 1)
      + ((byte1 x - (byte1 color - kernelSize) : Nat) : Int) * ((kernelSize : Int) * 2 + 1)
      + ((byte0 x - (byte0 color - kernelSize) : Nat) : Int))
      = (((byte2 x - (byte2 color - kernelSize)) * (kernelSize * 2 + 1) * (kernelSize * 2 + 1)
        + (byte1 x - (byte1 color - kernelSize)) * (kernelSize * 2 + 1)
        + (byte0 x - (byte0 color - kernelSize)) : Nat) : Int) := by push_cast; ring
  rw [this, Int.toNat_natCast]

/-- C22 (failing input): for the centre `(0, 0, 0)`, a kernel of any size at least
one and the colour `p = (0, 0, 1)`, `absorb_color` lowers the count of `p` by the
kernel entry at the offset `(-size, -size, 1 - size)`, the flat index 1, not by
the entry at the offset `p - c = (0, 0, 1)`.  With 10 pixels of `p`, height 10
and a kernel of size 2 whose entry at the offset `(0, 0, 1)` is 65535 and whose
other entries are 0, the count of `p` stays 10 where
`max(0, n - ((h * K[p - c]) >> 16))` is 1. -/
theorem absorb_weight_read_at_clamped_offset :
    (∀ (kernel : Nat → Nat) (colorCounts : Nat → CountNode) (buf : Buffer)
        (map : List (Nat × Nat)) (size kernelHeight : Nat),
      ((absorb_color colorCounts buf map kernel (size + 1) 0x000000
          kernelHeight).colorCounts 0x000001).count
        = (colorCounts 0x000001).count
          - ((kernelHeight * kernelAt kernel (size + 1) (-((size + 1 : Nat) : Int))
              (-((size + 1 : Nat) : Int)) (1 - ((size + 1 : Nat) : Int))) >>> 16)) ∧
    ((sort_colors (add_bitmap create (List.replicate 10 0x000001))).colorCounts 0x000001).count
      = 10 ∧
    kernelAt (fun j => if j = 63 then 65535 else 0) 2 0 0 1 = 65535 ∧
    kernelAt (fun j => if j = 63 then 65535 else 0) 2 (-2) (-2) (-1) = 0 ∧
    max (0 : Int) (10 - (((10 * kernelAt (fun j => if j = 63 then 65535 else 0) 2 0 0 1) >>> 16
      : Nat) : Int)) = 1 ∧
    ((absorb_color (sort_colors (add_bitmap create (List.replicate 10 0x000001))).colorCounts
        (sort_colors (add_bitmap create (List.replicate 10 0x000001))).sortedBuffer
        (sort_colors (add_bitmap create (List.replicate 10 0x000001))).sortedMap
        (fun j => if j = 63 then 65535 else 0) 2 0x000000 10).colorCounts 0x000001).count
      = 10 := by
  have hgen : ∀ (kernel : Nat → Nat) (colorCounts : Nat → CountNode) (buf : Buffer)
      (map : List (Nat × Nat)) (size kernelHeight : Nat),
      ((absorb_color colorCounts buf map kernel (size + 1) 0x000000
          kernelHeight).colorCounts 0x000001).count
        = (colorCounts 0x000001).count
          - ((kernelHeight * kernelAt kernel (size + 1) (-((size + 1 : Nat) : Int))
              (-((size + 1 : Nat) : Int)) (1 - ((size + 1 : Nat) : Int))) >>> 16) := by
    intro kernel colorCounts buf map size kernelHeight
    have e2 : byte2 0x000001 = 0 := by decide
    have e1 : byte1 0x000001 = 0 := by decide
    have e0 : byte0 0x000001 = 1 := by decide
    have d2 : byte2 0x000000 = 0 := by decide
    have d1 : byte1 0x000000 = 0 := by decide
    have d0 : byte0 0x000000 = 0 := by decide
    have hin : InSweep (size + 1) 0x000000 0x000001 := by
      unfold InSweep channelGap
      exact ⟨by norm_num, by omega, by omega, by omega⟩
    have k1 : sweepIndex (size + 1) 0x000000 0x000001 = 1 := by
      unfold sweepIndex
      rw [e2, e1, e0, d2, d1, d0]
      simp
    have k2 : kernelAt kernel (size + 1) (-((size + 1 : Nat) : Int))
        (-((size + 1 : Nat) : Int)) (1 - ((size + 1 : Nat) : Int)) = kernel 1 := by
      unfold kernelAt
      congr 1
      have : (-((size + 1 : Nat) : Int) + ((size + 1 : Nat) : Int))
          * ((((size + 1 : Nat) : Int)) * 2 + 1) * ((((size + 1 : Nat) : Int)) * 2 + 1)
          + (-((size + 1 : Nat) : Int) + ((size + 1 : Nat) : Int))
            * ((((size + 1 : Nat) : Int)) * 2 + 1)
          + (1 - ((size + 1 : Nat) : Int) + ((size + 1 : Nat) : Int)) = 1 := by ring
      rw [this]
      rfl
    rw [absorb_color_counts, if_pos hin, k1, k2]
  refine ⟨hgen, by decide!, by decide, by decide, by decide, ?_⟩
  rw [hgen (fun j => if j = 63 then 65535 else 0) _ _ _ 1 10]
  have hc : ((sort_colors (add_bitmap create (List.replicate 10 0x000001))).colorCounts
      0x000001).count = 10 := by decide!
  rw [hc]
  decide

end SpaceShockColorExtractor

namespace SpaceShockColorExtractor

open EuclideanPalette (setAt byte0 byte1 byte2 setAt_same setAt_ne)

/-- C23: for every histogram, index, kernel, kernel size, centre and kernel
height, `absorb_color` leaves in every slot a count no larger than before; in the
swept box the new count is `max(0, n - decrement)`, the subtraction saturating
at zero; the slot of every colour outside the box `[c - size, c + size]³` is
unchanged; and the returned `pixelCount` is the sum over all 24-bit colours of
the count before less the count after. -/
theorem absorb_color_saturates_and_sums (colorCounts : Nat → CountNode) (buf : Buffer)
    (map : List (Nat × Nat)) (kernel : Nat → Nat) (kernelSize color kernelHeight : Nat) :
    (∀ x, ((absorb_color colorCounts buf map kernel kernelSize color kernelHeight).colorCounts
        x).count ≤ (colorCounts x).count) ∧
    (∀ x, InSweep kernelSize color x →
      (((absorb_color colorCounts buf map kernel kernelSize color kernelHeight).colorCounts
        x).count : Int)
        = max (0 : Int) (((colorCounts x).count : Int)
          - (((kernelHeight * kernel (sweepIndex kernelSize color x)) >>> 16 : Nat) : Int))) ∧
    (∀ x, ¬ InSweep kernelSize color x →
      (absorb_color colorCounts buf map kernel kernelSize color kernelHeight).colorCounts x
        = colorCounts x) ∧
    (absorb_color colorCounts buf map kernel kernelSize color kernelHeight).pixelCount
      = ∑ x in Finset.range (2 ^ 24), ((colorCounts x).count
          - ((absorb_color colorCounts buf map kernel kernelSize color
              kernelHeight).colorCounts x).count) := by
  refine ⟨?_, ?_, ?_, absorb_color_pixelCount _ _ _ _ _ _ _⟩
  · intro x
    rw [absorb_color_counts]
    split_ifs
    · exact Nat.sub_le _ _
    · exact Nat.le_refl _
  · intro x hx
    rw [absorb_color_counts, if_pos hx]
    show ((_ - _ : Nat) : Int) = _
    omega
  · intro x hx
    rw [absorb_color_counts, if_neg hx]

theorem absorb_color_saturates_and_sums_witness :
    InSweep 2 0x000000 0x000001 ∧ ¬ InSweep 2 0x000000 0x000003 ∧
    ((((absorb_color (fun x => if x = 1 then ⟨10, 1024⟩ else ⟨0, 0⟩) ⟨fun _ => 0, 1027⟩ []
        (fun _ => 65535) 2 0x000000 20).colorCounts 0x000001).count : Nat) : Int)
      = max (0 : Int) ((((fun x => if x = 1 then (⟨10, 1024⟩ : CountNode) else ⟨0, 0⟩) 0x000001).count : Int)
        - (((20 * (fun _ => 65535) (sweepIndex 2 0x000000 0x000001)) >>> 16 : Nat) : Int)) ∧
    (absorb_color (fun x => if x = 1 then ⟨10, 1024⟩ else ⟨0, 0⟩) ⟨fun _ => 0, 1027⟩ []
        (fun _ => 65535) 2 0x000000 20).colorCounts 0x000003
      = (fun x => if x = 1 then (⟨10, 1024⟩ : CountNode) else ⟨0, 0⟩) 0x000003 :=
  ⟨by decide, by decide,
    (absorb_color_saturates_and_sums (fun x => if x = 1 then ⟨10, 1024⟩ else ⟨0, 0⟩)
      ⟨fun _ => 0, 1027⟩ [] (fun _ => 65535) 2 0x000000 20).2.1 0x000001 (by decide),
    (absorb_color_saturates_and_sums (fun x => if x = 1 then ⟨10, 1024⟩ else ⟨0, 0⟩)
      ⟨fun _ => 0, 1027⟩ [] (fun _ => 65535) 2 0x000000 20).2.2.1 0x000003 (by decide)⟩

/-- C30: a 16-bit kernel weight `w` and a kernel height `h ≥ 1` give a decrement
`(h * w) >> 16` of at most `h - 1`; so, for a kernel of 16-bit weights,
`absorb_color` with kernel height 0 or 1 returns the histogram, the buffer and
the map as they were and the value 0, and `absorb_color` with any height leaves
a non-zero count in every slot whose count was non-zero and at least the kernel
height. -/
theorem decrement_is_below_kernel_height (kernel : Nat → Nat) (hw : ∀ j, kernel j < 65536) :
    (∀ w h : Nat, w < 65536 → 1 ≤ h → (h * w) >>> 16 ≤ h - 1) ∧
    (∀ (colorCounts : Nat → CountNode) (buf : Buffer) (map : List (Nat × Nat))
        (kernelSize color kernelHeight : Nat), kernelHeight ≤ 1 →
      absorb_color colorCounts buf map kernel kernelSize color kernelHeight
        = ⟨colorCounts, buf, map, 0⟩) ∧
    ∀ (colorCounts : Nat → CountNode) (buf : Buffer) (map : List (Nat × Nat))
        (kernelSize color kernelHeight x : Nat),
      0 < (colorCounts x).count → kernelHeight ≤ (colorCounts x).count →
      0 < ((absorb_color colorCounts buf map kernel kernelSize color kernelHeight).colorCounts
        x).count := by
  have harith : ∀ w h : Nat, w < 65536 → 1 ≤ h → (h * w) >>> 16 ≤ h - 1 := by
    intro w h hw1 hh
    rw [Nat.shiftRight_eq_div_pow]
    have : h * w ≤ h * 65535 := Nat.mul_le_mul_left h (by omega)
    have h2 : h * w / 2 ^ 16 ≤ h * 65535 / 2 ^ 16 := Nat.div_le_div_right this
    omega
  refine ⟨harith, ?_, ?_⟩
  · intro colorCounts buf map kernelSize color kernelHeight hh
    exact absorb_color_of_zero_decrement _ _ _ _ _ _ _
      (decrement_zero_of_height_le_one kernel kernelHeight hh hw)
  · intro colorCounts buf map kernelSize color kernelHeight x hpos hge
    rw [absorb_color_counts]
    split_ifs
    · show 0 < (colorCounts x).count - _
      by_cases hh : 1 ≤ kernelHeight
      · have := harith (kernel (sweepIndex kernelSize color x)) kernelHeight (hw _) hh
        omega
      · have h0 : kernelHeight = 0 := by omega
        rw [h0, Nat.zero_mul]
        simpa using hpos
    · exact hpos

theorem decrement_is_below_kernel_height_witness :
    (40 * 65535) >>> 16 ≤ 40 - 1 ∧
    absorb_color (fun x => if x = 1 then ⟨10, 1024⟩ else ⟨0, 0⟩) ⟨fun _ => 0, 1027⟩ []
        (fun _ => 65535) 2 0x000000 1
      = ⟨fun x => if x = 1 then ⟨10, 1024⟩ else ⟨0, 0⟩, ⟨fun _ => 0, 1027⟩, [], 0⟩ ∧
    0 < ((absorb_color (fun x => if x = 1 then ⟨10, 1024⟩ else ⟨0, 0⟩) ⟨fun _ => 0, 1027⟩ []
        (fun _ => 65535) 2 0x000000 10).colorCounts 0x000001).count :=
  ⟨(decrement_is_below_kernel_height (fun _ => 65535) (fun _ => (by decide : (65535 : Nat) < 65536))).1 65535 40
      (by decide) (by decide),
    (decrement_is_below_kernel_height (fun _ => 65535) (fun _ => (by decide : (65535 : Nat) < 65536))).2.1 _ _ _ _ _ _
      (by decide),
    (decrement_is_below_kernel_height (fun _ => 65535) (fun _ => (by decide : (65535 : Nat) < 65536))).2.2
      (fun x => if x = 1 then ⟨10, 1024⟩ else ⟨0, 0⟩) ⟨fun _ => 0, 1027⟩ [] 2 0x000000 10 0x000001
      (by decide) (by decide)⟩

end SpaceShockColorExtractor

/-! ## The channels of a diffused pixel -/

namespace EuclideanPalette

theorem and_shifted_mask (x a b : Nat) :
    x &&& ((2 ^ b - 1) <<< a) = (x / 2 ^ a % 2 ^ b) * 2 ^ a := by
  rw [← Nat.shiftRight_eq_div_pow, ← Nat.shiftLeft_eq]
  apply Nat.eq_of_testBit_eq
  intro j
  simp only [Nat.testBit_and, Nat.testBit_shiftLeft, Nat.testBit_two_pow_sub_one,
    Nat.testBit_mod_two_pow, Nat.testBit_shiftRight]
  by_cases h : a ≤ j
  · simp [h, Nat.add_sub_cancel' h, Bool.and_comm]
  · simp [h]

theorem int_shiftRight_16 (m : Int) : m >>> (16 : Int) = m / 65536 := by
  cases m with
  | ofNat a =>
    have h := Int.shiftRight_coe_nat a 16
    simp only [Nat.cast_ofNat] at h
    rw [Int.ofNat_eq_coe, h, Nat.shiftRight_eq_div_pow]
    norm_num
  | negSucc a =>
    have h := Int.shiftRight_negSucc a 16
    simp only [Nat.cast_ofNat] at h
    rw [h, Nat.shiftRight_eq_div_pow, Int.negSucc_eq, Int.negSucc_eq]
    norm_num
    omega

end EuclideanPalette

namespace EuclideanPalette

theorem saturate_spec (x limit k : Nat) (hx : x < 2 ^ 64) (hk : k ≤ 63)
    (hM : limit ^^^ ones64 = (2 ^ (64 - k) - 1) <<< k) :
    saturate x limit = if x < 2 ^ k then x else if x < 2 ^ 63 then ones64 else 0 := by
  unfold saturate
  rw [hM, and_shifted_mask]
  have hpow : 2 ^ (64 - k) * 2 ^ k = 2 ^ 64 := by
    rw [← pow_add]; congr 1; omega
  have hdiv : x / 2 ^ k < 2 ^ (64 - k) := by
    rw [Nat.div_lt_iff_lt_mul (Nat.two_pow_pos k)]
    omega
  rw [Nat.mod_eq_of_lt hdiv]
  have hkpos : 0 < 2 ^ k := Nat.two_pow_pos k
  by_cases h1 : x < 2 ^ k
  · rw [if_pos h1, if_neg]
    rw [not_not, Nat.div_eq_of_lt h1, Nat.zero_mul]
  · rw [if_neg h1, if_pos]
    · unfold sar63
      rw [Nat.shiftRight_eq_div_pow]
      by_cases h2 : x < 2 ^ 63
      · rw [if_pos h2, if_pos (Nat.div_eq_of_lt h2), Nat.zero_xor]
      · rw [if_neg h2, if_neg, Nat.xor_self]
        intro h0
        have : 0 < x / 2 ^ 63 := Nat.div_pos (by omega) (by norm_num)
        omega
    · have : 0 < x / 2 ^ k := Nat.div_pos (by omega) hkpos
      exact Nat.mul_ne_zero (by omega) (by omega)

theorem bits64_nonneg (v : Int) (h0 : 0 ≤ v) (h1 : v < 2 ^ 64) : bits64 v = v.toNat := by
  unfold bits64
  rw [Int.emod_eq_of_lt h0 h1]

theorem bits64_neg (v : Int) (h0 : v < 0) (h1 : -2 ^ 64 ≤ v) :
    bits64 v = (v + 2 ^ 64).toNat := by
  unfold bits64
  rw [← Int.add_emod_self, Int.emod_eq_of_lt (by omega) (by omega)]

end EuclideanPalette

namespace EuclideanPalette

theorem saturate_bits64 (v : Int) (limit k : Nat) (hk : k ≤ 63)
    (hM : limit ^^^ ones64 = (2 ^ (64 - k) - 1) <<< k) (hv1 : -2 ^ 63 ≤ v) (hv2 : v < 2 ^ 63) :
    saturate (bits64 v) limit
      = if v < 0 then 0 else if v < 2 ^ k then v.toNat else ones64 := by
  have hk63 : 2 ^ k ≤ 2 ^ 63 := Nat.pow_le_pow_right (by norm_num) hk
  have hkI : ((2 ^ k : Nat) : Int) = 2 ^ k := by push_cast; rfl
  by_cases h0 : v < 0
  · rw [if_pos h0, bits64_neg v h0 (by omega),
      saturate_spec _ limit k (by omega) hk hM, if_neg (by omega), if_neg (by omega)]
  · rw [if_neg h0, bits64_nonneg v (by omega) (by omega),
      saturate_spec _ limit k (by omega) hk hM]
    by_cases h1 : v < 2 ^ k
    · rw [if_pos h1, if_pos (by omega)]
    · rw [if_neg h1, if_neg (by omega), if_pos (by omega)]

theorem clampByte_eq (v : Int) :
    clampByte v = if v < 0 then 0 else if v < 256 then v.toNat else 255 := by
  unfold clampByte
  split_ifs <;> omega

theorem red_channel_spec (v : Int) (hv1 : -2 ^ 63 ≤ v) (hv2 : v < 2 ^ 63) :
    saturate (bits64 v) 0xffffff &&& 0xff0000 = clampByte (v / 65536) * 65536 := by
  rw [saturate_bits64 v 0xffffff 24 (by norm_num) (by decide) hv1 hv2, clampByte_eq]
  by_cases h0 : v < 0
  · rw [if_pos h0, if_pos (show v / 65536 < 0 by omega), Nat.zero_and, Nat.zero_mul]
  · rw [if_neg h0, if_neg (show ¬ v / 65536 < 0 by omega)]
    by_cases h1 : v < 2 ^ 24
    · rw [if_pos h1, if_pos (show v / 65536 < 256 by omega),
        show (0xff0000 : Nat) = (2 ^ 8 - 1) <<< 16 by decide, and_shifted_mask]
      omega
    · rw [if_neg h1, if_neg (show ¬ v / 65536 < 256 by omega)]
      decide

theorem green_channel_spec (v : Int) (hv1 : -2 ^ 63 ≤ v) (hv2 : v < 2 ^ 63) :
    saturate (bits64 v) 0x00ffff &&& 0x00ff00 = clampByte (v / 256) * 256 := by
  rw [saturate_bits64 v 0x00ffff 16 (by norm_num) (by decide) hv1 hv2, clampByte_eq]
  by_cases h0 : v < 0
  · rw [if_pos h0, if_pos (show v / 256 < 0 by omega), Nat.zero_and, Nat.zero_mul]
  · rw [if_neg h0, if_neg (show ¬ v / 256 < 0 by omega)]
    by_cases h1 : v < 2 ^ 16
    · rw [if_pos h1, if_pos (show v / 256 < 256 by omega),
        show (0x00ff00 : Nat) = (2 ^ 8 - 1) <<< 8 by decide, and_shifted_mask]
      omega
    · rw [if_neg h1, if_neg (show ¬ v / 256 < 256 by omega)]
      decide

theorem blue_channel_spec (v : Int) (hv1 : -2 ^ 63 ≤ v) (hv2 : v < 2 ^ 63) :
    (if bits64 v &&& (0x0000ff ^^^ ones64) ≠ 0 then (sar63 (bits64 v) ^^^ ones64) &&& 0x0000ff
      else bits64 v) = clampByte v := by
  have h := saturate_bits64 v 0x0000ff 8 (by norm_num) (by decide) hv1 hv2
  unfold saturate at h
  rw [clampByte_eq]
  by_cases hc : bits64 v &&& (0x0000ff ^^^ ones64) ≠ 0
  · rw [if_pos hc] at h ⊢
    rw [h]
    by_cases h0 : v < 0
    · rw [if_pos h0, if_pos h0, Nat.zero_and]
    · rw [if_neg h0, if_neg h0]
      by_cases h1 : v < 2 ^ 8
      · exfalso
        rw [if_neg h0, if_pos h1] at h
        have hb := bits64_nonneg v (by omega) (by omega)
        unfold sar63 at h
        rw [hb, Nat.shiftRight_eq_div_pow, if_pos (Nat.div_eq_of_lt (by omega)),
          Nat.zero_xor] at h
        unfold ones64 at h
        omega
      · rw [if_neg h1, if_neg (show ¬ v < 256 by omega)]
        decide
  · rw [if_neg hc] at h ⊢
    rw [h]
    by_cases h0 : v < 0
    · rw [if_pos h0, if_pos h0]
    · rw [if_neg h0, if_neg h0]
      by_cases h1 : v < 2 ^ 8
      · rw [if_pos h1, if_pos (show v < 256 by omega)]
      · exfalso
        rw [if_neg h0, if_neg h1] at h
        have hb := bits64_nonneg v (by omega) (by omega)
        rw [hb] at h
        unfold ones64 at h
        omega

end EuclideanPalette

namespace EuclideanPalette

theorem mask_red (x : Nat) : x &&& 0xff0000 = byte2 x * 65536 := by
  rw [show (0xff0000 : Nat) = (2 ^ 8 - 1) <<< 16 by decide, and_shifted_mask]
  rfl

theorem mask_green (x : Nat) : x &&& 0x00ff00 = byte1 x * 256 := by
  rw [show (0x00ff00 : Nat) = (2 ^ 8 - 1) <<< 8 by decide, and_shifted_mask]
  rfl

theorem mask_blue (x : Nat) : x &&& 0x0000ff = byte0 x := by
  rw [show (0x0000ff : Nat) = 2 ^ 8 - 1 by decide, Nat.and_pow_two_sub_one_eq_mod]
  rfl

theorem error_product_bounds (e : Int) (w : Nat) (h1 : -255 ≤ e) (h2 : e ≤ 255)
    (hw : w < 65536) : -16711425 ≤ e * w ∧ e * w ≤ 16711425 := by
  have hw0 : (0 : Int) ≤ w := Int.natCast_nonneg w
  have hw1 : (w : Int) ≤ 65535 := by omega
  constructor <;> nlinarith

theorem clampByte_le (v : Int) : clampByte v ≤ 255 := by
  rw [clampByte_eq]
  split_ifs <;> omega

/-- The value `diffusePixel` gives a neighbour, channel by channel. -/
theorem diffusePixel_channels (dstPixel : Nat) (eR eG eB : Int) (weight : Nat)
    (hR : -255 ≤ eR ∧ eR ≤ 255) (hG : -255 ≤ eG ∧ eG ≤ 255) (hB : -255 ≤ eB ∧ eB ≤ 255)
    (hw : weight < 65536) :
    diffusePixel dstPixel (eR * 65536) (eG * 256) eB weight
      = clampByte ((byte2 dstPixel : Int) + eR * weight / 65536) * 65536
        + clampByte ((byte1 dstPixel : Int) + eG * weight / 65536) * 256
        + clampByte ((byte0 dstPixel : Int) + eB * weight / 65536) := by
  obtain ⟨pR1, pR2⟩ := error_product_bounds eR weight hR.1 hR.2 hw
  obtain ⟨pG1, pG2⟩ := error_product_bounds eG weight hG.1 hG.2 hw
  obtain ⟨pB1, pB2⟩ := error_product_bounds eB weight hB.1 hB.2 hw
  have b2 := byte2_lt dstPixel
  have b1 := byte1_lt dstPixel
  have b0 := byte0_lt dstPixel
  unfold diffusePixel
  simp only
  rw [mask_red dstPixel, mask_green dstPixel, mask_blue dstPixel, int_shiftRight_16, int_shiftRight_16, int_shiftRight_16]
  have eRw : eR * 65536 * (weight : Int) / 65536 = eR * weight := by
    rw [show eR * 65536 * (weight : Int) = eR * weight * 65536 by ring]
    exact Int.mul_ediv_cancel _ (by norm_num)
  have eGw : eG * 256 * (weight : Int) / 65536 = eG * weight / 256 := by
    rw [show eG * 256 * (weight : Int) = eG * weight * 256 by ring]
    omega
  rw [eRw, eGw]
  rw [red_channel_spec _ (by push_cast; omega) (by push_cast; omega),
    green_channel_spec _ (by push_cast; omega) (by push_cast; omega),
    blue_channel_spec _ (by push_cast; omega) (by push_cast; omega)]
  have vR : (((byte2 dstPixel * 65536 : Nat) : Int) + eR * weight) / 65536
      = (byte2 dstPixel : Int) + eR * weight / 65536 := by push_cast; omega
  have vG : (((byte1 dstPixel * 256 : Nat) : Int) + eG * weight / 256) / 256
      = (byte1 dstPixel : Int) + eG * weight / 65536 := by push_cast; omega
  rw [vR, vG]
  have cR := clampByte_le ((byte2 dstPixel : Int) + eR * weight / 65536)
  have cG := clampByte_le ((byte1 dstPixel : Int) + eG * weight / 65536)
  have cB := clampByte_le ((byte0 dstPixel : Int) + eB * weight / 65536)
  have hp := SpaceShockColorExtractor.pack_eq
    (clampByte ((byte2 dstPixel : Int) + eR * weight / 65536))
    (clampByte ((byte1 dstPixel : Int) + eG * weight / 65536))
    (clampByte ((byte0 dstPixel : Int) + eB * weight / 65536)) (by omega) (by omega)
  rw [Nat.shiftLeft_eq, Nat.shiftLeft_eq] at hp
  rw [show (2 : Nat) ^ 16 = 65536 by norm_num, show (2 : Nat) ^ 8 = 256 by norm_num] at hp
  rw [hp]
  omega

end EuclideanPalette

namespace EuclideanPalette

/-- C24: in the diffusion loop, for the errors `old - new` that `palette_map_dither`
computes at the three bit positions, every 16-bit weight `w` and every
neighbour `dst`, each of the red, green and blue channels of the new neighbour
is `clamp(dst_channel + floor(err * w / 65536), 0, 255)` with `err` the
difference of that channel of `old` and `new`, and the top byte of the new
neighbour is 0. -/
theorem diffused_channels_are_clamped (oldPixel newPixel dstPixel weight : Nat)
    (hw : weight < 65536) :
    byte2 (diffusePixel dstPixel
        (((oldPixel &&& 0xff0000 : Nat) : Int) - ((newPixel &&& 0xff0000 : Nat) : Int))
        (((oldPixel &&& 0x00ff00 : Nat) : Int) - ((newPixel &&& 0x00ff00 : Nat) : Int))
        (((oldPixel &&& 0x0000ff : Nat) : Int) - ((newPixel &&& 0x0000ff : Nat) : Int)) weight)
      = clampByte ((byte2 dstPixel : Int)
          + ((byte2 oldPixel : Int) - byte2 newPixel) * weight / 65536) ∧
    byte1 (diffusePixel dstPixel
        (((oldPixel &&& 0xff0000 : Nat) : Int) - ((newPixel &&& 0xff0000 : Nat) : Int))
        (((oldPixel &&& 0x00ff00 : Nat) : Int) - ((newPixel &&& 0x00ff00 : Nat) : Int))
        (((oldPixel &&& 0x0000ff : Nat) : Int) - ((newPixel &&& 0x0000ff : Nat) : Int)) weight)
      = clampByte ((byte1 dstPixel : Int)
          + ((byte1 oldPixel : Int) - byte1 newPixel) * weight / 65536) ∧
    byte0 (diffusePixel dstPixel
        (((oldPixel &&& 0xff0000 : Nat) : Int) - ((newPixel &&& 0xff0000 : Nat) : Int))
        (((oldPixel &&& 0x00ff00 : Nat) : Int) - ((newPixel &&& 0x00ff00 : Nat) : Int))
        (((oldPixel &&& 0x0000ff : Nat) : Int) - ((newPixel &&& 0x0000ff : Nat) : Int)) weight)
      = clampByte ((byte0 dstPixel : Int)
          + ((byte0 oldPixel : Int) - byte0 newPixel) * weight / 65536) ∧
    diffusePixel dstPixel
        (((oldPixel &&& 0xff0000 : Nat) : Int) - ((newPixel &&& 0xff0000 : Nat) : Int))
        (((oldPixel &&& 0x00ff00 : Nat) : Int) - ((newPixel &&& 0x00ff00 : Nat) : Int))
        (((oldPixel &&& 0x0000ff : Nat) : Int) - ((newPixel &&& 0x0000ff : Nat) : Int)) weight
      / 2 ^ 24 = 0 := by
  have o2 := byte2_lt oldPixel
  have o1 := byte1_lt oldPixel
  have o0 := byte0_lt oldPixel
  have n2 := byte2_lt newPixel
  have n1 := byte1_lt newPixel
  have n0 := byte0_lt newPixel
  have eR : ((oldPixel &&& 0xff0000 : Nat) : Int) - ((newPixel &&& 0xff0000 : Nat) : Int)
      = ((byte2 oldPixel : Int) - byte2 newPixel) * 65536 := by
    rw [mask_red, mask_red]; push_cast; ring
  have eG : ((oldPixel &&& 0x00ff00 : Nat) : Int) - ((newPixel &&& 0x00ff00 : Nat) : Int)
      = ((byte1 oldPixel : Int) - byte1 newPixel) * 256 := by
    rw [mask_green, mask_green]; push_cast; ring
  have eB : ((oldPixel &&& 0x0000ff : Nat) : Int) - ((newPixel &&& 0x0000ff : Nat) : Int)
      = (byte0 oldPixel : Int) - byte0 newPixel := by
    rw [mask_blue, mask_blue]
  rw [eR, eG, eB, diffusePixel_channels dstPixel _ _ _ weight (by omega) (by omega) (by omega) hw]
  have cR := clampByte_le ((byte2 dstPixel : Int)
    + ((byte2 oldPixel : Int) - byte2 newPixel) * weight / 65536)
  have cG := clampByte_le ((byte1 dstPixel : Int)
    + ((byte1 oldPixel : Int) - byte1 newPixel) * weight / 65536)
  have cB := clampByte_le ((byte0 dstPixel : Int)
    + ((byte0 oldPixel : Int) - byte0 newPixel) * weight / 65536)
  unfold byte2 byte1 byte0 at *
  refine ⟨?_, ?_, ?_, ?_⟩ <;> omega

theorem diffused_channels_are_clamped_witness :
    byte2 (diffusePixel 0x20F005
        (((0x102030 &&& 0xff0000 : Nat) : Int) - ((0x000000 &&& 0xff0000 : Nat) : Int))
        (((0x102030 &&& 0x00ff00 : Nat) : Int) - ((0x000000 &&& 0x00ff00 : Nat) : Int))
        (((0x102030 &&& 0x0000ff : Nat) : Int) - ((0x000000 &&& 0x0000ff : Nat) : Int)) 21503)
      = clampByte ((byte2 0x20F005 : Int)
          + ((byte2 0x102030 : Int) - byte2 0x000000) * (21503 : Nat) / 65536) ∧
    diffusePixel 0x20F005
        (((0x102030 &&& 0xff0000 : Nat) : Int) - ((0x000000 &&& 0xff0000 : Nat) : Int))
        (((0x102030 &&& 0x00ff00 : Nat) : Int) - ((0x000000 &&& 0x00ff00 : Nat) : Int))
        (((0x102030 &&& 0x0000ff : Nat) : Int) - ((0x000000 &&& 0x0000ff : Nat) : Int)) 21503
      = 0x25FA14 :=
  ⟨(diffused_channels_are_clamped 0x102030 0x000000 0x20F005 21503 (by decide)).1, by decide⟩

end EuclideanPalette

/-! ## The layout of the candidate buffer -/

namespace EuclideanPalette

theorem midpoint_self (a : Int) : midpoint a a = a := by
  unfold midpoint
  rw [sub_self, Int.zero_tdiv, sub_zero]

/-- The bisector test of a colour against itself fails: the normal is zero. -/
theorem vertical_intersect_self (c : Nat) (r1 r2 g1 g2 b1 b2 : Int) :
    vertical_intersect_to_rect c c r1 r2 g1 g2 b1 b2 = false := by
  unfold vertical_intersect_to_rect
  simp only [midpoint_self, sub_self, zero_mul, add_zero, lt_self_iff_false, if_false]

theorem distCache_self (t : List Nat) (i : Nat) : distCache t i i = 0 := by
  unfold distCache
  rw [if_neg (Nat.lt_irrefl i), if_neg (Nat.lt_irrefl i)]

theorem distCache_nonneg (t : List Nat) (i j : Nat) : 0 ≤ distCache t i j := by
  unfold distCache
  split_ifs
  · exact color_distance_nonneg _ _ _ _ _ _
  · exact color_distance_nonneg _ _ _ _ _ _
  · exact le_refl 0

theorem nearestAdmitted_of_zero (t : List Nat) (o : Nat) :
    ∀ (l : List Nat) (acc : Int × Nat), acc.1 = 0 → nearestAdmitted t o l acc = acc := by
  intro l
  induction l with
  | nil => intro acc _; rfl
  | cons k rest ih =>
    intro acc h
    unfold nearestAdmitted
    rw [if_neg (by rw [h]; exact not_lt.mpr (distCache_nonneg t o k))]
    exact ih acc h

/-- The admission sweep appends the bytes of some of the entries of the line, in
the order of the line, and never the seed itself. -/
theorem admissionSweep_sublist (t : List Nat) (findIndex : Nat) (searchRange : Int)
    (rs re gs ge bs be : Int) :
    ∀ (line : List DistanceInfo) (indexes : List Nat),
      ∃ admitted : List DistanceInfo, admitted.Sublist line ∧
        (∀ info ∈ admitted, info.otherIndex ≠ findIndex) ∧
        admissionSweep t findIndex searchRange rs re gs ge bs be line indexes
          = indexes ++ admitted.map (fun info => toByte info.otherIndex) := by
  intro line
  induction line with
  | nil =>
    intro indexes
    exact ⟨[], List.Sublist.refl _, fun _ h => absurd h (List.not_mem_nil _),
      by simp [admissionSweep]⟩
  | cons info rest ih =>
    intro indexes
    unfold admissionSweep
    by_cases h1 : info.distance ≥ searchRange
    · rw [if_pos h1]
      exact ⟨[], List.nil_sublist _, fun _ h => absurd h (List.not_mem_nil _), by simp⟩
    · rw [if_neg h1]
      by_cases h2 : vertical_intersect_to_rect
          (t.getD (nearestAdmitted t info.otherIndex indexes.tail
            (distCache t info.otherIndex findIndex, findIndex)).2 0)
          (t.getD info.otherIndex 0) rs re gs ge bs be = true
      · rw [if_pos h2]
        obtain ⟨adm, s1, s2, s3⟩ := ih (indexes ++ [toByte info.otherIndex])
        refine ⟨info :: adm, List.Sublist.cons₂ _ s1, ?_, ?_⟩
        · intro x hx
          rcases List.mem_cons.mp hx with hx | hx
          · rw [hx]
            intro heq
            rw [heq, nearestAdmitted_of_zero t findIndex _ _ (distCache_self t findIndex),
              vertical_intersect_self] at h2
            exact Bool.false_ne_true h2
          · exact s2 x hx
        · rw [s3, List.map_cons, List.append_assoc, List.singleton_append]
      · rw [if_neg h2]
        obtain ⟨adm, s1, s2, s3⟩ := ih indexes
        exact ⟨adm, List.Sublist.cons _ s1, s2, s3⟩

theorem sortedDistCache_indices (sort : List DistanceInfo → List DistanceInfo)
    (hsort : IsSort sort) (t : List Nat) (i : Nat) :
    ((sortedDistCache sort t i).map (fun info => info.otherIndex)).Perm (List.range t.length) := by
  unfold sortedDistCache
  have h := ((hsort (distRow t i)).1).map (fun info => info.otherIndex)
  have e : (distRow t i).map (fun info => info.otherIndex) = List.range t.length := by
    unfold distRow
    rw [List.map_map]
    exact List.map_id' _
  rw [e] at h
  exact h

end EuclideanPalette

namespace EuclideanPalette

/-- The list of a cube: the seed, then distinct palette indices other than the
seed, all below the table length; at most as many entries as the table has. -/
theorem cubeList_nodup (sort : List DistanceInfo → List DistanceInfo) (hsort : IsSort sort)
    (t : List Nat) (h1 : 1 ≤ t.length) (h2 : t.length ≤ 256) (k : Nat) :
    (cubeList sort t k).Nodup ∧ (cubeList sort t k).head? = some (seedOf t k) ∧
      1 ≤ (cubeList sort t k).length ∧ (cubeList sort t k).length ≤ t.length := by
  have hseed : seedOf t k < t.length := cubeSeed_snd_lt t k _ _ _ _ _ _ h1
  have hcl : cubeList sort t k
      = admissionSweep t (seedOf t k)
          (cubeSeed t (bucket t k)
            ((k / (N * N) * CubeSize : Nat) : Int)
            (((k / (N * N) * CubeSize : Nat) : Int) + (CubeSize : Nat))
            ((k / N % N * CubeSize : Nat) : Int)
            (((k / N % N * CubeSize : Nat) : Int) + (CubeSize : Nat))
            ((k % N * CubeSize : Nat) : Int)
            (((k % N * CubeSize : Nat) : Int) + (CubeSize : Nat))).1
          ((k / (N * N) * CubeSize : Nat) : Int)
          (((k / (N * N) * CubeSize : Nat) : Int) + (CubeSize : Nat))
          ((k / N % N * CubeSize : Nat) : Int)
          (((k / N % N * CubeSize : Nat) : Int) + (CubeSize : Nat))
          ((k % N * CubeSize : Nat) : Int)
          (((k % N * CubeSize : Nat) : Int) + (CubeSize : Nat))
          (sortedDistCache sort t (seedOf t k)).tail [toByte (seedOf t k)] := rfl
  obtain ⟨adm, s1, s2, s3⟩ := admissionSweep_sublist t (seedOf t k)
    (cubeSeed t (bucket t k)
      ((k / (N * N) * CubeSize : Nat) : Int)
      (((k / (N * N) * CubeSize : Nat) : Int) + (CubeSize : Nat))
      ((k / N % N * CubeSize : Nat) : Int)
      (((k / N % N * CubeSize : Nat) : Int) + (CubeSize : Nat))
      ((k % N * CubeSize : Nat) : Int)
      (((k % N * CubeSize : Nat) : Int) + (CubeSize : Nat))).1
    ((k / (N * N) * CubeSize : Nat) : Int)
    (((k / (N * N) * CubeSize : Nat) : Int) + (CubeSize : Nat))
    ((k / N % N * CubeSize : Nat) : Int)
    (((k / N % N * CubeSize : Nat) : Int) + (CubeSize : Nat))
    ((k % N * CubeSize : Nat) : Int)
    (((k % N * CubeSize : Nat) : Int) + (CubeSize : Nat))
    (sortedDistCache sort t (seedOf t k)).tail [toByte (seedOf t k)]
  rw [hcl, s3, toByte_of_lt (by omega)]
  have hperm := sortedDistCache_indices sort hsort t (seedOf t k)
  have hsub : adm.Sublist (sortedDistCache sort t (seedOf t k)) :=
    s1.trans (List.tail_sublist _)
  have hnd : (adm.map (fun info => info.otherIndex)).Nodup :=
    ((hperm.nodup_iff).mpr (List.nodup_range _)).sublist (hsub.map _)
  have hlt : ∀ info ∈ adm, info.otherIndex < t.length := fun info hi =>
    sortedDistCache_lt sort hsort t (seedOf t k) info (hsub.subset hi)
  have hmap : adm.map (fun info => toByte info.otherIndex)
      = adm.map (fun info => info.otherIndex) :=
    List.map_congr_left (fun info hi => toByte_of_lt (by have := hlt info hi; omega))
  rw [hmap]
  have hlen1 : (sortedDistCache sort t (seedOf t k)).length = t.length := by
    have := hperm.length_eq
    rw [List.length_map, List.length_range] at this
    exact this
  have hlen2 : adm.length ≤ t.length - 1 := by
    have := s1.length_le
    rw [List.length_tail, hlen1] at this
    exact this
  refine ⟨?_, rfl, ?_, ?_⟩
  · rw [List.singleton_append, List.nodup_cons]
    refine ⟨?_, hnd⟩
    intro hmem
    obtain ⟨info, hi, he⟩ := List.mem_map.mp hmem
    exact s2 info hi he
  · rw [List.length_append, List.length_singleton]
    omega
  · rw [List.length_append, List.length_singleton, List.length_map]
    omega

/-- The headers of the candidate buffer: one per cube, each recording as its
offset the number of bytes of the cubes before it; the bytes are the lists, one
after the other. -/
theorem buildCubes_offsets (sort : List DistanceInfo → List DistanceInfo) (t : List Nat) :
    ∀ (cubes : List Nat) (offset : Nat),
      (buildCubes sort t cubes offset).1.length = cubes.length ∧
      (buildCubes sort t cubes offset).2.length
        = ((buildCubes sort t cubes offset).1.map ListHead.count).sum ∧
      ∀ j < cubes.length,
        ((buildCubes sort t cubes offset).1.getD j ⟨0, 0⟩).index
          = offset + (((buildCubes sort t cubes offset).1.take j).map ListHead.count).sum := by
  intro cubes
  induction cubes with
  | nil => intro offset; exact ⟨rfl, rfl, fun j hj => absurd hj (Nat.not_lt_zero j)⟩
  | cons c rest ih =>
    intro offset
    obtain ⟨i1, i2, i3⟩ := ih (offset + (cubeList sort t c).length)
    simp only [buildCubes, List.length_cons, List.length_append, List.map_cons, List.sum_cons]
    refine ⟨by rw [i1], by rw [i2], ?_⟩
    intro j hj
    cases j with
    | zero => simp
    | succ j =>
      rw [List.getD_cons_succ, i3 j (by omega), List.take_succ_cons, List.map_cons, List.sum_cons]
      dsimp only
      omega

theorem sum_take_add_le (l : List Nat) : ∀ (j : Nat) (d : Nat), j < l.length →
    (l.take j).sum + l.getD j d ≤ l.sum := by
  induction l with
  | nil => intro j d hj; cases hj
  | cons a rest ih =>
    intro j d hj
    cases j with
    | zero => simp
    | succ j =>
      rw [List.take_succ_cons, List.sum_cons, List.getD_cons_succ, List.sum_cons]
      have := ih j d (by simpa using hj)
      omega

theorem sum_le_of_forall_le (l : List Nat) (n : Nat) (h : ∀ x ∈ l, x ≤ n) :
    l.sum ≤ l.length * n := by
  induction l with
  | nil => simp
  | cons a rest ih =>
    rw [List.sum_cons, List.length_cons, Nat.succ_mul]
    have h1 := h a (List.mem_cons_self _ _)
    have h2 := ih (fun x hx => h x (List.mem_cons_of_mem _ hx))
    omega

end EuclideanPalette

namespace EuclideanPalette

/-- C29: for a palette of 1 to 256 colours (duplicates allowed) and any sort of the
distance rows, the constructor writes one header per cube, 4096 in all; the list
of every cube, empty of palette colours or not, has between 1 and `len` entries,
which are pairwise distinct palette indices below `len`, the first being the
seed of the cube; the offset of cube `k` is the sum of the counts of the cubes
before it, so the list lies inside the bytes after the header block; and the
buffer, 8 bytes per header and one per entry, has at most
`4096 * 8 + 4096 * len` bytes. -/
theorem candidate_lists_are_well_formed (sort : List DistanceInfo → List DistanceInfo)
    (hsort : IsSort sort) (t : List Nat) (h1 : 1 ≤ t.length) (h2 : t.length ≤ 256) :
    (OptimizationPalette.create sort t).heads.length = CubeCount ∧
    (∀ k < CubeCount,
      1 ≤ ((OptimizationPalette.create sort t).heads.getD k ⟨0, 0⟩).count ∧
      ((OptimizationPalette.create sort t).heads.getD k ⟨0, 0⟩).count ≤ t.length ∧
      ((OptimizationPalette.create sort t).candidates k).length
        = ((OptimizationPalette.create sort t).heads.getD k ⟨0, 0⟩).count ∧
      ((OptimizationPalette.create sort t).candidates k).Nodup ∧
      (∀ i ∈ (OptimizationPalette.create sort t).candidates k, i < t.length) ∧
      ((OptimizationPalette.create sort t).candidates k).head? = some (seedOf t k) ∧
      ((OptimizationPalette.create sort t).heads.getD k ⟨0, 0⟩).index
        = (((OptimizationPalette.create sort t).heads.take k).map ListHead.count).sum ∧
      ((OptimizationPalette.create sort t).heads.getD k ⟨0, 0⟩).index
          + ((OptimizationPalette.create sort t).heads.getD k ⟨0, 0⟩).count
        ≤ (OptimizationPalette.create sort t).bytes.length) ∧
    (OptimizationPalette.create sort t).heads.length * 8
        + (OptimizationPalette.create sort t).bytes.length
      ≤ 4096 * 8 + 4096 * t.length := by
  have hrl : (List.range' 0 CubeCount).length = CubeCount := List.length_range' _ _ _
  obtain ⟨o1, o2, o3⟩ := buildCubes_offsets sort t (List.range' 0 CubeCount) 0
  rw [hrl] at o1 o3
  have hheads : (OptimizationPalette.create sort t).heads
      = (buildCubes sort t (List.range' 0 CubeCount) 0).1 := rfl
  have hbytes : (OptimizationPalette.create sort t).bytes
      = (buildCubes sort t (List.range' 0 CubeCount) 0).2 := rfl
  have hcount : ∀ k < CubeCount,
      ((OptimizationPalette.create sort t).heads.getD k ⟨0, 0⟩).count
        = (cubeList sort t k).length := fun k hk => (create_candidates sort t k hk).1
  have hle : ∀ k < CubeCount,
      ((OptimizationPalette.create sort t).heads.getD k ⟨0, 0⟩).count ≤ t.length := by
    intro k hk
    rw [hcount k hk]
    exact (cubeList_nodup sort hsort t h1 h2 k).2.2.2
  have hsum : (OptimizationPalette.create sort t).bytes.length ≤ CubeCount * t.length := by
    rw [hbytes, o2, ← hheads]
    have := sum_le_of_forall_le ((OptimizationPalette.create sort t).heads.map ListHead.count)
      t.length (by
        intro x hx
        obtain ⟨i, hi, rfl⟩ := List.getElem_of_mem hx
        rw [List.length_map, hheads, o1] at hi
        have := hle i hi
        rw [List.getD_eq_getElem _ _ (by rw [hheads, o1]; exact hi)] at this
        rw [List.getElem_map]
        exact this)
    rw [List.length_map, hheads, o1] at this
    rw [hheads]
    exact this
  have hC : CubeCount = 4096 := rfl
  refine ⟨o1, ?_, ?_⟩
  · intro k hk
    obtain ⟨c1, c2⟩ := create_candidates sort t k hk
    obtain ⟨n1, n2, n3, n4⟩ := cubeList_nodup sort hsort t h1 h2 k
    rw [c2, c1]
    refine ⟨n3, n4, rfl, n1, cubeList_lt sort hsort t h1 k, n2, ?_, ?_⟩
    · rw [hheads, o3 k hk, Nat.zero_add]
    · have hs := sum_take_add_le ((OptimizationPalette.create sort t).heads.map ListHead.count) k 0
        (by rw [List.length_map, hheads, o1]; exact hk)
      rw [← List.map_take, List.getD_eq_getElem _ _ (by
        rw [List.length_map, hheads, o1]; exact hk), List.getElem_map,
        ← List.getD_eq_getElem _ ⟨0, 0⟩, c1] at hs
      rw [hheads, o3 k hk, Nat.zero_add, hbytes, o2, ← hheads]
      exact hs
  · rw [hheads, o1, hC]
    rw [hC] at hsum
    omega

theorem candidate_lists_are_well_formed_witness :
    (OptimizationPalette.create insertionSort [0x000000, 0xFFFFFF, 0x000000]).heads.length
      = CubeCount ∧
    ((OptimizationPalette.create insertionSort [0x000000, 0xFFFFFF, 0x000000]).candidates
      0).Nodup ∧
    ((OptimizationPalette.create insertionSort [0x000000, 0xFFFFFF, 0x000000]).candidates
      0).head? = some (seedOf [0x000000, 0xFFFFFF, 0x000000] 0) ∧
    (OptimizationPalette.create insertionSort [0x000000, 0xFFFFFF, 0x000000]).heads.length * 8
        + (OptimizationPalette.create insertionSort [0x000000, 0xFFFFFF, 0x000000]).bytes.length
      ≤ 4096 * 8 + 4096 * [0x000000, 0xFFFFFF, 0x000000].length :=
  ⟨(candidate_lists_are_well_formed insertionSort insertionSort_isSort
      [0x000000, 0xFFFFFF, 0x000000] (by decide) (by decide)).1,
    ((candidate_lists_are_well_formed insertionSort insertionSort_isSort
      [0x000000, 0xFFFFFF, 0x000000] (by decide) (by decide)).2.1 0 (by decide)).2.2.2.1,
    ((candidate_lists_are_well_formed insertionSort insertionSort_isSort
      [0x000000, 0xFFFFFF, 0x000000] (by decide) (by decide)).2.1 0 (by decide)).2.2.2.2.2.1,
    (candidate_lists_are_well_formed insertionSort insertionSort_isSort
      [0x000000, 0xFFFFFF, 0x000000] (by decide) (by decide)).2.2⟩

end EuclideanPalette

/-! ## A pop after a relocation from a large list -/

namespace SpaceShockColorExtractor

open EuclideanPalette (setAt)

/-- C21 (failing input): the histogram of C5, 2000 pixels of `0x808080` and 2000
pixels of `0x808081`, under the oracle of kernel size 2 and weight `33215`.  The
first iteration of the pick loop pops `0x808081` from the list of count 2000 and
`absorb_color` lowers the count of `0x808080` to 987.  The second pop, again
from the list of count 2000, returns `0x808080` with the recorded count
`k = 2000`, while the live count of that colour is 987. -/
theorem pop_returns_colour_with_other_count :
    (fun st : TableState =>
      ((popMax st.sortedBuffer st.sortedMap st.decrementPixelCount 0).elim (fun _ => none)
          (fun pop => some (pop.rgb, pop.pixelCount)),
        (st.colorCounts 0x808080).count))
      (pickLoop (flatOracle 2 33215) 1
        (pickStart (add_bitmap create
          (List.replicate 2000 0x808080 ++ List.replicate 2000 0x808081))
          (List.replicate 150 0)))
      = (some (0x808080, 2000), 987) := by
  have h : add_bitmap create (List.replicate 2000 0x808080 ++ List.replicate 2000 0x808081)
      = ⟨[0x808080, 0x808081], 4000,
          setAt (setAt (fun _ => ⟨0, 0⟩) 0x808080 ⟨2000, 0⟩) 0x808081 ⟨2000, 0⟩⟩ := by
    unfold add_bitmap
    rw [List.foldl_append, foldl_add_pixel_replicate 0x808080 (by norm_num) 1999 create
      (by simp [create]), foldl_add_pixel_replicate 0x808081 (by norm_num) 1999 _
      (by simp [create, setAt])]
    simp only [List.length_append, List.length_replicate]
    rfl
  rw [h]
  decide!

end SpaceShockColorExtractor

/-! ## The node field of a slot -/

namespace SpaceShockColorExtractor

open EuclideanPalette (setAt setAt_same setAt_ne)

theorem absorb_color_node (colorCounts : Nat → CountNode) (buf : Buffer)
    (map : List (Nat × Nat)) (kernel : Nat → Nat) (kernelSize color kernelHeight x : Nat) :
    ((absorb_color colorCounts buf map kernel kernelSize color kernelHeight).colorCounts x).node
      = (colorCounts x).node := by
  rw [absorb_color_counts]
  split_ifs <;> rfl

theorem forcePhase_node (oracle : KernelOracle) (maxPixelCount : Nat) (x : Nat) :
    ∀ (fl : List Nat) (st : TableState),
      ((forcePhase oracle maxPixelCount fl st).colorCounts x).node = (st.colorCounts x).node := by
  intro fl
  induction fl with
  | nil => intro st; rfl
  | cons c rest ih =>
    intro st
    unfold forcePhase at ih ⊢
    rw [List.foldl_cons, ih]
    exact absorb_color_node _ _ _ _ _ _ _ _

theorem pickLoop_node (oracle : KernelOracle) (x : Nat) :
    ∀ (n : Nat) (st : TableState),
      ((pickLoop oracle n st).colorCounts x).node = (st.colorCounts x).node := by
  intro n
  induction n with
  | zero => intro st; rfl
  | succ n ih =>
    intro st
    unfold pickLoop
    split
    · rfl
    · rename_i pop _
      rw [ih]
      simp only [pickStep]
      rw [absorb_color_node]
      by_cases hx : x = pop.rgb
      · rw [hx, setAt_same]
      · rw [setAt_ne _ _ hx]

/-- After `sort_colors` on a histogram whose slots outside the colour list are
`{0, 0}`, a slot has a non-zero node exactly when its colour is in the list. -/
theorem sort_colors_node (e : SpaceShockColorExtractor) (h : Histogram e)
    (hz : ZeroOutside e.colorList e.colorCounts) (c : Nat) :
    ((sort_colors e).colorCounts c).node ≠ 0 ↔ c ∈ e.colorList := by
  have hsort : ZeroOutside e.colorList (sort_colors e).colorCounts := by
    unfold sort_colors
    exact foldl_inv_mem (fun st : SortState => ZeroOutside e.colorList st.colorCounts) sortStep
      e.colorList _ (fun s a ha hs => sortStep_zeroOutside e.colorList s a ha hs) hz
  have hinv := (sort_colors_inv e h).1
  constructor
  · intro hne
    by_contra hc
    rw [hsort c hc] at hne
    exact hne rfl
  · intro hc
    have := hinv.node_ge c (List.mem_reverse.mpr hc)
    have hB : BaseLength = 1024 := rfl
    simp only at this
    omega

/-- C27 (amended): on a histogram built by `add_bitmap` from a fresh extractor, after
`sort_colors`, in every state of the forced phase and of the pick loop, and in
the extractor that `get_color_table` leaves, a slot has `node != 0` exactly when
its colour is in the colour list, that is, when `sort_colors` gave it a node:
neither a pop nor `absorb_color` ever writes the `node` field, whatever becomes
of the count. -/
theorem node_marks_inserted_colour (bitmaps : List (List Nat))
    (hsum : (bitmaps.map List.length).sum < 2 ^ 32) :
    (∀ c, ((sort_colors (bitmaps.foldl add_bitmap create)).colorCounts c).node ≠ 0 ↔
      c ∈ (bitmaps.foldl add_bitmap create).colorList) ∧
    (∀ (oracle : KernelOracle) (maxPixelCount : Nat) (forceColorList colorTable : List Nat)
        (n c : Nat),
      ((pickLoop oracle n (forcePhase oracle maxPixelCount forceColorList
        ⟨(sort_colors (bitmaps.foldl add_bitmap create)).colorCounts,
          (sort_colors (bitmaps.foldl add_bitmap create)).sortedBuffer,
          (sort_colors (bitmaps.foldl add_bitmap create)).sortedMap, colorTable, [], BaseLength,
          0⟩)).colorCounts c).node ≠ 0 ↔
        c ∈ (bitmaps.foldl add_bitmap create).colorList) ∧
    ∀ (oracle : KernelOracle) (colorTable forceColors : List Nat) (fuel : Nat) (r : TableResult),
      forceColors.length ≤ colorTable.length →
      get_color_table oracle (bitmaps.foldl add_bitmap create) colorTable forceColors fuel
        = some r →
      ∀ c, (r.extractor.colorCounts c).node ≠ 0 ↔
        c ∈ (bitmaps.foldl add_bitmap create).colorList := by
  have hz : ZeroOutside (bitmaps.foldl add_bitmap create).colorList
      (bitmaps.foldl add_bitmap create).colorCounts :=
    foldl_inv (fun e : SpaceShockColorExtractor => ZeroOutside e.colorList e.colorCounts) add_bitmap
      (fun s a hs => add_bitmap_zeroOutside s a hs) bitmaps create (fun _ _ => rfl)
  have hh := histogram_of_bitmaps bitmaps hsum
  have hs := sort_colors_node _ hh hz
  have hloop : ∀ (oracle : KernelOracle) (maxPixelCount : Nat)
      (forceColorList colorTable : List Nat) (n c : Nat),
      ((pickLoop oracle n (forcePhase oracle maxPixelCount forceColorList
        ⟨(sort_colors (bitmaps.foldl add_bitmap create)).colorCounts,
          (sort_colors (bitmaps.foldl add_bitmap create)).sortedBuffer,
          (sort_colors (bitmaps.foldl add_bitmap create)).sortedMap, colorTable, [], BaseLength,
          0⟩)).colorCounts c).node
        = ((sort_colors (bitmaps.foldl add_bitmap create)).colorCounts c).node := by
    intro oracle m fl colorTable n c
    rw [pickLoop_node, forcePhase_node]
  refine ⟨hs, ?_, ?_⟩
  · intro oracle m fl colorTable n c
    rw [hloop]
    exact hs c
  · intro oracle colorTable forceColors fuel r hlen hr c
    have h0 := hloop oracle
      (maxPixelCountOf (sort_colors (bitmaps.foldl add_bitmap create)).sortedBuffer
        (sort_colors (bitmaps.foldl add_bitmap create)).sortedMap)
      (forceColors.map (fun c => c &&& 0xffffff)) colorTable 0 c
    unfold get_color_table at hr
    rw [if_neg (by omega)] at hr
    simp only at hr
    split at hr
    · injection hr with hr
      subst hr
      rw [← hs c, ← h0]
      rfl
    · split at hr
      · injection hr with hr
        subst hr
        rw [← hs c, ← hloop oracle _ _ colorTable _ c]
      · split at hr
        · cases hr
        · injection hr with hr
          subst hr
          rw [← hs c, ← hloop oracle _ _ colorTable _ c]

theorem node_marks_inserted_colour_witness :
    (((sort_colors (([[0xFF0000, 0xFF0000, 0x0000FF, 0x0000FF]] : List (List Nat)).foldl add_bitmap
        create)).colorCounts 0xFF0000).node ≠ 0 ↔
      0xFF0000 ∈ (([[0xFF0000, 0xFF0000, 0x0000FF, 0x0000FF]] : List (List Nat)).foldl add_bitmap
        create).colorList) ∧
    ((sort_colors (([[0xFF0000, 0xFF0000, 0x0000FF, 0x0000FF]] : List (List Nat)).foldl add_bitmap
        create)).colorCounts 0xFF0000).node = 1024 :=
  ⟨(node_marks_inserted_colour [[0xFF0000, 0xFF0000, 0x0000FF, 0x0000FF]] (by decide)).1 0xFF0000,
    by decide⟩

/-- C27 (counterexample): four pixels `[0xFF0000, 0xFF0000, 0x0000FF, 0x0000FF]` and a
table of two entries.  The first iteration of the pick loop pops `0x0000FF`; in
the state it leaves, the slot of `0x0000FF` has count 0 and node 1027, and the
head of the list of count 2 is the node 1024 of the other colour: `node != 0`
holds for a colour whose count is 0 and that is on no order list.  The
extractor that `get_color_table` returns has count 0 and a non-zero node in the
slots of both colours. -/
theorem popped_colour_keeps_its_node :
    (fun st : TableState =>
      ((st.colorCounts 0x0000FF).count, (st.colorCounts 0x0000FF).node,
        st.sortedBuffer.data (2 - 1), st.sortedMap))
      (pickLoop (flatOracle 2 100) 1
        (pickStart (add_bitmap create [0xFF0000, 0xFF0000, 0x0000FF, 0x0000FF]) [0, 0]))
      = (0, 1027, 1024, []) ∧
    (get_color_table (flatOracle 2 100)
        (add_bitmap create [0xFF0000, 0xFF0000, 0x0000FF, 0x0000FF]) [0, 0] [] 1).map
      (fun r => (r.colorTable, (r.extractor.colorCounts 0x0000FF).count,
        (r.extractor.colorCounts 0x0000FF).node, (r.extractor.colorCounts 0xFF0000).count,
        (r.extractor.colorCounts 0xFF0000).node))
      = some ([0x0000FF, 0xFF0000], 0, 1027, 0, 1024) := by
  exact ⟨by decide!, by decide!⟩

end SpaceShockColorExtractor

/-! ## The reduction pass after a relocation from a large list -/

namespace SpaceShockColorExtractor

open EuclideanPalette (setAt byte0 byte1 byte2 setAt_same setAt_ne)

/-- A sweep over cells of distinct colours in a histogram with a single non-zero
count is the body of the sweep at the cell of that colour. -/
theorem foldl_absorbCell_single (kernel : Nat → Nat)
    (kernelBaseSize kernelHeight rStart gStart bStart : Nat) (c0 : Nat × Nat × Nat) :
    ∀ (l : List (Nat × Nat × Nat)) (st : AbsorbState), (l.map cellColor).Nodup → c0 ∈ l →
      (∀ y, y ≠ cellColor c0 → (st.colorCounts y).count = 0) →
      l.foldl (fun st c => absorbCell kernel kernelBaseSize kernelHeight rStart gStart bStart
          st c.1 c.2.1 c.2.2) st
        = absorbCell kernel kernelBaseSize kernelHeight rStart gStart bStart st c0.1 c0.2.1
          c0.2.2 := by
  intro l
  induction l with
  | nil => intro st _ h; exact absurd h (List.not_mem_nil _)
  | cons c rest ih =>
    intro st hnd hmem hz
    rw [List.map_cons, List.nodup_cons] at hnd
    rw [List.foldl_cons]
    by_cases hc : c = c0
    · subst hc
      apply foldl_fixed
      intro d hd
      apply absorbCell_of_zero_count
      have hne : cellColor d ≠ cellColor c := fun e => hnd.1 (e ▸ List.mem_map_of_mem _ hd)
      rw [(absorbCell_counts kernel kernelBaseSize kernelHeight rStart gStart bStart st c).1]
      show CountNode.count (setAt _ _ _ (cellColor d)) = 0
      rw [setAt_ne _ _ hne]
      exact hz _ hne
    · have hin : c0 ∈ rest := by
        rcases List.mem_cons.mp hmem with h | h
        · exact absurd h.symm hc
        · exact h
      have hne : cellColor c ≠ cellColor c0 := fun e => hnd.1 (e ▸ List.mem_map_of_mem _ hin)
      rw [absorbCell_of_zero_count _ _ _ _ _ _ st c.1 c.2.1 c.2.2 (hz _ hne)]
      exact ih st hnd.2 hin hz

/-- When one colour `x` of the swept box is the only one with a non-zero count,
`absorb_color` is the body of the sweep at that colour. -/
theorem absorb_color_single (colorCounts : Nat → CountNode) (buf : Buffer)
    (map : List (Nat × Nat)) (kernel : Nat → Nat) (kernelSize color kernelHeight x : Nat)
    (hx : InSweep kernelSize color x) (hz : ∀ y, y ≠ x → (colorCounts y).count = 0) :
    absorb_color colorCounts buf map kernel kernelSize color kernelHeight
      = absorbCell kernel (kernelSize * 2 + 1) kernelHeight (byte2 color - kernelSize)
          (byte1 color - kernelSize) (byte0 color - kernelSize) ⟨colorCounts, buf, map, 0⟩
          (byte2 x) (byte1 x) (byte0 x) := by
  rw [inSweep_iff] at hx
  rw [absorb_color_eq_fold]
  exact foldl_absorbCell_single kernel _ _ _ _ _ (byte2 x, byte1 x, byte0 x) _ _
    (sweepCells_colors_nodup kernelSize color) hx.2 (by rw [unpack_bytes x hx.1]; exact hz)

/-- One iteration of the pick loop when, after the pop, `x` is the only colour of
the swept box with a non-zero count. -/
theorem pickLoop_one_single (oracle : KernelOracle) (st : TableState) (x : Nat)
    (h : ∀ pop, popMax st.sortedBuffer st.sortedMap st.decrementPixelCount 0 = .inr pop →
      InSweep (oracle.kernelSize st.outIndex) pop.rgb x ∧
      ∀ y, y ≠ x → (setAt st.colorCounts pop.rgb ⟨0, (st.colorCounts pop.rgb).node⟩ y).count
        = 0) :
    pickLoop oracle 1 st = pickOnceAt oracle st x := by
  unfold pickLoop pickOnceAt
  cases hpop : popMax st.sortedBuffer st.sortedMap st.decrementPixelCount 0 with
  | inl d => rfl
  | inr pop =>
    obtain ⟨h1, h2⟩ := h pop hpop
    show pickStep oracle st pop = pickStepAt oracle st pop x
    unfold pickStep pickStepAt
    simp only
    rw [absorb_color_single _ _ _ _ _ _ _ x h1 h2]

/-- C28 (failing input): 2000 pixels of `0x808080`, then 2000 pixels of `0x808082`,
and a table of one entry; the kernel of the only pick iteration has size 27 and
the weight `64564` at the offset `(0, 0, -2)`.  The pick loop pops `0x808082`
from the list of count 2000, `absorb_color` lowers `0x808080` to count 30, and
the record of the emitted colour is `(128, 128, 130)` with count 3970.  The
reduction pass then pops `0x808080` twice, first with the recorded count 2000
from the list of count 2000 and again with the count 30, and folds it twice; the
table is `[0x808081]`, where one fold of `0x808080` with its count 30 gives
`round((130 * 3970 + 128 * 30) / 4000) = 130` in the blue channel, that is
`0x808082`. -/
theorem reduction_folds_relocated_colour_twice :
    (flatOracle 27 64564).Valid ∧
    (fun st : TableState =>
      (st.counter.map (fun i => (i.r, i.g, i.b, i.count)), (st.colorCounts 0x808080).count))
      (pickLoop (flatOracle 27 64564) 1
        (pickStart (add_bitmap create
          (List.replicate 2000 0x808080 ++ List.replicate 2000 0x808082)) [0]))
      = ([(128, 128, 130, 3970)], 30) ∧
    (fun st : TableState =>
      (popMax st.sortedBuffer st.sortedMap st.decrementPixelCount SkipMinCount).elim
        (fun _ => none)
        (fun pop => some (pop.rgb, pop.pixelCount,
          (popMax pop.sortedBuffer pop.sortedMap pop.decrementPixelCount SkipMinCount).elim
            (fun _ => none) (fun pop2 => some (pop2.rgb, pop2.pixelCount)))))
      (pickLoop (flatOracle 27 64564) 1
        (pickStart (add_bitmap create
          (List.replicate 2000 0x808080 ++ List.replicate 2000 0x808082)) [0]))
      = some (0x808080, 2000, some (0x808080, 30)) ∧
    (get_color_table (flatOracle 27 64564)
        (add_bitmap create (List.replicate 2000 0x808080 ++ List.replicate 2000 0x808082))
        [0] [] 3).map (fun r => (r.ret, r.colorTable)) = some (1, [0x808081]) ∧
    roundU32 ((130 * 3970 + 128 * 30) / (3970 + 30) : ℚ) = 130 := by
  have h : add_bitmap create (List.replicate 2000 0x808080 ++ List.replicate 2000 0x808082)
      = ⟨[0x808080, 0x808082], 4000,
          setAt (setAt (fun _ => ⟨0, 0⟩) 0x808080 ⟨2000, 0⟩) 0x808082 ⟨2000, 0⟩⟩ := by
    unfold add_bitmap
    rw [List.foldl_append, foldl_add_pixel_replicate 0x808080 (by norm_num) 1999 create
      (by simp [create]), foldl_add_pixel_replicate 0x808082 (by norm_num) 1999 _
      (by simp [create, setAt])]
    simp only [List.length_append, List.length_replicate]
    rfl
  have hhist : Histogram (add_bitmap create
      (List.replicate 2000 0x808080 ++ List.replicate 2000 0x808082)) :=
    histogram_of_bitmaps [List.replicate 2000 0x808080 ++ List.replicate 2000 0x808082]
      (by
        rw [List.map_cons, List.map_nil, List.sum_cons, List.sum_nil, List.length_append,
          List.length_replicate, List.length_replicate]
        norm_num)
  have hcounts := (sort_colors_inv _ hhist).2.1
  rw [h] at hcounts ⊢
  have hpop : ((popMax (pickStart ⟨[0x808080, 0x808082], 4000,
      setAt (setAt (fun _ => ⟨0, 0⟩) 0x808080 ⟨2000, 0⟩) 0x808082 ⟨2000, 0⟩⟩ [0]).sortedBuffer
      (pickStart ⟨[0x808080, 0x808082], 4000,
        setAt (setAt (fun _ => ⟨0, 0⟩) 0x808080 ⟨2000, 0⟩) 0x808082 ⟨2000, 0⟩⟩ [0]).sortedMap
      BaseLength 0).getRight?.map (fun p => p.rgb)) = some 0x808082 := by decide!
  have hloop : pickLoop (flatOracle 27 64564) 1 (pickStart ⟨[0x808080, 0x808082], 4000,
      setAt (setAt (fun _ => ⟨0, 0⟩) 0x808080 ⟨2000, 0⟩) 0x808082 ⟨2000, 0⟩⟩ [0])
      = pickOnceAt (flatOracle 27 64564) (pickStart ⟨[0x808080, 0x808082], 4000,
        setAt (setAt (fun _ => ⟨0, 0⟩) 0x808080 ⟨2000, 0⟩) 0x808082 ⟨2000, 0⟩⟩ [0])
        0x808080 := by
    apply pickLoop_one_single
    intro pop hp
    have hrgb : pop.rgb = 0x808082 := by
      have hp2 : popMax (pickStart ⟨[0x808080, 0x808082], 4000,
          setAt (setAt (fun _ => ⟨0, 0⟩) 0x808080 ⟨2000, 0⟩) 0x808082 ⟨2000, 0⟩⟩
            [0]).sortedBuffer
          (pickStart ⟨[0x808080, 0x808082], 4000,
            setAt (setAt (fun _ => ⟨0, 0⟩) 0x808080 ⟨2000, 0⟩) 0x808082 ⟨2000, 0⟩⟩ [0]).sortedMap
          BaseLength 0 = .inr pop := hp
      rw [hp2] at hpop
      exact Option.some.inj hpop
    rw [hrgb]
    refine ⟨by decide, ?_⟩
    intro y hy
    by_cases hyB : y = 0x808082
    · rw [hyB, setAt_same]
    · rw [setAt_ne _ _ hyB]
      have hy2 := hcounts y
      dsimp only at hy2
      rw [setAt_ne _ _ hyB, setAt_ne _ _ hy] at hy2
      exact hy2
  rw [get_color_table_no_forced, show ([0] : List Nat).length = 1 from rfl, hloop]
  exact ⟨⟨by decide, by decide, fun _ => ⟨(by decide : 27 ≤ 27), (by decide : 27 ≤ 28)⟩,
    fun _ => (by decide : 64564 < 65536), fun _ _ => (by decide : 64564 < 65536)⟩,
    by decide!, by decide!, by decide!, by decide!⟩

end SpaceShockColorExtractor

/-! ## A second dither on a dithered buffer -/

namespace EuclideanPalette

theorem color_distance_eq_zero (a b c d e f : Int) (h : color_distance a b c d e f = 0) :
    a = d ∧ b = e ∧ c = f := by
  unfold color_distance square_sum3 at h
  have h1 := mul_self_nonneg (a - d)
  have h2 := mul_self_nonneg (b - e)
  have h3 := mul_self_nonneg (c - f)
  have e1 : (a - d) * (a - d) = 0 := by linarith
  have e2 : (b - e) * (b - e) = 0 := by linarith
  have e3 : (c - f) * (c - f) = 0 := by linarith
  have f1 := mul_self_eq_zero.mp e1
  have f2 := mul_self_eq_zero.mp e2
  have f3 := mul_self_eq_zero.mp e3
  exact ⟨by omega, by omega, by omega⟩

/-- The linear scan maps the table colour of a result to that result: the lowest
nearest entry of a colour is the lowest entry of its own colour. -/
theorem linear_slow_map_fixed (t : List Nat) (h1 : 1 ≤ t.length) (h2 : t.length ≤ 256)
    (q : Nat) :
    NoOptimizationPalette.slow_map t (t.getD (NoOptimizationPalette.slow_map t q) 0)
      = NoOptimizationPalette.slow_map t q := by
  obtain ⟨⟨hk, hmin⟩, hlow⟩ := linear_slow_map_spec t q h1 h2
  obtain ⟨⟨hk', hmin'⟩, hlow'⟩ := linear_slow_map_spec t
    (t.getD (NoOptimizationPalette.slow_map t q) 0) h1 h2
  generalize NoOptimizationPalette.slow_map t q = k at *
  generalize NoOptimizationPalette.slow_map t (t.getD k 0) = k' at *
  have hself : dist2 t (t.getD k 0) k = 0 := by
    unfold dist2 color_distance square_sum3; ring
  have hzero : dist2 t (t.getD k 0) k' = 0 :=
    le_antisymm (hself ▸ hmin' k hk) (dist2_bounds _ _ _).1
  obtain ⟨e2, e1, e0⟩ := color_distance_eq_zero _ _ _ _ _ _ hzero
  have hsame : dist2 t q k' = dist2 t q k := by
    unfold dist2
    rw [← e2, ← e1, ← e0]
  rcases Nat.lt_trichotomy k' k with hlt | heq | hgt
  · have := hlow k' hlt
    omega
  · exact heq
  · have := hlow' k hgt
    omega

/-- The loops of `palette_map_dither` step through the positions `0`, `1`, ... in
order: a property that every step carries from position `n` to `n + 1` holds at
`width * height` after the run. -/
theorem palette_map_dither_steps {σ : Type} (pi : σ → Nat → Nat × σ) (tblOf : σ → List Nat)
    (P : Nat → DitherState σ → Prop) (width height : Nat)
    (hd : ∀ n s, P n s → P (n + 1) (directStep pi tblOf s n))
    (hf : ¬ (width ≤ Cols ∨ height ≤ Rows) →
      ∀ n s, P n s → P (n + 1) (diffuseStep pi tblOf width s n))
    (st : DitherState σ) (h : P 0 st) :
    P (width * height) (palette_map_dither pi tblOf st width height) := by
  unfold palette_map_dither
  by_cases hsmall : width ≤ Cols ∨ height ≤ Rows
  · rw [if_pos hsmall, List.range_eq_range']
    have := foldl_range'_inv (fun n s => P n s)
      (directStep pi tblOf) 0 (width * height) 0 st (by simpa using h)
      (fun x s _ _ hp => by
        simp only [Nat.zero_add] at hp ⊢
        exact hd x s hp)
    simpa using this
  · rw [if_neg hsmall]
    have hf := hf hsmall
    simp only [Cols, Rows, not_or, not_le] at hsmall
    obtain ⟨hw, hh⟩ := hsmall
    have hrow : ∀ (y : Nat) (s : DitherState σ), P (y * width) s →
        P (y * width + width) (ditherRow pi tblOf width s y) := by
      intro y s hs
      unfold ditherRow
      simp only [Cols]
      have s1 := foldl_range'_inv (fun n s => P n s)
        (fun s x => directStep pi tblOf s (y * width + x)) (y * width) 1 0 s (by simpa using hs)
        (fun x s _ _ hp => hd _ s hp)
      have s2 := foldl_range'_inv (fun n s => P n s)
        (fun s x => diffuseStep pi tblOf width s (y * width + x)) (y * width) (width - 1 - 1) 1 _
        (by simpa using s1)
        (fun x s _ _ hp => hf _ s hp)
      have s3 := foldl_range'_inv (fun n s => P n s)
        (fun s x => directStep pi tblOf s (y * width + x)) (y * width)
        (width - (width - 1)) (width - 1) _
        (by
          have e : y * width + 1 + (width - 1 - 1) = y * width + (width - 1) := by omega
          rw [← e]; exact s2)
        (fun x s _ _ hp => hd _ s hp)
      have e : y * width + (width - 1) + (width - (width - 1)) = y * width + width := by omega
      rw [← e]
      exact s3
    have hmain := foldl_range'_inv
      (fun n s => P (n * width) s)
      (ditherRow pi tblOf width) 0 (height - Rows + 1) 0 st (by simpa using h)
      (fun y s _ _ hp => by
        simp only [Nat.zero_add] at hp ⊢
        rw [Nat.add_mul, Nat.one_mul]
        exact hrow y s hp)
    rw [← List.range_eq_range'] at hmain
    simp only [Nat.zero_add, Rows] at hmain ⊢
    have hlast := foldl_range'_inv
      (fun n s => P (n * width) s)
      (fun s y => (List.range width).foldl (fun s x => directStep pi tblOf s (y * width + x)) s)
      0 (height - (height - 2 + 1)) (height - 2 + 1) _ (by simpa using hmain)
      (fun y s _ _ hp => by
        simp only [Nat.zero_add] at hp ⊢
        rw [List.range_eq_range', Nat.add_mul, Nat.one_mul]
        have := foldl_range'_inv (fun n s => P n s)
          (fun s x => directStep pi tblOf s (y * width + x)) (y * width) width 0 s
          (by simpa using hp)
          (fun x s _ _ hp => hd _ s hp)
        simpa using this)
    have e : (0 + (height - 2 + 1) + (height - (height - 2 + 1))) * width = width * height := by
      have : 0 + (height - 2 + 1) + (height - (height - 2 + 1)) = height := by omega
      rw [this, Nat.mul_comm]
    beta_reduce at hlast
    rw [e] at hlast
    exact hlast

theorem set_getD_self (l : List Nat) (i : Nat) : l.set i (l.getD i 0) = l := by
  apply list_eq_of_getD (List.length_set _ _ _)
  intro j hj
  rw [List.length_set] at hj
  by_cases hij : i = j
  · subst hij
    rw [getD_set_same _ _ hj]
  · rw [getD_set_ne _ _ hij]

/-- With no error to spread a neighbour of 24 bits keeps its value. -/
theorem diffusePixel_zero (dstPixel weight : Nat) (hd : dstPixel < 2 ^ 24)
    (hw : weight < 65536) : diffusePixel dstPixel 0 0 0 weight = dstPixel := by
  have h := diffusePixel_channels dstPixel 0 0 0 weight (by omega) (by omega) (by omega) hw
  simp only [zero_mul, Int.zero_ediv, add_zero] at h
  rw [h]
  have c : ∀ b : Nat, b < 256 → clampByte (b : Int) = b := by
    intro b hb
    rw [clampByte_eq, if_neg (by omega), if_pos (by omega), Int.toNat_ofNat]
  rw [c _ (byte2_lt _), c _ (byte1_lt _), c _ (byte0_lt _)]
  unfold byte2 byte1 byte0
  omega

/-- The diffusion loop with no error leaves a buffer of 24-bit pixels as it is. -/
theorem diffuseLoop_zero (pos : Nat) :
    ∀ (l : List (Int × Nat)) (pixels : List Nat), (∀ ow ∈ l, ow.2 < 65536) →
      (∀ i, pixels.getD i 0 < 2 ^ 24) → diffuseLoop 0 0 0 pos l pixels = pixels := by
  intro l
  induction l with
  | nil => intro px _ _; rfl
  | cons ow rest ih =>
    intro px h hpx
    obtain ⟨off, w⟩ := ow
    simp only [diffuseLoop]
    rw [diffusePixel_zero _ _ (hpx _) (h (off, w) (List.mem_cons_self _ _)), set_getD_self]
    exact ih px (fun x hx => h x (List.mem_cons_of_mem _ hx)) hpx

/-- The diffusion loop from a position past the end of the buffer, with offsets
that are not negative, writes nothing. -/
theorem diffuseLoop_beyond (errR errG errB : Int) (pos : Nat) :
    ∀ (l : List (Int × Nat)) (pixels : List Nat), (∀ ow ∈ l, 0 ≤ ow.1) →
      pixels.length ≤ pos → diffuseLoop errR errG errB pos l pixels = pixels := by
  intro l
  induction l with
  | nil => intro px _ _; rfl
  | cons ow rest ih =>
    intro px h hpos
    obtain ⟨off, w⟩ := ow
    simp only [diffuseLoop]
    have hoff : 0 ≤ off := h (off, w) (List.mem_cons_self _ _)
    rw [List.set_eq_of_length_le (by omega)]
    exact ih px (fun x hx => h x (List.mem_cons_of_mem _ hx)) hpos

theorem palette_index_direct (tbl : List Nat) (p : Palette) (q : Nat) (h : p.Direct tbl) :
    (p.palette_index q).2.Direct tbl ∧
      (p.palette_index q).1 = NoOptimizationPalette.slow_map tbl q := by
  obtain ⟨h1, h2, h3⟩ := h
  obtain ⟨s1, s2, s3, s4⟩ := palette_index_spec p q h1
  exact ⟨⟨s2, s4.trans h2, s3.trans h3⟩, by rw [s1, h3]⟩

theorem afterQueries_direct (tbl : List Nat) (p : Palette) (queries : List Nat)
    (h : p.Direct tbl) : (p.afterQueries queries).Direct tbl := by
  obtain ⟨h1, h2, h3⟩ := h
  obtain ⟨_, s2, s3, s4⟩ := palette_index_seq_spec queries p h1
  exact ⟨s2, s4.trans h2, s3.trans h3⟩

/-- After a dither on a direct-scan mapper over a table of 24-bit colours every
pixel and its index are settled. -/
theorem dither_settles (tbl : List Nat) (h1 : 1 ≤ tbl.length) (h2 : tbl.length ≤ 256)
    (h24 : ∀ k, tbl.getD k 0 < 2 ^ 24) (width height : Nat)
    (hfit : width ≤ 3 ∨ height ≤ 2 ∨ width + 1 < 2 ^ 31) (st : DitherState Palette)
    (hp : st.palette.Direct tbl) (hpx : st.pixels.length = width * height)
    (hix : st.indexes.length = width * height) :
    (palette_map_dither Palette.palette_index Palette.colorTable st width height).palette.Direct
        tbl ∧
      (palette_map_dither Palette.palette_index Palette.colorTable st width height).pixels.length
        = width * height ∧
      (palette_map_dither Palette.palette_index Palette.colorTable st width height).indexes.length
        = width * height ∧
      ∀ i < width * height, Settled tbl
        ((palette_map_dither Palette.palette_index Palette.colorTable st width
          height).pixels.getD i 0)
        ((palette_map_dither Palette.palette_index Palette.colorTable st width
          height).indexes.getD i 0) := by
  have hset : ∀ q, Settled tbl (tbl.getD (NoOptimizationPalette.slow_map tbl q) 0)
      (NoOptimizationPalette.slow_map tbl q) := fun q =>
    ⟨h24 _, (linear_slow_map_spec tbl q h1 h2).1.1, rfl, linear_slow_map_fixed tbl h1 h2 q⟩
  have hd : ∀ (n : Nat) (s : DitherState Palette),
      (s.palette.Direct tbl ∧ s.pixels.length = width * height ∧
        s.indexes.length = width * height ∧
        ∀ i < n, i < width * height → Settled tbl (s.pixels.getD i 0) (s.indexes.getD i 0)) →
      ((directStep Palette.palette_index Palette.colorTable s n).palette.Direct tbl ∧
        (directStep Palette.palette_index Palette.colorTable s n).pixels.length
          = width * height ∧
        (directStep Palette.palette_index Palette.colorTable s n).indexes.length
          = width * height ∧
        ∀ i < n + 1, i < width * height → Settled tbl
          ((directStep Palette.palette_index Palette.colorTable s n).pixels.getD i 0)
          ((directStep Palette.palette_index Palette.colorTable s n).indexes.getD i 0)) := by
    intro n s ⟨a1, a2, a3, a4⟩
    obtain ⟨i1, i2⟩ := palette_index_direct tbl s.palette (s.pixels.getD n 0 &&& 0xffffff) a1
    refine ⟨i1, by simp only [directStep, List.length_set]; exact a2,
      by simp only [directStep, List.length_set]; exact a3, ?_⟩
    intro i hi hil
    simp only [directStep]
    by_cases hin : i = n
    · subst hin
      rw [getD_set_same _ _ (by omega), getD_set_same _ _ (by omega), a1.2.1, i2]
      exact hset _
    · rw [getD_set_ne _ _ (fun e => hin e.symm), getD_set_ne _ _ (fun e => hin e.symm)]
      exact a4 i (by omega) hil
  have hf : ¬ (width ≤ Cols ∨ height ≤ Rows) → ∀ (n : Nat) (s : DitherState Palette),
      (s.palette.Direct tbl ∧ s.pixels.length = width * height ∧
        s.indexes.length = width * height ∧
        ∀ i < n, i < width * height → Settled tbl (s.pixels.getD i 0) (s.indexes.getD i 0)) →
      ((diffuseStep Palette.palette_index Palette.colorTable width s n).palette.Direct tbl ∧
        (diffuseStep Palette.palette_index Palette.colorTable width s n).pixels.length
          = width * height ∧
        (diffuseStep Palette.palette_index Palette.colorTable width s n).indexes.length
          = width * height ∧
        ∀ i < n + 1, i < width * height → Settled tbl
          ((diffuseStep Palette.palette_index Palette.colorTable width s n).pixels.getD i 0)
          ((diffuseStep Palette.palette_index Palette.colorTable width s n).indexes.getD i 0)) := by
    intro hbig n s ⟨a1, a2, a3, a4⟩
    simp only [Cols, Rows, not_or, not_le] at hbig
    have hfit2 : width + 1 < 2 ^ 31 := by omega
    have hz : ∀ ow ∈ (pixelOffsets width).zip weights, 1 ≤ ow.1 := by
      intro ow how
      obtain ⟨a, b⟩ := ow
      have hmem := (List.of_mem_zip how).1
      rw [pixelOffsets_eq width (by omega) hfit2] at hmem
      simp only [List.mem_cons, List.mem_singleton, List.not_mem_nil, or_false] at hmem
      show 1 ≤ a
      rcases hmem with h | h | h | h <;> omega
    have hfr := fun (eR eG eB : Int) (px : List Nat) =>
      diffuseLoop_frame eR eG eB n ((pixelOffsets width).zip weights) px hz
    obtain ⟨i1, i2⟩ := palette_index_direct tbl s.palette (s.pixels.getD n 0 &&& 0xffffff) a1
    simp only [diffuseStep]
    refine ⟨i1, by rw [(hfr _ _ _ _).1, List.length_set]; exact a2,
      by rw [List.length_set]; exact a3, ?_⟩
    intro i hi hil
    rw [(hfr _ _ _ _).2 i (by omega)]
    by_cases hin : i = n
    · subst hin
      rw [getD_set_same _ _ (by omega), getD_set_same _ _ (by omega), a1.2.1, i2]
      exact hset _
    · rw [getD_set_ne _ _ (fun e => hin e.symm), getD_set_ne _ _ (fun e => hin e.symm)]
      exact a4 i (by omega) hil
  obtain ⟨k1, k2, k3, k4⟩ := palette_map_dither_steps Palette.palette_index Palette.colorTable
    (fun n s => s.palette.Direct tbl ∧ s.pixels.length = width * height ∧
      s.indexes.length = width * height ∧
      ∀ i < n, i < width * height → Settled tbl (s.pixels.getD i 0) (s.indexes.getD i 0))
    width height hd hf st ⟨hp, hpx, hix, fun i hi _ => absurd hi (Nat.not_lt_zero i)⟩
  exact ⟨k1, k2, k3, fun i hi => k4 i hi hi⟩

/-- A dither on a direct-scan mapper over a buffer of settled pixels leaves the
pixels as they are and writes at every position the index the linear scan gives
the pixel. -/
theorem dither_of_settled (tbl : List Nat) (width height : Nat)
    (hfit : width ≤ 3 ∨ height ≤ 2 ∨ width + 1 < 2 ^ 31) (st : DitherState Palette)
    (hp : st.palette.Direct tbl) (hpx : st.pixels.length = width * height)
    (hix : st.indexes.length = width * height)
    (hs : ∀ i < width * height, ∃ k, Settled tbl (st.pixels.getD i 0) k) :
    (palette_map_dither Palette.palette_index Palette.colorTable st width height).pixels
        = st.pixels ∧
      (palette_map_dither Palette.palette_index Palette.colorTable st width height).indexes.length
        = width * height ∧
      ∀ i < width * height,
        (palette_map_dither Palette.palette_index Palette.colorTable st width
          height).indexes.getD i 0
          = NoOptimizationPalette.slow_map tbl (st.pixels.getD i 0) := by
  have hall : ∀ i, st.pixels.getD i 0 < 2 ^ 24 := by
    intro i
    by_cases hi : i < width * height
    · obtain ⟨k, hk, _⟩ := hs i hi
      exact hk
    · rw [List.getD_eq_default _ _ (by omega)]
      norm_num
  have hmask : ∀ i, st.pixels.getD i 0 &&& 0xffffff = st.pixels.getD i 0 := by
    intro i
    rw [mask24_eq_mod, Nat.mod_eq_of_lt (hall i)]
  have hstable : ∀ n < width * height,
      tbl.getD (NoOptimizationPalette.slow_map tbl (st.pixels.getD n 0)) 0
        = st.pixels.getD n 0 := by
    intro n hn
    obtain ⟨k, _, _, e1, e2⟩ := hs n hn
    rw [e2]
    exact e1.symm
  have hw : ∀ ow ∈ (pixelOffsets width).zip weights, ow.2 < 65536 := by
    intro ow how
    obtain ⟨a, b⟩ := ow
    have hmem := (List.of_mem_zip how).2
    rw [weights_eq] at hmem
    simp only [List.mem_cons, List.mem_singleton, List.not_mem_nil, or_false] at hmem
    show b < 65536
    rcases hmem with h | h | h | h <;> omega
  have hd : ∀ (n : Nat) (s : DitherState Palette),
      (s.palette.Direct tbl ∧ s.pixels = st.pixels ∧ s.indexes.length = width * height ∧
        ∀ i < n, i < width * height →
          s.indexes.getD i 0 = NoOptimizationPalette.slow_map tbl (st.pixels.getD i 0)) →
      ((directStep Palette.palette_index Palette.colorTable s n).palette.Direct tbl ∧
        (directStep Palette.palette_index Palette.colorTable s n).pixels = st.pixels ∧
        (directStep Palette.palette_index Palette.colorTable s n).indexes.length
          = width * height ∧
        ∀ i < n + 1, i < width * height →
          (directStep Palette.palette_index Palette.colorTable s n).indexes.getD i 0
            = NoOptimizationPalette.slow_map tbl (st.pixels.getD i 0)) := by
    intro n s ⟨a1, a2, a3, a4⟩
    obtain ⟨i1, i2⟩ := palette_index_direct tbl s.palette (s.pixels.getD n 0 &&& 0xffffff) a1
    rw [a2, hmask] at i2
    refine ⟨i1, ?_, by simp only [directStep, List.length_set]; exact a3, ?_⟩
    · simp only [directStep]
      rw [a2, hmask, a1.2.1, i2]
      by_cases hn : n < width * height
      · rw [hstable n hn, set_getD_self]
      · rw [List.set_eq_of_length_le (by omega)]
    · intro i hi hil
      simp only [directStep]
      rw [a2, hmask, i2]
      by_cases hin : i = n
      · subst hin
        rw [getD_set_same _ _ (by omega)]
      · rw [getD_set_ne _ _ (fun e => hin e.symm)]
        exact a4 i (by omega) hil
  have hf : ¬ (width ≤ Cols ∨ height ≤ Rows) → ∀ (n : Nat) (s : DitherState Palette),
      (s.palette.Direct tbl ∧ s.pixels = st.pixels ∧ s.indexes.length = width * height ∧
        ∀ i < n, i < width * height →
          s.indexes.getD i 0 = NoOptimizationPalette.slow_map tbl (st.pixels.getD i 0)) →
      ((diffuseStep Palette.palette_index Palette.colorTable width s n).palette.Direct tbl ∧
        (diffuseStep Palette.palette_index Palette.colorTable width s n).pixels = st.pixels ∧
        (diffuseStep Palette.palette_index Palette.colorTable width s n).indexes.length
          = width * height ∧
        ∀ i < n + 1, i < width * height →
          (diffuseStep Palette.palette_index Palette.colorTable width s n).indexes.getD i 0
            = NoOptimizationPalette.slow_map tbl (st.pixels.getD i 0)) := by
    intro hbig n s ⟨a1, a2, a3, a4⟩
    simp only [Cols, Rows, not_or, not_le] at hbig
    have hfit2 : width + 1 < 2 ^ 31 := by omega
    have hz : ∀ ow ∈ (pixelOffsets width).zip weights, 0 ≤ ow.1 := by
      intro ow how
      obtain ⟨a, b⟩ := ow
      have hmem := (List.of_mem_zip how).1
      rw [pixelOffsets_eq width (by omega) hfit2] at hmem
      simp only [List.mem_cons, List.mem_singleton, List.not_mem_nil, or_false] at hmem
      show 0 ≤ a
      rcases hmem with h | h | h | h <;> omega
    obtain ⟨i1, i2⟩ := palette_index_direct tbl s.palette (s.pixels.getD n 0 &&& 0xffffff) a1
    rw [a2, hmask] at i2
    simp only [diffuseStep]
    refine ⟨i1, ?_, by rw [List.length_set]; exact a3, ?_⟩
    · rw [a2, hmask, a1.2.1, i2]
      by_cases hn : n < width * height
      · rw [hstable n hn, sub_self, sub_self, sub_self, set_getD_self,
          diffuseLoop_zero n _ _ hw hall]
      · rw [List.set_eq_of_length_le (by omega), diffuseLoop_beyond _ _ _ n _ _ hz (by omega)]
    · intro i hi hil
      rw [a2, hmask, i2]
      by_cases hin : i = n
      · subst hin
        rw [getD_set_same _ _ (by omega)]
      · rw [getD_set_ne _ _ (fun e => hin e.symm)]
        exact a4 i (by omega) hil
  obtain ⟨_, k2, k3, k4⟩ := palette_map_dither_steps Palette.palette_index Palette.colorTable
    (fun n s => s.palette.Direct tbl ∧ s.pixels = st.pixels ∧
      s.indexes.length = width * height ∧
      ∀ i < n, i < width * height →
        s.indexes.getD i 0 = NoOptimizationPalette.slow_map tbl (st.pixels.getD i 0))
    width height hd hf st ⟨hp, rfl, hix, fun i hi _ => absurd hi (Nat.not_lt_zero i)⟩
  exact ⟨k2, k3, fun i hi => k4 i hi hi⟩

/-- C31 (amended): for a direct-scan mapper (fewer than 8 colours, or `optimize = false`)
created over a non-empty palette, in any cache state, and an image whose buffers
hold `width * height` entries (for more than 3 columns and 2 rows, a width whose
row offsets fit the 32-bit `int` of the source), a second `palette_dither` with
the same width and height on the pixel buffer that a first `palette_dither`
produced leaves every pixel as it is and writes the index array of the first
run, into whatever index buffer it is given; the second run may use the mapper
as the first run left it or the mapper as created, each after any further
queries. -/
theorem second_dither_changes_nothing (sort : List DistanceInfo → List DistanceInfo)
    (colorTable : List Nat) (optimize : Bool) (p : Palette)
    (hp : palette_create sort colorTable optimize = some p) (hne : 1 ≤ colorTable.length)
    (hdirect : colorTable.length < 8 ∨ optimize = false)
    (queries queries2 pixels indexes indexes2 : List Nat) (width height : Nat)
    (hfit : width ≤ 3 ∨ height ≤ 2 ∨ width + 1 < 2 ^ 31)
    (hpx : pixels.length = width * height) (hix : indexes.length = width * height)
    (hix2 : indexes2.length = width * height) (m : Palette)
    (hm : m = (palette_dither (p.afterQueries queries) pixels indexes width height).palette ∨
      m = p) :
    (palette_dither (m.afterQueries queries2)
        (palette_dither (p.afterQueries queries) pixels indexes width height).pixels
        indexes2 width height).pixels
      = (palette_dither (p.afterQueries queries) pixels indexes width height).pixels ∧
    (palette_dither (m.afterQueries queries2)
        (palette_dither (p.afterQueries queries) pixels indexes width height).pixels
        indexes2 width height).indexes
      = (palette_dither (p.afterQueries queries) pixels indexes width height).indexes := by
  have h2 : colorTable.length ≤ 256 := by
    by_contra hc
    have hnone : palette_create sort colorTable optimize = none := by
      unfold palette_create
      rw [if_neg (by omega)]
      split_ifs <;> first | rfl | omega
    rw [hnone] at hp
    exact Option.noConfusion hp
  obtain ⟨p', hp', hc, hsm, hct⟩ := palette_create_direct sort colorTable optimize h2 hdirect
  rw [hp] at hp'
  have hpp : p = p' := Option.some.inj hp'
  subst hpp
  have hD : p.Direct (color_table colorTable) := ⟨hc, hct, hsm⟩
  have hlen : (color_table colorTable).length = colorTable.length := by
    unfold color_table
    rw [List.length_map]
  obtain ⟨r1, r2, r3, r4⟩ := dither_settles (color_table colorTable) (by omega) (by omega)
    (color_table_getD_lt colorTable) width height hfit ⟨p.afterQueries queries, pixels, indexes⟩
    (afterQueries_direct _ p queries hD) hpx hix
  have hmD : m.Direct (color_table colorTable) := by
    rcases hm with h | h
    · rw [h]; exact r1
    · rw [h]; exact hD
  obtain ⟨s1, s2, s3⟩ := dither_of_settled (color_table colorTable) width height hfit
    ⟨m.afterQueries queries2,
      (palette_map_dither Palette.palette_index Palette.colorTable
        ⟨p.afterQueries queries, pixels, indexes⟩ width height).pixels, indexes2⟩
    (afterQueries_direct _ m queries2 hmD) r2 hix2 (fun i hi => ⟨_, r4 i hi⟩)
  unfold palette_dither
  refine ⟨s1, list_eq_of_getD (s2.trans r3.symm) ?_⟩
  intro i hi
  rw [s2] at hi
  rw [s3 i hi]
  exact (r4 i hi).2.2.2

theorem second_dither_changes_nothing_witness :
    (palette_dither ((Palette.SingleCacheEuclidean (color_table [0x000000, 0xFFFFFF, 0x000000])
        SingleCachePalette.create).afterQueries [])
        (palette_dither ((Palette.SingleCacheEuclidean
          (color_table [0x000000, 0xFFFFFF, 0x000000]) SingleCachePalette.create).afterQueries
          [0x123456]) (List.replicate 20 0x707070) (List.replicate 20 0) 5 4).pixels
        (List.replicate 20 7) 5 4).pixels
      = (palette_dither ((Palette.SingleCacheEuclidean
          (color_table [0x000000, 0xFFFFFF, 0x000000]) SingleCachePalette.create).afterQueries
          [0x123456]) (List.replicate 20 0x707070) (List.replicate 20 0) 5 4).pixels ∧
    (palette_dither ((Palette.SingleCacheEuclidean (color_table [0x000000, 0xFFFFFF, 0x000000])
        SingleCachePalette.create).afterQueries [])
        (palette_dither ((Palette.SingleCacheEuclidean
          (color_table [0x000000, 0xFFFFFF, 0x000000]) SingleCachePalette.create).afterQueries
          [0x123456]) (List.replicate 20 0x707070) (List.replicate 20 0) 5 4).pixels
        (List.replicate 20 7) 5 4).indexes
      = (palette_dither ((Palette.SingleCacheEuclidean
          (color_table [0x000000, 0xFFFFFF, 0x000000]) SingleCachePalette.create).afterQueries
          [0x123456]) (List.replicate 20 0x707070) (List.replicate 20 0) 5 4).indexes :=
  second_dither_changes_nothing insertionSort [0x000000, 0xFFFFFF, 0x000000] true
    (Palette.SingleCacheEuclidean (color_table [0x000000, 0xFFFFFF, 0x000000])
      SingleCachePalette.create) rfl (by decide) (Or.inl (by decide)) [0x123456] []
    (List.replicate 20 0x707070) (List.replicate 20 0) (List.replicate 20 7) 5 4
    (Or.inr (Or.inr (by decide))) rfl rfl rfl _ (Or.inr rfl)

end EuclideanPalette

namespace EuclideanPalette

/-- The loops of `palette_map_dither` on an image that takes the diffusion branch,
with the column and row of every step: a border step is at column `0`, at column
`width - 1` or in the last row, a diffusing step at a column from `1` to
`width - 2` of a row above the last. -/
theorem palette_map_dither_steps_at {σ : Type} (pi : σ → Nat → Nat × σ)
    (tblOf : σ → List Nat) (P : Nat → DitherState σ → Prop) (width height : Nat)
    (hbig : ¬ (width ≤ Cols ∨ height ≤ Rows))
    (hd : ∀ x y s, x < width → y < height → (x = 0 ∨ x + 1 = width ∨ y + 1 = height) →
      P (y * width + x) s → P (y * width + x + 1) (directStep pi tblOf s (y * width + x)))
    (hf : ∀ x y s, 1 ≤ x → x + 1 < width → y + 1 < height →
      P (y * width + x) s → P (y * width + x + 1) (diffuseStep pi tblOf width s (y * width + x)))
    (st : DitherState σ) (h : P 0 st) :
    P (width * height) (palette_map_dither pi tblOf st width height) := by
  unfold palette_map_dither
  rw [if_neg hbig]
  simp only [Cols, Rows, not_or, not_le] at hbig
  obtain ⟨hw, hh⟩ := hbig
  have hrow : ∀ (y : Nat) (s : DitherState σ), y + 1 < height → P (y * width) s →
      P (y * width + width) (ditherRow pi tblOf width s y) := by
    intro y s hy hs
    unfold ditherRow
    simp only [Cols]
    have s1 := foldl_range'_inv (fun n s => P n s)
      (fun s x => directStep pi tblOf s (y * width + x)) (y * width) 1 0 s (by simpa using hs)
      (fun x s _ hx hp => hd x y s (by omega) (by omega) (Or.inl (by omega)) hp)
    have s2 := foldl_range'_inv (fun n s => P n s)
      (fun s x => diffuseStep pi tblOf width s (y * width + x)) (y * width) (width - 1 - 1) 1 _
      (by simpa using s1)
      (fun x s hx1 hx2 hp => hf x y s hx1 (by omega) hy hp)
    have s3 := foldl_range'_inv (fun n s => P n s)
      (fun s x => directStep pi tblOf s (y * width + x)) (y * width)
      (width - (width - 1)) (width - 1) _
      (by
        have e : y * width + 1 + (width - 1 - 1) = y * width + (width - 1) := by omega
        rw [← e]; exact s2)
      (fun x s hx1 hx2 hp => hd x y s (by omega) (by omega) (Or.inr (Or.inl (by omega))) hp)
    have e : y * width + (width - 1) + (width - (width - 1)) = y * width + width := by omega
    rw [← e]
    exact s3
  have hmain := foldl_range'_inv
    (fun n s => P (n * width) s)
    (ditherRow pi tblOf width) 0 (height - Rows + 1) 0 st (by simpa using h)
    (fun y s _ hy hp => by
      simp only [Nat.zero_add] at hp ⊢
      rw [Nat.add_mul, Nat.one_mul]
      exact hrow y s (by simp only [Rows] at hy; omega) hp)
  rw [← List.range_eq_range'] at hmain
  simp only [Nat.zero_add, Rows] at hmain ⊢
  have hlast := foldl_range'_inv
    (fun n s => P (n * width) s)
    (fun s y => (List.range width).foldl (fun s x => directStep pi tblOf s (y * width + x)) s)
    0 (height - (height - 2 + 1)) (height - 2 + 1) _ (by simpa using hmain)
    (fun y s hy1 hy2 hp => by
      simp only [Nat.zero_add] at hp ⊢
      rw [List.range_eq_range', Nat.add_mul, Nat.one_mul]
      have := foldl_range'_inv (fun n s => P n s)
        (fun s x => directStep pi tblOf s (y * width + x)) (y * width) width 0 s
        (by simpa using hp)
        (fun x s _ hx hp => hd x y s (by omega) (by omega) (Or.inr (Or.inr (by omega))) hp)
      simpa using this)
  have e : (0 + (height - 2 + 1) + (height - (height - 2 + 1))) * width = width * height := by
    have : 0 + (height - 2 + 1) + (height - (height - 2 + 1)) = height := by omega
    rw [this, Nat.mul_comm]
  beta_reduce at hlast
  rw [e] at hlast
  exact hlast

theorem getD_set_zero (l : List Nat) (n i : Nat) :
    (l.set n 0).getD i 0 = if i = n then 0 else l.getD i 0 := by
  by_cases h : i = n
  · subst h
    rw [if_pos rfl]
    by_cases hl : i < l.length
    · exact getD_set_same _ _ hl
    · rw [List.getD_eq_default _ _ (by rw [List.length_set]; omega)]
  · rw [if_neg h, getD_set_ne _ _ (fun e => h e.symm)]

theorem getD_replicate_zero (n i : Nat) : (List.replicate n 0).getD i 0 = 0 := by
  by_cases h : i < n
  · rw [List.getD_eq_getElem _ _ (by rw [List.length_replicate]; exact h), List.getElem_replicate]
  · rw [List.getD_eq_default _ _ (by rw [List.length_replicate]; omega)]

/-- The linear scan of the one-colour table `[0]` returns index `0`. -/
theorem slow_map_single (q : Nat) : NoOptimizationPalette.slow_map [0] q = 0 := by
  rcases linear_slow_map_lt [0] q (by decide) with h | h
  · simpa using h
  · exact h

/-- An error of at most one unit of blue adds nothing to a neighbour of 24
bits. -/
theorem diffusePixel_unit (dstPixel weight : Nat) (errB : Int) (hd : dstPixel < 2 ^ 24)
    (hw : weight < 65536) (he : 0 ≤ errB ∧ errB ≤ 1) :
    diffusePixel dstPixel 0 0 errB weight = dstPixel := by
  have h := diffusePixel_channels dstPixel 0 0 errB weight (by omega) (by omega) (by omega) hw
  have hz : errB * (weight : Int) / 65536 = 0 := by
    apply Int.ediv_eq_zero_of_lt
    · exact mul_nonneg he.1 (by omega)
    · have : errB * (weight : Int) ≤ 1 * weight :=
        mul_le_mul_of_nonneg_right he.2 (by omega)
      omega
  simp only [zero_mul, Int.zero_ediv, add_zero, hz] at h
  rw [h]
  have c : ∀ b : Nat, b < 256 → clampByte (b : Int) = b := by
    intro b hb
    rw [clampByte_eq, if_neg (by omega), if_pos (by omega), Int.toNat_ofNat]
  rw [c _ (byte2_lt _), c _ (byte1_lt _), c _ (byte0_lt _)]
  unfold byte2 byte1 byte0
  omega

theorem diffuseLoop_unit (errB : Int) (he : 0 ≤ errB ∧ errB ≤ 1) (pos : Nat) :
    ∀ (l : List (Int × Nat)) (pixels : List Nat), (∀ ow ∈ l, ow.2 < 65536) →
      (∀ i, pixels.getD i 0 < 2 ^ 24) → diffuseLoop 0 0 errB pos l pixels = pixels := by
  intro l
  induction l with
  | nil => intro px _ _; rfl
  | cons ow rest ih =>
    intro px h hpx
    obtain ⟨off, w⟩ := ow
    simp only [diffuseLoop]
    rw [diffusePixel_unit _ _ _ (hpx _) (h (off, w) (List.mem_cons_self _ _)) he, set_getD_self]
    exact ih px (fun x hx => h x (List.mem_cons_of_mem _ hx)) hpx

theorem zip_weights_lt (width : Nat) : ∀ ow ∈ (pixelOffsets width).zip weights, ow.2 < 65536 := by
  intro ow how
  obtain ⟨a, b⟩ := ow
  have hb := (List.of_mem_zip how).2
  rw [weights_eq] at hb
  simp only [List.mem_cons, List.mem_singleton, List.not_mem_nil, or_false] at hb
  rcases hb with h | h | h | h <;> (simp only [h]; norm_num)

/-- Over the one-colour table `[0]` a step on a pixel of value at most one, border
or diffusing, writes `0` at its position and changes no other pixel: the error
of one unit of blue is scaled to nothing by every weight. -/
theorem step_of_unit_pixel (width : Nat) (st : DitherState Palette)
    (hp : st.palette.Direct [0]) (h24 : ∀ i, st.pixels.getD i 0 < 2 ^ 24) (n : Nat)
    (hn : st.pixels.getD n 0 ≤ 1) :
    ((directStep Palette.palette_index Palette.colorTable st n).palette.Direct [0] ∧
      (directStep Palette.palette_index Palette.colorTable st n).pixels = st.pixels.set n 0) ∧
    ((diffuseStep Palette.palette_index Palette.colorTable width st n).palette.Direct [0] ∧
      (diffuseStep Palette.palette_index Palette.colorTable width st n).pixels
        = st.pixels.set n 0) := by
  obtain ⟨d1, d2⟩ := palette_index_direct [0] st.palette (st.pixels.getD n 0 &&& 0xffffff) hp
  have hidx : (st.palette.palette_index (st.pixels.getD n 0 &&& 0xffffff)).1 = 0 := by
    rw [d2, slow_map_single]
  have htbl : st.palette.colorTable = [0] := hp.2.1
  refine ⟨⟨d1, ?_⟩, ⟨d1, ?_⟩⟩
  · simp only [directStep, hidx, htbl]
    rfl
  · simp only [diffuseStep, hidx, htbl]
    have hv : st.pixels.getD n 0 = 0 ∨ st.pixels.getD n 0 = 1 := by omega
    have h24' : ∀ i, (st.pixels.set n ([0].getD 0 0)).getD i 0 < 2 ^ 24 := by
      intro i
      show (st.pixels.set n 0).getD i 0 < 2 ^ 24
      rw [getD_set_zero]
      split_ifs
      · norm_num
      · exact h24 i
    rcases hv with hv | hv
    · rw [hv]
      exact diffuseLoop_unit 0 (by omega) n _ _ (zip_weights_lt width) h24'
    · rw [hv]
      exact diffuseLoop_unit 1 (by omega) n _ _ (zip_weights_lt width) h24'

/-- A dither over the one-colour table `[0]` of a buffer whose pixels are all at
most one leaves every pixel `0`, for every width and height. -/
theorem dither_of_unit_pixels (width height : Nat) (st : DitherState Palette)
    (hp : st.palette.Direct [0]) (hpx : ∀ i, st.pixels.getD i 0 ≤ 1) :
    ∀ i < width * height,
      (palette_map_dither Palette.palette_index Palette.colorTable st width height).pixels.getD
        i 0 = 0 := by
  have key := palette_map_dither_steps Palette.palette_index Palette.colorTable
    (fun n s => s.palette.Direct [0] ∧ (∀ i, s.pixels.getD i 0 ≤ 1) ∧
      ∀ i < n, s.pixels.getD i 0 = 0) width height
    (fun n s hs => by
      obtain ⟨a1, a2, a3⟩ := hs
      obtain ⟨⟨b1, b2⟩, _⟩ := step_of_unit_pixel width s a1
        (fun i => lt_of_le_of_lt (a2 i) (by norm_num)) n (a2 n)
      refine ⟨b1, ?_, ?_⟩
      · intro i
        rw [b2, getD_set_zero]
        split_ifs
        · omega
        · exact a2 i
      · intro i hi
        rw [b2, getD_set_zero]
        split_ifs with h
        · rfl
        · exact a3 i (by omega))
    (fun _ n s hs => by
      obtain ⟨a1, a2, a3⟩ := hs
      obtain ⟨_, ⟨b1, b2⟩⟩ := step_of_unit_pixel width s a1
        (fun i => lt_of_le_of_lt (a2 i) (by norm_num)) n (a2 n)
      refine ⟨b1, ?_, ?_⟩
      · intro i
        rw [b2, getD_set_zero]
        split_ifs
        · omega
        · exact a2 i
      · intro i hi
        rw [b2, getD_set_zero]
        split_ifs with h
        · rfl
        · exact a3 i (by omega))
    st ⟨hp, hpx, fun i hi => absurd hi (Nat.not_lt_zero i)⟩
  exact key.2.2

/-- On a width whose offset table has wrapped to `1, -1, 0, 1`, the diffusing step
at position `1` over the table `[0]`, on a buffer holding `5` there and `0`
elsewhere, quantises the pixel to `0` and then adds one unit of blue to it again
through the offset `0`, and one to its right neighbour. -/
theorem wrapped_step_at_one (width : Nat) (hoff : pixelOffsets width = [1, -1, 0, 1])
    (st : DitherState Palette) (hp : st.palette.Direct [0]) (hlen : 3 ≤ st.pixels.length)
    (hpx : ∀ i, st.pixels.getD i 0 = if i = 1 then 5 else 0) :
    (diffuseStep Palette.palette_index Palette.colorTable width st 1).palette.Direct [0] ∧
    (diffuseStep Palette.palette_index Palette.colorTable width st 1).pixels.length
      = st.pixels.length ∧
    ∀ i, (diffuseStep Palette.palette_index Palette.colorTable width st 1).pixels.getD i 0
      = if i = 1 ∨ i = 2 then 1 else 0 := by
  obtain ⟨d1, d2⟩ := palette_index_direct [0] st.palette (st.pixels.getD 1 0 &&& 0xffffff) hp
  have hidx : (st.palette.palette_index (st.pixels.getD 1 0 &&& 0xffffff)).1 = 0 := by
    rw [d2, slow_map_single]
  have htbl : st.palette.colorTable = [0] := hp.2.1
  have h1 : st.pixels.getD 1 0 = 5 := by rw [hpx 1, if_pos rfl]
  have h2 : st.pixels.getD 2 0 = 0 := by rw [hpx 2, if_neg (by decide)]
  have h0 : st.pixels.getD 0 0 = 0 := by rw [hpx 0, if_neg (by decide)]
  have c1 : diffusePixel 0 0 0 5 21503 = 1 := by decide
  have c2 : diffusePixel 0 0 0 5 9215 = 0 := by decide
  have c3 : diffusePixel 0 0 0 5 15359 = 1 := by decide
  have c4 : diffusePixel 1 0 0 5 3071 = 1 := by decide
  have l1 : (st.pixels.set 1 0).length = st.pixels.length := List.length_set _ _ _
  have l2 : ((st.pixels.set 1 0).set 2 1).length = st.pixels.length := by
    rw [List.length_set, l1]
  have l3 : (((st.pixels.set 1 0).set 2 1).set 0 0).length = st.pixels.length := by
    rw [List.length_set, l2]
  have l4 : ((((st.pixels.set 1 0).set 2 1).set 0 0).set 1 1).length = st.pixels.length := by
    rw [List.length_set, l3]
  have e : (diffuseStep Palette.palette_index Palette.colorTable width st 1).pixels
      = ((((st.pixels.set 1 0).set 2 1).set 0 0).set 1 1).set 2 1 := by
    unfold diffuseStep
    dsimp only
    rw [hidx, htbl, h1, hoff, weights_eq]
    have t1 : (((1 : Nat) : Int) + 1).toNat = 2 := rfl
    have t2 : (((1 : Nat) : Int) + -1).toNat = 0 := rfl
    have t3 : (((1 : Nat) : Int) + 0).toNat = 1 := rfl
    have g0 : ([0] : List Nat).getD 0 0 = 0 := rfl
    have m1 : (((5 &&& 0xffffff &&& 0xff0000 : Nat) : Int)
        - ((0 &&& 0xff0000 : Nat) : Int)) = 0 := by decide
    have m2 : (((5 &&& 0xffffff &&& 0x00ff00 : Nat) : Int)
        - ((0 &&& 0x00ff00 : Nat) : Int)) = 0 := by decide
    have m3 : (((5 &&& 0xffffff &&& 0x0000ff : Nat) : Int)
        - ((0 &&& 0x0000ff : Nat) : Int)) = 5 := by decide
    simp only [List.zip_cons_cons, List.zip_nil_right, diffuseLoop, t1, t2, t3, g0, m1, m2, m3]
    have a1 : (st.pixels.set 1 0).getD 2 0 = 0 := by
      rw [getD_set_ne 0 0 (show (1 : Nat) ≠ 2 by decide), h2]
    rw [a1, c1]
    have a2 : ((st.pixels.set 1 0).set 2 1).getD 0 0 = 0 := by
      rw [getD_set_ne 1 0 (show (2 : Nat) ≠ 0 by decide),
        getD_set_ne 0 0 (show (1 : Nat) ≠ 0 by decide), h0]
    rw [a2, c2]
    have a3 : (((st.pixels.set 1 0).set 2 1).set 0 0).getD 1 0 = 0 := by
      rw [getD_set_ne 0 0 (show (0 : Nat) ≠ 1 by decide),
        getD_set_ne 1 0 (show (2 : Nat) ≠ 1 by decide)]
      exact getD_set_same 0 0 (show 1 < st.pixels.length by omega)
    rw [a3, c3]
    have a4 : ((((st.pixels.set 1 0).set 2 1).set 0 0).set 1 1).getD 2 0 = 1 := by
      rw [getD_set_ne 1 0 (show (1 : Nat) ≠ 2 by decide),
        getD_set_ne 0 0 (show (0 : Nat) ≠ 2 by decide)]
      exact getD_set_same 1 0 (show 2 < (st.pixels.set 1 0).length by rw [l1]; omega)
    rw [a4, c4]
  refine ⟨d1, ?_, ?_⟩
  · rw [e, List.length_set, l4]
  · intro i
    rw [e]
    by_cases i2 : i = 2
    · subst i2
      exact getD_set_same 1 0
        (show 2 < ((((st.pixels.set 1 0).set 2 1).set 0 0).set 1 1).length by rw [l4]; omega)
    · rw [getD_set_ne 1 0 (fun e => i2 e.symm)]
      by_cases i1 : i = 1
      · subst i1
        exact getD_set_same 1 0
          (show 1 < (((st.pixels.set 1 0).set 2 1).set 0 0).length by rw [l3]; omega)
      · rw [getD_set_ne 1 0 (fun e => i1 e.symm), getD_set_zero,
          if_neg (show ¬ (i = 1 ∨ i = 2) by omega)]
        split_ifs with h
        · rfl
        · rw [getD_set_ne 1 0 (fun e => i2 e.symm), getD_set_zero, if_neg i1, hpx i, if_neg i1]

end EuclideanPalette

namespace EuclideanPalette

theorem wrappedPixel_step (n i : Nat) (hn : n ≠ 1) :
    (if i = n then 0 else wrappedPixel n i) = wrappedPixel (n + 1) i := by
  unfold wrappedPixel
  split_ifs <;> omega

theorem wrappedPixel_le (n : Nat) (hn : n ≠ 1) : wrappedPixel n n ≤ 1 := by
  unfold wrappedPixel
  split_ifs <;> omega

theorem wrappedPixel_lt (n i : Nat) : wrappedPixel n i < 2 ^ 24 := by
  unfold wrappedPixel
  split_ifs <;> norm_num

/-- A dither over the table `[0]` on an image of more than 3 columns and 2 rows
whose offset table has wrapped to `1, -1, 0, 1`, from a buffer holding `5` at
position `1` and `0` elsewhere: the pixel at position `1` ends as `1`, which is
not a colour of the table. -/
theorem wrapped_dither_first_run (width height : Nat) (hw : 3 < width) (hh : 2 < height)
    (hoff : pixelOffsets width = [1, -1, 0, 1]) (st : DitherState Palette)
    (hp : st.palette.Direct [0]) (hlen : st.pixels.length = width * height)
    (hpx : ∀ i, st.pixels.getD i 0 = if i = 1 then 5 else 0) :
    (palette_map_dither Palette.palette_index Palette.colorTable st width
        height).palette.Direct [0] ∧
    ∀ i, (palette_map_dither Palette.palette_index Palette.colorTable st width
        height).pixels.getD i 0 = if i = 1 then 1 else 0 := by
  have hlen3 : 3 ≤ width * height := by
    have := Nat.mul_le_mul (show 1 ≤ width by omega) (show 3 ≤ height by omega)
    omega
  have small : ∀ (n : Nat) (s : DitherState Palette), n ≠ 1 →
      (s.palette.Direct [0] ∧ s.pixels.length = width * height ∧
        ∀ i, s.pixels.getD i 0 = wrappedPixel n i) →
      ((directStep Palette.palette_index Palette.colorTable s n).palette.Direct [0] ∧
        (directStep Palette.palette_index Palette.colorTable s n).pixels.length
          = width * height ∧
        ∀ i, (directStep Palette.palette_index Palette.colorTable s n).pixels.getD i 0
          = wrappedPixel (n + 1) i) ∧
      ((diffuseStep Palette.palette_index Palette.colorTable width s n).palette.Direct [0] ∧
        (diffuseStep Palette.palette_index Palette.colorTable width s n).pixels.length
          = width * height ∧
        ∀ i, (diffuseStep Palette.palette_index Palette.colorTable width s n).pixels.getD i 0
          = wrappedPixel (n + 1) i) := by
    intro n s hn hs
    obtain ⟨a1, a2, a3⟩ := hs
    obtain ⟨⟨b1, b2⟩, ⟨b3, b4⟩⟩ := step_of_unit_pixel width s a1
      (fun i => by rw [a3 i]; exact wrappedPixel_lt n i) n
      (by rw [a3 n]; exact wrappedPixel_le n hn)
    refine ⟨⟨b1, ?_, ?_⟩, ⟨b3, ?_, ?_⟩⟩
    · rw [b2, List.length_set, a2]
    · intro i
      rw [b2, getD_set_zero, a3 i]
      exact wrappedPixel_step n i hn
    · rw [b4, List.length_set, a2]
    · intro i
      rw [b4, getD_set_zero, a3 i]
      exact wrappedPixel_step n i hn
  have key := palette_map_dither_steps_at Palette.palette_index Palette.colorTable
    (fun n s => s.palette.Direct [0] ∧ s.pixels.length = width * height ∧
      ∀ i, s.pixels.getD i 0 = wrappedPixel n i)
    width height (by simp only [Cols, Rows]; omega)
    (fun x y s hx hy hb hs => by
      have hn : y * width + x ≠ 1 := by
        intro h
        rcases Nat.eq_zero_or_pos y with hy0 | hy0
        · subst hy0
          rw [Nat.zero_mul, Nat.zero_add] at h
          omega
        · have := Nat.le_mul_of_pos_left width hy0
          omega
      exact (small _ s hn hs).1)
    (fun x y s hx1 hx2 hy hs => by
      by_cases hn : y * width + x = 1
      · rw [hn] at hs ⊢
        obtain ⟨a1, a2, a3⟩ := hs
        obtain ⟨c1, c2, c3⟩ := wrapped_step_at_one width hoff s a1 (by omega)
          (fun i => by rw [a3 i]; rfl)
        refine ⟨c1, by rw [c2, a2], fun i => ?_⟩
        rw [c3 i]
        rfl
      · exact (small _ s hn hs).2)
    st ⟨hp, hlen, fun i => by rw [hpx i]; rfl⟩
  obtain ⟨k1, _, k3⟩ := key
  refine ⟨k1, fun i => ?_⟩
  rw [k3 i]
  unfold wrappedPixel
  rw [if_neg (by omega), if_neg (by omega)]

theorem pixelOffsets_wide : pixelOffsets 4294967296 = [1, -1, 0, 1] := by decide

/-- The table of offsets at `width = 2 ^ 31 - 1`: the last entry, `width + 1`, does
not fit the 32-bit `int` and wraps to `-2 ^ 31`. -/
theorem pixelOffsets_wrap :
    pixelOffsets 2147483647 = [1, 2147483646, 2147483647, -2147483648] := by decide

/-- The run of the example image of `2 ^ 32` columns and 3 rows over the
one-colour palette `[0x000000]`: the buffer holds `0x000005` at position `1` and
`0` elsewhere and ends with `0x000001` at position `1`. -/
theorem wide_dither_example (indexes : List Nat) :
    (palette_dither (Palette.SingleCacheEuclidean (color_table [0x000000])
        SingleCachePalette.create) ((List.replicate (4294967296 * 3) 0).set 1 5) indexes
        4294967296 3).palette.Direct [0] ∧
    ∀ i, (palette_dither (Palette.SingleCacheEuclidean (color_table [0x000000])
        SingleCachePalette.create) ((List.replicate (4294967296 * 3) 0).set 1 5) indexes
        4294967296 3).pixels.getD i 0 = if i = 1 then 1 else 0 := by
  obtain ⟨p, hp, hc, hsm, hct⟩ := palette_create_direct insertionSort [0x000000] false
    (by decide) (Or.inl (by decide))
  have e : p = Palette.SingleCacheEuclidean (color_table [0x000000])
      SingleCachePalette.create := (Option.some.inj hp).symm
  subst e
  unfold palette_dither
  exact wrapped_dither_first_run 4294967296 3 (by norm_num) (by norm_num) pixelOffsets_wide
    ⟨_, (List.replicate (4294967296 * 3) 0).set 1 5, indexes⟩ ⟨hc, hct, hsm⟩
    (by
      show ((List.replicate (4294967296 * 3) 0).set 1 5).length = 4294967296 * 3
      rw [List.length_set, List.length_replicate])
    (fun i => by
      show ((List.replicate (4294967296 * 3) 0).set 1 5).getD i 0 = if i = 1 then 5 else 0
      by_cases h : i = 1
      · subst h
        rw [if_pos rfl]
        exact getD_set_same 5 0 (by rw [List.length_replicate]; norm_num)
      · rw [if_neg h, getD_set_ne 5 0 (fun e => h e.symm), getD_replicate_zero])

end EuclideanPalette

namespace EuclideanPalette

theorem palette_dither_of_unit_pixels (width height : Nat) (p : Palette)
    (pixels indexes : List Nat) (hp : p.Direct [0]) (hpx : ∀ i, pixels.getD i 0 ≤ 1) :
    ∀ i < width * height,
      (palette_dither p pixels indexes width height).pixels.getD i 0 = 0 :=
  dither_of_unit_pixels width height ⟨p, pixels, indexes⟩ hp hpx

/-- C9 fails for a width whose row offsets do not fit the 32-bit `int` of the
offset table.  On an image of `2 ^ 32` columns and 3 rows over the palette
`[0x000000]` the table of offsets is `1, -1, 0, 1`: the pixel at position `1`,
`0x000005`, is quantised to `0x000000` and then receives one unit of blue of its
own error through the offset `0`.  After `palette_dither` it holds `0x000001`,
which is not the palette colour of its index. -/
theorem wide_dither_leaves_unquantised_pixel :
    palette_create insertionSort [0x000000] false
      = some (Palette.SingleCacheEuclidean (color_table [0x000000])
        SingleCachePalette.create) ∧
    pixelOffsets 4294967296 = [1, -1, 0, 1] ∧
    (palette_dither (Palette.SingleCacheEuclidean (color_table [0x000000])
        SingleCachePalette.create) ((List.replicate (4294967296 * 3) 0).set 1 5)
        (List.replicate (4294967296 * 3) 0) 4294967296 3).pixels.getD 1 0 = 1 ∧
    (palette_dither (Palette.SingleCacheEuclidean (color_table [0x000000])
        SingleCachePalette.create) ((List.replicate (4294967296 * 3) 0).set 1 5)
        (List.replicate (4294967296 * 3) 0) 4294967296 3).pixels.getD 1 0
      ≠ (Palette.SingleCacheEuclidean (color_table [0x000000])
        SingleCachePalette.create).colorTable.getD
        ((palette_dither (Palette.SingleCacheEuclidean (color_table [0x000000])
          SingleCachePalette.create) ((List.replicate (4294967296 * 3) 0).set 1 5)
          (List.replicate (4294967296 * 3) 0) 4294967296 3).indexes.getD 1 0) 0 := by
  have h := (wide_dither_example (List.replicate (4294967296 * 3) 0)).2 1
  rw [if_pos rfl] at h
  refine ⟨rfl, pixelOffsets_wide, h, ?_⟩
  rw [h]
  have ht : ∀ k, (Palette.SingleCacheEuclidean (color_table [0x000000])
      SingleCachePalette.create).colorTable.getD k 0 = 0 := by
    intro k
    cases k with
    | zero => rfl
    | succ k => rfl
  rw [ht]
  decide

/-- C31 fails for a width whose row offsets do not fit the 32-bit `int` of the
offset table.  On the image of `2 ^ 32` columns and 3 rows over the palette
`[0x000000]` a first `palette_dither` leaves `0x000001` at position `1`; a
second one, on the mapper as the first run left it or on the mapper as created,
maps that pixel to `0x000000` and spreads nothing, so it changes the pixel. -/
theorem wide_second_dither_changes_pixel :
    (palette_dither (Palette.SingleCacheEuclidean (color_table [0x000000])
        SingleCachePalette.create) ((List.replicate (4294967296 * 3) 0).set 1 5)
        (List.replicate (4294967296 * 3) 0) 4294967296 3).pixels.getD 1 0 = 1 ∧
    (palette_dither
        (palette_dither (Palette.SingleCacheEuclidean (color_table [0x000000])
          SingleCachePalette.create) ((List.replicate (4294967296 * 3) 0).set 1 5)
          (List.replicate (4294967296 * 3) 0) 4294967296 3).palette
        (palette_dither (Palette.SingleCacheEuclidean (color_table [0x000000])
          SingleCachePalette.create) ((List.replicate (4294967296 * 3) 0).set 1 5)
          (List.replicate (4294967296 * 3) 0) 4294967296 3).pixels
        (List.replicate (4294967296 * 3) 0) 4294967296 3).pixels.getD 1 0 = 0 ∧
    (palette_dither (Palette.SingleCacheEuclidean (color_table [0x000000])
        SingleCachePalette.create)
        (palette_dither (Palette.SingleCacheEuclidean (color_table [0x000000])
          SingleCachePalette.create) ((List.replicate (4294967296 * 3) 0).set 1 5)
          (List.replicate (4294967296 * 3) 0) 4294967296 3).pixels
        (List.replicate (4294967296 * 3) 0) 4294967296 3).pixels.getD 1 0 = 0 := by
  obtain ⟨h1, h2⟩ := wide_dither_example (List.replicate (4294967296 * 3) 0)
  obtain ⟨p, hp, hc, hsm, hct⟩ := palette_create_direct insertionSort [0x000000] false
    (by decide) (Or.inl (by decide))
  have e : p = Palette.SingleCacheEuclidean (color_table [0x000000])
      SingleCachePalette.create := (Option.some.inj hp).symm
  subst e
  have hle : ∀ i, (palette_dither (Palette.SingleCacheEuclidean (color_table [0x000000])
      SingleCachePalette.create) ((List.replicate (4294967296 * 3) 0).set 1 5)
      (List.replicate (4294967296 * 3) 0) 4294967296 3).pixels.getD i 0 ≤ 1 := by
    intro i
    rw [h2 i]
    split_ifs <;> omega
  refine ⟨by rw [h2 1, if_pos rfl], ?_, ?_⟩
  · exact palette_dither_of_unit_pixels 4294967296 3 _ _ _ h1 hle 1 (by norm_num)
  · exact palette_dither_of_unit_pixels 4294967296 3 _ _ _ ⟨hc, hct, hsm⟩ hle 1 (by norm_num)

end EuclideanPalette

namespace EuclideanPalette

theorem foldl_bind_none {S A : Type} (f : S → A → Option S) (l : List A) :
    l.foldl (fun s a => s.bind (fun s => f s a)) none = none := by
  induction l with
  | nil => rfl
  | cons a rest ih => exact ih

/-- A checked fold whose every step succeeds is the fold of the steps. -/
theorem foldl_bind_some {S A : Type} (f : S → A → Option S) (g : S → A → S) :
    ∀ (l : List A) (s : S), (∀ a ∈ l, ∀ s, f s a = some (g s a)) →
      l.foldl (fun s a => s.bind (fun s => f s a)) (some s) = some (l.foldl g s) := by
  intro l
  induction l with
  | nil => intro s _; rfl
  | cons a rest ih =>
    intro s h
    rw [List.foldl_cons, List.foldl_cons, Option.some_bind, h a (List.mem_cons_self _ _) s]
    exact ih _ (fun b hb => h b (List.mem_cons_of_mem _ hb))

theorem foldl_option_some {S A : Type} (f : Option S → A → Option S) (g : S → A → S) :
    ∀ (l : List A) (s : S), (∀ a ∈ l, ∀ s, f (some s) a = some (g s a)) →
      l.foldl f (some s) = some (l.foldl g s) := by
  intro l
  induction l with
  | nil => intro s _; rfl
  | cons a rest ih =>
    intro s h
    rw [List.foldl_cons, List.foldl_cons, h a (List.mem_cons_self _ _) s]
    exact ih _ (fun b hb => h b (List.mem_cons_of_mem _ hb))

theorem directStepChecked_some {σ : Type} (pi : σ → Nat → Nat × σ) (tblOf : σ → List Nat)
    (len : Nat) (st : DitherState σ) (pos : Nat) (h : pos < len) :
    directStepChecked pi tblOf len st pos = some (directStep pi tblOf st pos) := by
  unfold directStepChecked
  rw [if_pos h]

theorem diffuseLoopChecked_some (len : Nat) (errR errG errB : Int) (pos : Nat) :
    ∀ (l : List (Int × Nat)) (pixels : List Nat),
      (∀ ow ∈ l, 0 ≤ (pos : Int) + ow.1 ∧ (pos : Int) + ow.1 < (len : Int)) →
      diffuseLoopChecked len errR errG errB pos l pixels
        = some (diffuseLoop errR errG errB pos l pixels) := by
  intro l
  induction l with
  | nil => intro px _; rfl
  | cons ow rest ih =>
    intro px h
    obtain ⟨off, w⟩ := ow
    simp only [diffuseLoopChecked, diffuseLoop]
    rw [if_pos (h (off, w) (List.mem_cons_self _ _))]
    exact ih _ (fun x hx => h x (List.mem_cons_of_mem _ hx))

theorem diffuseStepChecked_some {σ : Type} (pi : σ → Nat → Nat × σ) (tblOf : σ → List Nat)
    (len width : Nat) (st : DitherState σ) (pos : Nat) (h : pos < len)
    (hoff : ∀ off ∈ pixelOffsets width, 0 ≤ (pos : Int) + off ∧ (pos : Int) + off < (len : Int)) :
    diffuseStepChecked pi tblOf len width st pos = some (diffuseStep pi tblOf width st pos) := by
  unfold diffuseStepChecked diffuseStep
  rw [if_pos h]
  dsimp only
  rw [diffuseLoopChecked_some len _ _ _ pos _ _ (fun ow how => by
    obtain ⟨a, b⟩ := ow
    exact hoff a (List.of_mem_zip how).1)]
  rfl

/-- A row above the last of an image whose offsets fit the 32-bit `int`: every
access of the row is inside the buffers. -/
theorem ditherRowChecked_some {σ : Type} (pi : σ → Nat → Nat × σ) (tblOf : σ → List Nat)
    (width height : Nat) (hw : 3 < width) (hfit : width + 1 < 2 ^ 31) (y : Nat)
    (hy : y + 1 < height) (st : DitherState σ) :
    ditherRowChecked pi tblOf (width * height) width (some st) y
      = some (ditherRow pi tblOf width st y) := by
  have k1 : y * width + width + width ≤ width * height := by
    have := Nat.mul_le_mul_right width (show y + 2 ≤ height by omega)
    rw [Nat.add_mul, Nat.mul_comm height width] at this
    omega
  unfold ditherRowChecked ditherRow
  dsimp only
  rw [foldl_bind_some (fun s x => directStepChecked pi tblOf (width * height) s (y * width + x))
      (fun s x => directStep pi tblOf s (y * width + x)) _ st
      (fun x hx s => directStepChecked_some pi tblOf _ s _ (by
        simp only [List.mem_range'_1, Cols] at hx
        omega)),
    foldl_bind_some
      (fun s x => diffuseStepChecked pi tblOf (width * height) width s (y * width + x))
      (fun s x => diffuseStep pi tblOf width s (y * width + x)) _ _
      (fun x hx s => diffuseStepChecked_some pi tblOf _ width s _
        (by
          simp only [List.mem_range'_1, Cols] at hx
          omega)
        (by
          simp only [List.mem_range'_1, Cols] at hx
          rw [pixelOffsets_eq width (by omega) hfit]
          intro off hoff
          simp only [List.mem_cons, List.mem_singleton, List.not_mem_nil, or_false] at hoff
          rcases hoff with h | h | h | h <;> (subst h; omega))),
    foldl_bind_some (fun s x => directStepChecked pi tblOf (width * height) s (y * width + x))
      (fun s x => directStep pi tblOf s (y * width + x)) _ _
      (fun x hx s => directStepChecked_some pi tblOf _ s _ (by
        simp only [List.mem_range'_1, Cols] at hx
        omega))]

/-- C11 (amended): on an image that takes the direct loop (width at most 3 or
height at most 2), or whose row offsets fit the 32-bit `int` of the offset table
(`width + 1 < 2 ^ 31`), every position of the pixel and index buffers that
`palette_map_dither` reads or writes, each diffusion target
`pos + pixelOffset` included, lies in `[0, width * height)`: the run with every
access checked does not fail, and it is the run of `palette_map_dither`. -/
theorem dither_accesses_inside_image {σ : Type} (pi : σ → Nat → Nat × σ)
    (tblOf : σ → List Nat) (st : DitherState σ) (width height : Nat)
    (hfit : width ≤ Cols ∨ height ≤ Rows ∨ width + 1 < 2 ^ 31) :
    palette_map_dither_checked pi tblOf st width height
      = some (palette_map_dither pi tblOf st width height) := by
  unfold palette_map_dither_checked palette_map_dither
  by_cases hsmall : width ≤ Cols ∨ height ≤ Rows
  · rw [if_pos hsmall, if_pos hsmall]
    exact foldl_bind_some (fun s i => directStepChecked pi tblOf (width * height) s i)
      (directStep pi tblOf) _ st
      (fun i hi s => directStepChecked_some pi tblOf _ s i (List.mem_range.mp hi))
  · rw [if_neg hsmall, if_neg hsmall]
    have hfit2 : width + 1 < 2 ^ 31 := by
      rcases hfit with h | h | h
      · exact absurd (Or.inl h) hsmall
      · exact absurd (Or.inr h) hsmall
      · exact h
    simp only [Cols, Rows, not_or, not_le] at hsmall
    obtain ⟨hw, hh⟩ := hsmall
    dsimp only
    rw [foldl_option_some (ditherRowChecked pi tblOf (width * height) width)
      (ditherRow pi tblOf width) _ st
      (fun y hy s => ditherRowChecked_some pi tblOf width height hw hfit2 y (by
        simp only [List.mem_range, Rows] at hy
        omega) s)]
    exact foldl_option_some
      (fun s y => (List.range width).foldl
        (fun s x => s.bind (fun s =>
          directStepChecked pi tblOf (width * height) s (y * width + x))) s)
      (fun s y => (List.range width).foldl
        (fun s x => directStep pi tblOf s (y * width + x)) s) _ _
      (fun y hy s => foldl_bind_some
        (fun s x => directStepChecked pi tblOf (width * height) s (y * width + x))
        (fun s x => directStep pi tblOf s (y * width + x)) _ s
        (fun x hx s => directStepChecked_some pi tblOf _ s _ (by
          simp only [List.mem_range'_1, Rows] at hy
          have hx := List.mem_range.mp hx
          have := Nat.mul_le_mul_right width (show y + 1 ≤ height by omega)
          rw [Nat.add_mul, Nat.one_mul, Nat.mul_comm height width] at this
          omega)))

theorem dither_accesses_inside_image_witness :
    ((5 : Nat) ≤ Cols ∨ (4 : Nat) ≤ Rows ∨ 5 + 1 < 2 ^ 31) ∧
    palette_map_dither_checked Palette.palette_index Palette.colorTable
        ⟨Palette.SingleCacheEuclidean (color_table [0x000000, 0xFFFFFF])
          SingleCachePalette.create, List.replicate 20 0x707070, List.replicate 20 0⟩ 5 4
      = some (palette_map_dither Palette.palette_index Palette.colorTable
        ⟨Palette.SingleCacheEuclidean (color_table [0x000000, 0xFFFFFF])
          SingleCachePalette.create, List.replicate 20 0x707070, List.replicate 20 0⟩ 5 4) :=
  ⟨Or.inr (Or.inr (by norm_num)),
    dither_accesses_inside_image Palette.palette_index Palette.colorTable _ 5 4
      (Or.inr (Or.inr (by norm_num)))⟩


end EuclideanPalette

namespace EuclideanPalette

theorem diffuseStepChecked_wrap (s : DitherState Palette) :
    diffuseStepChecked Palette.palette_index Palette.colorTable (2147483647 * 3)
      2147483647 s (0 * 2147483647 + 1) = none := by
  unfold diffuseStepChecked
  rw [if_pos (by norm_num)]
  dsimp only
  rw [pixelOffsets_wrap, weights_eq]
  simp only [List.zip_cons_cons, List.zip_nil_right, diffuseLoopChecked]
  rw [if_pos (by norm_num), if_pos (by norm_num), if_pos (by norm_num), if_neg (by norm_num)]
  rfl

end EuclideanPalette

namespace EuclideanPalette

theorem ditherRowChecked_none {σ : Type} (pi : σ → Nat → Nat × σ) (tblOf : σ → List Nat)
    (len width y : Nat) : ditherRowChecked pi tblOf len width none y = none := by
  unfold ditherRowChecked
  dsimp only
  rw [foldl_bind_none, foldl_bind_none, foldl_bind_none]

theorem ditherRowChecked_wrap (s : DitherState Palette) :
    ditherRowChecked Palette.palette_index Palette.colorTable (2147483647 * 3) 2147483647
      (some s) 0 = none := by
  unfold ditherRowChecked
  dsimp only
  have c : Cols / 2 = 1 := rfl
  have e1 : List.range' 0 1 = [0] := rfl
  have e2 : List.range' 1 (2147483644 + 1) = 1 :: List.range' (1 + 1) 2147483644 := by
    rw [List.range'_succ]
  rw [c, show 2147483647 - 1 - 1 = 2147483644 + 1 by norm_num, e1, e2]
  generalize List.range' (1 + 1) 2147483644 = tail
  generalize List.range' (2147483647 - 1) (2147483647 - (2147483647 - 1)) = last
  rw [List.foldl_cons, List.foldl_cons, List.foldl_nil, Option.some_bind,
    directStepChecked_some _ _ _ _ _ (by norm_num), Option.some_bind,
    diffuseStepChecked_wrap, foldl_bind_none, foldl_bind_none]

end EuclideanPalette

namespace EuclideanPalette

/-- C11 fails at `width = 2 ^ 31 - 1`: the last entry of the offset table,
`width + 1`, wraps to `-2 ^ 31`, and on an image of 3 rows the first diffusing
step, at position `1`, reads and writes `pixels[1 - 2 ^ 31]`, before the buffer:
the checked run fails for every mapper and every content of the buffers. -/
theorem dither_reads_before_buffer :
    pixelOffsets 2147483647 = [1, 2147483646, 2147483647, -2147483648] ∧
    ((1 : Nat) : Int) + -2147483648 < 0 ∧
    ∀ (p : Palette) (pixels indexes : List Nat),
      palette_map_dither_checked Palette.palette_index Palette.colorTable
        ⟨p, pixels, indexes⟩ 2147483647 3 = none := by
  refine ⟨pixelOffsets_wrap, by decide, ?_⟩
  intro p pixels indexes
  unfold palette_map_dither_checked
  rw [if_neg (by simp only [Cols, Rows]; norm_num)]
  dsimp only
  have e3 : List.range (3 - Rows + 1) = [0, 1] := rfl
  have e4 : List.range' (3 - Rows + 1) (3 - (3 - Rows + 1)) = [2] := rfl
  rw [e3, e4]
  generalize List.range 2147483647 = row
  rw [List.foldl_cons, List.foldl_cons, List.foldl_nil, List.foldl_cons, List.foldl_nil,
    ditherRowChecked_wrap, ditherRowChecked_none, foldl_bind_none]

end EuclideanPalette
